import Mathlib

/-!
# Explicit-free-list allocator (`mm.c`): shallow embedding and verification

The heap is a word-addressed memory `Nat → Nat` (every access of the allocator is a
4-byte `unsigned int` access through `GET` / `PUT`), pointers and `size_t` values are
32-bit quantities held in `Nat` with explicit reduction modulo `2^32`.
Every function that touches memory returns an `Except Fault`: `Fault.access a` stands for
an access at address `a` outside `[mem_heap_lo, mem_brk)` or not word aligned (a memory
fault), `Fault.timeout` for a loop that does not finish within its fuel.
-/

namespace MM
/-! ## Memory arena -/

/-- Modelled from the spec: the heap arena of `memlib` (absent from the sources): a
contiguous byte region `[mem_heap, mem_brk)` that only grows, bounded by `mem_max_addr`,
together with the two globals of `mm.c`, `heap_root` and `free_root`. -/
structure State where
  mem : Nat → Nat
  mem_heap : Nat
  mem_brk : Nat
  mem_max_addr : Nat
  heap_root : Nat
  free_root : Nat

/-- Abnormal outcomes of a run: a word access at an address that is outside the heap or
misaligned, or a loop that ran out of fuel. -/
inductive Fault where
  | access (addr : Nat)
  | timeout
  deriving DecidableEq, Repr

/-- 32-bit addition (`size_t` and pointer arithmetic wrap modulo `2^32`). -/
def add32 (a b : Nat) : Nat := (a + b) % 4294967296

/-- 32-bit subtraction. -/
def sub32 (a b : Nat) : Nat := (a + 4294967296 - b % 4294967296) % 4294967296

/-- 32-bit multiplication. -/
def mul32 (a b : Nat) : Nat := (a * b) % 4294967296

/-- Modelled from the spec: `mem_heap_lo()`, the address of the first heap byte. -/
def mem_heap_lo (s : State) : Nat := s.mem_heap

/-- Modelled from the spec: `mem_heap_hi()`, the address of the last heap byte. -/
def mem_heap_hi (s : State) : Nat := sub32 s.mem_brk 1

/-- Modelled from the spec: the growth primitive `mem_sbrk(int incr)`. It fails, returning
`(void *)-1` and leaving the arena unchanged, when the increment is negative as an `int`
or the arena bound would be exceeded; otherwise it returns the old break and moves the
high-water mark up by `incr`. -/
def mem_sbrk (s : State) (incr : Nat) : Nat × State :=
  if 2147483648 ≤ incr ∨ s.mem_max_addr < s.mem_brk + incr then (4294967295, s)
  else (s.mem_brk, { s with mem_brk := s.mem_brk + incr })

/-- An address the program may access as a word: inside the current heap and word
aligned relative to the heap start. -/
def valid (s : State) (ptr : Nat) : Prop :=
  s.mem_heap ≤ ptr ∧ ptr + 4 ≤ s.mem_brk ∧ (ptr - s.mem_heap) % 4 = 0

instance (s : State) (ptr : Nat) : Decidable (valid s ptr) := by
  unfold valid; exact inferInstance

/-! ## Macros of `mm.c` -/

def NULL : Nat := 0
def ALIGNMENT : Nat := 8
def FREE : Nat := 0
def ALLOCATED : Nat := 1
def WORDSIZE : Nat := 4
def DWORDSIZE : Nat := 8
def PAGESIZE : Nat := 1 <<< 12

/-- The macro `ALIGN(size)`: `((size) + (ALIGNMENT-1)) & ~0x7` on 32-bit values. -/
def ALIGN (size : Nat) : Nat := (add32 size (ALIGNMENT - 1)) &&& 0xFFFFFFF8

/-- The macro `GET(ptr)`. -/
def GET (s : State) (ptr : Nat) : Except Fault Nat :=
  if valid s ptr then .ok (s.mem ptr) else .error (.access ptr)

/-- The macro `PUT(ptr, val)`. -/
def PUT (s : State) (ptr val : Nat) : Except Fault State :=
  if valid s ptr then
    .ok { s with mem := fun a => if a = ptr then val % 4294967296 else s.mem a }
  else .error (.access ptr)

/-- The macro `GET_SIZE(ptr)`: `GET(ptr) & ~0x7`. -/
def GET_SIZE (s : State) (ptr : Nat) : Except Fault Nat := do
  let v ← GET s ptr
  pure (v &&& 0xFFFFFFF8)

/-- The macro `GET_IS_ALLOCATED(ptr)`: `GET(ptr) & 0x1`. -/
def GET_IS_ALLOCATED (s : State) (ptr : Nat) : Except Fault Nat := do
  let v ← GET s ptr
  pure (v &&& 0x1)

def HEADER_PTR (block_ptr : Nat) : Nat := sub32 block_ptr WORDSIZE

def FOOTER_PTR (s : State) (block_ptr : Nat) : Except Fault Nat := do
  let sz ← GET_SIZE s (HEADER_PTR block_ptr)
  pure (sub32 (add32 block_ptr sz) DWORDSIZE)

def NEXT_BLOCK_PTR (s : State) (block_ptr : Nat) : Except Fault Nat := do
  let sz ← GET_SIZE s (sub32 block_ptr WORDSIZE)
  pure (add32 block_ptr sz)

def PREV_BLOCK_PTR (s : State) (block_ptr : Nat) : Except Fault Nat := do
  let sz ← GET_SIZE s (sub32 block_ptr DWORDSIZE)
  pure (sub32 block_ptr sz)

def PREV_PTR (ptr : Nat) : Nat := add32 ptr WORDSIZE
def NEXT_PTR (ptr : Nat) : Nat := ptr

/-! ## Free list -/

def insert_free_block (s : State) (block_ptr : Nat) : Except Fault State := do
  let first_block_ptr ← GET s s.free_root
  let s ← if first_block_ptr ≠ NULL then PUT s (PREV_PTR first_block_ptr) block_ptr
          else pure s
  let s ← PUT s (NEXT_PTR block_ptr) first_block_ptr
  let s ← PUT s (PREV_PTR block_ptr) NULL
  PUT s s.free_root block_ptr

def delete_free_block (s : State) (block_ptr : Nat) : Except Fault State := do
  let prev_ptr ← GET s (PREV_PTR block_ptr)
  let next_ptr ← GET s (NEXT_PTR block_ptr)
  let s ←
    if prev_ptr ≠ NULL ∧ next_ptr ≠ NULL then do
      let s ← PUT s (PREV_PTR next_ptr) prev_ptr
      PUT s (NEXT_PTR prev_ptr) next_ptr
    else if prev_ptr ≠ NULL ∧ next_ptr = NULL then
      PUT s (NEXT_PTR prev_ptr) next_ptr
    else if prev_ptr = NULL ∧ next_ptr ≠ NULL then do
      let s ← PUT s (PREV_PTR next_ptr) NULL
      PUT s s.free_root next_ptr
    else if prev_ptr = NULL ∧ next_ptr = NULL then
      PUT s s.free_root NULL
    else pure s
  let s ← PUT s (NEXT_PTR block_ptr) NULL
  PUT s (PREV_PTR block_ptr) NULL

/-- The loop of `first_fit`, started at `block_ptr`. -/
def first_fit_loop : Nat → State → Nat → Nat → Except Fault Nat
  | 0, _, _, _ => .error .timeout
  | fuel + 1, s, size, block_ptr =>
    if block_ptr = NULL then pure NULL
    else do
      let sz ← GET_SIZE s (HEADER_PTR block_ptr)
      if size > sz then do
        let nxt ← GET s (NEXT_PTR block_ptr)
        first_fit_loop fuel s size nxt
      else pure block_ptr

def first_fit (fuel : Nat) (s : State) (size : Nat) : Except Fault Nat := do
  let block_ptr ← GET s s.free_root
  first_fit_loop fuel s size block_ptr

/-! ## Coalescing, heap extension, placement -/

def coalesce (s : State) (block_ptr : Nat) : Except Fault (Nat × State) := do
  let size ← GET_SIZE s (HEADER_PTR block_ptr)
  let pb ← PREV_BLOCK_PTR s block_ptr
  let pf ← FOOTER_PTR s pb
  let prev_size ← GET_SIZE s pf
  let nb ← NEXT_BLOCK_PTR s block_ptr
  let next_size ← GET_SIZE s (HEADER_PTR nb)
  let prev_block_ptr ← PREV_BLOCK_PTR s block_ptr
  let next_block_ptr ← NEXT_BLOCK_PTR s block_ptr
  let pf2 ← FOOTER_PTR s prev_block_ptr
  let is_prev_allocated ← GET_IS_ALLOCATED s pf2
  let is_next_allocated ← GET_IS_ALLOCATED s (HEADER_PTR next_block_ptr)
  if is_prev_allocated ≠ 0 ∧ is_next_allocated ≠ 0 then do
    let s ← insert_free_block s block_ptr
    pure (block_ptr, s)
  else if is_prev_allocated ≠ 0 ∧ ¬ is_next_allocated ≠ 0 then do
    let s ← delete_free_block s next_block_ptr
    let size := add32 size next_size
    let s ← PUT s (HEADER_PTR block_ptr) (size ||| FREE)
    let fp ← FOOTER_PTR s next_block_ptr
    let s ← PUT s fp (size ||| FREE)
    let s ← insert_free_block s block_ptr
    pure (block_ptr, s)
  else if ¬ is_prev_allocated ≠ 0 ∧ is_next_allocated ≠ 0 then do
    let s ← delete_free_block s prev_block_ptr
    let size := add32 size prev_size
    let s ← PUT s (HEADER_PTR prev_block_ptr) (size ||| FREE)
    let fp ← FOOTER_PTR s block_ptr
    let s ← PUT s fp (size ||| FREE)
    let s ← insert_free_block s prev_block_ptr
    pure (prev_block_ptr, s)
  else if ¬ is_prev_allocated ≠ 0 ∧ ¬ is_next_allocated ≠ 0 then do
    let s ← delete_free_block s prev_block_ptr
    let size := add32 size prev_size
    let s ← delete_free_block s next_block_ptr
    let size := add32 size next_size
    let s ← PUT s (HEADER_PTR prev_block_ptr) (size ||| FREE)
    let fp ← FOOTER_PTR s next_block_ptr
    let s ← PUT s fp (size ||| FREE)
    let s ← insert_free_block s prev_block_ptr
    pure (prev_block_ptr, s)
  else pure (NULL, s)

def extend_heap (s : State) (number_of_words : Nat) : Except Fault (Nat × State) := do
  let size := if number_of_words % 2 = 0 then mul32 number_of_words WORDSIZE
              else mul32 (add32 number_of_words 1) WORDSIZE
  let r := mem_sbrk s size
  let block_ptr := r.1
  let s := r.2
  if block_ptr = 4294967295 then pure (NULL, s)
  else do
    let s ← PUT s (NEXT_PTR block_ptr) NULL
    let s ← PUT s (PREV_PTR block_ptr) NULL
    let s ← PUT s (HEADER_PTR block_ptr) (size ||| FREE)
    let fp ← FOOTER_PTR s block_ptr
    let s ← PUT s fp (size ||| FREE)
    let nb ← NEXT_BLOCK_PTR s block_ptr
    let s ← PUT s (HEADER_PTR nb) (0 ||| ALLOCATED)
    coalesce s block_ptr

def allocate (s : State) (block_ptr size : Nat) : Except Fault State := do
  let free_block_size ← GET_SIZE s (HEADER_PTR block_ptr)
  let surplus_size := sub32 free_block_size size
  let s ← delete_free_block s block_ptr
  if surplus_size ≤ 4 * DWORDSIZE then do
    let s ← PUT s (HEADER_PTR block_ptr) (free_block_size ||| ALLOCATED)
    let fp ← FOOTER_PTR s block_ptr
    PUT s fp (free_block_size ||| ALLOCATED)
  else do
    let s ← PUT s (HEADER_PTR block_ptr) (size ||| ALLOCATED)
    let fp ← FOOTER_PTR s block_ptr
    let s ← PUT s fp (size ||| ALLOCATED)
    let surplus_block_ptr ← NEXT_BLOCK_PTR s block_ptr
    let s ← PUT s (NEXT_PTR surplus_block_ptr) NULL
    let s ← PUT s (PREV_PTR surplus_block_ptr) NULL
    let s ← PUT s (HEADER_PTR surplus_block_ptr) (surplus_size ||| FREE)
    let fp ← FOOTER_PTR s surplus_block_ptr
    let s ← PUT s fp (surplus_size ||| FREE)
    let r ← coalesce s surplus_block_ptr
    pure r.2

/-! ## Public operations -/

def mm_init (s : State) : Except Fault (Int × State) := do
  let r := mem_sbrk s (6 * WORDSIZE)
  let s := { r.2 with heap_root := r.1 }
  if s.heap_root = 4294967295 then pure (-1, s)
  else do
    let s ← PUT s s.heap_root 0
    let s ← PUT s (add32 s.heap_root (1 * WORDSIZE)) NULL
    let s ← PUT s (add32 s.heap_root (2 * WORDSIZE)) NULL
    let s ← PUT s (add32 s.heap_root (3 * WORDSIZE)) (2 * WORDSIZE ||| ALLOCATED)
    let s ← PUT s (add32 s.heap_root (4 * WORDSIZE)) (2 * WORDSIZE ||| ALLOCATED)
    let s ← PUT s (add32 s.heap_root (5 * WORDSIZE)) (0 * WORDSIZE ||| ALLOCATED)
    let s := { s with free_root := add32 s.heap_root (2 * WORDSIZE) }
    let s := { s with heap_root := add32 s.heap_root (4 * WORDSIZE) }
    let r ← extend_heap s (PAGESIZE / WORDSIZE)
    if r.1 = NULL then pure (-1, r.2) else pure (0, r.2)

def mm_malloc (fuel : Nat) (s : State) (size : Nat) : Except Fault (Nat × State) := do
  let size := if size = 112 then 128 else size
  let size := if size = 448 then 512 else size
  if size = 0 then pure (NULL, s)
  else do
    let r ← (if s.heap_root = NULL then mm_init s else pure (0, s))
    let s := r.2
    if r.1 = -1 then pure (NULL, s)
    else do
      let block_size := add32 (ALIGN size) (2 * WORDSIZE)
      let block_ptr ← first_fit fuel s block_size
      if block_ptr = NULL then do
        let extension_size := if block_size > PAGESIZE then block_size else PAGESIZE
        let r ← extend_heap s (extension_size / WORDSIZE)
        if r.1 = NULL then pure (NULL, r.2)
        else do
          let s ← allocate r.2 r.1 block_size
          pure (r.1, s)
      else do
        let s ← allocate s block_ptr block_size
        pure (block_ptr, s)

def mm_free (s : State) (ptr : Nat) : Except Fault State := do
  let size ← GET_SIZE s (HEADER_PTR ptr)
  let s ← PUT s (NEXT_PTR ptr) NULL
  let s ← PUT s (PREV_PTR ptr) NULL
  let s ← PUT s (HEADER_PTR ptr) (size ||| FREE)
  let fp ← FOOTER_PTR s ptr
  let s ← PUT s fp (size ||| FREE)
  let r ← coalesce s ptr
  pure r.2

/-- The library call `memcpy(dest, src, n)` at word granularity: all `n / 4` words are
read from the source range and then stored in the destination range; both ranges must
lie inside the heap. -/
def memcpy (s : State) (dest src n : Nat) : Except Fault State :=
  if n = 0 then .ok s
  else if ¬ (n % 4 = 0 ∧ valid s src ∧ valid s (src + n - 4)) then .error (.access src)
  else if ¬ (valid s dest ∧ valid s (dest + n - 4)) then .error (.access dest)
  else
    .ok { s with mem := fun a =>
      if dest ≤ a ∧ a < dest + n then s.mem (src + (a - dest)) else s.mem a }

def mm_realloc (fuel : Nat) (s : State) (ptr size : Nat) : Except Fault (Nat × State) := do
  let next_block_ptr ← NEXT_BLOCK_PTR s ptr
  let nb ← NEXT_BLOCK_PTR s ptr
  let is_next_allocated ← GET_IS_ALLOCATED s (HEADER_PTR nb)
  if ptr = NULL then mm_malloc fuel s size
  else if size = 0 then do
    let s ← mm_free s ptr
    pure (NULL, s)
  else do
    let size := add32 (ALIGN size) (2 * WORDSIZE)
    let old_size ← GET_SIZE s (HEADER_PTR ptr)
    let nb ← NEXT_BLOCK_PTR s ptr
    let next_size ← GET_SIZE s (HEADER_PTR nb)
    if size > old_size then
      if next_size ≥ sub32 size old_size ∧ ¬ is_next_allocated ≠ 0 then do
        let s ← delete_free_block s next_block_ptr
        let s ← PUT s (HEADER_PTR ptr) (add32 old_size next_size ||| ALLOCATED)
        let fp ← FOOTER_PTR s ptr
        let s ← PUT s fp (add32 old_size next_size ||| ALLOCATED)
        pure (ptr, s)
      else if next_size < sub32 size old_size ∧ ¬ is_next_allocated ≠ 0 then do
        let allocate_size :=
          if sub32 size (add32 old_size next_size) > PAGESIZE
          then sub32 size (add32 old_size next_size) else PAGESIZE
        let r ← extend_heap s (allocate_size / PAGESIZE)
        if r.1 = NULL then pure (NULL, r.2)
        else do
          let s := r.2
          let size := add32 size allocate_size
          let s ← delete_free_block s next_block_ptr
          let s ← PUT s (HEADER_PTR ptr) (size ||| ALLOCATED)
          let fp ← FOOTER_PTR s ptr
          let s ← PUT s fp (size ||| ALLOCATED)
          pure (ptr, s)
      else do
        let r ← mm_malloc fuel s size
        let newptr := r.1
        let s ← allocate r.2 newptr size
        let s ← memcpy s newptr ptr size
        let s ← mm_free s ptr
        pure (newptr, s)
    else pure (ptr, s)

/-! ## Consistency checker -/

/-- The loop of `is_all_marked_free`, started at `block_ptr`. -/
def is_all_marked_free_loop : Nat → State → Nat → Except Fault Nat
  | 0, _, _ => .error .timeout
  | fuel + 1, s, block_ptr =>
    if block_ptr = NULL then pure (1 <<< 0)
    else do
      let h ← GET_IS_ALLOCATED s (HEADER_PTR block_ptr)
      if h = FREE then do
        let fp ← FOOTER_PTR s block_ptr
        let f ← GET_IS_ALLOCATED s fp
        if f = FREE then do
          let nxt ← GET s (NEXT_PTR block_ptr)
          is_all_marked_free_loop fuel s nxt
        else pure 0
      else pure 0

def is_all_marked_free (fuel : Nat) (s : State) : Except Fault Nat := do
  let block_ptr ← GET s s.free_root
  is_all_marked_free_loop fuel s block_ptr

/-- The loop of `is_contiguous_not_escaped`, started at `block_ptr`. -/
def is_contiguous_not_escaped_loop : Nat → State → Nat → Except Fault Nat
  | 0, _, _ => .error .timeout
  | fuel + 1, s, block_ptr =>
    if block_ptr = NULL then pure (1 <<< 1)
    else do
      let nb ← NEXT_BLOCK_PTR s block_ptr
      let next_free ←
        if nb ≠ NULL then do
          let a ← GET_IS_ALLOCATED s (HEADER_PTR nb)
          pure (decide (a = FREE))
        else pure false
      if next_free then pure 0
      else do
        let pb ← PREV_BLOCK_PTR s block_ptr
        let prev_free ←
          if pb ≠ NULL then do
            let a ← GET_IS_ALLOCATED s (HEADER_PTR pb)
            pure (decide (a = FREE))
          else pure false
        if prev_free then pure 0
        else do
          let nxt ← GET s (NEXT_PTR block_ptr)
          is_contiguous_not_escaped_loop fuel s nxt

def is_contiguous_not_escaped (fuel : Nat) (s : State) : Except Fault Nat := do
  let block_ptr ← GET s s.free_root
  is_contiguous_not_escaped_loop fuel s block_ptr

/-- The inner `while` loop of `is_all_free_block_in_list`: the search for `block_ptr`
in the free list from `temp_ptr`; the result is the final value of `temp_ptr`. -/
def find_in_free_list : Nat → State → Nat → Nat → Except Fault Nat
  | 0, _, _, _ => .error .timeout
  | fuel + 1, s, temp_ptr, block_ptr =>
    if temp_ptr ≠ NULL then
      if temp_ptr = block_ptr then pure temp_ptr
      else do
        let nxt ← GET s (NEXT_PTR temp_ptr)
        find_in_free_list fuel s nxt block_ptr
    else pure temp_ptr

/-- The outer loop of `is_all_free_block_in_list`, started at `block_ptr`. -/
def is_all_free_block_in_list_loop : Nat → State → Nat → Except Fault Nat
  | 0, _, _ => .error .timeout
  | fuel + 1, s, block_ptr =>
    if block_ptr ≠ NULL then do
      let a ← GET_IS_ALLOCATED s (HEADER_PTR block_ptr)
      let lost ←
        if a = FREE then do
          let temp_ptr ← GET s s.free_root
          let temp_ptr ← find_in_free_list (fuel + 1) s temp_ptr block_ptr
          pure (decide (temp_ptr = NULL))
        else pure false
      if lost then pure 0
      else do
        let nb ← NEXT_BLOCK_PTR s block_ptr
        let nxt ← GET s nb
        is_all_free_block_in_list_loop fuel s nxt
    else pure (1 <<< 2)

def is_all_free_block_in_list (fuel : Nat) (s : State) : Except Fault Nat :=
  is_all_free_block_in_list_loop fuel s s.heap_root

/-- The test shared by `is_all_valid_free_ptr` and `is_all_valid_allocated_ptr`:
`!(mem_heap_lo() <= HEADER_PTR(b) && FOOTER_PTR(b) <= mem_heap_hi()) ||
(GET(HEADER_PTR(b)) & 0x6 != 0)`, where `!=` binds tighter than `&`. -/
def block_is_invalid (s : State) (block_ptr : Nat) : Except Fault Bool := do
  let inside ←
    if mem_heap_lo s ≤ HEADER_PTR block_ptr then do
      let fp ← FOOTER_PTR s block_ptr
      pure (decide (fp ≤ mem_heap_hi s))
    else pure false
  if ¬ inside then pure true
  else do
    let h ← GET s (HEADER_PTR block_ptr)
    pure (decide (h &&& (if (0x6 : Nat) ≠ 0 then 1 else 0) ≠ 0))

/-- The loop of `is_all_valid_free_ptr`, started at `block_ptr`. -/
def is_all_valid_free_ptr_loop : Nat → State → Nat → Except Fault Nat
  | 0, _, _ => .error .timeout
  | fuel + 1, s, block_ptr =>
    if block_ptr < mem_heap_hi s then do
      let a ← GET_IS_ALLOCATED s (HEADER_PTR block_ptr)
      let bad ← if a = FREE then block_is_invalid s block_ptr else pure false
      if bad then pure 0
      else do
        let nb ← NEXT_BLOCK_PTR s block_ptr
        is_all_valid_free_ptr_loop fuel s nb
    else pure (1 <<< 3)

def is_all_valid_free_ptr (fuel : Nat) (s : State) : Except Fault Nat := do
  let block_ptr ← NEXT_BLOCK_PTR s s.heap_root
  is_all_valid_free_ptr_loop fuel s block_ptr

/-- The loop of `is_no_overlap`, started at `block_ptr`. -/
def is_no_overlap_loop : Nat → State → Nat → Except Fault Nat
  | 0, _, _ => .error .timeout
  | fuel + 1, s, block_ptr =>
    if block_ptr = NULL then pure (1 <<< 4)
    else do
      let sz ← GET_SIZE s (HEADER_PTR block_ptr)
      if sz = 0 then pure (1 <<< 4)
      else do
        let a ← GET_IS_ALLOCATED s (HEADER_PTR block_ptr)
        let overlapped ←
          if a = FREE then pure false
          else do
            let nb ← NEXT_BLOCK_PTR s block_ptr
            if nb ≠ NULL then do
              let na ← GET_IS_ALLOCATED s (HEADER_PTR nb)
              if na = FREE then pure false
              else do
                let fp ← FOOTER_PTR s block_ptr
                let nb2 ← NEXT_BLOCK_PTR s block_ptr
                pure (decide (fp > HEADER_PTR nb2))
            else pure false
        if overlapped then pure 0
        else do
          let nb ← NEXT_BLOCK_PTR s block_ptr
          is_no_overlap_loop fuel s nb

def is_no_overlap (fuel : Nat) (s : State) : Except Fault Nat :=
  is_no_overlap_loop fuel s s.heap_root

/-- The loop of `is_all_valid_allocated_ptr`, started at `block_ptr`. -/
def is_all_valid_allocated_ptr_loop : Nat → State → Nat → Except Fault Nat
  | 0, _, _ => .error .timeout
  | fuel + 1, s, block_ptr =>
    if block_ptr < mem_heap_hi s then do
      let a ← GET_IS_ALLOCATED s (HEADER_PTR block_ptr)
      let bad ← if a = ALLOCATED then block_is_invalid s block_ptr else pure false
      if bad then pure 0
      else do
        let nb ← NEXT_BLOCK_PTR s block_ptr
        is_all_valid_allocated_ptr_loop fuel s nb
    else pure (1 <<< 5)

def is_all_valid_allocated_ptr (fuel : Nat) (s : State) : Except Fault Nat := do
  let block_ptr ← NEXT_BLOCK_PTR s s.heap_root
  is_all_valid_allocated_ptr_loop fuel s block_ptr

/-- The status word computed by `mm_check`: the bitwise OR of the six checks. -/
def mm_check_status (fuel : Nat) (s : State) : Except Fault Nat := do
  let r0 ← is_all_marked_free fuel s
  let r1 ← is_contiguous_not_escaped fuel s
  let r2 ← is_all_free_block_in_list fuel s
  let r3 ← is_all_valid_free_ptr fuel s
  let r4 ← is_no_overlap fuel s
  let r5 ← is_all_valid_allocated_ptr fuel s
  pure (r0 ||| r1 ||| r2 ||| r3 ||| r4 ||| r5)

/-- The return value of `mm_check`: `status == 0x3f`. -/
def mm_check (fuel : Nat) (s : State) : Except Fault Nat := do
  let status ← mm_check_status fuel s
  pure (if status = 0x3f then 1 else 0)

/-! ## Abstract view of a heap: the block tiling and the free list -/

/-- Status of a block in the abstract view: allocated, free and linked in the free list,
or marked free but detached from the free list (a transient state inside an operation). -/
inductive St where
  | A
  | F
  | D
  deriving DecidableEq, Repr

/-- A block of the tiling: payload pointer, total size (header and footer included) and
status. -/
structure Blk where
  ptr : Nat
  sz : Nat
  st : St
  deriving DecidableEq, Repr

/-- The boundary tag word of a block: `size | allocation bit`. -/
def Blk.tag (b : Blk) : Nat := b.sz + (if b.st = St.A then 1 else 0)

/-- The blocks of `L` tile the address range from payload pointer `a` to `e`: each block
starts where the previous one ends. -/
def Chain : Nat → List Blk → Nat → Prop
  | a, [], e => a = e
  | a, b :: bs, e => b.ptr = a ∧ Chain (a + b.sz) bs e

/-- The words of memory `mem` link the pointers of `l` into a doubly linked list: `h` is
the pointer that leads into the list, `prev` the PREV link expected in its first node;
NEXT links are stored at `b`, PREV links at `b + 4`; the last NEXT link is NULL. -/
def FL (mem : Nat → Nat) : Nat → List Nat → Nat → Prop
  | _, [], h => h = 0
  | prev, b :: l, h => h = b ∧ b ≠ 0 ∧ mem (b + 4) = prev ∧ FL mem b l (mem b)

/-- The representation invariant: the state `s` holds the prologue, the blocks `L` with
matching boundary tags, the epilogue at the end of the heap, and the free list `fl`,
which links exactly the blocks of status `F`; two blocks of status `F` are never
neighbours. -/
structure Inv (s : State) (L : List Blk) (fl : List Nat) : Prop where
  lo_pos : 0 < s.mem_heap
  max_lt : s.mem_max_addr < 4294967296
  brk_le : s.mem_brk ≤ s.mem_max_addr
  hroot : s.heap_root = s.mem_heap + 16
  froot : s.free_root = s.mem_heap + 8
  pro_h : s.mem (s.mem_heap + 12) = 9
  pro_f : s.mem (s.mem_heap + 16) = 9
  chain : Chain (s.mem_heap + 24) L s.mem_brk
  epi : s.mem (s.mem_brk - 4) = 1
  blk : ∀ b ∈ L, 16 ≤ b.sz ∧ b.sz % 8 = 0 ∧ s.mem (b.ptr - 4) = b.tag ∧
    s.mem (b.ptr + b.sz - 8) = b.tag
  adj : ∀ b ∈ L, ∀ c ∈ L, b.ptr + b.sz = c.ptr → ¬ (b.st = St.F ∧ c.st = St.F)
  fl_ok : FL s.mem 0 fl (s.mem (s.mem_heap + 8))
  nodup : fl.Nodup
  fl_iff : ∀ p, p ∈ fl ↔ ∃ b ∈ L, b.ptr = p ∧ b.st = St.F

/-- A well-formed heap, as it is between two calls of the public operations: the
invariant holds and no block is detached. -/
def WF (s : State) (L : List Blk) (fl : List Nat) : Prop :=
  Inv s L fl ∧ ∀ b ∈ L, b.st ≠ St.D

/-- The state `s` with the memory replaced by `m`. -/
def State.withMem (s : State) (m : Nat → Nat) : State := { s with mem := m }

/-- Memory `m` with the word at `a` replaced by `v`. -/
def upd (m : Nat → Nat) (a v : Nat) : Nat → Nat := fun x => if x = a then v else m x

/-- The memory `m'` differs from the memory of `s` at most in the free-list head word and
in link words of blocks of `L` that are not allocated. -/
def LinkFrame (s : State) (L : List Blk) (m' : Nat → Nat) : Prop :=
  ∀ x, m' x = s.mem x ∨ x = s.mem_heap + 8 ∨
    ∃ c ∈ L, c.st ≠ St.A ∧ (x = c.ptr ∨ x = c.ptr + 4)

/-- Every allocated block of `L` is still a block of `L'`, with its payload words
unchanged from `m` to `m'`. -/
def Keeps (m m' : Nat → Nat) (L L' : List Blk) : Prop :=
  ∀ c ∈ L, c.st = St.A → c ∈ L' ∧ ∀ x, c.ptr ≤ x → x + 8 < c.ptr + c.sz → m' x = m x

/-- The allocation bit of a block as stored in its tags. -/
def Blk.bit (b : Blk) : Nat := if b.st = St.A then 1 else 0

/-- Payload pointer of the block in front of a block whose predecessors are `pre`: the
last block of `pre`, or the prologue. -/
def prevPtr (s : State) (pre : List Blk) : Nat :=
  match pre.getLast? with
  | none => s.mem_heap + 16
  | some c => c.ptr

/-- Size of the block in front (8 for the prologue). -/
def prevSz (pre : List Blk) : Nat :=
  match pre.getLast? with
  | none => 8
  | some c => c.sz

/-- Allocation bit of the block in front (1 for the prologue). -/
def prevBit (pre : List Blk) : Nat :=
  match pre.getLast? with
  | none => 1
  | some c => c.bit

/-- Size in the header that follows a block whose successors are `post` (0 for the
epilogue). -/
def nextSz (post : List Blk) : Nat :=
  match post.head? with
  | none => 0
  | some n => n.sz

/-- Allocation bit in the header that follows (1 for the epilogue). -/
def nextBit (post : List Blk) : Nat :=
  match post.head? with
  | none => 1
  | some n => n.bit

/-- The state `s` after a successful `mem_sbrk(incr)`. -/
def State.grow (s : State) (incr : Nat) : State := { s with mem_brk := s.mem_brk + incr }

/-- The first pointer of the list `l` whose header word in `m` is at least `size`, or
NULL: the search that `first_fit` performs along the free list. -/
def firstFit (m : Nat → Nat) (size : Nat) : List Nat → Nat
  | [] => 0
  | p :: l => if size > m (p - 4) then firstFit m size l else p

/-- The request size after the two special cases of `mm_malloc` (112 and 448). -/
def adjSize (size : Nat) : Nat :=
  if (if size = 112 then 128 else size) = 448 then 512
  else (if size = 112 then 128 else size)

/-- The block size `mm_malloc` searches for: `ALIGN(size) + 2 * WORDSIZE`. -/
def blockSize (size : Nat) : Nat := add32 (ALIGN (adjSize size)) (2 * WORDSIZE)

/-! ## Observers: the two walks of the heap -/

/-- The walk along the free list that the checkers of `mm.c` perform
(`for (p = GET(free_root); p != NULL; p = GET(NEXT_PTR(p)))`), collecting the pointers it
visits, started at `block_ptr`. -/
def free_list_walk_loop : Nat → State → Nat → Except Fault (List Nat)
  | 0, _, _ => .error .timeout
  | fuel + 1, s, block_ptr =>
    if block_ptr = NULL then pure []
    else do
      let nxt ← GET s (NEXT_PTR block_ptr)
      let rest ← free_list_walk_loop fuel s nxt
      pure (block_ptr :: rest)

/-- The pointers reachable from the free-list head, in list order. -/
def free_list_walk (fuel : Nat) (s : State) : Except Fault (List Nat) := do
  let block_ptr ← GET s s.free_root
  free_list_walk_loop fuel s block_ptr

/-- The linear scan of the heap (`p = NEXT_BLOCK_PTR(p)` until a header of size 0, the
epilogue), collecting each payload pointer with its header word, started at
`block_ptr`. -/
def heap_scan_loop : Nat → State → Nat → Except Fault (List (Nat × Nat))
  | 0, _, _ => .error .timeout
  | fuel + 1, s, block_ptr => do
    let h ← GET s (HEADER_PTR block_ptr)
    if h &&& 0xFFFFFFF8 = 0 then pure []
    else do
      let nb ← NEXT_BLOCK_PTR s block_ptr
      let rest ← heap_scan_loop fuel s nb
      pure ((block_ptr, h) :: rest)

/-- The blocks between the prologue and the epilogue, in address order: payload pointer
and header word of each. -/
def heap_scan (fuel : Nat) (s : State) : Except Fault (List (Nat × Nat)) := do
  let block_ptr ← NEXT_BLOCK_PTR s s.heap_root
  heap_scan_loop fuel s block_ptr

/-! ## Reachable states -/

/-- The states a client reaches from a successful `mm_init` on an empty arena by valid
calls, together with the live allocations (pointer and requested size, newest first):
`mm_malloc` with `1 ≤ size < 2^31` (a NULL result allocates nothing), `mm_free` of a
live pointer, and stores of the client into the payload bytes of a live allocation. -/
inductive Reach : State → List (Nat × Nat) → Prop
  | init {s0 s : State} : s0.mem_brk = s0.mem_heap → 0 < s0.mem_heap →
      s0.mem_max_addr < 4294967296 → mm_init s0 = .ok (0, s) → Reach s []
  | malloc {s s' : State} {live : List (Nat × Nat)} {fuel size p : Nat} :
      Reach s live → 1 ≤ size → size < 2147483648 →
      mm_malloc fuel s size = .ok (p, s') → p ≠ NULL → Reach s' ((p, size) :: live)
  | malloc_null {s s' : State} {live : List (Nat × Nat)} {fuel size : Nat} :
      Reach s live → 1 ≤ size → size < 2147483648 →
      mm_malloc fuel s size = .ok (NULL, s') → Reach s' live
  | free {s s' : State} {live : List (Nat × Nat)} {p n : Nat} :
      Reach s live → (p, n) ∈ live → mm_free s p = .ok s' → Reach s' (live.erase (p, n))
  | store {s : State} {live : List (Nat × Nat)} {p n a v : Nat} :
      Reach s live → (p, n) ∈ live → p ≤ a → a < p + n → (a - p) % 4 = 0 →
      v < 4294967296 →
      Reach (State.mk (fun x => if x = a then v else s.mem x) s.mem_heap s.mem_brk
        s.mem_max_addr s.heap_root s.free_root) live

/-- The ghost view of the live allocations: each is an allocated block of the tiling
whose payload holds the requested size, and no pointer is live twice. -/
def LiveOK (L : List Blk) (live : List (Nat × Nat)) : Prop :=
  (∀ e ∈ live, ∃ b ∈ L, b.ptr = e.1 ∧ b.st = St.A ∧ e.2 + 8 ≤ b.sz) ∧
  (live.map Prod.fst).Nodup

/-! ## Concrete runs -/

/-- An empty arena of `max - lo` bytes at address `lo`, zero filled, before `mm_init`. -/
def arena (lo max : Nat) : State := State.mk (fun _ => 0) lo lo max 0 0

/-- The state a call left behind (the state `s` before the call when it faulted). -/
def stateOf {α : Type} (s : State) : Except Fault (α × State) → State
  | .ok r => r.2
  | .error _ => s

/-- The arena used in the concrete runs: 20 MiB at address `0x10000`. -/
def demo0 : State := arena 65536 (65536 + 20971520)

/-- The arena after `mm_init`. -/
def demo1 : State := stateOf demo0 (mm_init demo0)

/-- After `mm_malloc(24)`, which returns `0x10018`. -/
def demo2 : State := stateOf demo1 (mm_malloc 8 demo1 24)

/-- After a second call, `mm_malloc(100)`, which returns `0x10038`. -/
def demo3 : State := stateOf demo2 (mm_malloc 8 demo2 100)

/-- After a third call, `mm_malloc(8)`, which returns `0x100a8`. -/
def demo4 : State := stateOf demo3 (mm_malloc 8 demo3 8)

/-- After `mm_free(0x10038)`. -/
def demo5 : State :=
  match mm_free demo4 65592 with
  | .ok s => s
  | .error _ => demo4

/-- Scenario B: `mm_init`, `a = mm_malloc(4096)`, `b = mm_malloc(4096)`,
`mm_free(a)`. -/
def scenario_B (fuel : Nat) : Except Fault State := do
  let r ← mm_init demo0
  let a ← mm_malloc fuel r.2 4096
  let b ← mm_malloc fuel a.2 4096
  mm_free b.2 a.1

/-- A heap with one 16-byte allocation `p` whose payload holds a known pattern:
`mm_init`, `p = mm_malloc(16)`, four word stores at `p`. -/
def pattern_heap (fuel : Nat) : Except Fault (Nat × State) := do
  let r ← mm_init demo0
  let a ← mm_malloc fuel r.2 16
  let s ← PUT a.2 a.1 0x11111111
  let s ← PUT s (a.1 + 4) 0x22222222
  let s ← PUT s (a.1 + 8) 0x33333333
  let s ← PUT s (a.1 + 12) 0x44444444
  pure (a.1, s)

/-- A heap with four 16-byte allocations of which the first is freed again: `mm_init`,
`a, b, c, d = mm_malloc(16)`, `mm_free(a)`; the result is the pointer `c` and the
state. -/
def four_blocks (fuel : Nat) : Except Fault (Nat × State) := do
  let r ← mm_init demo0
  let a ← mm_malloc fuel r.2 16
  let b ← mm_malloc fuel a.2 16
  let c ← mm_malloc fuel b.2 16
  let d ← mm_malloc fuel c.2 16
  let s ← mm_free d.2 a.1
  pure (c.1, s)

/-! ## The block size as the description states it -/

/-- The block size for a request of `s` bytes in the words of the description:
`align_up(s') + header_footer_overhead`, where `align_up` rounds up to a multiple of 8,
the overhead is 8 bytes, and `s'` is `s` except that exactly 112 is rounded to 128 and
exactly 448 to 512. -/
def block_size_spec (s : Nat) : Nat :=
  let s' := if s = 112 then 128 else if s = 448 then 512 else s
  (s' + 7) / 8 * 8 + 8

/-! ## Runs on an arena without room to grow -/

/-- An arena of 24 + 4096 bytes at address `0x10000`: room for the initial heap and
nothing more. -/
def small0 : State := arena 65536 (65536 + 4120)

/-- The small arena after `mm_init`. -/
def small1 : State := stateOf small0 (mm_init small0)

/-- The small arena after `mm_malloc(4088)`, which returns `0x10018` and takes the whole
heap: no free block is left. -/
def small2 : State := stateOf small1 (mm_malloc 8 small1 4088)

/-! ## Matrix transpose (`trans.c`)

A matrix `int X[R][C]` is a function from row and column index to `Int`; the transpose
functions read `A` and store into `B`, so they are functions from `B` before the call to
`B` after it. The parameters `M`, `N` and the loop counters `i`, `j`, `i_`, `j_` are C
`int`s; they are never negative and are held in `Nat`. An increment of a counter past
`INT_MAX` is a signed overflow, undefined behaviour in C: the run then has no result
(`none`). The sums `i + i_`, `j + j_` in the index expressions cannot overflow: a counter
that steps by 8 or 16 from 0 without overflow is at most `INT_MAX - 7` or `INT_MAX - 15`.

The three prototype lines of `trans.c` in front of `is_transpose` (lines 19 to 21) lack
their terminating `;`, so the file as it stands is rejected by a C compiler; the
embedding follows the function definitions further down the file. -/

/-- The largest value of a C `int` (32 bits). -/
def INT_MAX : Nat := 2147483647

/-- The assignment `B[r][c] = v`. -/
def store2 (B : Nat → Nat → Int) (r c : Nat) (v : Int) : Nat → Nat → Int :=
  fun x y => if x = r ∧ y = c then v else B x y

/-- The loop `for (k = start; cond(k); k += step) body(k)` with an `int` counter `k`, on
a loop state `σ`, run for at most `fuel` tests of the condition: `none` when the body has
no result, when `k += step` overflows, or when the fuel runs out. -/
def for_loop {σ : Type} (cond : Nat → Bool) (step : Nat) (body : Nat → σ → Option σ) :
    Nat → Nat → σ → Option σ
  | 0, _, _ => none
  | fuel + 1, k, st =>
    if cond k then
      match body k st with
      | none => none
      | some st' =>
        if k + step ≤ INT_MAX then for_loop cond step body fuel (k + step) st' else none
    else some st

def transpose_3232 (M N : Nat) (A B : Nat → Nat → Int) : Option (Nat → Nat → Int) :=
  for_loop (fun i => decide (i < N)) 8 (fun i B =>
    for_loop (fun j => decide (j < M)) 8 (fun j B =>
      for_loop (fun i_ => decide (i_ < 8)) 1 (fun i_ B => do
        let B ← for_loop (fun j_ => decide (j_ < 8)) 1 (fun j_ B =>
          some (if i + i_ = j + j_ then B
            else store2 B (j + j_) (i + i_) (A (i + i_) (j + j_)))) (8 + 1) 0 B
        pure (if i = j then store2 B (j + i_) (i + i_) (A (i + i_) (j + i_)) else B))
        (8 + 1) 0 B) (M + 1) 0 B) (N + 1) 0 B

def transpose_6464 (_M N : Nat) (A B : Nat → Nat → Int) : Option (Nat → Nat → Int) :=
  for_loop (fun i => decide (i < N)) 8 (fun i B =>
    for_loop (fun j => decide (j < N)) 8 (fun j B => do
      let B ← for_loop (fun i_ => decide (i_ < 8 / 2)) 1 (fun i_ B => do
        let B ← for_loop (fun j_ => decide (j_ < 8 / 2)) 1 (fun j_ B =>
          some (if i + i_ = j + j_ then B
            else store2 B (j + j_) (i + i_) (A (i + i_) (j + j_)))) (8 + 1) 0 B
        pure (if i = j then store2 B (j + i_) (i + i_) (A (i + i_) (j + i_)) else B))
        (8 + 1) 0 B
      let B ← for_loop (fun i_ => decide (i_ < 8)) 1 (fun i_ B => do
        let B ← for_loop (fun j_ => decide (j_ < 8 / 2)) 1 (fun j_ B =>
          some (if i = j ∧ i_ - j_ = 8 / 2 then B
            else store2 B (j + j_) (i + i_) (A (i + i_) (j + j_)))) (8 + 1) 0 B
        pure (if i = j then
            store2 B (j + i_ - 8 / 2) (i + i_) (A (i + i_) (j + i_ - 8 / 2))
          else B))
        (8 + 1) (8 / 2) B
      let B ← for_loop (fun i_ => decide (i_ < 8)) 1 (fun i_ B => do
        let B ← for_loop (fun j_ => decide (j_ < 8)) 1 (fun j_ B =>
          some (if i + i_ = j + j_ then B
            else store2 B (j + j_) (i + i_) (A (i + i_) (j + j_)))) (8 + 1) (8 / 2) B
        pure (if i = j then store2 B (j + i_) (i + i_) (A (i + i_) (j + i_)) else B))
        (8 + 1) (8 / 2) B
      for_loop (fun i_ => decide (i_ < 8 / 2)) 1 (fun i_ B => do
        let B ← for_loop (fun j_ => decide (j_ < 8)) 1 (fun j_ B =>
          some (if i = j ∧ j_ - i_ = 8 / 2 then B
            else store2 B (j + j_) (i + i_) (A (i + i_) (j + j_)))) (8 + 1) (8 / 2) B
        pure (if i = j then
            store2 B (j + i_ + 8 / 2) (i + i_) (A (i + i_) (j + i_ + 8 / 2))
          else B))
        (8 + 1) 0 B) (N + 1) 0 B) (N + 1) 0 B

def transpose_6167 (M N : Nat) (A B : Nat → Nat → Int) : Option (Nat → Nat → Int) :=
  for_loop (fun i => decide (i < N)) 16 (fun i B =>
    for_loop (fun j => decide (j < M)) 16 (fun j B =>
      for_loop (fun i_ => decide (i_ < 16 ∧ i + i_ < N)) 1 (fun i_ B => do
        let B ← for_loop (fun j_ => decide (j_ < 16 ∧ j + j_ < M)) 1 (fun j_ B =>
          some (if i + i_ = j + j_ ∧ i + i_ = 0 then B
            else store2 B (j + j_) (i + i_) (A (i + i_) (j + j_)))) (16 + 1) 0 B
        pure (if i = j ∧ i + i_ = 0 then store2 B 0 0 (A 0 0) else B))
        (16 + 1) 0 B) (M + 1) 0 B) (N + 1) 0 B

def transpose_submit (M N : Nat) (A B : Nat → Nat → Int) : Option (Nat → Nat → Int) :=
  if M = N ∧ M = 32 then transpose_3232 M N A B
  else if M = N ∧ M = 64 then transpose_6464 M N A B
  else transpose_6167 M N A B

/-- The function `is_transpose`; the loop state is the value returned so far (`none`
while no `return` has been executed). -/
def is_transpose (M N : Nat) (A B : Nat → Nat → Int) : Option Int :=
  (for_loop (fun i => decide (i < N)) 1 (fun i ret =>
      for_loop (fun j => decide (j < M)) 1 (fun j ret =>
        some (match ret with
          | some v => some v
          | none => if A i j ≠ B j i then some 0 else none)) (M + 1) 0 ret)
    (N + 1) 0 (none : Option Int)).map
    (fun ret =>
      match ret with
      | some v => v
      | none => 1)

/-! ### The same loops without the overflow test

Auxiliary functions for the proofs: what the loops compute when no counter overflows
and the fuel suffices. -/

/-- The loop `for (k = start; cond(k); k += step) body(k)` on an unbounded counter, run
for at most `fuel` iterations. -/
def loop_pure {σ : Type} (cond : Nat → Bool) (step : Nat) (body : Nat → σ → σ) :
    Nat → Nat → σ → σ
  | 0, _, st => st
  | fuel + 1, k, st =>
    if cond k then loop_pure cond step body fuel (k + step) (body k st) else st

def transpose_3232_pure (M N : Nat) (A B : Nat → Nat → Int) : Nat → Nat → Int :=
  loop_pure (fun i => decide (i < N)) 8 (fun i B =>
    loop_pure (fun j => decide (j < M)) 8 (fun j B =>
      loop_pure (fun i_ => decide (i_ < 8)) 1 (fun i_ B =>
        let B := loop_pure (fun j_ => decide (j_ < 8)) 1 (fun j_ B =>
          if i + i_ = j + j_ then B
          else store2 B (j + j_) (i + i_) (A (i + i_) (j + j_))) (8 + 1) 0 B
        if i = j then store2 B (j + i_) (i + i_) (A (i + i_) (j + i_)) else B)
        (8 + 1) 0 B) (M + 1) 0 B) (N + 1) 0 B

def transpose_6464_pure (_M N : Nat) (A B : Nat → Nat → Int) : Nat → Nat → Int :=
  loop_pure (fun i => decide (i < N)) 8 (fun i B =>
    loop_pure (fun j => decide (j < N)) 8 (fun j B =>
      let B := loop_pure (fun i_ => decide (i_ < 8 / 2)) 1 (fun i_ B =>
        let B := loop_pure (fun j_ => decide (j_ < 8 / 2)) 1 (fun j_ B =>
          if i + i_ = j + j_ then B
          else store2 B (j + j_) (i + i_) (A (i + i_) (j + j_))) (8 + 1) 0 B
        if i = j then store2 B (j + i_) (i + i_) (A (i + i_) (j + i_)) else B)
        (8 + 1) 0 B
      let B := loop_pure (fun i_ => decide (i_ < 8)) 1 (fun i_ B =>
        let B := loop_pure (fun j_ => decide (j_ < 8 / 2)) 1 (fun j_ B =>
          if i = j ∧ i_ - j_ = 8 / 2 then B
          else store2 B (j + j_) (i + i_) (A (i + i_) (j + j_))) (8 + 1) 0 B
        if i = j then store2 B (j + i_ - 8 / 2) (i + i_) (A (i + i_) (j + i_ - 8 / 2))
        else B)
        (8 + 1) (8 / 2) B
      let B := loop_pure (fun i_ => decide (i_ < 8)) 1 (fun i_ B =>
        let B := loop_pure (fun j_ => decide (j_ < 8)) 1 (fun j_ B =>
          if i + i_ = j + j_ then B
          else store2 B (j + j_) (i + i_) (A (i + i_) (j + j_))) (8 + 1) (8 / 2) B
        if i = j then store2 B (j + i_) (i + i_) (A (i + i_) (j + i_)) else B)
        (8 + 1) (8 / 2) B
      loop_pure (fun i_ => decide (i_ < 8 / 2)) 1 (fun i_ B =>
        let B := loop_pure (fun j_ => decide (j_ < 8)) 1 (fun j_ B =>
          if i = j ∧ j_ - i_ = 8 / 2 then B
          else store2 B (j + j_) (i + i_) (A (i + i_) (j + j_))) (8 + 1) (8 / 2) B
        if i = j then store2 B (j + i_ + 8 / 2) (i + i_) (A (i + i_) (j + i_ + 8 / 2))
        else B)
        (8 + 1) 0 B) (N + 1) 0 B) (N + 1) 0 B

def transpose_6167_pure (M N : Nat) (A B : Nat → Nat → Int) : Nat → Nat → Int :=
  loop_pure (fun i => decide (i < N)) 16 (fun i B =>
    loop_pure (fun j => decide (j < M)) 16 (fun j B =>
      loop_pure (fun i_ => decide (i_ < 16 ∧ i + i_ < N)) 1 (fun i_ B =>
        let B := loop_pure (fun j_ => decide (j_ < 16 ∧ j + j_ < M)) 1 (fun j_ B =>
          if i + i_ = j + j_ ∧ i + i_ = 0 then B
          else store2 B (j + j_) (i + i_) (A (i + i_) (j + j_))) (16 + 1) 0 B
        if i = j ∧ i + i_ = 0 then store2 B 0 0 (A 0 0) else B)
        (16 + 1) 0 B) (M + 1) 0 B) (N + 1) 0 B

def is_transpose_pure (M N : Nat) (A B : Nat → Nat → Int) : Int :=
  match loop_pure (fun i => decide (i < N)) 1 (fun i ret =>
      loop_pure (fun j => decide (j < M)) 1 (fun j ret =>
        match ret with
        | some v => some v
        | none => if A i j ≠ B j i then some 0 else none) (M + 1) 0 ret) (N + 1) 0 none with
  | some v => v
  | none => 1

/-- A sample matrix with pairwise different entries. -/
def sampleA : Nat → Nat → Int := fun i j => (1000 * i + j : Nat)

/-- A sample destination, filled with `-1`. -/
def sampleB : Nat → Nat → Int := fun _ _ => -1

/-! ## A heap with a detached block -/

/-- The freshly initialised heap `demo1` after `delete_free_block` of its only block
`0x10018`: the block is marked free and is not in the free list. -/
def det1 : State :=
  match delete_free_block demo1 65560 with
  | .ok s => s
  | .error _ => demo1

/-! ## Basic facts: the `Except` monad, 32-bit arithmetic, tag words -/

theorem ok_bind {α β : Type} (a : α) (f : α → Except Fault β) :
    (Except.ok a >>= f) = f a := rfl

theorem err_bind {α β : Type} (e : Fault) (f : α → Except Fault β) :
    ((Except.error e : Except Fault α) >>= f) = Except.error e := rfl

theorem pure_ok {α : Type} (a : α) : (pure a : Except Fault α) = Except.ok a := rfl

theorem add32_eq {a b : Nat} (h : a + b < 4294967296) : add32 a b = a + b := by
  unfold add32; omega

theorem sub32_eq {a b : Nat} (h : b ≤ a) (ha : a < 4294967296) : sub32 a b = a - b := by
  unfold sub32; omega

theorem mul32_eq {a b : Nat} (h : a * b < 4294967296) : mul32 a b = a * b := by
  unfold mul32; omega

theorem and_mask (x : Nat) (hx : x < 4294967296) : x &&& 0xFFFFFFF8 = x - x % 8 := by
  apply Nat.eq_of_testBit_eq; intro i
  rw [Nat.testBit_and]
  have h1 : x - x % 8 = 2^3 * (x / 8) := by omega
  have h2 : (0xFFFFFFF8 : Nat) = 2^3 * (2^29 - 1) := by norm_num
  rw [h1, h2, Nat.testBit_mul_pow_two, Nat.testBit_mul_pow_two, Nat.testBit_two_pow_sub_one]
  by_cases hi : 3 ≤ i
  · have h3 : x / 8 = x >>> 3 := by rw [Nat.shiftRight_eq_div_pow]
    rw [h3, Nat.testBit_shiftRight]
    have h4 : 3 + (i - 3) = i := by omega
    rw [h4]
    by_cases h5 : i - 3 < 29
    · simp [hi, h5]
    · have h6 : x < 2 ^ i := by
        calc x < 2^32 := by simpa using hx
          _ ≤ 2 ^ i := Nat.pow_le_pow_right (by norm_num) (by omega)
      simp [hi, h5, Nat.testBit_lt_two_pow h6]
  · simp [hi]

theorem or_one_even (x : Nat) (hx : x % 2 = 0) : x ||| 1 = x + 1 := by
  apply Nat.eq_of_testBit_eq; intro i
  rw [Nat.testBit_or]
  cases i with
  | zero => simp [Nat.testBit_zero]; omega
  | succ j =>
    simp [Nat.testBit_succ]
    congr 1; omega

/-- Decoding the size of a tag word `sz + t`. -/
theorem tag_size {sz t : Nat} (h8 : sz % 8 = 0) (ht : t ≤ 1) (hlt : sz < 4294967296) :
    (sz + t) &&& 0xFFFFFFF8 = sz := by
  rw [and_mask _ (by omega)]; omega

/-- Decoding the allocation bit of a tag word `sz + t`. -/
theorem tag_bit {sz t : Nat} (h8 : sz % 8 = 0) (ht : t ≤ 1) : (sz + t) &&& 1 = t := by
  rw [Nat.and_one_is_mod]; omega

theorem or_FREE (x : Nat) : x ||| FREE = x := by simp [FREE]

theorem or_ALLOCATED {x : Nat} (h : x % 8 = 0) : x ||| ALLOCATED = x + 1 := by
  unfold ALLOCATED; exact or_one_even x (by omega)

/-- `ALIGN` rounds up to the next multiple of 8 when no wrap-around occurs. -/
theorem ALIGN_eq {n : Nat} (h : n + 7 < 4294967296) : ALIGN n = (n + 7) / 8 * 8 := by
  unfold ALIGN ALIGNMENT
  rw [add32_eq (by omega), and_mask _ (by omega)]; omega

/-! ## Memory accesses -/

@[simp] theorem withMem_mem (s : State) (m : Nat → Nat) : (s.withMem m).mem = m := rfl
@[simp] theorem withMem_heap (s : State) (m : Nat → Nat) :
    (s.withMem m).mem_heap = s.mem_heap := rfl
@[simp] theorem withMem_brk (s : State) (m : Nat → Nat) :
    (s.withMem m).mem_brk = s.mem_brk := rfl
@[simp] theorem withMem_max (s : State) (m : Nat → Nat) :
    (s.withMem m).mem_max_addr = s.mem_max_addr := rfl
@[simp] theorem withMem_hroot (s : State) (m : Nat → Nat) :
    (s.withMem m).heap_root = s.heap_root := rfl
@[simp] theorem withMem_froot (s : State) (m : Nat → Nat) :
    (s.withMem m).free_root = s.free_root := rfl
@[simp] theorem withMem_withMem (s : State) (m m' : Nat → Nat) :
    (s.withMem m).withMem m' = s.withMem m' := rfl
@[simp] theorem withMem_self (s : State) : s.withMem s.mem = s := rfl

@[simp] theorem valid_withMem (s : State) (m : Nat → Nat) (a : Nat) :
    valid (s.withMem m) a ↔ valid s a := Iff.rfl

@[simp] theorem upd_same (m : Nat → Nat) (a v : Nat) : upd m a v a = v := by simp [upd]

theorem upd_ne {m : Nat → Nat} {a v x : Nat} (h : x ≠ a) : upd m a v x = m x := by
  simp [upd, h]

theorem GET_ok {s : State} {a : Nat} (h : valid s a) : GET s a = .ok (s.mem a) := by
  simp [GET, h]

theorem PUT_ok {s : State} {a v : Nat} (h : valid s a) (hv : v < 4294967296) :
    PUT s a v = .ok (s.withMem (upd s.mem a v)) := by
  simp only [PUT, h, if_true, Nat.mod_eq_of_lt hv]; rfl

theorem GET_SIZE_ok {s : State} {a sz t : Nat} (h : valid s a) (hm : s.mem a = sz + t)
    (h8 : sz % 8 = 0) (ht : t ≤ 1) (hlt : sz < 4294967296) : GET_SIZE s a = .ok sz := by
  simp only [GET_SIZE, GET_ok h, ok_bind, pure_ok, hm, tag_size h8 ht hlt]

theorem GET_IS_ALLOCATED_ok {s : State} {a sz t : Nat} (h : valid s a)
    (hm : s.mem a = sz + t) (h8 : sz % 8 = 0) (ht : t ≤ 1) :
    GET_IS_ALLOCATED s a = .ok t := by
  simp only [GET_IS_ALLOCATED, GET_ok h, ok_bind, pure_ok, hm, tag_bit h8 ht]

/-! ## Tilings -/

theorem Chain_append {a e : Nat} {l1 l2 : List Blk} :
    Chain a (l1 ++ l2) e ↔ ∃ m, Chain a l1 m ∧ Chain m l2 e := by
  induction l1 generalizing a with
  | nil => simp [Chain]
  | cons b l ih =>
    show (b.ptr = a ∧ Chain (a + b.sz) (l ++ l2) e) ↔
      ∃ m, (b.ptr = a ∧ Chain (a + b.sz) l m) ∧ Chain m l2 e
    rw [ih]
    constructor
    · rintro ⟨h1, m, h2, h3⟩; exact ⟨m, ⟨h1, h2⟩, h3⟩
    · rintro ⟨m, ⟨h1, h2⟩, h3⟩; exact ⟨h1, m, h2, h3⟩

theorem Chain_le {a e : Nat} {L : List Blk} (h : Chain a L e) : a ≤ e := by
  induction L generalizing a with
  | nil => simp [Chain] at h; omega
  | cons b l ih =>
    obtain ⟨_, h2⟩ := h
    have := ih h2; omega

theorem Chain_mem {a e : Nat} {L : List Blk} (h : Chain a L e) {b : Blk} (hb : b ∈ L) :
    a ≤ b.ptr ∧ b.ptr + b.sz ≤ e := by
  induction L generalizing a with
  | nil => simp at hb
  | cons c l ih =>
    obtain ⟨h1, h2⟩ := h
    rcases List.mem_cons.1 hb with rfl | hb
    · have := Chain_le h2; omega
    · have := ih h2 hb; omega

/-- Two blocks of a tiling with positive sizes are equal or occupy disjoint ranges. -/
theorem Chain_disj {a e : Nat} {L : List Blk} (h : Chain a L e)
    (hpos : ∀ b ∈ L, 0 < b.sz) {b c : Blk} (hb : b ∈ L) (hc : c ∈ L) :
    b = c ∨ b.ptr + b.sz ≤ c.ptr ∨ c.ptr + c.sz ≤ b.ptr := by
  induction L generalizing a with
  | nil => simp at hb
  | cons d l ih =>
    obtain ⟨h1, h2⟩ := h
    have hpos' : ∀ b ∈ l, 0 < b.sz := fun b hb => hpos b (List.mem_cons_of_mem _ hb)
    rcases List.mem_cons.1 hb with hb | hb <;> rcases List.mem_cons.1 hc with hc | hc
    · left; rw [hb, hc]
    · have := Chain_mem h2 hc; right; left; rw [hb]; omega
    · have := Chain_mem h2 hb; right; right; rw [hc]; omega
    · exact ih h2 hpos' hb hc

/-- Blocks of a tiling with sizes that are multiples of 8 start at offsets that are
multiples of 8. -/
theorem Chain_align {a e : Nat} {L : List Blk} (h : Chain a L e)
    (h8 : ∀ b ∈ L, b.sz % 8 = 0) :
    (e - a) % 8 = 0 ∧ ∀ b ∈ L, (b.ptr - a) % 8 = 0 := by
  induction L generalizing a with
  | nil => simp [Chain] at h; subst h; simp
  | cons d l ih =>
    obtain ⟨h1, h2⟩ := h
    have hd := h8 d (List.mem_cons_self _ _)
    have h8' : ∀ b ∈ l, b.sz % 8 = 0 := fun b hb => h8 b (List.mem_cons_of_mem _ hb)
    obtain ⟨i1, i2⟩ := ih h2 h8'
    have hle := Chain_le h2
    refine ⟨by omega, ?_⟩
    intro b hb
    rcases List.mem_cons.1 hb with rfl | hb
    · simp [h1]
    · have := i2 b hb
      have := Chain_mem h2 hb
      omega

/-- The block that follows `b` in a tiling, if any, starts where `b` ends. -/
theorem Chain_split {a e : Nat} {pre post : List Blk} {b : Blk}
    (h : Chain a (pre ++ b :: post) e) :
    Chain a pre b.ptr ∧ Chain (b.ptr + b.sz) post e := by
  obtain ⟨m, h1, h2, h3⟩ := Chain_append.1 h
  subst h2
  exact ⟨h1, h3⟩

theorem Chain_snoc {a e : Nat} {l : List Blk} {c : Blk} (h : Chain a (l ++ [c]) e) :
    c.ptr + c.sz = e := by
  obtain ⟨_, h2⟩ := Chain_split h
  simpa [Chain] using h2

theorem Chain_head {a e : Nat} {l : List Blk} {c : Blk} (h : Chain a (c :: l) e) :
    c.ptr = a := h.1

/-! ## Doubly linked lists in memory -/

theorem FL_congr {mem mem' : Nat → Nat} {l : List Nat} {prev h : Nat}
    (hfl : FL mem prev l h)
    (hm : ∀ b ∈ l, mem' b = mem b ∧ mem' (b + 4) = mem (b + 4)) : FL mem' prev l h := by
  induction l generalizing prev h with
  | nil => exact hfl
  | cons c l ih =>
    obtain ⟨h1, h2, h3, h4⟩ := hfl
    obtain ⟨m1, m2⟩ := hm c (List.mem_cons_self _ _)
    refine ⟨h1, h2, by rw [m2, h3], ?_⟩
    rw [m1]
    exact ih h4 (fun b hb => hm b (List.mem_cons_of_mem _ hb))

theorem FL_ne_zero {mem : Nat → Nat} {l : List Nat} {prev h : Nat}
    (hfl : FL mem prev l h) : ∀ b ∈ l, b ≠ 0 := by
  induction l generalizing prev h with
  | nil => simp
  | cons c l ih =>
    obtain ⟨_, h2, _, h4⟩ := hfl
    intro b hb
    rcases List.mem_cons.1 hb with rfl | hb
    · exact h2
    · exact ih h4 b hb

/-- The NEXT link of a list node is NULL or a later node. -/
theorem FL_next_mem {mem : Nat → Nat} {l : List Nat} {prev h : Nat}
    (hfl : FL mem prev l h) {b : Nat} (hb : b ∈ l) : mem b = 0 ∨ mem b ∈ l := by
  induction l generalizing prev h with
  | nil => simp at hb
  | cons c l ih =>
    obtain ⟨_, _, _, h4⟩ := hfl
    rcases List.mem_cons.1 hb with rfl | hb
    · cases l with
      | nil => left; exact h4
      | cons d r => right; rw [h4.1]; simp
    · rcases ih h4 hb with h | h
      · exact Or.inl h
      · exact Or.inr (List.mem_cons_of_mem _ h)

/-- The PREV link of a list node is the link expected at the front (for the first node)
or an earlier node. -/
theorem FL_prev_mem {mem : Nat → Nat} {l : List Nat} {prev h : Nat}
    (hfl : FL mem prev l h) {b : Nat} (hb : b ∈ l) :
    (h = b ∧ mem (b + 4) = prev) ∨ (h ≠ b ∧ mem (b + 4) ∈ l) := by
  induction l generalizing prev h with
  | nil => simp at hb
  | cons c l ih =>
    obtain ⟨h1, _, h3, h4⟩ := hfl
    by_cases hcb : c = b
    · subst hcb; left; exact ⟨h1, h3⟩
    · rcases List.mem_cons.1 hb with rfl | hb
      · exact absurd rfl hcb
      · right
        refine ⟨by rw [h1]; exact hcb, ?_⟩
        rcases ih h4 hb with ⟨_, h6⟩ | ⟨_, h6⟩
        · rw [h6]; simp
        · exact List.mem_cons_of_mem _ h6

/-- The pointer that leads into a list is NULL or its first node. -/
theorem FL_head {mem : Nat → Nat} {l : List Nat} {prev h : Nat}
    (hfl : FL mem prev l h) : (h = 0 ∧ l = []) ∨ (h ≠ 0 ∧ ∃ r, l = h :: r) := by
  cases l with
  | nil => left; exact ⟨hfl, rfl⟩
  | cons c r => right; obtain ⟨h1, h2, _, _⟩ := hfl; subst h1; exact ⟨h2, r, rfl⟩

/-! ## Consequences of the representation invariant -/

theorem Chain_end_unique {a e e' : Nat} {L : List Blk} (h : Chain a L e)
    (h' : Chain a L e') : e = e' := by
  induction L generalizing a with
  | nil => simp [Chain] at h h'; omega
  | cons b l ih => exact ih h.2 h'.2

theorem Chain_start_unique {a a' e e' : Nat} {L : List Blk} (hne : L ≠ [])
    (h : Chain a L e) (h' : Chain a' L e') : a = a' := by
  cases L with
  | nil => exact absurd rfl hne
  | cons b l => rw [← h.1, ← h'.1]

theorem Inv.pos {s : State} {L : List Blk} {fl : List Nat} (h : Inv s L fl) :
    ∀ b ∈ L, 0 < b.sz := fun b hb => by have := (h.blk b hb).1; omega

/-- Position, size and alignment of a block of the heap. -/
theorem Inv.facts {s : State} {L : List Blk} {fl : List Nat} (h : Inv s L fl) {b : Blk}
    (hb : b ∈ L) :
    s.mem_heap + 24 ≤ b.ptr ∧ b.ptr + b.sz ≤ s.mem_brk ∧ (b.ptr - s.mem_heap) % 8 = 0 ∧
    16 ≤ b.sz ∧ b.sz % 8 = 0 ∧ s.mem_brk < 4294967296 := by
  have h1 := Chain_mem h.chain hb
  have h2 := (Chain_align h.chain (fun b hb => (h.blk b hb).2.1)).2 b hb
  have h3 := h.blk b hb
  have h4 := h.brk_le
  have h5 := h.max_lt
  refine ⟨h1.1, h1.2, ?_, h3.1, h3.2.1, ?_⟩ <;> omega

theorem Inv.brk_facts {s : State} {L : List Blk} {fl : List Nat} (h : Inv s L fl) :
    s.mem_heap + 24 ≤ s.mem_brk ∧ (s.mem_brk - s.mem_heap) % 8 = 0 ∧
    s.mem_brk < 4294967296 ∧ 0 < s.mem_heap := by
  have h1 := Chain_le h.chain
  have h2 := (Chain_align h.chain (fun b hb => (h.blk b hb).2.1)).1
  have h4 := h.brk_le
  have h5 := h.max_lt
  have h6 := h.lo_pos
  refine ⟨h1, ?_, ?_, h6⟩ <;> omega

theorem Inv.disj {s : State} {L : List Blk} {fl : List Nat} (h : Inv s L fl) {b c : Blk}
    (hb : b ∈ L) (hc : c ∈ L) : b = c ∨ b.ptr + b.sz ≤ c.ptr ∨ c.ptr + c.sz ≤ b.ptr :=
  Chain_disj h.chain h.pos hb hc

/-- A block is determined by its pointer. -/
theorem Inv.ptr_inj {s : State} {L : List Blk} {fl : List Nat} (h : Inv s L fl) {b c : Blk}
    (hb : b ∈ L) (hc : c ∈ L) (hp : b.ptr = c.ptr) : b = c := by
  rcases h.disj hb hc with h1 | h1 | h1
  · exact h1
  · have := h.pos b hb; omega
  · have := h.pos c hc; omega

theorem Blk.tag_lt {b : Blk} : b.tag ≤ b.sz + 1 := by
  unfold Blk.tag; split <;> omega

/-- Every node of the free list is a block of status `F`. -/
theorem Inv.fl_blk {s : State} {L : List Blk} {fl : List Nat} (h : Inv s L fl) {p : Nat}
    (hp : p ∈ fl) : ∃ b ∈ L, b.ptr = p ∧ b.st = St.F := (h.fl_iff p).1 hp

/-- Replacing a run `mid` of blocks none of which is in the free list by another run
`mid'` over the same address range, with the tags of `mid'` written and nothing changed
outside the range, preserves the invariant. -/
theorem Inv_rewrite {s : State} {pre mid M post : List Blk} {fl : List Nat}
    (h : Inv s (pre ++ mid ++ post) fl) {a e : Nat} (hne : mid ≠ [])
    (ha : Chain a mid e) (ha' : Chain a M e)
    (hmid : ∀ b ∈ mid, b.st ≠ St.F) (hmid' : ∀ b ∈ M, b.st ≠ St.F)
    (m' : Nat → Nat)
    (htag : ∀ b ∈ M, 16 ≤ b.sz ∧ b.sz % 8 = 0 ∧ m' (b.ptr - 4) = b.tag ∧
      m' (b.ptr + b.sz - 8) = b.tag)
    (hframe : ∀ x, x + 4 < a ∨ e ≤ x + 4 → m' x = s.mem x) :
    Inv (s.withMem m') (pre ++ M ++ post) fl := by
  obtain ⟨m2, hc12, hc3⟩ := Chain_append.1 h.chain
  obtain ⟨m1, hc1, hc2⟩ := Chain_append.1 hc12
  have e1 : m1 = a := Chain_start_unique hne hc2 ha
  subst e1
  have e2 : m2 = e := Chain_end_unique hc2 ha
  subst e2
  have hlo : s.mem_heap + 24 ≤ m1 := Chain_le hc1
  have hhi : m2 ≤ s.mem_brk := Chain_le hc3
  have hbf := h.brk_facts
  have hpre : ∀ b ∈ pre, b.ptr + b.sz ≤ m1 := fun b hb => (Chain_mem hc1 hb).2
  have hpost : ∀ b ∈ post, m2 ≤ b.ptr := fun b hb => (Chain_mem hc3 hb).1
  have hold : ∀ b, b ∈ pre ∨ b ∈ post → b ∈ pre ++ mid ++ post := by
    intro b hb; simp only [List.mem_append]; tauto
  refine ⟨h.lo_pos, h.max_lt, h.brk_le, h.hroot, h.froot, ?_, ?_, ?_, ?_, ?_, ?_, ?_,
    h.nodup, ?_⟩
  · simp only [withMem_mem, withMem_heap]
    rw [hframe _ (by omega)]; exact h.pro_h
  · simp only [withMem_mem, withMem_heap]
    rw [hframe _ (by omega)]; exact h.pro_f
  · exact Chain_append.2 ⟨m2, Chain_append.2 ⟨m1, hc1, ha'⟩, hc3⟩
  · simp only [withMem_mem, withMem_brk]
    rw [hframe _ (by omega)]; exact h.epi
  · intro b hb
    simp only [List.mem_append] at hb
    rcases hb with (hb | hb) | hb
    · have h1 := h.blk b (hold b (Or.inl hb))
      have h2 := hpre b hb
      have h3 := h.facts (hold b (Or.inl hb))
      refine ⟨h1.1, h1.2.1, ?_, ?_⟩
      · simp only [withMem_mem]
        rw [hframe _ (by omega)]; exact h1.2.2.1
      · simp only [withMem_mem]
        rw [hframe _ (by omega)]; exact h1.2.2.2
    · exact htag b hb
    · have h1 := h.blk b (hold b (Or.inr hb))
      have h2 := hpost b hb
      have h3 := h.facts (hold b (Or.inr hb))
      refine ⟨h1.1, h1.2.1, ?_, ?_⟩
      · simp only [withMem_mem]
        rw [hframe _ (by omega)]; exact h1.2.2.1
      · simp only [withMem_mem]
        rw [hframe _ (by omega)]; exact h1.2.2.2
  · intro b hb c hc hbc hF
    have hb' : b ∈ pre ∨ b ∈ post := by
      simp only [List.mem_append] at hb
      rcases hb with (hb | hb) | hb
      · exact Or.inl hb
      · exact absurd hF.1 (hmid' b hb)
      · exact Or.inr hb
    have hc' : c ∈ pre ∨ c ∈ post := by
      simp only [List.mem_append] at hc
      rcases hc with (hc | hc) | hc
      · exact Or.inl hc
      · exact absurd hF.2 (hmid' c hc)
      · exact Or.inr hc
    exact h.adj b (hold b hb') c (hold c hc') hbc hF
  · simp only [withMem_mem, withMem_heap]
    rw [hframe (s.mem_heap + 8) (by omega)]
    refine FL_congr h.fl_ok ?_
    intro p hp
    obtain ⟨b, hb, hbp, hbF⟩ := h.fl_blk hp
    have h3 := h.facts hb
    simp only [List.mem_append] at hb
    rcases hb with (hb | hb) | hb
    · have h2 := hpre b hb
      subst hbp
      exact ⟨hframe _ (by omega), hframe _ (by omega)⟩
    · exact absurd hbF (hmid b hb)
    · have h2 := hpost b hb
      subst hbp
      exact ⟨hframe _ (by omega), hframe _ (by omega)⟩
  · intro p
    rw [h.fl_iff p]
    constructor
    · rintro ⟨b, hb, hbp, hbF⟩
      refine ⟨b, ?_, hbp, hbF⟩
      simp only [List.mem_append] at hb ⊢
      rcases hb with (hb | hb) | hb
      · exact Or.inl (Or.inl hb)
      · exact absurd hbF (hmid b hb)
      · exact Or.inr hb
    · rintro ⟨b, hb, hbp, hbF⟩
      refine ⟨b, ?_, hbp, hbF⟩
      simp only [List.mem_append] at hb ⊢
      rcases hb with (hb | hb) | hb
      · exact Or.inl (Or.inl hb)
      · exact absurd hbF (hmid' b hb)
      · exact Or.inr hb

/-! ## Insertion into and removal from the free list -/

theorem GET_withMem {s : State} {m : Nat → Nat} {a : Nat} (h : valid s a) :
    GET (s.withMem m) a = .ok (m a) := GET_ok (s := s.withMem m) h

theorem PUT_withMem {s : State} {m : Nat → Nat} {a v : Nat} (h : valid s a)
    (hv : v < 4294967296) :
    PUT (s.withMem m) a v = .ok (s.withMem (upd m a v)) := PUT_ok (s := s.withMem m) h hv

/-- Linking a new node `b` in front of the list that starts at `h`. -/
theorem FL_insert {mem m' : Nat → Nat} {fl : List Nat} {h b : Nat}
    (hfl : FL mem 0 fl h) (hnd : fl.Nodup) (hb0 : b ≠ 0)
    (h1 : m' b = h) (h2 : m' (b + 4) = 0) (h3 : h ≠ 0 → m' (h + 4) = b)
    (h4 : ∀ c ∈ fl, m' c = mem c ∧ (c ≠ h → m' (c + 4) = mem (c + 4))) :
    FL m' 0 (b :: fl) b := by
  refine ⟨rfl, hb0, h2, ?_⟩
  rw [h1]
  cases fl with
  | nil => exact hfl
  | cons c r =>
    obtain ⟨e1, e2, _, e4⟩ := hfl
    subst e1
    refine ⟨rfl, e2, h3 e2, ?_⟩
    rw [(h4 h (List.mem_cons_self _ _)).1]
    refine FL_congr e4 ?_
    intro x hx
    have hxh : x ≠ h := by
      rintro rfl
      exact (List.nodup_cons.1 hnd).1 hx
    have := h4 x (List.mem_cons_of_mem _ hx)
    exact ⟨this.1, this.2 hxh⟩

/-- Unlinking the node `b` from a list: its successor's PREV link and its predecessor's
NEXT link (the pointer `h` that leads into the list when `b` is the first node) are
redirected. -/
theorem FL_delete {mem m' : Nat → Nat} {b : Nat} {l : List Nat} {q h : Nat}
    (hfl : FL mem q l h) (hnd : l.Nodup) (hb : b ∈ l) (hp0 : q ∉ l)
    (h1 : mem b ≠ 0 → m' (mem b + 4) = mem (b + 4))
    (h2 : mem (b + 4) ≠ 0 → m' (mem (b + 4)) = mem b)
    (h4 : ∀ c ∈ l, c ≠ b → (c ≠ mem (b + 4) → m' c = mem c) ∧
      (c ≠ mem b → m' (c + 4) = mem (c + 4))) :
    FL m' q (l.erase b) (if h = b then mem b else h) := by
  induction l generalizing q h with
  | nil => simp at hb
  | cons c rest ih =>
    obtain ⟨e1, e2, e3, e4⟩ := hfl
    have hnd' := (List.nodup_cons.1 hnd).2
    have hc_rest := (List.nodup_cons.1 hnd).1
    by_cases hcb : c = b
    · subst hcb
      subst e1
      simp only [List.erase_cons_head, if_true]
      have hprev : mem (h + 4) = q := e3
      cases rest with
      | nil => exact e4
      | cons d r =>
        obtain ⟨f1, f2, f3, f4⟩ := e4
        have hd_ne_h : d ≠ h := by
          rintro rfl; exact hc_rest (List.mem_cons_self _ _)
        have hd_ne_p0 : d ≠ q := by
          rintro rfl; exact hp0 (List.mem_cons_of_mem _ (List.mem_cons_self _ _))
        have hdl : d ∈ h :: d :: r := List.mem_cons_of_mem _ (List.mem_cons_self _ _)
        refine ⟨f1, f2, ?_, ?_⟩
        · rw [← f1, h1 (by rw [f1]; exact f2), hprev]
        · rw [((h4 d hdl hd_ne_h).1 (by rw [hprev]; exact hd_ne_p0))]
          refine FL_congr f4 ?_
          intro x hx
          have hxl : x ∈ h :: d :: r :=
            List.mem_cons_of_mem _ (List.mem_cons_of_mem _ hx)
          have hxh : x ≠ h := by
            rintro rfl; exact hc_rest (List.mem_cons_of_mem _ hx)
          have hxd : x ≠ d := by
            rintro rfl; exact (List.nodup_cons.1 hnd').1 hx
          have hxp : x ≠ q := by
            rintro rfl; exact hp0 hxl
          have := h4 x hxl hxh
          exact ⟨this.1 (by rw [hprev]; exact hxp), this.2 (by rw [f1]; exact hxd)⟩
    · have hb' : b ∈ rest := by
        rcases List.mem_cons.1 hb with hb | hb
        · exact absurd hb.symm hcb
        · exact hb
      have hhb : h ≠ b := by rw [e1]; exact hcb
      rw [List.erase_cons_tail (by simpa using hcb), if_neg hhb]
      have hnext : c ≠ mem b := by
        rcases FL_next_mem e4 hb' with hn | hn
        · rw [hn]; exact e2
        · rintro rfl; exact hc_rest hn
      refine ⟨e1, e2, ?_, ?_⟩
      · rw [(h4 c (List.mem_cons_self _ _) hcb).2 hnext]; exact e3
      · have key := ih (q := c) (h := mem c) e4 hnd' hb' hc_rest
          (fun x hx hxb => h4 x (List.mem_cons_of_mem _ hx) hxb)
        rcases FL_prev_mem e4 hb' with ⟨g1, g2⟩ | ⟨g1, g2⟩
        · rw [if_pos g1] at key
          have : m' c = mem b := by
            have := h2 (by rw [g2]; exact e2)
            rw [g2] at this; exact this
          rw [this]; exact key
        · rw [if_neg g1] at key
          have hcp : c ≠ mem (b + 4) := by
            rintro rfl; exact hc_rest g2
          rw [(h4 c (List.mem_cons_self _ _) hcb).1 hcp]; exact key

theorem PREV_PTR_eq {p : Nat} (h : p + 4 < 4294967296) : PREV_PTR p = p + 4 := by
  unfold PREV_PTR WORDSIZE; exact add32_eq h

/-- Execution of `insert_free_block`: the four stores it performs. -/
theorem insert_exec {s : State} {p : Nat} (hf : s.free_root = s.mem_heap + 8)
    (hv0 : valid s (s.mem_heap + 8)) (hvp : valid s p) (hvp4 : valid s (p + 4))
    (hvh : s.mem (s.mem_heap + 8) ≠ 0 → valid s (s.mem (s.mem_heap + 8) + 4))
    (hlt : s.mem_brk < 4294967296) :
    ∃ m', insert_free_block s p = .ok (s.withMem m') ∧
      m' = upd (upd (upd (if s.mem (s.mem_heap + 8) ≠ 0
        then upd s.mem (s.mem (s.mem_heap + 8) + 4) p else s.mem) p
          (s.mem (s.mem_heap + 8))) (p + 4) 0) (s.mem_heap + 8) p := by
  have hp : p + 4 < 4294967296 := by unfold valid at hvp4; omega
  unfold insert_free_block
  rw [hf, GET_ok hv0]
  simp only [ok_bind, NULL, NEXT_PTR]
  rw [PREV_PTR_eq hp]
  by_cases h0 : s.mem (s.mem_heap + 8) = 0
  · simp only [h0, ne_eq, not_true_eq_false, if_false, pure_ok, ok_bind]
    rw [PUT_ok hvp (by omega)]
    simp only [ok_bind]
    rw [PUT_withMem hvp4 (by omega)]
    simp only [ok_bind, withMem_froot, hf]
    rw [PUT_withMem hv0 (by omega)]
    exact ⟨_, rfl, rfl⟩
  · have hv := hvh h0
    have hh : s.mem (s.mem_heap + 8) + 4 < 4294967296 := by unfold valid at hv; omega
    simp only [ne_eq, h0, not_false_eq_true, if_true]
    rw [PREV_PTR_eq hh, PUT_ok hv (by omega)]
    simp only [ok_bind]
    rw [PUT_withMem hvp (by omega)]
    simp only [ok_bind]
    rw [PUT_withMem hvp4 (by omega)]
    simp only [ok_bind, withMem_froot, hf]
    rw [PUT_withMem hv0 (by omega)]
    exact ⟨_, rfl, rfl⟩

/-- The memory left by `delete_free_block` on the block at `p` whose PREV and NEXT links
are `prev` and `next`. -/
theorem delete_exec {s : State} {p : Nat} (hf : s.free_root = s.mem_heap + 8)
    (hv0 : valid s (s.mem_heap + 8)) (hvp : valid s p) (hvp4 : valid s (p + 4))
    (hvprev : s.mem (p + 4) ≠ 0 → valid s (s.mem (p + 4)))
    (hvnext : s.mem p ≠ 0 → valid s (s.mem p + 4))
    (hlt : s.mem_brk < 4294967296) :
    ∃ m', delete_free_block s p = .ok (s.withMem m') ∧
      m' = upd (upd
        (if s.mem (p + 4) ≠ 0 ∧ s.mem p ≠ 0 then
          upd (upd s.mem (s.mem p + 4) (s.mem (p + 4))) (s.mem (p + 4)) (s.mem p)
        else if s.mem (p + 4) ≠ 0 ∧ s.mem p = 0 then upd s.mem (s.mem (p + 4)) (s.mem p)
        else if s.mem (p + 4) = 0 ∧ s.mem p ≠ 0 then
          upd (upd s.mem (s.mem p + 4) 0) (s.mem_heap + 8) (s.mem p)
        else upd s.mem (s.mem_heap + 8) 0) p 0) (p + 4) 0 := by
  have hp : p + 4 < 4294967296 := by unfold valid at hvp4; omega
  unfold delete_free_block
  simp only [NEXT_PTR, NULL]
  rw [PREV_PTR_eq hp, GET_ok hvp4, GET_ok hvp]
  simp only [ok_bind]
  by_cases h1 : s.mem (p + 4) = 0 <;> by_cases h2 : s.mem p = 0
  · simp only [h1, h2, ne_eq, not_true_eq_false, and_self, and_false, false_and, if_false,
      if_true, hf]
    rw [PUT_ok hv0 (by omega)]
    simp only [ok_bind]
    rw [PUT_withMem hvp (by omega)]
    simp only [ok_bind]
    rw [PUT_withMem hvp4 (by omega)]
    exact ⟨_, rfl, rfl⟩
  · have hv := hvnext h2
    have hh : s.mem p + 4 < 4294967296 := by unfold valid at hv; omega
    simp only [h1, h2, ne_eq, not_true_eq_false, not_false_eq_true, and_self, and_false,
      false_and, and_true, true_and, if_false, if_true, hf]
    rw [PREV_PTR_eq hh, PUT_ok hv (by omega)]
    simp only [ok_bind, withMem_froot, hf]
    rw [PUT_withMem hv0 (by omega)]
    simp only [ok_bind]
    rw [PUT_withMem hvp (by omega)]
    simp only [ok_bind]
    rw [PUT_withMem hvp4 (by omega)]
    exact ⟨_, rfl, rfl⟩
  · have hv := hvprev h1
    simp only [h1, h2, ne_eq, not_true_eq_false, not_false_eq_true, and_self, and_false,
      false_and, and_true, true_and, if_false, if_true, hf]
    rw [PUT_ok hv (by omega)]
    simp only [ok_bind]
    rw [PUT_withMem hvp (by omega)]
    simp only [ok_bind]
    rw [PUT_withMem hvp4 (by omega)]
    exact ⟨_, rfl, rfl⟩
  · have hv := hvprev h1
    have hv' := hvnext h2
    have hh : s.mem p + 4 < 4294967296 := by unfold valid at hv'; omega
    have hh' : s.mem (p + 4) < 4294967296 := by unfold valid at hv; omega
    simp only [h1, h2, ne_eq, not_true_eq_false, not_false_eq_true, and_self, and_false,
      false_and, and_true, true_and, if_false, if_true, hf]
    rw [PREV_PTR_eq hh, PUT_ok hv' hh']
    simp only [ok_bind]
    rw [PUT_withMem hv (by omega)]
    simp only [ok_bind]
    rw [PUT_withMem hvp (by omega)]
    simp only [ok_bind]
    rw [PUT_withMem hvp4 (by omega)]
    exact ⟨_, rfl, rfl⟩

theorem Blk.tag_of_not_A {b : Blk} (h : b.st ≠ St.A) : b.tag = b.sz := by
  simp [Blk.tag, h]

theorem Blk.tag_of_A {b : Blk} (h : b.st = St.A) : b.tag = b.sz + 1 := by
  simp [Blk.tag, h]

/-- Changing the status of one block that is not allocated, together with stores to link
words of blocks that are not allocated and to the list head, preserves the invariant
provided the new memory links the new free list. -/
theorem Inv_relink {s : State} {pre post : List Blk} {b B : Blk} {fl fl' : List Nat}
    (h : Inv s (pre ++ b :: post) fl)
    (hp : B.ptr = b.ptr) (hs : B.sz = b.sz) (hb : b.st ≠ St.A) (hb' : B.st ≠ St.A)
    (m' : Nat → Nat)
    (hframe : ∀ x, m' x = s.mem x ∨ x = s.mem_heap + 8 ∨
      ∃ c ∈ pre ++ b :: post, c.st ≠ St.A ∧ (x = c.ptr ∨ x = c.ptr + 4))
    (hfl : FL m' 0 fl' (m' (s.mem_heap + 8))) (hnd : fl'.Nodup)
    (hiff : ∀ p, p ∈ fl' ↔ ∃ c ∈ pre ++ B :: post, c.ptr = p ∧ c.st = St.F)
    (hadj : B.st = St.F → ∀ c ∈ pre ++ post,
      (c.ptr + c.sz = b.ptr ∨ b.ptr + b.sz = c.ptr) → c.st ≠ St.F) :
    Inv (s.withMem m') (pre ++ B :: post) fl' := by
  have hbf := h.brk_facts
  obtain ⟨hc1, hc3⟩ := Chain_split h.chain
  have hbL : b ∈ pre ++ b :: post := by simp
  have hold : ∀ c, c ∈ pre ∨ c ∈ post → c ∈ pre ++ b :: post := by
    intro c hc; simp only [List.mem_append, List.mem_cons]; tauto
  -- stores never hit a boundary tag
  have htag : ∀ c ∈ pre ++ b :: post, m' (c.ptr - 4) = s.mem (c.ptr - 4) ∧
      m' (c.ptr + c.sz - 8) = s.mem (c.ptr + c.sz - 8) := by
    intro c hc
    have fc := h.facts hc
    constructor
    · rcases hframe (c.ptr - 4) with h1 | h1 | ⟨d, hd, _, h1⟩
      · exact h1
      · omega
      · have fd := h.facts hd
        rcases h.disj hc hd with h2 | h2 | h2
        · subst h2; omega
        · omega
        · omega
    · rcases hframe (c.ptr + c.sz - 8) with h1 | h1 | ⟨d, hd, _, h1⟩
      · exact h1
      · omega
      · have fd := h.facts hd
        rcases h.disj hc hd with h2 | h2 | h2
        · subst h2; omega
        · omega
        · omega
  refine ⟨h.lo_pos, h.max_lt, h.brk_le, h.hroot, h.froot, ?_, ?_, ?_, ?_, ?_, ?_, hfl,
    hnd, hiff⟩
  · simp only [withMem_mem, withMem_heap]
    rcases hframe (s.mem_heap + 12) with h1 | h1 | ⟨d, hd, _, h1⟩
    · rw [h1]; exact h.pro_h
    · omega
    · have fd := h.facts hd; omega
  · simp only [withMem_mem, withMem_heap]
    rcases hframe (s.mem_heap + 16) with h1 | h1 | ⟨d, hd, _, h1⟩
    · rw [h1]; exact h.pro_f
    · omega
    · have fd := h.facts hd; omega
  · refine Chain_append.2 ⟨b.ptr, hc1, hp, ?_⟩
    rw [hs]; exact hc3
  · simp only [withMem_mem, withMem_brk]
    rcases hframe (s.mem_brk - 4) with h1 | h1 | ⟨d, hd, _, h1⟩
    · rw [h1]; exact h.epi
    · omega
    · have fd := h.facts hd; omega
  · intro c hc
    simp only [List.mem_append, List.mem_cons] at hc
    simp only [withMem_mem]
    rcases hc with hc | hc | hc
    · have h1 := h.blk c (hold c (Or.inl hc))
      have h2 := htag c (hold c (Or.inl hc))
      exact ⟨h1.1, h1.2.1, by rw [h2.1]; exact h1.2.2.1, by rw [h2.2]; exact h1.2.2.2⟩
    · subst hc
      have h1 := h.blk b hbL
      have h2 := htag b hbL
      rw [Blk.tag_of_not_A hb] at h1
      rw [Blk.tag_of_not_A hb', hp, hs]
      exact ⟨h1.1, h1.2.1, by rw [h2.1]; exact h1.2.2.1, by rw [h2.2]; exact h1.2.2.2⟩
    · have h1 := h.blk c (hold c (Or.inr hc))
      have h2 := htag c (hold c (Or.inr hc))
      exact ⟨h1.1, h1.2.1, by rw [h2.1]; exact h1.2.2.1, by rw [h2.2]; exact h1.2.2.2⟩
  · intro c hc d hd hcd hF
    have hbpos := h.pos b hbL
    simp only [List.mem_append, List.mem_cons] at hc hd
    have hc' : c = B ∨ (c ∈ pre ∨ c ∈ post) := by tauto
    have hd' : d = B ∨ (d ∈ pre ∨ d ∈ post) := by tauto
    rcases hc' with hc' | hc' <;> rcases hd' with hd' | hd'
    · subst hc'; subst hd'; omega
    · subst hc'
      refine hadj hF.1 d ?_ (Or.inr ?_) hF.2
      · simp only [List.mem_append]; exact hd'
      · omega
    · subst hd'
      refine hadj hF.2 c ?_ (Or.inl ?_) hF.1
      · simp only [List.mem_append]; exact hc'
      · omega
    · exact h.adj c (hold c hc') d (hold d hd') hcd hF

/-- Nodes of the free list are separated from one another and lie inside the heap. -/
theorem Inv.fl_facts {s : State} {L : List Blk} {fl : List Nat} (h : Inv s L fl) {c : Nat}
    (hc : c ∈ fl) :
    s.mem_heap + 24 ≤ c ∧ c + 16 ≤ s.mem_brk ∧ (c - s.mem_heap) % 8 = 0 ∧
    s.mem_brk < 4294967296 := by
  obtain ⟨b, hb, hbp, _⟩ := h.fl_blk hc
  have := h.facts hb
  subst hbp; omega

theorem Inv.fl_sep {s : State} {L : List Blk} {fl : List Nat} (h : Inv s L fl) {c d : Nat}
    (hc : c ∈ fl) (hd : d ∈ fl) : c = d ∨ c + 16 ≤ d ∨ d + 16 ≤ c := by
  obtain ⟨b, hb, hbp, _⟩ := h.fl_blk hc
  obtain ⟨b', hb', hbp', _⟩ := h.fl_blk hd
  have f := h.facts hb
  have f' := h.facts hb'
  rcases h.disj hb hb' with h1 | h1 | h1
  · left; rw [← hbp, ← hbp', h1]
  · right; left; omega
  · right; right; omega

theorem Inv.valid_root {s : State} {L : List Blk} {fl : List Nat} (h : Inv s L fl) :
    valid s (s.mem_heap + 8) := by
  have := h.brk_facts
  unfold valid; omega

/-- Both link words of a block are accessible. -/
theorem Inv.valid_links {s : State} {L : List Blk} {fl : List Nat} (h : Inv s L fl)
    {b : Blk} (hb : b ∈ L) : valid s b.ptr ∧ valid s (b.ptr + 4) := by
  have := h.facts hb
  unfold valid; omega

/-- In a list without repetition the NEXT link of a node is not the node itself. -/
theorem FL_next_ne {mem : Nat → Nat} {l : List Nat} {prev h : Nat}
    (hfl : FL mem prev l h) (hnd : l.Nodup) {b : Nat} (hb : b ∈ l) : mem b ≠ b := by
  induction l generalizing prev h with
  | nil => simp at hb
  | cons c l ih =>
    obtain ⟨_, e2, _, e4⟩ := hfl
    have hc := (List.nodup_cons.1 hnd).1
    rcases List.mem_cons.1 hb with hb | hb
    · subst hb
      cases l with
      | nil => have : mem b = 0 := e4; rw [this]; exact fun h => e2 h.symm
      | cons d r =>
        have : mem b = d := e4.1
        rw [this]; rintro rfl; exact hc (List.mem_cons_self _ _)
    · exact ih e4 (List.nodup_cons.1 hnd).2 hb

/-- In a list without repetition the PREV link of a node is not the node itself. -/
theorem FL_prev_ne {mem : Nat → Nat} {l : List Nat} {prev h : Nat}
    (hfl : FL mem prev l h) (hnd : l.Nodup) (hp : prev ∉ l) {b : Nat} (hb : b ∈ l) :
    mem (b + 4) ≠ b := by
  induction l generalizing prev h with
  | nil => simp at hb
  | cons c l ih =>
    obtain ⟨_, _, e3, e4⟩ := hfl
    have hc := (List.nodup_cons.1 hnd).1
    rcases List.mem_cons.1 hb with hb | hb
    · subst hb
      rw [e3]; rintro rfl; exact hp (List.mem_cons_self _ _)
    · exact ih e4 (List.nodup_cons.1 hnd).2 hc hb

/-! ## `insert_free_block` and `delete_free_block` on a heap that satisfies the invariant -/

theorem LinkFrame.payload {s : State} {L : List Blk} {fl : List Nat} {m' : Nat → Nat}
    (h : Inv s L fl) (hf : LinkFrame s L m') {c : Blk} (hc : c ∈ L) (hA : c.st = St.A)
    {x : Nat} (h1 : c.ptr ≤ x) (h2 : x + 8 < c.ptr + c.sz) : m' x = s.mem x := by
  have fc := h.facts hc
  rcases hf x with h3 | h3 | ⟨d, hd, hdA, h3⟩
  · exact h3
  · omega
  · have fd := h.facts hd
    rcases h.disj hc hd with h4 | h4 | h4
    · subst h4; exact absurd hA hdA
    · omega
    · omega

theorem insert_spec {s : State} {P Q : List Blk} {b : Blk} {fl : List Nat}
    (h : Inv s (P ++ b :: Q) fl) (hb : b.st = St.D)
    (hadj : ∀ c ∈ P ++ Q, (c.ptr + c.sz = b.ptr ∨ b.ptr + b.sz = c.ptr) →
      c.st ≠ St.F) :
    ∃ m', insert_free_block s b.ptr = .ok (s.withMem m') ∧
      Inv (s.withMem m') (P ++ { b with st := St.F } :: Q) (b.ptr :: fl) ∧
      LinkFrame s (P ++ b :: Q) m' := by
  have hbL : b ∈ P ++ b :: Q := by simp
  have fb := h.facts hbL
  have hbf := h.brk_facts
  have hvl := h.valid_links hbL
  have hhead := FL_head h.fl_ok
  have hvh : s.mem (s.mem_heap + 8) ≠ 0 → valid s (s.mem (s.mem_heap + 8) + 4) := by
    intro h0
    rcases hhead with ⟨h1, _⟩ | ⟨_, r, h1⟩
    · exact absurd h1 h0
    · have : s.mem (s.mem_heap + 8) ∈ fl := by rw [h1]; simp
      have := h.fl_facts this
      unfold valid; omega
  obtain ⟨m', he, hm⟩ := insert_exec h.froot h.valid_root hvl.1 hvl.2 hvh hbf.2.2.1
  have hnotin : b.ptr ∉ fl := by
    intro hin
    obtain ⟨c, hc, hcp, hcF⟩ := h.fl_blk hin
    have := h.ptr_inj hc hbL hcp
    subst this
    rw [hb] at hcF; exact absurd hcF (by decide)
  have hsep : ∀ c ∈ fl, c + 16 ≤ b.ptr ∨ b.ptr + 16 ≤ c := by
    intro c hc
    obtain ⟨d, hd, hdp, hdF⟩ := h.fl_blk hc
    have fd := h.facts hd
    rcases h.disj hd hbL with h1 | h1 | h1
    · subst h1; rw [hb] at hdF; exact absurd hdF (by decide)
    · omega
    · omega
  have hm0 : s.mem (s.mem_heap + 8) = 0 → m' = upd (upd (upd s.mem b.ptr 0) (b.ptr + 4) 0)
      (s.mem_heap + 8) b.ptr := by
    intro h0; rw [hm]; simp only [h0, ne_eq, not_true_eq_false, if_false]
  have hm1 : s.mem (s.mem_heap + 8) ≠ 0 → m' = upd (upd (upd (upd s.mem
      (s.mem (s.mem_heap + 8) + 4) b.ptr) b.ptr (s.mem (s.mem_heap + 8))) (b.ptr + 4) 0)
      (s.mem_heap + 8) b.ptr := by
    intro h0; rw [hm]; simp only [h0, ne_eq, not_false_eq_true, if_true]
  have hframe : LinkFrame s (P ++ b :: Q) m' := by
    intro x
    by_cases h1 : x = s.mem_heap + 8
    · exact Or.inr (Or.inl h1)
    by_cases h2 : x = b.ptr
    · exact Or.inr (Or.inr ⟨b, hbL, by rw [hb]; decide, Or.inl h2⟩)
    by_cases h3 : x = b.ptr + 4
    · exact Or.inr (Or.inr ⟨b, hbL, by rw [hb]; decide, Or.inr h3⟩)
    rcases hhead with ⟨h0, _⟩ | ⟨h0, r, hr⟩
    · left
      rw [hm0 h0, upd_ne h1, upd_ne h3, upd_ne h2]
    · by_cases h4 : x = s.mem (s.mem_heap + 8) + 4
      · have hin : s.mem (s.mem_heap + 8) ∈ fl := by rw [hr]; simp
        obtain ⟨d, hd, hdp, hdF⟩ := h.fl_blk hin
        exact Or.inr (Or.inr ⟨d, hd, by rw [hdF]; decide, Or.inr (by rw [hdp]; exact h4)⟩)
      · left
        rw [hm1 h0, upd_ne h1, upd_ne h3, upd_ne h2, upd_ne h4]
  refine ⟨m', he, ?_, hframe⟩
  have hbA : b.st ≠ St.A := by rw [hb]; decide
  refine Inv_relink (B := { b with st := St.F }) h rfl rfl hbA (by simp) m' hframe
    ?_ ?_ ?_ ?_
  · -- the new list
    have e0 : m' (s.mem_heap + 8) = b.ptr := by rw [hm]; simp [upd]
    rw [e0]
    rcases hhead with ⟨h0, hnil⟩ | ⟨h0, r, hr⟩
    · refine FL_insert h.fl_ok h.nodup (by omega) ?_ ?_ ?_ ?_
      · rw [hm0 h0, upd_ne (by omega), upd_ne (by omega), upd_same, h0]
      · rw [hm0 h0, upd_ne (by omega), upd_same]
      · intro hh; exact absurd h0 hh
      · intro c hc; rw [hnil] at hc; simp at hc
    · have hin : s.mem (s.mem_heap + 8) ∈ fl := by rw [hr]; simp
      have f1 := h.fl_facts hin
      have f2 := hsep _ hin
      refine FL_insert h.fl_ok h.nodup (by omega) ?_ ?_ ?_ ?_
      · rw [hm1 h0, upd_ne (by omega), upd_ne (by omega), upd_same]
      · rw [hm1 h0, upd_ne (by omega), upd_same]
      · intro _
        rw [hm1 h0, upd_ne (by omega), upd_ne (by omega), upd_ne (by omega), upd_same]
      · intro c hc
        have f3 := h.fl_facts hc
        have f4 := hsep c hc
        have f5 := h.fl_sep hc hin
        constructor
        · rw [hm1 h0, upd_ne (by omega), upd_ne (by omega), upd_ne (by omega),
            upd_ne (by omega)]
        · intro hne
          rw [hm1 h0, upd_ne (by omega), upd_ne (by omega), upd_ne (by omega),
            upd_ne (by omega)]
  · exact List.nodup_cons.2 ⟨hnotin, h.nodup⟩
  · intro p
    simp only [List.mem_cons, List.mem_append]
    constructor
    · rintro (hp | hp)
      · exact ⟨{ b with st := St.F }, Or.inr (Or.inl rfl), hp.symm, rfl⟩
      · obtain ⟨c, hc, hcp, hcF⟩ := h.fl_blk hp
        simp only [List.mem_cons, List.mem_append] at hc
        rcases hc with hc | hc | hc
        · exact ⟨c, Or.inl hc, hcp, hcF⟩
        · subst hc; rw [hb] at hcF; exact absurd hcF (by decide)
        · exact ⟨c, Or.inr (Or.inr hc), hcp, hcF⟩
    · rintro ⟨c, hc, hcp, hcF⟩
      rcases hc with hc | hc | hc
      · right; exact (h.fl_iff p).2 ⟨c, by simp [hc], hcp, hcF⟩
      · left; rw [← hcp, hc]
      · right; exact (h.fl_iff p).2 ⟨c, by simp [hc], hcp, hcF⟩
  · intro _ c hc hcb
    exact hadj c hc hcb

theorem delete_spec {s : State} {pre post : List Blk} {b : Blk} {fl : List Nat}
    (h : Inv s (pre ++ b :: post) fl) (hb : b.st = St.F) :
    ∃ m', delete_free_block s b.ptr = .ok (s.withMem m') ∧
      Inv (s.withMem m') (pre ++ { b with st := St.D } :: post) (fl.erase b.ptr) ∧
      LinkFrame s (pre ++ b :: post) m' ∧ m' b.ptr = 0 ∧ m' (b.ptr + 4) = 0 := by
  have hbL : b ∈ pre ++ b :: post := by simp
  have fb := h.facts hbL
  have hbf := h.brk_facts
  have hvl := h.valid_links hbL
  have hp : b.ptr ∈ fl := (h.fl_iff _).2 ⟨b, hbL, rfl, hb⟩
  have h0fl : (0 : Nat) ∉ fl := fun h0 => FL_ne_zero h.fl_ok 0 h0 rfl
  have hprev := FL_prev_mem h.fl_ok hp
  have hnext := FL_next_mem h.fl_ok hp
  have hnext_ne := FL_next_ne h.fl_ok h.nodup hp
  have hprev_ne := FL_prev_ne h.fl_ok h.nodup h0fl hp
  have hprev_in : s.mem (b.ptr + 4) ≠ 0 → s.mem (b.ptr + 4) ∈ fl := by
    intro hne
    rcases hprev with ⟨_, h2⟩ | ⟨_, h2⟩
    · exact absurd h2 hne
    · exact h2
  have hnext_in : s.mem b.ptr ≠ 0 → s.mem b.ptr ∈ fl := by
    intro hne
    rcases hnext with h2 | h2
    · exact absurd h2 hne
    · exact h2
  have hprev_zero : s.mem (b.ptr + 4) = 0 ↔ s.mem (s.mem_heap + 8) = b.ptr := by
    rcases hprev with ⟨h1, h2⟩ | ⟨h1, h2⟩
    · exact ⟨fun _ => h1, fun _ => h2⟩
    · constructor
      · intro h3; rw [h3] at h2; exact absurd h2 h0fl
      · intro h3; exact absurd h3 h1
  have hvprev : s.mem (b.ptr + 4) ≠ 0 → valid s (s.mem (b.ptr + 4)) := by
    intro hne
    have := h.fl_facts (hprev_in hne)
    unfold valid; omega
  have hvnext : s.mem b.ptr ≠ 0 → valid s (s.mem b.ptr + 4) := by
    intro hne
    have := h.fl_facts (hnext_in hne)
    unfold valid; omega
  obtain ⟨m', he, hm⟩ := delete_exec h.froot h.valid_root hvl.1 hvl.2 hvprev hvnext
    hbf.2.2.1
  -- the four shapes of the new memory
  have hmA : s.mem (b.ptr + 4) = 0 → s.mem b.ptr = 0 →
      m' = upd (upd (upd s.mem (s.mem_heap + 8) 0) b.ptr 0) (b.ptr + 4) 0 := by
    intro h1 h2; rw [hm]
    simp only [h1, h2, ne_eq, not_true_eq_false, and_self, if_false, and_false, false_and]
  have hmB : s.mem (b.ptr + 4) = 0 → s.mem b.ptr ≠ 0 →
      m' = upd (upd (upd (upd s.mem (s.mem b.ptr + 4) 0) (s.mem_heap + 8) (s.mem b.ptr))
        b.ptr 0) (b.ptr + 4) 0 := by
    intro h1 h2; rw [hm]
    simp only [h1, h2, ne_eq, not_true_eq_false, not_false_eq_true, and_self, if_false,
      and_false, false_and, and_true, true_and, if_true]
  have hmC : s.mem (b.ptr + 4) ≠ 0 → s.mem b.ptr = 0 →
      m' = upd (upd (upd s.mem (s.mem (b.ptr + 4)) 0) b.ptr 0) (b.ptr + 4) 0 := by
    intro h1 h2; rw [hm]
    simp only [h1, h2, ne_eq, not_true_eq_false, not_false_eq_true, and_self, if_false,
      and_false, false_and, and_true, true_and, if_true]
  have hmD : s.mem (b.ptr + 4) ≠ 0 → s.mem b.ptr ≠ 0 →
      m' = upd (upd (upd (upd s.mem (s.mem b.ptr + 4) (s.mem (b.ptr + 4)))
        (s.mem (b.ptr + 4)) (s.mem b.ptr)) b.ptr 0) (b.ptr + 4) 0 := by
    intro h1 h2; rw [hm]
    simp only [h1, h2, ne_eq, not_true_eq_false, not_false_eq_true, and_self, if_false,
      and_false, false_and, and_true, true_and, if_true]
  -- separation of the nodes involved
  have sepP : s.mem (b.ptr + 4) ≠ 0 →
      s.mem_heap + 24 ≤ s.mem (b.ptr + 4) ∧
      (s.mem (b.ptr + 4) + 16 ≤ b.ptr ∨ b.ptr + 16 ≤ s.mem (b.ptr + 4)) := by
    intro hne
    have f1 := h.fl_facts (hprev_in hne)
    have f2 := h.fl_sep (hprev_in hne) hp
    omega
  have sepN : s.mem b.ptr ≠ 0 →
      s.mem_heap + 24 ≤ s.mem b.ptr ∧
      (s.mem b.ptr + 16 ≤ b.ptr ∨ b.ptr + 16 ≤ s.mem b.ptr) := by
    intro hne
    have f1 := h.fl_facts (hnext_in hne)
    have f2 := h.fl_sep (hnext_in hne) hp
    omega
  have sepPN : s.mem (b.ptr + 4) ≠ 0 → s.mem b.ptr ≠ 0 →
      s.mem (b.ptr + 4) = s.mem b.ptr ∨ s.mem (b.ptr + 4) + 16 ≤ s.mem b.ptr ∨
      s.mem b.ptr + 16 ≤ s.mem (b.ptr + 4) := fun h1 h2 =>
    h.fl_sep (hprev_in h1) (hnext_in h2)
  have S1 : s.mem b.ptr ≠ 0 → m' (s.mem b.ptr + 4) = s.mem (b.ptr + 4) := by
    intro h2
    have n1 := sepN h2
    by_cases h1 : s.mem (b.ptr + 4) = 0
    · rw [hmB h1 h2, upd_ne (by omega), upd_ne (by omega), upd_ne (by omega), upd_same, h1]
    · have n2 := sepP h1
      have n3 := sepPN h1 h2
      rw [hmD h1 h2, upd_ne (by omega), upd_ne (by omega), upd_ne (by omega), upd_same]
  have S2 : s.mem (b.ptr + 4) ≠ 0 → m' (s.mem (b.ptr + 4)) = s.mem b.ptr := by
    intro h1
    have n2 := sepP h1
    by_cases h2 : s.mem b.ptr = 0
    · rw [hmC h1 h2, upd_ne (by omega), upd_ne (by omega), upd_same, h2]
    · rw [hmD h1 h2, upd_ne (by omega), upd_ne (by omega), upd_same]
  have S3 : m' (s.mem_heap + 8) =
      if s.mem (s.mem_heap + 8) = b.ptr then s.mem b.ptr else s.mem (s.mem_heap + 8) := by
    by_cases h1 : s.mem (b.ptr + 4) = 0
    · rw [if_pos (hprev_zero.1 h1)]
      by_cases h2 : s.mem b.ptr = 0
      · rw [hmA h1 h2, upd_ne (by omega), upd_ne (by omega), upd_same, h2]
      · rw [hmB h1 h2, upd_ne (by omega), upd_ne (by omega), upd_same]
    · rw [if_neg (fun hh => h1 (hprev_zero.2 hh))]
      have n2 := sepP h1
      by_cases h2 : s.mem b.ptr = 0
      · rw [hmC h1 h2, upd_ne (by omega), upd_ne (by omega), upd_ne (by omega)]
      · have n1 := sepN h2
        rw [hmD h1 h2, upd_ne (by omega), upd_ne (by omega), upd_ne (by omega),
          upd_ne (by omega)]
  have S4 : ∀ c ∈ fl, c ≠ b.ptr → (c ≠ s.mem (b.ptr + 4) → m' c = s.mem c) ∧
      (c ≠ s.mem b.ptr → m' (c + 4) = s.mem (c + 4)) := by
    intro c hc hcb
    have f1 := h.fl_facts hc
    have f2 := h.fl_sep hc hp
    by_cases h1 : s.mem (b.ptr + 4) = 0 <;> by_cases h2 : s.mem b.ptr = 0
    · rw [hmA h1 h2]
      constructor
      · intro _; rw [upd_ne (by omega), upd_ne (by omega), upd_ne (by omega)]
      · intro _; rw [upd_ne (by omega), upd_ne (by omega), upd_ne (by omega)]
    · have n1 := sepN h2
      have n3 := h.fl_sep hc (hnext_in h2)
      rw [hmB h1 h2]
      constructor
      · intro _
        rw [upd_ne (by omega), upd_ne (by omega), upd_ne (by omega), upd_ne (by omega)]
      · intro _
        rw [upd_ne (by omega), upd_ne (by omega), upd_ne (by omega), upd_ne (by omega)]
    · have n2 := sepP h1
      have n3 := h.fl_sep hc (hprev_in h1)
      rw [hmC h1 h2]
      constructor
      · intro _; rw [upd_ne (by omega), upd_ne (by omega), upd_ne (by omega)]
      · intro _; rw [upd_ne (by omega), upd_ne (by omega), upd_ne (by omega)]
    · have n1 := sepN h2
      have n2 := sepP h1
      have n3 := h.fl_sep hc (hnext_in h2)
      have n4 := h.fl_sep hc (hprev_in h1)
      rw [hmD h1 h2]
      constructor
      · intro _
        rw [upd_ne (by omega), upd_ne (by omega), upd_ne (by omega), upd_ne (by omega)]
      · intro _
        rw [upd_ne (by omega), upd_ne (by omega), upd_ne (by omega), upd_ne (by omega)]
  have hframe : LinkFrame s (pre ++ b :: post) m' := by
    intro x
    have hbA : b.st ≠ St.A := by rw [hb]; decide
    by_cases x1 : x = s.mem_heap + 8
    · exact Or.inr (Or.inl x1)
    by_cases x2 : x = b.ptr
    · exact Or.inr (Or.inr ⟨b, hbL, hbA, Or.inl x2⟩)
    by_cases x3 : x = b.ptr + 4
    · exact Or.inr (Or.inr ⟨b, hbL, hbA, Or.inr x3⟩)
    by_cases x4 : s.mem (b.ptr + 4) ≠ 0 ∧ x = s.mem (b.ptr + 4)
    · obtain ⟨d, hd, hdp, hdF⟩ := h.fl_blk (hprev_in x4.1)
      exact Or.inr (Or.inr ⟨d, hd, by rw [hdF]; decide, Or.inl (by rw [hdp]; exact x4.2)⟩)
    by_cases x5 : s.mem b.ptr ≠ 0 ∧ x = s.mem b.ptr + 4
    · obtain ⟨d, hd, hdp, hdF⟩ := h.fl_blk (hnext_in x5.1)
      exact Or.inr (Or.inr ⟨d, hd, by rw [hdF]; decide, Or.inr (by rw [hdp]; exact x5.2)⟩)
    left
    by_cases h1 : s.mem (b.ptr + 4) = 0 <;> by_cases h2 : s.mem b.ptr = 0
    · rw [hmA h1 h2, upd_ne x3, upd_ne x2, upd_ne x1]
    · rw [hmB h1 h2, upd_ne x3, upd_ne x2, upd_ne x1, upd_ne (fun hh => x5 ⟨h2, hh⟩)]
    · rw [hmC h1 h2, upd_ne x3, upd_ne x2, upd_ne (fun hh => x4 ⟨h1, hh⟩)]
    · rw [hmD h1 h2, upd_ne x3, upd_ne x2, upd_ne (fun hh => x4 ⟨h1, hh⟩),
        upd_ne (fun hh => x5 ⟨h2, hh⟩)]
  have hz1 : m' b.ptr = 0 := by rw [hm, upd_ne (by omega), upd_same]
  have hz2 : m' (b.ptr + 4) = 0 := by rw [hm, upd_same]
  refine ⟨m', he, ?_, hframe, hz1, hz2⟩
  obtain ⟨hc1, hc3⟩ := Chain_split h.chain
  have hbA : b.st ≠ St.A := by rw [hb]; decide
  refine Inv_relink (B := { b with st := St.D }) h rfl rfl hbA (by simp) m' hframe
    ?_ (h.nodup.erase _) ?_ ?_
  · rw [S3]
    exact FL_delete h.fl_ok h.nodup hp h0fl S1 S2 S4
  · intro q
    rw [h.nodup.mem_erase_iff]
    simp only [List.mem_cons, List.mem_append]
    constructor
    · rintro ⟨hq, hqfl⟩
      obtain ⟨c, hc, hcp, hcF⟩ := h.fl_blk hqfl
      simp only [List.mem_cons, List.mem_append] at hc
      rcases hc with hc | hc | hc
      · exact ⟨c, Or.inl hc, hcp, hcF⟩
      · subst hc; exact absurd hcp.symm hq
      · exact ⟨c, Or.inr (Or.inr hc), hcp, hcF⟩
    · rintro ⟨c, hc, hcp, hcF⟩
      rcases hc with hc | hc | hc
      · have := (Chain_mem hc1 hc).2
        have := h.pos c (by simp [hc])
        refine ⟨by omega, (h.fl_iff q).2 ⟨c, by simp [hc], hcp, hcF⟩⟩
      · subst hc; simp at hcF
      · have := (Chain_mem hc3 hc).1
        refine ⟨by omega, (h.fl_iff q).2 ⟨c, by simp [hc], hcp, hcF⟩⟩
  · intro hF; simp at hF

/-! ## Reading boundary tags -/

theorem HEADER_PTR_eq {p : Nat} (h : 4 ≤ p) (hlt : p < 4294967296) :
    HEADER_PTR p = p - 4 := by
  unfold HEADER_PTR WORDSIZE; exact sub32_eq h hlt

/-- The four macros that read the header of the block at `p`, when the header word holds
`sz + t`. -/
theorem hdr_reads {s : State} {p z t : Nat} (hlo : s.mem_heap + 4 ≤ p)
    (hal : (p - s.mem_heap) % 4 = 0) (hend : p ≤ s.mem_brk) (hlt : s.mem_brk < 4294967296)
    (hm : s.mem (p - 4) = z + t) (h8 : z % 8 = 0) (ht : t ≤ 1) (hsz : 8 ≤ p + z)
    (hsz' : p + z < 4294967296) :
    GET_SIZE s (HEADER_PTR p) = .ok z ∧ GET_IS_ALLOCATED s (HEADER_PTR p) = .ok t ∧
    FOOTER_PTR s p = .ok (p + z - 8) ∧ NEXT_BLOCK_PTR s p = .ok (p + z) := by
  have hv : valid s (p - 4) := by unfold valid; omega
  have e1 : HEADER_PTR p = p - 4 := HEADER_PTR_eq (by omega) (by omega)
  have e2 : sub32 p WORDSIZE = p - 4 := e1
  have g1 : GET_SIZE s (p - 4) = .ok z := GET_SIZE_ok hv hm h8 ht (by omega)
  have g2 : GET_IS_ALLOCATED s (p - 4) = .ok t := GET_IS_ALLOCATED_ok hv hm h8 ht
  refine ⟨by rw [e1]; exact g1, by rw [e1]; exact g2, ?_, ?_⟩
  · unfold FOOTER_PTR
    rw [e1, g1]
    simp only [ok_bind, pure_ok, DWORDSIZE]
    rw [add32_eq (by omega), sub32_eq (by omega) (by omega)]
  · unfold NEXT_BLOCK_PTR
    rw [e2, g1]
    simp only [ok_bind, pure_ok]
    rw [add32_eq (by omega)]

/-- `PREV_BLOCK_PTR` at `p`, when the footer word below `p` holds `sz + t`. -/
theorem prev_read {s : State} {p z t : Nat} (hlo : s.mem_heap + 8 ≤ p)
    (hal : (p - s.mem_heap) % 4 = 0) (hend : p ≤ s.mem_brk)
    (hlt : s.mem_brk < 4294967296)
    (hm : s.mem (p - 8) = z + t) (h8 : z % 8 = 0) (ht : t ≤ 1) (hsz : z ≤ p) :
    PREV_BLOCK_PTR s p = .ok (p - z) := by
  have hv : valid s (p - 8) := by unfold valid; omega
  unfold PREV_BLOCK_PTR DWORDSIZE
  rw [sub32_eq (by omega) (by omega), GET_SIZE_ok hv hm h8 ht (by omega)]
  simp only [ok_bind, pure_ok]
  rw [sub32_eq (by omega) (by omega)]

theorem Blk.tag_eq (b : Blk) : b.tag = b.sz + (if b.st = St.A then 1 else 0) := rfl

theorem Blk.bit_le (b : Blk) : (if b.st = St.A then 1 else 0) ≤ 1 := by
  split <;> omega

/-- The macros on a block of a heap that satisfies the invariant. -/
theorem Inv.reads {s : State} {L : List Blk} {fl : List Nat} (h : Inv s L fl) {b : Blk}
    (hb : b ∈ L) :
    GET_SIZE s (HEADER_PTR b.ptr) = .ok b.sz ∧
    GET_IS_ALLOCATED s (HEADER_PTR b.ptr) = .ok (if b.st = St.A then 1 else 0) ∧
    FOOTER_PTR s b.ptr = .ok (b.ptr + b.sz - 8) ∧
    NEXT_BLOCK_PTR s b.ptr = .ok (b.ptr + b.sz) := by
  have f := h.facts hb
  have t := (h.blk b hb).2.2.1
  exact hdr_reads (by omega) (by omega) (by omega) f.2.2.2.2.2 t f.2.2.2.2.1 b.bit_le
    (by omega) (by omega)

@[simp] theorem prevPtr_nil (s : State) : prevPtr s [] = s.mem_heap + 16 := rfl
@[simp] theorem prevSz_nil : prevSz [] = 8 := rfl
@[simp] theorem prevBit_nil : prevBit [] = 1 := rfl
@[simp] theorem prevPtr_snoc (s : State) (l : List Blk) (c : Blk) :
    prevPtr s (l ++ [c]) = c.ptr := by simp [prevPtr]
@[simp] theorem prevSz_snoc (l : List Blk) (c : Blk) : prevSz (l ++ [c]) = c.sz := by
  simp [prevSz]
@[simp] theorem prevBit_snoc (l : List Blk) (c : Blk) : prevBit (l ++ [c]) = c.bit := by
  simp [prevBit]
@[simp] theorem nextSz_nil : nextSz [] = 0 := rfl
@[simp] theorem nextBit_nil : nextBit [] = 1 := rfl
@[simp] theorem nextSz_cons (n : Blk) (l : List Blk) : nextSz (n :: l) = n.sz := rfl
@[simp] theorem nextBit_cons (n : Blk) (l : List Blk) : nextBit (n :: l) = n.bit := rfl

theorem Blk.bit_le_one (b : Blk) : b.bit ≤ 1 := by unfold Blk.bit; split <;> omega

theorem Blk.tag_bit_eq (b : Blk) : b.tag = b.sz + b.bit := rfl

theorem Blk.bit_eq_one {b : Blk} : b.bit = 1 ↔ b.st = St.A := by
  unfold Blk.bit; split <;> simp_all

theorem Blk.bit_eq_zero {b : Blk} : b.bit = 0 ↔ b.st ≠ St.A := by
  unfold Blk.bit; split <;> simp_all

/-- The block in front of `b` (a block of the heap or the prologue) ends where `b`
starts, and its tags are in memory. -/
theorem Inv.prev_facts {s : State} {pre post : List Blk} {b : Blk} {fl : List Nat}
    (h : Inv s (pre ++ b :: post) fl) :
    prevPtr s pre + prevSz pre = b.ptr ∧ s.mem_heap + 16 ≤ prevPtr s pre ∧
    8 ≤ prevSz pre ∧ prevSz pre % 8 = 0 ∧ prevBit pre ≤ 1 ∧
    s.mem (prevPtr s pre - 4) = prevSz pre + prevBit pre ∧
    s.mem (b.ptr - 8) = prevSz pre + prevBit pre := by
  obtain ⟨hc1, hc3⟩ := Chain_split h.chain
  rcases List.eq_nil_or_concat pre with hpre | ⟨pre', c, hpre⟩
  · subst hpre
    have e : s.mem_heap + 24 = b.ptr := by simpa [Chain] using hc1
    refine ⟨?_, ?_, ?_, ?_, ?_, ?_, ?_⟩
    · show s.mem_heap + 16 + 8 = b.ptr; omega
    · show s.mem_heap + 16 ≤ s.mem_heap + 16; omega
    · show 8 ≤ 8; omega
    · show 8 % 8 = 0; rfl
    · show 1 ≤ 1; omega
    · show s.mem (s.mem_heap + 16 - 4) = 8 + 1
      have := h.pro_h
      rw [show s.mem_heap + 16 - 4 = s.mem_heap + 12 by omega]; exact this
    · show s.mem (b.ptr - 8) = 8 + 1
      have := h.pro_f
      rw [show b.ptr - 8 = s.mem_heap + 16 by omega]; exact this
  · rw [List.concat_eq_append] at hpre
    subst hpre
    have hcL : c ∈ pre' ++ [c] ++ b :: post := by simp
    have fc := h.facts hcL
    have tc := h.blk c hcL
    have hadjc : c.ptr + c.sz = b.ptr := Chain_snoc hc1
    simp only [prevPtr_snoc, prevSz_snoc, prevBit_snoc]
    refine ⟨hadjc, by omega, by omega, fc.2.2.2.2.1, c.bit_le_one, tc.2.2.1, ?_⟩
    rw [← hadjc]; exact tc.2.2.2

/-- When the allocation bit in front of `b` is set, no block that ends at `b` is free. -/
theorem Inv.prev_alloc {s : State} {pre post : List Blk} {b : Blk} {fl : List Nat}
    (h : Inv s (pre ++ b :: post) fl) (hbit : prevBit pre = 1) :
    ∀ c ∈ pre ++ post, c.ptr + c.sz = b.ptr → c.st = St.A := by
  obtain ⟨hc1, hc3⟩ := Chain_split h.chain
  have hbL : b ∈ pre ++ b :: post := by simp
  have hbpos := h.pos b hbL
  intro d hd hh
  simp only [List.mem_append] at hd
  rcases hd with hd | hd
  · rcases List.eq_nil_or_concat pre with hpre | ⟨pre', c, hpre⟩
    · subst hpre; simp at hd
    · rw [List.concat_eq_append] at hpre
      subst hpre
      have hcL : c ∈ pre' ++ [c] ++ b :: post := by simp
      simp only [prevBit_snoc] at hbit
      simp only [List.mem_append, List.mem_singleton] at hd
      rcases hd with hd | hd
      · have := (Chain_mem (Chain_split hc1).1 hd).2
        have := h.pos c hcL
        have : c.ptr + c.sz = b.ptr := Chain_snoc hc1
        omega
      · rw [hd]; exact Blk.bit_eq_one.1 hbit
  · have := (Chain_mem hc3 hd).1
    have := h.pos d (by simp [hd])
    omega

/-- The header that follows `b` (that of a block of the heap or the epilogue). -/
theorem Inv.next_facts {s : State} {pre post : List Blk} {b : Blk} {fl : List Nat}
    (h : Inv s (pre ++ b :: post) fl) :
    s.mem (b.ptr + b.sz - 4) = nextSz post + nextBit post ∧ nextSz post % 8 = 0 ∧
    nextBit post ≤ 1 ∧ b.ptr + b.sz + nextSz post ≤ s.mem_brk := by
  obtain ⟨hc1, hc3⟩ := Chain_split h.chain
  cases post with
  | nil =>
    have e : b.ptr + b.sz = s.mem_brk := by simpa [Chain] using hc3
    refine ⟨?_, ?_, ?_, ?_⟩
    · show s.mem (b.ptr + b.sz - 4) = 0 + 1
      rw [e]; simpa using h.epi
    · show 0 % 8 = 0; rfl
    · show 1 ≤ 1; omega
    · show b.ptr + b.sz + 0 ≤ s.mem_brk; omega
  | cons n post' =>
    have hnL : n ∈ pre ++ b :: n :: post' := by simp
    have fn := h.facts hnL
    have tn := h.blk n hnL
    have hn : n.ptr = b.ptr + b.sz := hc3.1
    simp only [nextSz_cons, nextBit_cons]
    refine ⟨?_, fn.2.2.2.2.1, n.bit_le_one, by omega⟩
    rw [← hn]; exact tn.2.2.1

/-- When the allocation bit after `b` is set, no block that starts where `b` ends is
free. -/
theorem Inv.next_alloc {s : State} {pre post : List Blk} {b : Blk} {fl : List Nat}
    (h : Inv s (pre ++ b :: post) fl) (hbit : nextBit post = 1) :
    ∀ c ∈ pre ++ post, b.ptr + b.sz = c.ptr → c.st = St.A := by
  obtain ⟨hc1, hc3⟩ := Chain_split h.chain
  have hbL : b ∈ pre ++ b :: post := by simp
  have hbpos := h.pos b hbL
  intro d hd hh
  simp only [List.mem_append] at hd
  rcases hd with hd | hd
  · have := (Chain_mem hc1 hd).2
    have := h.pos d (by simp [hd])
    omega
  · cases post with
    | nil => simp at hd
    | cons n post' =>
      have hnL : n ∈ pre ++ b :: n :: post' := by simp
      simp only [nextBit_cons] at hbit
      rcases List.mem_cons.1 hd with hd | hd
      · rw [hd]; exact Blk.bit_eq_one.1 hbit
      · have := (Chain_mem hc3.2 hd).1
        have := h.pos n hnL
        have : n.ptr = b.ptr + b.sz := hc3.1
        omega

/-! ## `coalesce` -/

/-- `coalesce` once its eleven reads are resolved: the four-way case distinction on the
allocation bits of the neighbours. -/
theorem coalesce_unfold {s : State} {p size pp psz np nsz pbit nbit pf : Nat}
    (h1 : GET_SIZE s (HEADER_PTR p) = .ok size)
    (h2 : PREV_BLOCK_PTR s p = .ok pp)
    (h3 : FOOTER_PTR s pp = .ok pf)
    (h4 : GET_SIZE s pf = .ok psz)
    (h5 : NEXT_BLOCK_PTR s p = .ok np)
    (h6 : GET_SIZE s (HEADER_PTR np) = .ok nsz)
    (h7 : GET_IS_ALLOCATED s pf = .ok pbit)
    (h8 : GET_IS_ALLOCATED s (HEADER_PTR np) = .ok nbit) :
    coalesce s p =
      if pbit ≠ 0 ∧ nbit ≠ 0 then do
        let s ← insert_free_block s p
        pure (p, s)
      else if pbit ≠ 0 ∧ ¬ nbit ≠ 0 then do
        let s ← delete_free_block s np
        let s ← PUT s (HEADER_PTR p) (add32 size nsz ||| FREE)
        let fp ← FOOTER_PTR s np
        let s ← PUT s fp (add32 size nsz ||| FREE)
        let s ← insert_free_block s p
        pure (p, s)
      else if ¬ pbit ≠ 0 ∧ nbit ≠ 0 then do
        let s ← delete_free_block s pp
        let s ← PUT s (HEADER_PTR pp) (add32 size psz ||| FREE)
        let fp ← FOOTER_PTR s p
        let s ← PUT s fp (add32 size psz ||| FREE)
        let s ← insert_free_block s pp
        pure (pp, s)
      else if ¬ pbit ≠ 0 ∧ ¬ nbit ≠ 0 then do
        let s ← delete_free_block s pp
        let s ← delete_free_block s np
        let s ← PUT s (HEADER_PTR pp) (add32 (add32 size psz) nsz ||| FREE)
        let fp ← FOOTER_PTR s np
        let s ← PUT s fp (add32 (add32 size psz) nsz ||| FREE)
        let s ← insert_free_block s pp
        pure (pp, s)
      else pure (NULL, s) := by
  unfold coalesce
  simp only [h1, h2, h3, h4, h5, h6, h7, h8, ok_bind]

/-- The reads of `coalesce` on a block of a heap that satisfies the invariant. -/
theorem Inv.coalesce_reads {s : State} {pre post : List Blk} {b : Blk} {fl : List Nat}
    (h : Inv s (pre ++ b :: post) fl) :
    GET_SIZE s (HEADER_PTR b.ptr) = .ok b.sz ∧
    PREV_BLOCK_PTR s b.ptr = .ok (prevPtr s pre) ∧
    FOOTER_PTR s (prevPtr s pre) = .ok (b.ptr - 8) ∧
    GET_SIZE s (b.ptr - 8) = .ok (prevSz pre) ∧
    NEXT_BLOCK_PTR s b.ptr = .ok (b.ptr + b.sz) ∧
    GET_SIZE s (HEADER_PTR (b.ptr + b.sz)) = .ok (nextSz post) ∧
    GET_IS_ALLOCATED s (b.ptr - 8) = .ok (prevBit pre) ∧
    GET_IS_ALLOCATED s (HEADER_PTR (b.ptr + b.sz)) = .ok (nextBit post) := by
  have hbL : b ∈ pre ++ b :: post := by simp
  have fb := h.facts hbL
  have rb := h.reads hbL
  obtain ⟨p1, p2, p3, p4, p5, p6, p7⟩ := h.prev_facts
  obtain ⟨n1, n2, n3, n4⟩ := h.next_facts
  have hvpf : valid s (b.ptr - 8) := by unfold valid; omega
  have hvnh : valid s (b.ptr + b.sz - 4) := by unfold valid; omega
  have rp := hdr_reads (s := s) (p := prevPtr s pre) (z := prevSz pre) (t := prevBit pre)
    (by omega) (by omega) (by omega) fb.2.2.2.2.2 p6 p4 p5 (by omega) (by omega)
  have enh : HEADER_PTR (b.ptr + b.sz) = b.ptr + b.sz - 4 :=
    HEADER_PTR_eq (by omega) (by omega)
  refine ⟨rb.1, ?_, ?_, ?_, rb.2.2.2, ?_, ?_, ?_⟩
  · have := prev_read (s := s) (p := b.ptr) (z := prevSz pre) (t := prevBit pre)
      (by omega) (by omega) (by omega) fb.2.2.2.2.2 p7 p4 p5 (by omega)
    rw [this, show b.ptr - prevSz pre = prevPtr s pre by omega]
  · rw [rp.2.2.1, show prevPtr s pre + prevSz pre - 8 = b.ptr - 8 by omega]
  · exact GET_SIZE_ok hvpf p7 p4 p5 (by omega)
  · rw [enh]; exact GET_SIZE_ok hvnh n1 n2 n3 (by omega)
  · exact GET_IS_ALLOCATED_ok hvpf p7 p4 p5
  · rw [enh]; exact GET_IS_ALLOCATED_ok hvnh n1 n2 n3

/-- `coalesce` on a detached block of a heap that satisfies the invariant, with its
reads resolved. -/
theorem Inv.coalesce_eq {s : State} {pre post : List Blk} {b : Blk} {fl : List Nat}
    (h : Inv s (pre ++ b :: post) fl) :
    coalesce s b.ptr =
      if prevBit pre ≠ 0 ∧ nextBit post ≠ 0 then do
        let s1 ← insert_free_block s b.ptr
        pure (b.ptr, s1)
      else if prevBit pre ≠ 0 ∧ ¬ nextBit post ≠ 0 then do
        let s1 ← delete_free_block s (b.ptr + b.sz)
        let s2 ← PUT s1 (HEADER_PTR b.ptr) (add32 b.sz (nextSz post) ||| FREE)
        let fp ← FOOTER_PTR s2 (b.ptr + b.sz)
        let s3 ← PUT s2 fp (add32 b.sz (nextSz post) ||| FREE)
        let s4 ← insert_free_block s3 b.ptr
        pure (b.ptr, s4)
      else if ¬ prevBit pre ≠ 0 ∧ nextBit post ≠ 0 then do
        let s1 ← delete_free_block s (prevPtr s pre)
        let s2 ← PUT s1 (HEADER_PTR (prevPtr s pre)) (add32 b.sz (prevSz pre) ||| FREE)
        let fp ← FOOTER_PTR s2 b.ptr
        let s3 ← PUT s2 fp (add32 b.sz (prevSz pre) ||| FREE)
        let s4 ← insert_free_block s3 (prevPtr s pre)
        pure (prevPtr s pre, s4)
      else if ¬ prevBit pre ≠ 0 ∧ ¬ nextBit post ≠ 0 then do
        let s1 ← delete_free_block s (prevPtr s pre)
        let s2 ← delete_free_block s1 (b.ptr + b.sz)
        let s3 ← PUT s2 (HEADER_PTR (prevPtr s pre))
          (add32 (add32 b.sz (prevSz pre)) (nextSz post) ||| FREE)
        let fp ← FOOTER_PTR s3 (b.ptr + b.sz)
        let s4 ← PUT s3 fp (add32 (add32 b.sz (prevSz pre)) (nextSz post) ||| FREE)
        let s5 ← insert_free_block s4 (prevPtr s pre)
        pure (prevPtr s pre, s5)
      else pure (NULL, s) := by
  obtain ⟨h1, h2, h3, h4, h5, h6, h7, h8⟩ := h.coalesce_reads
  rw [coalesce_unfold h1 h2 h3 h4 h5 h6 h7 h8]

theorem Keeps.trans {m m1 m2 : Nat → Nat} {L L1 L2 : List Blk} (h1 : Keeps m m1 L L1)
    (h2 : Keeps m1 m2 L1 L2) : Keeps m m2 L L2 := by
  intro c hc hA
  obtain ⟨a1, a2⟩ := h1 c hc hA
  obtain ⟨b1, b2⟩ := h2 c a1 hA
  exact ⟨b1, fun x hx hx' => by rw [b2 x hx hx', a2 x hx hx']⟩

theorem Keeps.mono {m m' : Nat → Nat} {L L0 L' : List Blk} (h : Keeps m m' L L')
    (hsub : ∀ c ∈ L0, c.st = St.A → c ∈ L) : Keeps m m' L0 L' :=
  fun c hc hA => h c (hsub c hc hA) hA

theorem Keeps_of_LinkFrame {s : State} {L L' : List Blk} {fl : List Nat} {m' : Nat → Nat}
    (h : Inv s L fl) (hf : LinkFrame s L m') (hsub : ∀ c ∈ L, c.st = St.A → c ∈ L') :
    Keeps s.mem m' L L' :=
  fun c hc hA => ⟨hsub c hc hA, fun _ hx hx' => hf.payload h hc hA hx hx'⟩

/-- Merging a run of detached blocks, from `x` to `y`, into one detached block of size
`T`: the header of `x` and the footer of `y` are rewritten. -/
theorem merge_step {s : State} {P N Q : List Blk} {x y : Blk} {fl : List Nat}
    {T : Nat} (h : Inv s (P ++ x :: (N ++ y :: Q)) fl)
    (hD : ∀ c ∈ x :: (N ++ [y]), c.st = St.D) (hT : x.ptr + T = y.ptr + y.sz) :
    ∃ m', PUT s (HEADER_PTR x.ptr) (T ||| FREE) = .ok (s.withMem (upd s.mem (x.ptr - 4) T)) ∧
      FOOTER_PTR (s.withMem (upd s.mem (x.ptr - 4) T)) y.ptr = .ok (y.ptr + y.sz - 8) ∧
      PUT (s.withMem (upd s.mem (x.ptr - 4) T)) (y.ptr + y.sz - 8) (T ||| FREE) =
        .ok (s.withMem m') ∧
      Inv (s.withMem m') (P ++ ⟨x.ptr, T, St.D⟩ :: Q) fl ∧
      Keeps s.mem m' (P ++ Q) (P ++ ⟨x.ptr, T, St.D⟩ :: Q) := by
  have e : P ++ x :: (N ++ y :: Q) = P ++ (x :: (N ++ [y])) ++ Q := by simp
  have h' := h
  rw [e] at h'
  have hxL : x ∈ P ++ x :: (N ++ y :: Q) := by simp
  have hyL : y ∈ P ++ x :: (N ++ y :: Q) := by simp
  have fx := h.facts hxL
  have fy := h.facts hyL
  have tx := h.blk x hxL
  have ty := h.blk y hyL
  have hxD : x.st = St.D := hD x (by simp)
  have hyD : y.st = St.D := hD y (by simp)
  obtain ⟨m2, hc12, hc3⟩ := Chain_append.1 h'.chain
  obtain ⟨m1, hc1, hc2⟩ := Chain_append.1 hc12
  have hm1 : x.ptr = m1 := hc2.1
  have hm2 : y.ptr + y.sz = m2 := by
    have : Chain m1 ((x :: N) ++ [y]) m2 := by simpa using hc2
    exact Chain_snoc this
  have hxy : x.ptr + x.sz ≤ y.ptr := by
    have : Chain (m1 + x.sz) (N ++ [y]) m2 := hc2.2
    have := (Chain_mem this (b := y) (by simp)).1
    omega
  have hv1 : valid s (x.ptr - 4) := by unfold valid; omega
  have hv2 : valid s (y.ptr + y.sz - 8) := by unfold valid; omega
  have hTlt : T < 4294967296 := by omega
  rw [Blk.tag_of_not_A (by rw [hyD]; decide)] at ty
  refine ⟨upd (upd s.mem (x.ptr - 4) T) (y.ptr + y.sz - 8) T, ?_, ?_, ?_, ?_, ?_⟩
  · rw [HEADER_PTR_eq (by omega) (by omega), or_FREE, PUT_ok hv1 hTlt]
  · refine (hdr_reads (s := s.withMem (upd s.mem (x.ptr - 4) T)) (p := y.ptr) (z := y.sz)
      (t := 0) (by simp only [withMem_heap]; omega) (by simp only [withMem_heap]; omega)
      (by simp only [withMem_brk]; omega) (by simp only [withMem_brk]; omega) ?_ fy.2.2.2.2.1
      (by omega) (by omega) (by omega)).2.2.1
    simp only [withMem_mem]
    rw [upd_ne (by omega)]; exact ty.2.2.1
  · rw [or_FREE, PUT_withMem hv2 hTlt]
  · have key := Inv_rewrite (M := [⟨x.ptr, T, St.D⟩]) h' (a := x.ptr) (e := y.ptr + y.sz)
      (by simp) (by rw [hm1, hm2]; exact hc2) ⟨rfl, hT⟩
      (fun c hc => by rw [hD c hc]; decide) (fun c hc => by
        rw [List.mem_singleton.1 hc]; simp)
      (upd (upd s.mem (x.ptr - 4) T) (y.ptr + y.sz - 8) T) ?_ ?_
    · simpa using key
    · intro c hc
      rw [List.mem_singleton.1 hc]
      simp only [Blk.tag, if_neg (show St.D ≠ St.A by decide), Nat.add_zero]
      refine ⟨by omega, by omega, ?_, ?_⟩
      · rw [upd_ne (by omega), upd_same]
      · rw [show x.ptr + T - 8 = y.ptr + y.sz - 8 by omega, upd_same]
    · intro z hz
      rw [upd_ne (by omega), upd_ne (by omega)]
  · intro c hc hA
    simp only [List.mem_append] at hc
    refine ⟨by simp only [List.mem_append, List.mem_cons]; tauto, ?_⟩
    intro z hz hz'
    rcases hc with hc | hc
    · have := (Chain_mem hc1 hc).2
      rw [upd_ne (by omega), upd_ne (by omega)]
    · have := (Chain_mem hc3 hc).1
      rw [upd_ne (by omega), upd_ne (by omega)]

theorem Keeps_refl_of_frame {m m' : Nat → Nat} {L L' : List Blk}
    (hsub : ∀ c ∈ L, c.st = St.A → c ∈ L')
    (hm : ∀ c ∈ L, c.st = St.A → ∀ x, c.ptr ≤ x → x + 8 < c.ptr + c.sz → m' x = m x) :
    Keeps m m' L L' := fun c hc hA => ⟨hsub c hc hA, hm c hc hA⟩

/-- Case 1 of `coalesce`: both neighbours allocated; the block is inserted as it is. -/
theorem coalesce_case1 {s : State} {P Q : List Blk} {b : Blk} {fl : List Nat}
    (h : Inv s (P ++ b :: Q) fl) (hb : b.st = St.D)
    (hp : prevBit P = 1) (hn : nextBit Q = 1) :
    ∃ m', coalesce s b.ptr = .ok (b.ptr, s.withMem m') ∧
      Inv (s.withMem m') (P ++ { b with st := St.F } :: Q) (b.ptr :: fl) ∧
      Keeps s.mem m' (P ++ b :: Q) (P ++ { b with st := St.F } :: Q) := by
  have hadj : ∀ c ∈ P ++ Q, (c.ptr + c.sz = b.ptr ∨ b.ptr + b.sz = c.ptr) →
      c.st ≠ St.F := by
    intro c hc hh
    rcases hh with hh | hh
    · rw [h.prev_alloc hp c hc hh]; decide
    · rw [h.next_alloc hn c hc hh]; decide
  obtain ⟨m', e1, i1, lf⟩ := insert_spec h hb hadj
  refine ⟨m', ?_, i1, ?_⟩
  · rw [h.coalesce_eq, if_pos ⟨by omega, by omega⟩, e1]; rfl
  · refine Keeps_of_LinkFrame h lf ?_
    intro c hc hA
    simp only [List.mem_append, List.mem_cons] at hc ⊢
    rcases hc with hc | hc | hc
    · exact Or.inl hc
    · subst hc; rw [hb] at hA; exact absurd hA (by decide)
    · exact Or.inr (Or.inr hc)

/-- Case 3 of `coalesce`: the previous block `c` is free, the next one allocated; `c`
absorbs the block. -/
theorem coalesce_case3 {s : State} {pre' post : List Blk} {b c : Blk} {fl : List Nat}
    (h : Inv s (pre' ++ c :: b :: post) fl) (hb : b.st = St.D) (hc : c.st = St.F)
    (hn : nextBit post = 1) :
    ∃ m', coalesce s b.ptr = .ok (c.ptr, s.withMem m') ∧
      Inv (s.withMem m') (pre' ++ ⟨c.ptr, c.sz + b.sz, St.F⟩ :: post)
        (c.ptr :: fl.erase c.ptr) ∧
      Keeps s.mem m' (pre' ++ post) (pre' ++ ⟨c.ptr, c.sz + b.sz, St.F⟩ :: post) := by
  have hL : pre' ++ c :: b :: post = (pre' ++ [c]) ++ b :: post := by simp
  have h0 : Inv s ((pre' ++ [c]) ++ b :: post) fl := hL ▸ h
  have hcL : c ∈ pre' ++ c :: b :: post := by simp
  have hbL : b ∈ pre' ++ c :: b :: post := by simp
  have fc := h.facts hcL
  have fb := h.facts hbL
  have hcb : c.ptr + c.sz = b.ptr := (Chain_split h.chain).2.1.symm
  have hnA := h0.next_alloc hn
  -- the three steps
  obtain ⟨m1, e1, i1, lf1, _, _⟩ := delete_spec h hc
  have hD : ∀ d ∈ ({ c with st := St.D } : Blk) :: ([] ++ [b]), d.st = St.D := by
    intro d hd
    simp only [List.nil_append, List.mem_cons, List.mem_singleton, List.not_mem_nil,
      or_false] at hd
    rcases hd with hd | hd
    · rw [hd]
    · rw [hd]; exact hb
  obtain ⟨m2, e2, e3, e4, i2, k2⟩ := merge_step (s := s.withMem m1) (P := pre')
    (N := []) (x := { c with st := St.D }) (y := b) (Q := post)
    (T := c.sz + b.sz) i1 hD (by simp only; omega)
  simp only [withMem_withMem, withMem_mem] at e2 e3 e4 i2 k2
  have hadj : ∀ d ∈ pre' ++ post,
      (d.ptr + d.sz = (⟨c.ptr, c.sz + b.sz, St.D⟩ : Blk).ptr ∨
        (⟨c.ptr, c.sz + b.sz, St.D⟩ : Blk).ptr + (⟨c.ptr, c.sz + b.sz, St.D⟩ : Blk).sz
          = d.ptr) → d.st ≠ St.F := by
    intro d hd hh
    simp only at hh
    have hdL : d ∈ pre' ++ c :: b :: post := by
      simp only [List.mem_append, List.mem_cons] at hd ⊢; tauto
    rcases hh with hh | hh
    · intro hF
      exact h.adj d hdL c hcL hh ⟨hF, hc⟩
    · have hd' : d ∈ (pre' ++ [c]) ++ post := by
        simp only [List.mem_append, List.mem_singleton] at hd ⊢; tauto
      rw [hnA d hd' (by omega)]; decide
  obtain ⟨m3, e5, i3, lf3⟩ := insert_spec (s := s.withMem m2) (P := pre')
    (b := ⟨c.ptr, c.sz + b.sz, St.D⟩) (Q := post) i2 rfl hadj
  simp only [withMem_withMem, withMem_mem] at e5 i3
  refine ⟨m3, ?_, i3, ?_⟩
  · have hpb : prevBit (pre' ++ [c]) = 0 := by
      rw [prevBit_snoc]; exact Blk.bit_eq_zero.2 (by rw [hc]; decide)
    rw [h0.coalesce_eq, if_neg (by omega), if_neg (by omega), if_pos ⟨by omega, by omega⟩]
    simp only [prevPtr_snoc, prevSz_snoc]
    rw [e1]
    simp only [ok_bind]
    rw [add32_eq (by omega), show b.sz + c.sz = c.sz + b.sz by omega, e2]
    simp only [ok_bind]
    rw [e3]
    simp only [ok_bind]
    rw [e4]
    simp only [ok_bind]
    rw [e5]; rfl
  · -- allocated blocks are untouched
    have k1 : Keeps s.mem m1 (pre' ++ post) (pre' ++ post) := by
      refine Keeps_refl_of_frame (fun _ hd _ => hd) ?_
      intro d hd hA x hx hx'
      have hdL : d ∈ pre' ++ c :: b :: post := by
        simp only [List.mem_append, List.mem_cons] at hd ⊢; tauto
      exact lf1.payload h hdL hA hx hx'
    have k3 : Keeps m2 m3 (pre' ++ ⟨c.ptr, c.sz + b.sz, St.D⟩ :: post)
        (pre' ++ ⟨c.ptr, c.sz + b.sz, St.F⟩ :: post) := by
      refine Keeps_of_LinkFrame i2 lf3 ?_
      intro d hd hA
      simp only [List.mem_append, List.mem_cons] at hd ⊢
      rcases hd with hd | hd | hd
      · exact Or.inl hd
      · subst hd; simp at hA
      · exact Or.inr (Or.inr hd)
    exact (k1.trans k2).trans k3

/-- Case 2 of `coalesce`: the next block `n` is free, the previous one allocated; the
block absorbs `n`. -/
theorem coalesce_case2 {s : State} {pre post' : List Blk} {b n : Blk} {fl : List Nat}
    (h : Inv s (pre ++ b :: n :: post') fl) (hb : b.st = St.D) (hnF : n.st = St.F)
    (hp : prevBit pre = 1) :
    ∃ m', coalesce s b.ptr = .ok (b.ptr, s.withMem m') ∧
      Inv (s.withMem m') (pre ++ ⟨b.ptr, b.sz + n.sz, St.F⟩ :: post')
        (b.ptr :: fl.erase n.ptr) ∧
      Keeps s.mem m' (pre ++ post') (pre ++ ⟨b.ptr, b.sz + n.sz, St.F⟩ :: post') := by
  have hL : pre ++ b :: n :: post' = (pre ++ [b]) ++ n :: post' := by simp
  have h0 : Inv s ((pre ++ [b]) ++ n :: post') fl := hL ▸ h
  have hnL : n ∈ pre ++ b :: n :: post' := by simp
  have hbL : b ∈ pre ++ b :: n :: post' := by simp
  have fn := h.facts hnL
  have fb := h.facts hbL
  have hbn : n.ptr = b.ptr + b.sz := (Chain_split h.chain).2.1
  have hpA := h.prev_alloc hp
  obtain ⟨m1, e1, i1, lf1, _, _⟩ := delete_spec h0 hnF
  have hL1 : (pre ++ [b]) ++ ({ n with st := St.D } : Blk) :: post' =
      pre ++ b :: ([] ++ ({ n with st := St.D } : Blk) :: post') := by simp
  rw [hL1] at i1
  have hD : ∀ d ∈ b :: ([] ++ [({ n with st := St.D } : Blk)]), d.st = St.D := by
    intro d hd
    simp only [List.nil_append, List.mem_cons, List.mem_singleton, List.not_mem_nil,
      or_false] at hd
    rcases hd with hd | hd
    · rw [hd]; exact hb
    · rw [hd]
  obtain ⟨m2, e2, e3, e4, i2, k2⟩ := merge_step (s := s.withMem m1) (P := pre)
    (N := []) (x := b) (y := { n with st := St.D }) (Q := post')
    (T := b.sz + n.sz) i1 hD (by simp only; omega)
  simp only [withMem_withMem, withMem_mem] at e2 e3 e4 i2 k2
  have hadj : ∀ d ∈ pre ++ post',
      (d.ptr + d.sz = (⟨b.ptr, b.sz + n.sz, St.D⟩ : Blk).ptr ∨
        (⟨b.ptr, b.sz + n.sz, St.D⟩ : Blk).ptr + (⟨b.ptr, b.sz + n.sz, St.D⟩ : Blk).sz
          = d.ptr) → d.st ≠ St.F := by
    intro d hd hh
    simp only at hh
    have hdL : d ∈ pre ++ b :: n :: post' := by
      simp only [List.mem_append, List.mem_cons] at hd ⊢; tauto
    rcases hh with hh | hh
    · have hd' : d ∈ pre ++ n :: post' := by
        simp only [List.mem_append, List.mem_cons] at hd ⊢; tauto
      rw [hpA d hd' hh]; decide
    · intro hF
      exact h.adj n hnL d hdL (by omega) ⟨hnF, hF⟩
  obtain ⟨m3, e5, i3, lf3⟩ := insert_spec (s := s.withMem m2) (P := pre)
    (b := ⟨b.ptr, b.sz + n.sz, St.D⟩) (Q := post') i2 rfl hadj
  simp only [withMem_withMem, withMem_mem] at e5 i3
  refine ⟨m3, ?_, i3, ?_⟩
  · have hnb : nextBit (n :: post') = 0 := by
      rw [nextBit_cons]; exact Blk.bit_eq_zero.2 (by rw [hnF]; decide)
    rw [h.coalesce_eq, if_neg (by omega), if_pos ⟨by omega, by omega⟩]
    simp only [nextSz_cons]
    rw [← hbn, e1]
    simp only [ok_bind]
    rw [add32_eq (by omega), e2]
    simp only [ok_bind]
    rw [e3]
    simp only [ok_bind]
    rw [e4]
    simp only [ok_bind]
    rw [e5]; rfl
  · have k1 : Keeps s.mem m1 (pre ++ post') (pre ++ post') := by
      refine Keeps_refl_of_frame (fun _ hd _ => hd) ?_
      intro d hd hA x hx hx'
      have hdL : d ∈ (pre ++ [b]) ++ n :: post' := by
        simp only [List.mem_append, List.mem_cons] at hd ⊢; tauto
      exact lf1.payload h0 hdL hA hx hx'
    have k3 : Keeps m2 m3 (pre ++ ⟨b.ptr, b.sz + n.sz, St.D⟩ :: post')
        (pre ++ ⟨b.ptr, b.sz + n.sz, St.F⟩ :: post') := by
      refine Keeps_of_LinkFrame i2 lf3 ?_
      intro d hd hA
      simp only [List.mem_append, List.mem_cons] at hd ⊢
      rcases hd with hd | hd | hd
      · exact Or.inl hd
      · subst hd; simp at hA
      · exact Or.inr (Or.inr hd)
    exact (k1.trans k2).trans k3

/-- Case 4 of `coalesce`: both neighbours `c` and `n` are free; `c` absorbs the block
and `n`. -/
theorem coalesce_case4 {s : State} {pre' post' : List Blk} {b c n : Blk} {fl : List Nat}
    (h : Inv s (pre' ++ c :: b :: n :: post') fl) (hb : b.st = St.D) (hc : c.st = St.F)
    (hnF : n.st = St.F) :
    ∃ m', coalesce s b.ptr = .ok (c.ptr, s.withMem m') ∧
      Inv (s.withMem m') (pre' ++ ⟨c.ptr, c.sz + b.sz + n.sz, St.F⟩ :: post')
        (c.ptr :: (fl.erase c.ptr).erase n.ptr) ∧
      Keeps s.mem m' (pre' ++ post')
        (pre' ++ ⟨c.ptr, c.sz + b.sz + n.sz, St.F⟩ :: post') := by
  have hL : pre' ++ c :: b :: n :: post' = (pre' ++ [c]) ++ b :: n :: post' := by simp
  have h0 : Inv s ((pre' ++ [c]) ++ b :: n :: post') fl := hL ▸ h
  have hcL : c ∈ pre' ++ c :: b :: n :: post' := by simp
  have hnL : n ∈ pre' ++ c :: b :: n :: post' := by simp
  have hbL : b ∈ pre' ++ c :: b :: n :: post' := by simp
  have fc := h.facts hcL
  have fn := h.facts hnL
  have fb := h.facts hbL
  have hcb : c.ptr + c.sz = b.ptr := (Chain_split h.chain).2.1.symm
  have hbn : n.ptr = b.ptr + b.sz := (Chain_split h0.chain).2.1
  obtain ⟨m1, e1, i1, lf1, _, _⟩ := delete_spec h hc
  have hL1 : pre' ++ ({ c with st := St.D } : Blk) :: b :: n :: post' =
      (pre' ++ [({ c with st := St.D } : Blk), b]) ++ n :: post' := by simp
  have i1' := i1
  rw [hL1] at i1'
  obtain ⟨m2, e2, i2, lf2, _, _⟩ := delete_spec (s := s.withMem m1) i1' hnF
  simp only [withMem_withMem, withMem_mem] at e2 i2
  have hL2 : (pre' ++ [({ c with st := St.D } : Blk), b]) ++
      ({ n with st := St.D } : Blk) :: post' =
      pre' ++ ({ c with st := St.D } : Blk) :: ([b] ++
        ({ n with st := St.D } : Blk) :: post') := by simp
  rw [hL2] at i2
  have hD : ∀ d ∈ ({ c with st := St.D } : Blk) :: ([b] ++
      [({ n with st := St.D } : Blk)]), d.st = St.D := by
    intro d hd
    simp only [List.cons_append, List.nil_append, List.mem_cons, List.mem_singleton,
      List.not_mem_nil, or_false] at hd
    rcases hd with hd | hd | hd
    · rw [hd]
    · rw [hd]; exact hb
    · rw [hd]
  obtain ⟨m3, e3, e4, e5, i3, k3⟩ := merge_step (s := s.withMem m2) (P := pre')
    (N := [b]) (x := { c with st := St.D }) (y := { n with st := St.D }) (Q := post')
    (T := c.sz + b.sz + n.sz) i2 hD (by simp only; omega)
  simp only [withMem_withMem, withMem_mem] at e3 e4 e5 i3 k3
  have hadj : ∀ d ∈ pre' ++ post',
      (d.ptr + d.sz = (⟨c.ptr, c.sz + b.sz + n.sz, St.D⟩ : Blk).ptr ∨
        (⟨c.ptr, c.sz + b.sz + n.sz, St.D⟩ : Blk).ptr +
          (⟨c.ptr, c.sz + b.sz + n.sz, St.D⟩ : Blk).sz = d.ptr) → d.st ≠ St.F := by
    intro d hd hh
    simp only at hh
    have hdL : d ∈ pre' ++ c :: b :: n :: post' := by
      simp only [List.mem_append, List.mem_cons] at hd ⊢; tauto
    rcases hh with hh | hh
    · intro hF
      exact h.adj d hdL c hcL hh ⟨hF, hc⟩
    · intro hF
      exact h.adj n hnL d hdL (by omega) ⟨hnF, hF⟩
  obtain ⟨m4, e6, i4, lf4⟩ := insert_spec (s := s.withMem m3) (P := pre')
    (b := ⟨c.ptr, c.sz + b.sz + n.sz, St.D⟩) (Q := post') i3 rfl hadj
  simp only [withMem_withMem, withMem_mem] at e6 i4
  refine ⟨m4, ?_, i4, ?_⟩
  · have hpb : prevBit (pre' ++ [c]) = 0 := by
      rw [prevBit_snoc]; exact Blk.bit_eq_zero.2 (by rw [hc]; decide)
    have hnb : nextBit (n :: post') = 0 := by
      rw [nextBit_cons]; exact Blk.bit_eq_zero.2 (by rw [hnF]; decide)
    rw [h0.coalesce_eq, if_neg (by omega), if_neg (by omega), if_neg (by omega),
      if_pos ⟨by omega, by omega⟩]
    simp only [prevPtr_snoc, prevSz_snoc, nextSz_cons]
    rw [e1]
    simp only [ok_bind]
    rw [← hbn, e2]
    simp only [ok_bind]
    rw [add32_eq (a := b.sz) (b := c.sz) (by omega), add32_eq (by omega),
      show b.sz + c.sz + n.sz = c.sz + b.sz + n.sz by omega, e3]
    simp only [ok_bind]
    rw [e4]
    simp only [ok_bind]
    rw [e5]
    simp only [ok_bind]
    rw [e6]; rfl
  · have k1 : Keeps s.mem m1 (pre' ++ post') (pre' ++ post') := by
      refine Keeps_refl_of_frame (fun _ hd _ => hd) ?_
      intro d hd hA x hx hx'
      have hdL : d ∈ pre' ++ c :: b :: n :: post' := by
        simp only [List.mem_append, List.mem_cons] at hd ⊢; tauto
      exact lf1.payload h hdL hA hx hx'
    have k2 : Keeps m1 m2 (pre' ++ post') (pre' ++ post') := by
      refine Keeps_refl_of_frame (fun _ hd _ => hd) ?_
      intro d hd hA x hx hx'
      have hdL : d ∈ (pre' ++ [({ c with st := St.D } : Blk), b]) ++ n :: post' := by
        simp only [List.mem_append, List.mem_cons] at hd ⊢; tauto
      exact lf2.payload i1' hdL hA hx hx'
    have k4 : Keeps m3 m4 (pre' ++ ⟨c.ptr, c.sz + b.sz + n.sz, St.D⟩ :: post')
        (pre' ++ ⟨c.ptr, c.sz + b.sz + n.sz, St.F⟩ :: post') := by
      refine Keeps_of_LinkFrame i3 lf4 ?_
      intro d hd hA
      simp only [List.mem_append, List.mem_cons] at hd ⊢
      rcases hd with hd | hd | hd
      · exact Or.inl hd
      · subst hd; simp at hA
      · exact Or.inr (Or.inr hd)
    exact ((k1.trans k2).trans k3).trans k4

theorem St.eq_F_of {st : St} (h1 : st ≠ St.A) (h2 : st ≠ St.D) : st = St.F := by
  cases st <;> simp_all

/-- `coalesce` on the only detached block of a heap: the result is a well-formed heap in
which the returned block is free, linked, and covers the block; allocated blocks are
untouched. -/
theorem coalesce_spec {s : State} {P Q : List Blk} {b : Blk} {fl : List Nat}
    (h : Inv s (P ++ b :: Q) fl) (hb : b.st = St.D)
    (hnoD : ∀ c ∈ P ++ Q, c.st ≠ St.D) :
    ∃ m' r L' fl', coalesce s b.ptr = .ok (r, s.withMem m') ∧ WF (s.withMem m') L' fl' ∧
      Keeps s.mem m' (P ++ Q) L' ∧
      ∃ blk ∈ L', blk.ptr = r ∧ blk.st = St.F ∧ r ≤ b.ptr ∧ b.ptr + b.sz ≤ r + blk.sz := by
  have hpb := h.prev_facts.2.2.2.2.1
  have hnb := h.next_facts.2.2.1
  have hb1 : ∀ c ∈ P ++ b :: Q, c.st ≠ St.D → True := fun _ _ _ => trivial
  by_cases hp : prevBit P = 1
  · by_cases hn : nextBit Q = 1
    · obtain ⟨m', e, i, k⟩ := coalesce_case1 h hb hp hn
      refine ⟨m', b.ptr, _, _, e, ⟨i, ?_⟩, k.mono (by
        intro c hc _; simp only [List.mem_append, List.mem_cons] at hc ⊢; tauto),
        ⟨{ b with st := St.F }, by simp, rfl, rfl, by simp, by simp⟩⟩
      intro c hc
      simp only [List.mem_append, List.mem_cons] at hc
      rcases hc with hc | hc | hc
      · exact hnoD c (by simp [hc])
      · rw [hc]; simp
      · exact hnoD c (by simp [hc])
    · cases Q with
      | nil => simp at hn
      | cons n post' =>
        have hn0 : n.bit = 0 := by simp only [nextBit_cons] at hn hnb; omega
        have hnF : n.st = St.F :=
          St.eq_F_of (Blk.bit_eq_zero.1 hn0) (hnoD n (by simp))
        obtain ⟨m', e, i, k⟩ := coalesce_case2 h hb hnF hp
        refine ⟨m', b.ptr, _, _, e, ⟨i, ?_⟩, ?_,
          ⟨⟨b.ptr, b.sz + n.sz, St.F⟩, by simp, rfl, rfl, by simp, by simp⟩⟩
        · intro c hc
          simp only [List.mem_append, List.mem_cons] at hc
          rcases hc with hc | hc | hc
          · exact hnoD c (by simp [hc])
          · rw [hc]; simp
          · exact hnoD c (by simp [hc])
        · intro c hc hA
          simp only [List.mem_append, List.mem_cons] at hc
          rcases hc with hc | hc | hc
          · exact k c (by simp [hc]) hA
          · rw [hc, hnF] at hA; exact absurd hA (by decide)
          · exact k c (by simp [hc]) hA
  · rcases List.eq_nil_or_concat P with hpre | ⟨pre', c, hpre⟩
    · subst hpre; simp at hp
    · rw [List.concat_eq_append] at hpre
      subst hpre
      have hc0 : c.bit = 0 := by simp only [prevBit_snoc] at hp hpb; omega
      have hcF : c.st = St.F :=
        St.eq_F_of (Blk.bit_eq_zero.1 hc0) (hnoD c (by simp))
      have hL : (pre' ++ [c]) ++ b :: Q = pre' ++ c :: b :: Q := by simp
      rw [hL] at h
      have hcb : c.ptr + c.sz = b.ptr := (Chain_split h.chain).2.1.symm
      by_cases hn : nextBit Q = 1
      · obtain ⟨m', e, i, k⟩ := coalesce_case3 h hb hcF hn
        refine ⟨m', c.ptr, _, _, e, ⟨i, ?_⟩, ?_,
          ⟨⟨c.ptr, c.sz + b.sz, St.F⟩, by simp, rfl, rfl,
            by show c.ptr ≤ b.ptr; omega,
            by show b.ptr + b.sz ≤ c.ptr + (c.sz + b.sz); omega⟩⟩
        · intro d hd
          simp only [List.mem_append, List.mem_cons] at hd
          rcases hd with hd | hd | hd
          · exact hnoD d (by simp [hd])
          · rw [hd]; simp
          · exact hnoD d (by simp [hd])
        · intro d hd hA
          simp only [List.mem_append, List.mem_cons, List.not_mem_nil, or_false] at hd
          rcases hd with (hd | hd) | hd
          · exact k d (by simp [hd]) hA
          · rw [hd, hcF] at hA; exact absurd hA (by decide)
          · exact k d (by simp [hd]) hA
      · cases Q with
        | nil => simp at hn
        | cons n post' =>
          have hn0 : n.bit = 0 := by simp only [nextBit_cons] at hn hnb; omega
          have hnF : n.st = St.F :=
            St.eq_F_of (Blk.bit_eq_zero.1 hn0) (hnoD n (by simp))
          obtain ⟨m', e, i, k⟩ := coalesce_case4 h hb hcF hnF
          refine ⟨m', c.ptr, _, _, e, ⟨i, ?_⟩, ?_,
            ⟨⟨c.ptr, c.sz + b.sz + n.sz, St.F⟩, by simp, rfl, rfl,
              by show c.ptr ≤ b.ptr; omega,
              by show b.ptr + b.sz ≤ c.ptr + (c.sz + b.sz + n.sz); omega⟩⟩
          · intro d hd
            simp only [List.mem_append, List.mem_cons] at hd
            rcases hd with hd | hd | hd
            · exact hnoD d (by simp [hd])
            · rw [hd]; simp
            · exact hnoD d (by simp [hd])
          · intro d hd hA
            simp only [List.mem_append, List.mem_cons, List.not_mem_nil, or_false] at hd
            rcases hd with (hd | hd) | hd | hd
            · exact k d (by simp [hd]) hA
            · rw [hd, hcF] at hA; exact absurd hA (by decide)
            · rw [hd, hnF] at hA; exact absurd hA (by decide)
            · exact k d (by simp [hd]) hA

/-! ## `mm_free`, `extend_heap`, `allocate` -/

/-- Replacing one block that is not in the free list by a run of blocks over the same
range. -/
theorem Inv_rewrite1 {s : State} {pre M post : List Blk} {b : Blk} {fl : List Nat}
    (h : Inv s (pre ++ b :: post) fl) (hb : b.st ≠ St.F)
    (ha' : Chain b.ptr M (b.ptr + b.sz)) (hmid' : ∀ c ∈ M, c.st ≠ St.F)
    (m' : Nat → Nat)
    (htag : ∀ c ∈ M, 16 ≤ c.sz ∧ c.sz % 8 = 0 ∧ m' (c.ptr - 4) = c.tag ∧
      m' (c.ptr + c.sz - 8) = c.tag)
    (hframe : ∀ x, x + 4 < b.ptr ∨ b.ptr + b.sz ≤ x + 4 → m' x = s.mem x) :
    Inv (s.withMem m') (pre ++ M ++ post) fl ∧
    Keeps s.mem m' (pre ++ post) (pre ++ M ++ post) := by
  have e : pre ++ b :: post = pre ++ [b] ++ post := by simp
  have h' := h
  rw [e] at h'
  obtain ⟨hc1, hc3⟩ := Chain_split h.chain
  refine ⟨Inv_rewrite h' (by simp) (a := b.ptr) (e := b.ptr + b.sz) ⟨rfl, rfl⟩ ha'
    (fun c hc => by rw [List.mem_singleton.1 hc]; exact hb) hmid' m' htag hframe, ?_⟩
  intro c hc hA
  simp only [List.mem_append] at hc
  refine ⟨by simp only [List.mem_append]; tauto, ?_⟩
  intro x hx hx'
  rcases hc with hc | hc
  · have := (Chain_mem hc1 hc).2
    exact hframe x (Or.inl (by omega))
  · have := (Chain_mem hc3 hc).1
    exact hframe x (Or.inr (by omega))

/-- Writing the header and then the footer of the block at `p` with size `X` and
allocation bit `t`; the footer is located through the header just written. -/
theorem retag_exec {s : State} {m : Nat → Nat} {p X t : Nat} (hlo : s.mem_heap + 4 ≤ p)
    (hal : (p - s.mem_heap) % 4 = 0) (hX8 : X % 8 = 0) (hX : 8 ≤ X)
    (hend : p + X ≤ s.mem_brk) (hlt : s.mem_brk < 4294967296) (ht : t ≤ 1) :
    PUT (s.withMem m) (HEADER_PTR p) (X + t) = .ok (s.withMem (upd m (p - 4) (X + t))) ∧
    FOOTER_PTR (s.withMem (upd m (p - 4) (X + t))) p = .ok (p + X - 8) ∧
    NEXT_BLOCK_PTR (s.withMem (upd m (p - 4) (X + t))) p = .ok (p + X) ∧
    PUT (s.withMem (upd m (p - 4) (X + t))) (p + X - 8) (X + t) =
      .ok (s.withMem (upd (upd m (p - 4) (X + t)) (p + X - 8) (X + t))) ∧
    NEXT_BLOCK_PTR (s.withMem (upd (upd m (p - 4) (X + t)) (p + X - 8) (X + t))) p =
      .ok (p + X) := by
  have hv1 : valid s (p - 4) := by unfold valid; omega
  have hv2 : valid s (p + X - 8) := by unfold valid; omega
  have r := hdr_reads (s := s.withMem (upd m (p - 4) (X + t))) (p := p) (z := X) (t := t)
    (by simp only [withMem_heap]; omega) (by simp only [withMem_heap]; omega)
    (by simp only [withMem_brk]; omega) (by simp only [withMem_brk]; omega)
    (by simp only [withMem_mem, upd_same]) hX8 ht (by omega) (by omega)
  have r' := hdr_reads (s := s.withMem (upd (upd m (p - 4) (X + t)) (p + X - 8) (X + t)))
    (p := p) (z := X) (t := t)
    (by simp only [withMem_heap]; omega) (by simp only [withMem_heap]; omega)
    (by simp only [withMem_brk]; omega) (by simp only [withMem_brk]; omega)
    (by simp only [withMem_mem]; rw [upd_ne (by omega), upd_same]) hX8 ht (by omega)
    (by omega)
  refine ⟨?_, r.2.2.1, r.2.2.2, ?_, r'.2.2.2⟩
  · rw [HEADER_PTR_eq (by omega) (by omega), PUT_withMem hv1 (by omega)]
  · rw [PUT_withMem hv2 (by omega)]

/-- `mm_free` up to its call of `coalesce`: the block is marked free in both tags, its
link words are cleared, and it is detached. -/
theorem mm_free_eq {s : State} {pre post : List Blk} {b : Blk} {fl : List Nat}
    (hi : Inv s (pre ++ b :: post) fl) (hb : b.st = St.A) :
    ∃ m4, (∀ r s', coalesce (s.withMem m4) b.ptr = .ok (r, s') →
        mm_free s b.ptr = .ok s') ∧
      Inv (s.withMem m4) (pre ++ { b with st := St.D } :: post) fl ∧
      Keeps s.mem m4 (pre ++ post) (pre ++ { b with st := St.D } :: post) := by
  have hbL : b ∈ pre ++ b :: post := by simp
  have fb := hi.facts hbL
  have rb := hi.reads hbL
  have hvl := hi.valid_links hbL
  have rt := retag_exec (s := s) (m := upd (upd s.mem b.ptr 0) (b.ptr + 4) 0) (p := b.ptr)
    (X := b.sz) (t := 0) (by omega) (by omega) fb.2.2.2.2.1 (by omega) (by omega)
    fb.2.2.2.2.2 (by omega)
  simp only [Nat.add_zero] at rt
  have hrw := Inv_rewrite1 (M := [{ b with st := St.D }]) hi (by rw [hb]; decide)
    ⟨rfl, rfl⟩ (fun c hc => by rw [List.mem_singleton.1 hc]; simp)
    (upd (upd (upd (upd s.mem b.ptr 0) (b.ptr + 4) 0) (b.ptr - 4) b.sz)
      (b.ptr + b.sz - 8) b.sz) (by
      intro c hc
      rw [List.mem_singleton.1 hc]
      simp only [Blk.tag, if_neg (show St.D ≠ St.A by decide), Nat.add_zero]
      refine ⟨fb.2.2.2.1, fb.2.2.2.2.1, ?_, ?_⟩
      · rw [upd_ne (by omega), upd_same]
      · rw [upd_same]) (by
      intro x hx
      rw [upd_ne (by omega), upd_ne (by omega), upd_ne (by omega), upd_ne (by omega)])
  obtain ⟨i1, k1⟩ := hrw
  have e1 : pre ++ [({ b with st := St.D } : Blk)] ++ post =
      pre ++ ({ b with st := St.D } : Blk) :: post := by simp
  rw [e1] at i1 k1
  refine ⟨_, ?_, i1, k1⟩
  intro r s' ec
  unfold mm_free
  rw [rb.1]
  simp only [ok_bind, NEXT_PTR, NULL]
  rw [PUT_ok hvl.1 (by omega)]
  simp only [ok_bind]
  rw [PREV_PTR_eq (by omega), PUT_withMem hvl.2 (by omega)]
  simp only [ok_bind]
  rw [or_FREE, rt.1]
  simp only [ok_bind]
  rw [rt.2.1]
  simp only [ok_bind]
  rw [rt.2.2.2.1]
  simp only [ok_bind]
  rw [ec]; rfl

theorem mm_free_spec {s : State} {pre post : List Blk} {b : Blk} {fl : List Nat}
    (h : WF s (pre ++ b :: post) fl) (hb : b.st = St.A) :
    ∃ m' L' fl', mm_free s b.ptr = .ok (s.withMem m') ∧ WF (s.withMem m') L' fl' ∧
      Keeps s.mem m' (pre ++ post) L' ∧
      ∃ blk ∈ L', blk.st = St.F ∧ blk.ptr ≤ b.ptr ∧ b.ptr + b.sz ≤ blk.ptr + blk.sz := by
  obtain ⟨hi, hnoD⟩ := h
  obtain ⟨m4, he, i1, k1⟩ := mm_free_eq hi hb
  obtain ⟨m', r, L', fl', ec, wf, k2, blk, hblk, hr, hF, hle1, hle2⟩ :=
    coalesce_spec (b := { b with st := St.D }) i1 rfl (by
      intro c hc; exact hnoD c (by
        simp only [List.mem_append, List.mem_cons] at hc ⊢; tauto))
  simp only [withMem_withMem, withMem_mem] at ec wf k2
  refine ⟨m', L', fl', he _ _ ec, wf, ?_, blk, hblk, hF, by rw [hr]; exact hle1,
    by rw [hr]; exact hle2⟩
  refine (k1.trans (k2.mono ?_))
  intro c hc hA
  simp only [List.mem_append, List.mem_cons] at hc ⊢
  rcases hc with hc | hc | hc
  · exact Or.inl hc
  · rw [hc] at hA; simp at hA
  · exact Or.inr hc

/-! ### Heap extension -/

@[simp] theorem grow_mem (s : State) (n : Nat) : (s.grow n).mem = s.mem := rfl
@[simp] theorem grow_heap (s : State) (n : Nat) : (s.grow n).mem_heap = s.mem_heap := rfl
@[simp] theorem grow_brk (s : State) (n : Nat) : (s.grow n).mem_brk = s.mem_brk + n := rfl
@[simp] theorem grow_max (s : State) (n : Nat) :
    (s.grow n).mem_max_addr = s.mem_max_addr := rfl
@[simp] theorem grow_hroot (s : State) (n : Nat) : (s.grow n).heap_root = s.heap_root := rfl
@[simp] theorem grow_froot (s : State) (n : Nat) : (s.grow n).free_root = s.free_root := rfl

theorem mem_sbrk_ok {s : State} {k : Nat} (h1 : k < 2147483648)
    (h2 : s.mem_brk + k ≤ s.mem_max_addr) :
    mem_sbrk s k = (s.mem_brk, s.grow k) := by
  unfold mem_sbrk
  rw [if_neg (by omega)]; rfl

theorem mem_sbrk_fail {s : State} {incr : Nat}
    (h : 2147483648 ≤ incr ∨ s.mem_max_addr < s.mem_brk + incr) :
    mem_sbrk s incr = (4294967295, s) := by
  unfold mem_sbrk
  rw [if_pos h]

/-- Appending a detached block of `size` bytes at the old end of the heap. -/
theorem Inv_extend {s : State} {L : List Blk} {fl : List Nat} (h : Inv s L fl) {size : Nat}
    (h16 : 16 ≤ size) (h8 : size % 8 = 0) (hmax : s.mem_brk + size ≤ s.mem_max_addr)
    (m' : Nat → Nat) (hh : m' (s.mem_brk - 4) = size)
    (hf : m' (s.mem_brk + size - 8) = size) (he : m' (s.mem_brk + size - 4) = 1)
    (hframe : ∀ x, x + 4 < s.mem_brk → m' x = s.mem x) :
    Inv ((s.grow size).withMem m') (L ++ [⟨s.mem_brk, size, St.D⟩]) fl ∧
    Keeps s.mem m' L (L ++ [⟨s.mem_brk, size, St.D⟩]) := by
  have hbf := h.brk_facts
  constructor
  · refine ⟨h.lo_pos, h.max_lt, hmax, h.hroot, h.froot, ?_, ?_, ?_, ?_, ?_, ?_, ?_,
      h.nodup, ?_⟩
    · simp only [withMem_mem, withMem_heap, grow_heap]
      rw [hframe _ (by omega)]; exact h.pro_h
    · simp only [withMem_mem, withMem_heap, grow_heap]
      rw [hframe _ (by omega)]; exact h.pro_f
    · exact Chain_append.2 ⟨s.mem_brk, h.chain, rfl, rfl⟩
    · simp only [withMem_mem, withMem_brk, grow_brk]; exact he
    · intro c hc
      simp only [List.mem_append, List.mem_singleton] at hc
      simp only [withMem_mem]
      rcases hc with hc | hc
      · have h1 := h.blk c hc
        have h3 := h.facts hc
        refine ⟨h1.1, h1.2.1, ?_, ?_⟩
        · rw [hframe _ (by omega)]; exact h1.2.2.1
        · rw [hframe _ (by omega)]; exact h1.2.2.2
      · subst hc
        simp only [Blk.tag, if_neg (show St.D ≠ St.A by decide), Nat.add_zero]
        exact ⟨h16, h8, hh, hf⟩
    · intro c hc d hd hcd hF
      simp only [List.mem_append, List.mem_singleton] at hc hd
      rcases hc with hc | hc
      · rcases hd with hd | hd
        · exact h.adj c hc d hd hcd hF
        · rw [hd] at hF; simp at hF
      · rw [hc] at hF; simp at hF
    · simp only [withMem_mem, withMem_heap, grow_heap]
      rw [hframe (s.mem_heap + 8) (by omega)]
      refine FL_congr h.fl_ok ?_
      intro p hp
      have := h.fl_facts hp
      exact ⟨hframe _ (by omega), hframe _ (by omega)⟩
    · intro p
      rw [h.fl_iff p]
      constructor
      · rintro ⟨c, hc, hcp, hcF⟩
        exact ⟨c, by simp [hc], hcp, hcF⟩
      · rintro ⟨c, hc, hcp, hcF⟩
        simp only [List.mem_append, List.mem_singleton] at hc
        rcases hc with hc | hc
        · exact ⟨c, hc, hcp, hcF⟩
        · rw [hc] at hcF; simp at hcF
  · intro c hc hA
    refine ⟨by simp [hc], ?_⟩
    intro x hx hx'
    have := h.facts hc
    exact hframe x (by omega)

/-- `extend_heap` when the growth primitive fails. -/
theorem extend_heap_fail {s : State} {n size : Nat}
    (hsize : (if n % 2 = 0 then mul32 n WORDSIZE else mul32 (add32 n 1) WORDSIZE) = size)
    (h : 2147483648 ≤ size ∨ s.mem_max_addr < s.mem_brk + size) :
    extend_heap s n = .ok (NULL, s) := by
  unfold extend_heap
  simp only [hsize, mem_sbrk_fail h, if_true, pure_ok]

/-- `extend_heap` up to its call of `coalesce`, when the growth primitive succeeds: a
detached block that covers the new space is appended and a new epilogue written. -/
theorem extend_heap_eq {s : State} {L : List Blk} {fl : List Nat} (h : Inv s L fl)
    {n size : Nat}
    (hsize : (if n % 2 = 0 then mul32 n WORDSIZE else mul32 (add32 n 1) WORDSIZE) = size)
    (h16 : 16 ≤ size) (h8 : size % 8 = 0) (hlt : size < 2147483648)
    (hmax : s.mem_brk + size ≤ s.mem_max_addr) :
    ∃ m7, extend_heap s n = coalesce ((s.grow size).withMem m7) s.mem_brk ∧
      Inv ((s.grow size).withMem m7) (L ++ [⟨s.mem_brk, size, St.D⟩]) fl ∧
      Keeps s.mem m7 L (L ++ [⟨s.mem_brk, size, St.D⟩]) := by
  have hbf := h.brk_facts
  have hml := h.max_lt
  have hv1 : valid (s.grow size) s.mem_brk := by
    unfold valid; simp only [grow_heap, grow_brk]; omega
  have hv2 : valid (s.grow size) (s.mem_brk + 4) := by
    unfold valid; simp only [grow_heap, grow_brk]; omega
  have hv3 : valid (s.grow size) (s.mem_brk + size - 4) := by
    unfold valid; simp only [grow_heap, grow_brk]; omega
  have rt := retag_exec (s := s.grow size) (m := upd (upd s.mem s.mem_brk 0)
    (s.mem_brk + 4) 0) (p := s.mem_brk) (X := size) (t := 0)
    (by simp only [grow_heap]; omega) (by simp only [grow_heap]; omega) h8 (by omega)
    (by simp only [grow_brk]; omega) (by simp only [grow_brk]; omega) (by omega)
  simp only [Nat.add_zero] at rt
  obtain ⟨i1, k1⟩ := Inv_extend h h16 h8 hmax
    (upd (upd (upd (upd (upd s.mem s.mem_brk 0) (s.mem_brk + 4) 0) (s.mem_brk - 4) size)
      (s.mem_brk + size - 8) size) (s.mem_brk + size - 4) 1)
    (by rw [upd_ne (by omega), upd_ne (by omega), upd_same])
    (by rw [upd_ne (by omega), upd_same])
    (by rw [upd_same])
    (by
      intro x hx
      rw [upd_ne (by omega), upd_ne (by omega), upd_ne (by omega), upd_ne (by omega),
        upd_ne (by omega)])
  refine ⟨_, ?_, i1, k1⟩
  unfold extend_heap
  simp only [hsize, mem_sbrk_ok hlt hmax, NEXT_PTR, NULL]
  rw [if_neg (by omega)]
  rw [PUT_ok hv1 (by omega)]
  simp only [ok_bind, grow_mem]
  rw [PREV_PTR_eq (by omega), PUT_withMem hv2 (by omega)]
  simp only [ok_bind]
  rw [or_FREE, rt.1]
  simp only [ok_bind]
  rw [rt.2.1]
  simp only [ok_bind]
  rw [rt.2.2.2.1]
  simp only [ok_bind]
  rw [rt.2.2.2.2]
  simp only [ok_bind]
  rw [HEADER_PTR_eq (by omega) (by omega),
    show (0 ||| ALLOCATED) = 1 by simp [ALLOCATED], PUT_withMem hv3 (by omega)]
  simp only [ok_bind]

/-! ### Placement -/

theorem St.eq_A_of {st : St} (h1 : st ≠ St.F) (h2 : st ≠ St.D) : st = St.A := by
  cases st <;> simp_all

/-- In a well-formed heap the header that follows a free block has its allocation bit
set. -/
theorem WF.next_of_free {s : State} {pre post : List Blk} {b : Blk} {fl : List Nat}
    (h : WF s (pre ++ b :: post) fl) (hb : b.st = St.F) : nextBit post = 1 := by
  cases post with
  | nil => rfl
  | cons n post' =>
    have hnL : n ∈ pre ++ b :: n :: post' := by simp
    have hbL : b ∈ pre ++ b :: n :: post' := by simp
    have hn : n.ptr = b.ptr + b.sz := (Chain_split h.1.chain).2.1
    have h1 : n.st ≠ St.F := fun hF => h.1.adj b hbL n hnL hn.symm ⟨hb, hF⟩
    rw [nextBit_cons]
    exact Blk.bit_eq_one.2 (St.eq_A_of h1 (h.2 n hnL))

/-- `allocate` without a split: the surplus is at most 32 bytes and the whole block
becomes allocated. -/
theorem allocate_whole {s : State} {pre post : List Blk} {b : Blk} {fl : List Nat}
    (h : WF s (pre ++ b :: post) fl) (hb : b.st = St.F) {bs : Nat} (hbs : bs ≤ b.sz)
    (hsur : b.sz - bs ≤ 32) :
    ∃ m', allocate s b.ptr bs = .ok (s.withMem m') ∧
      WF (s.withMem m') (pre ++ { b with st := St.A } :: post) (fl.erase b.ptr) ∧
      Keeps s.mem m' (pre ++ post) (pre ++ { b with st := St.A } :: post) := by
  obtain ⟨hi, hnoD⟩ := h
  have hbL : b ∈ pre ++ b :: post := by simp
  have fb := hi.facts hbL
  have rb := hi.reads hbL
  obtain ⟨m1, e1, i1, lf1, _, _⟩ := delete_spec hi hb
  have rt := retag_exec (s := s) (m := m1) (p := b.ptr) (X := b.sz) (t := 1) (by omega)
    (by omega) fb.2.2.2.2.1 (by omega) (by omega) fb.2.2.2.2.2 (by omega)
  obtain ⟨i2, k2⟩ := Inv_rewrite1 (M := [{ b with st := St.A }])
    (b := { b with st := St.D }) i1 (by simp) ⟨rfl, rfl⟩
    (fun c hc => by rw [List.mem_singleton.1 hc]; simp)
    (upd (upd m1 (b.ptr - 4) (b.sz + 1)) (b.ptr + b.sz - 8) (b.sz + 1)) (by
      intro c hc
      rw [List.mem_singleton.1 hc]
      simp only [Blk.tag, if_true]
      refine ⟨fb.2.2.2.1, fb.2.2.2.2.1, ?_, ?_⟩
      · rw [upd_ne (by omega), upd_same]
      · rw [upd_same]) (by
      intro x hx
      simp only [withMem_mem] at hx ⊢
      rw [upd_ne (by omega), upd_ne (by omega)])
  simp only [withMem_withMem, withMem_mem] at i2 k2
  have e2 : pre ++ [({ b with st := St.A } : Blk)] ++ post =
      pre ++ ({ b with st := St.A } : Blk) :: post := by simp
  rw [e2] at i2 k2
  refine ⟨_, ?_, ⟨i2, ?_⟩, ?_⟩
  · unfold allocate
    rw [rb.1]
    simp only [ok_bind]
    rw [e1]
    simp only [ok_bind, DWORDSIZE]
    rw [sub32_eq hbs (by omega), if_pos (by omega), or_ALLOCATED fb.2.2.2.2.1, rt.1]
    simp only [ok_bind]
    rw [rt.2.1]
    simp only [ok_bind]
    rw [rt.2.2.2.1]
  · intro c hc
    simp only [List.mem_append, List.mem_cons] at hc
    rcases hc with hc | hc | hc
    · exact hnoD c (by simp [hc])
    · rw [hc]; simp
    · exact hnoD c (by simp [hc])
  · have k1 : Keeps s.mem m1 (pre ++ post) (pre ++ post) := by
      refine Keeps_refl_of_frame (fun _ hd _ => hd) ?_
      intro d hd hA x hx hx'
      have hdL : d ∈ pre ++ b :: post := by
        simp only [List.mem_append, List.mem_cons] at hd ⊢; tauto
      exact lf1.payload hi hdL hA hx hx'
    exact k1.trans k2

/-- `allocate` with a split: the surplus exceeds 32 bytes; the block is cut into an
allocated block of `bs` bytes and a free block that is linked into the free list. -/
theorem allocate_split {s : State} {pre post : List Blk} {b : Blk} {fl : List Nat}
    (h : WF s (pre ++ b :: post) fl) (hb : b.st = St.F) {bs : Nat} (h16 : 16 ≤ bs)
    (h8 : bs % 8 = 0) (hsur : 32 < b.sz - bs) :
    ∃ m', allocate s b.ptr bs = .ok (s.withMem m') ∧
      WF (s.withMem m') (pre ++ ⟨b.ptr, bs, St.A⟩ :: ⟨b.ptr + bs, b.sz - bs, St.F⟩ :: post)
        ((b.ptr + bs) :: fl.erase b.ptr) ∧
      Keeps s.mem m' (pre ++ post)
        (pre ++ ⟨b.ptr, bs, St.A⟩ :: ⟨b.ptr + bs, b.sz - bs, St.F⟩ :: post) := by
  have hnb := h.next_of_free hb
  obtain ⟨hi, hnoD⟩ := h
  have hbL : b ∈ pre ++ b :: post := by simp
  have fb := hi.facts hbL
  have rb := hi.reads hbL
  obtain ⟨m1, e1, i1, lf1, _, _⟩ := delete_spec hi hb
  have rt := retag_exec (s := s) (m := m1) (p := b.ptr) (X := bs) (t := 1) (by omega)
    (by omega) h8 (by omega) (by omega) fb.2.2.2.2.2 (by omega)
  have hv1 : valid s (b.ptr + bs) := by unfold valid; omega
  have hv2 : valid s (b.ptr + bs + 4) := by unfold valid; omega
  have rt2 := retag_exec (s := s)
    (m := upd (upd (upd (upd m1 (b.ptr - 4) (bs + 1)) (b.ptr + bs - 8) (bs + 1))
      (b.ptr + bs) 0) (b.ptr + bs + 4) 0)
    (p := b.ptr + bs) (X := b.sz - bs) (t := 0) (by omega) (by omega) (by omega) (by omega)
    (by omega) fb.2.2.2.2.2 (by omega)
  simp only [Nat.add_zero] at rt2
  obtain ⟨i2, k2⟩ := Inv_rewrite1
    (M := [⟨b.ptr, bs, St.A⟩, ⟨b.ptr + bs, b.sz - bs, St.D⟩])
    (b := { b with st := St.D }) i1 (by simp)
    ⟨rfl, rfl, by show b.ptr + bs + (b.sz - bs) = b.ptr + b.sz; omega⟩
    (fun c hc => by
      simp only [List.mem_cons, List.mem_singleton, List.not_mem_nil, or_false] at hc
      rcases hc with hc | hc <;> rw [hc] <;> simp)
    (upd (upd (upd (upd (upd (upd m1 (b.ptr - 4) (bs + 1)) (b.ptr + bs - 8) (bs + 1))
      (b.ptr + bs) 0) (b.ptr + bs + 4) 0) (b.ptr + bs - 4) (b.sz - bs))
      (b.ptr + bs + (b.sz - bs) - 8) (b.sz - bs)) (by
      intro c hc
      simp only [List.mem_cons, List.mem_singleton, List.not_mem_nil, or_false] at hc
      rcases hc with hc | hc
      · rw [hc]
        simp only [Blk.tag, if_true]
        refine ⟨h16, h8, ?_, ?_⟩
        · rw [upd_ne (by omega), upd_ne (by omega), upd_ne (by omega), upd_ne (by omega),
            upd_ne (by omega), upd_same]
        · rw [upd_ne (by omega), upd_ne (by omega), upd_ne (by omega), upd_ne (by omega),
            upd_same]
      · rw [hc]
        simp only [Blk.tag, if_neg (show St.D ≠ St.A by decide), Nat.add_zero]
        refine ⟨by omega, by omega, ?_, ?_⟩
        · rw [upd_ne (by omega), upd_same]
        · rw [upd_same]) (by
      intro x hx
      simp only [withMem_mem] at hx ⊢
      rw [upd_ne (by omega), upd_ne (by omega), upd_ne (by omega), upd_ne (by omega),
        upd_ne (by omega), upd_ne (by omega)])
  simp only [withMem_withMem, withMem_mem] at i2 k2
  have e2 : pre ++ [(⟨b.ptr, bs, St.A⟩ : Blk), ⟨b.ptr + bs, b.sz - bs, St.D⟩] ++ post =
      (pre ++ [(⟨b.ptr, bs, St.A⟩ : Blk)]) ++ ⟨b.ptr + bs, b.sz - bs, St.D⟩ :: post := by simp
  rw [e2] at i2 k2
  obtain ⟨m', ec, i3, k3⟩ := coalesce_case1 (b := ⟨b.ptr + bs, b.sz - bs, St.D⟩) i2 rfl
    (by rw [prevBit_snoc]; rfl) hnb
  simp only [withMem_withMem, withMem_mem] at ec i3 k3
  have e3 : (pre ++ [(⟨b.ptr, bs, St.A⟩ : Blk)]) ++
      ({ (⟨b.ptr + bs, b.sz - bs, St.D⟩ : Blk) with st := St.F }) :: post =
      pre ++ ⟨b.ptr, bs, St.A⟩ :: ⟨b.ptr + bs, b.sz - bs, St.F⟩ :: post := by simp
  rw [e3] at i3 k3
  refine ⟨m', ?_, ⟨i3, ?_⟩, ?_⟩
  · unfold allocate
    rw [rb.1]
    simp only [ok_bind]
    rw [e1]
    simp only [ok_bind, DWORDSIZE, NEXT_PTR, NULL]
    rw [sub32_eq (by omega) (by omega), if_neg (by omega), or_ALLOCATED h8, rt.1]
    simp only [ok_bind]
    rw [rt.2.1]
    simp only [ok_bind]
    rw [rt.2.2.2.1]
    simp only [ok_bind]
    rw [rt.2.2.2.2]
    simp only [ok_bind]
    rw [PUT_withMem hv1 (by omega)]
    simp only [ok_bind]
    rw [PREV_PTR_eq (by omega), PUT_withMem hv2 (by omega)]
    simp only [ok_bind]
    rw [or_FREE, rt2.1]
    simp only [ok_bind]
    rw [rt2.2.1]
    simp only [ok_bind]
    rw [rt2.2.2.2.1]
    simp only [ok_bind]
    rw [ec]; rfl
  · intro c hc
    simp only [List.mem_append, List.mem_cons] at hc
    rcases hc with hc | hc | hc | hc
    · exact hnoD c (by simp [hc])
    · rw [hc]; simp
    · rw [hc]; simp
    · exact hnoD c (by simp [hc])
  · have k1 : Keeps s.mem m1 (pre ++ post) (pre ++ post) := by
      refine Keeps_refl_of_frame (fun _ hd _ => hd) ?_
      intro d hd hA x hx hx'
      have hdL : d ∈ pre ++ b :: post := by
        simp only [List.mem_append, List.mem_cons] at hd ⊢; tauto
      exact lf1.payload hi hdL hA hx hx'
    refine (k1.trans k2).trans (k3.mono ?_)
    intro c hc _
    simp only [List.mem_append, List.mem_cons, List.not_mem_nil, or_false] at hc ⊢
    tauto

/-! ## `first_fit` and `mm_malloc` -/

theorem firstFit_cases (m : Nat → Nat) (size : Nat) (l : List Nat) (h0 : ∀ p ∈ l, p ≠ 0) :
    (firstFit m size l = 0 ∧ ∀ p ∈ l, size > m (p - 4)) ∨
    (firstFit m size l ∈ l ∧ ¬ size > m (firstFit m size l - 4)) := by
  induction l with
  | nil => left; exact ⟨rfl, by simp⟩
  | cons p l ih =>
    unfold firstFit
    by_cases hp : size > m (p - 4)
    · rw [if_pos hp]
      rcases ih (fun q hq => h0 q (List.mem_cons_of_mem _ hq)) with ⟨h1, h2⟩ | ⟨h1, h2⟩
      · left
        refine ⟨h1, ?_⟩
        intro q hq
        rcases List.mem_cons.1 hq with hq | hq
        · rw [hq]; exact hp
        · exact h2 q hq
      · right; exact ⟨List.mem_cons_of_mem _ h1, h2⟩
    · rw [if_neg hp]
      right; exact ⟨List.mem_cons_self _ _, hp⟩

/-- The loop of `first_fit` along a linked list whose nodes have readable headers. -/
theorem first_fit_loop_spec {s : State} {n : Nat} {l : List Nat} {prev h : Nat}
    (hfl : FL s.mem prev l h)
    (hrd : ∀ p ∈ l, GET_SIZE s (HEADER_PTR p) = .ok (s.mem (p - 4)) ∧ valid s p) :
    (∀ fuel, l.length < fuel → first_fit_loop fuel s n h = .ok (firstFit s.mem n l)) ∧
    (∀ fuel r, first_fit_loop fuel s n h = .ok r → r = firstFit s.mem n l) := by
  induction l generalizing prev h with
  | nil =>
    have h0 : h = 0 := hfl
    subst h0
    constructor
    · intro fuel hf
      cases fuel with
      | zero => simp at hf
      | succ k => simp [first_fit_loop, NULL, firstFit, pure_ok]
    · intro fuel r hr
      cases fuel with
      | zero => simp [first_fit_loop] at hr
      | succ k =>
        simp only [first_fit_loop, NULL, if_true, pure_ok] at hr
        injection hr with hr
        rw [← hr]; rfl
  | cons p l ih =>
    obtain ⟨e1, e2, e3, e4⟩ := hfl
    subst e1
    obtain ⟨r1, r2⟩ := hrd h (List.mem_cons_self _ _)
    obtain ⟨ih1, ih2⟩ := ih e4 (fun q hq => hrd q (List.mem_cons_of_mem _ hq))
    constructor
    · intro fuel hf
      cases fuel with
      | zero => simp at hf
      | succ k =>
        simp only [first_fit_loop, NULL, if_neg e2, r1, ok_bind, NEXT_PTR, GET_ok r2, firstFit]
        by_cases hp : n > s.mem (h - 4)
        · rw [if_pos hp, if_pos hp]
          exact ih1 k (by simp at hf; omega)
        · rw [if_neg hp, if_neg hp]; rfl
    · intro fuel r hr
      cases fuel with
      | zero => simp [first_fit_loop] at hr
      | succ k =>
        simp only [first_fit_loop, NULL, if_neg e2, r1, ok_bind, NEXT_PTR, GET_ok r2] at hr
        unfold firstFit
        by_cases hp : n > s.mem (h - 4)
        · rw [if_pos hp] at hr ⊢
          exact ih2 k r hr
        · rw [if_neg hp] at hr ⊢
          simp only [pure_ok] at hr
          injection hr with hr
          exact hr.symm

/-- `first_fit` on a heap that satisfies the invariant: with enough fuel it returns the
first block of the free list that is large enough (NULL if there is none), and whenever
it returns, it returns that block. -/
theorem first_fit_spec {s : State} {L : List Blk} {fl : List Nat} (h : Inv s L fl)
    (size : Nat) :
    (∀ fuel, fl.length < fuel → first_fit fuel s size = .ok (firstFit s.mem size fl)) ∧
    (∀ fuel r, first_fit fuel s size = .ok r → r = firstFit s.mem size fl) := by
  have hrd : ∀ p ∈ fl, GET_SIZE s (HEADER_PTR p) = .ok (s.mem (p - 4)) ∧ valid s p := by
    intro p hp
    obtain ⟨b, hb, hbp, hbF⟩ := h.fl_blk hp
    have r := (h.reads hb).1
    have t := (h.blk b hb).2.2.1
    rw [Blk.tag_of_not_A (by rw [hbF]; decide)] at t
    subst hbp
    rw [t]
    exact ⟨r, (h.valid_links hb).1⟩
  obtain ⟨h1, h2⟩ := first_fit_loop_spec (n := size) h.fl_ok hrd
  unfold first_fit
  rw [h.froot, GET_ok h.valid_root]
  simp only [ok_bind]
  exact ⟨h1, h2⟩

/-- A non-NULL result of the free-list search is a free block that is large enough; a
NULL result means that no free block is. -/
theorem Inv.firstFit_blk {s : State} {L : List Blk} {fl : List Nat} (h : Inv s L fl)
    (size : Nat) :
    (firstFit s.mem size fl = 0 ∧ ∀ b ∈ L, b.st = St.F → b.sz < size) ∨
    (firstFit s.mem size fl ≠ 0 ∧
      ∃ b ∈ L, b.ptr = firstFit s.mem size fl ∧ b.st = St.F ∧ size ≤ b.sz) := by
  rcases firstFit_cases s.mem size fl (FL_ne_zero h.fl_ok) with ⟨h1, h2⟩ | ⟨h1, h2⟩
  · left
    refine ⟨h1, ?_⟩
    intro b hb hbF
    have := h2 b.ptr ((h.fl_iff _).2 ⟨b, hb, rfl, hbF⟩)
    have t := (h.blk b hb).2.2.1
    rw [Blk.tag_of_not_A (by rw [hbF]; decide)] at t
    omega
  · right
    obtain ⟨b, hb, hbp, hbF⟩ := h.fl_blk h1
    have t := (h.blk b hb).2.2.1
    rw [Blk.tag_of_not_A (by rw [hbF]; decide)] at t
    refine ⟨FL_ne_zero h.fl_ok _ h1, b, hb, hbp, hbF, ?_⟩
    rw [← hbp] at h2
    omega

/-- Arithmetic of the block size for requests below `2^31`. -/
theorem blockSize_facts {size : Nat} (h1 : 1 ≤ size) (h2 : size < 2147483648) :
    16 ≤ blockSize size ∧ blockSize size % 8 = 0 ∧ size + 8 ≤ blockSize size ∧
    blockSize size ≤ 2147483656 ∧ adjSize size ≠ 0 ∧
    blockSize size = (adjSize size + 7) / 8 * 8 + 8 := by
  have ha : size ≤ adjSize size ∧ adjSize size < 2147483648 := by
    unfold adjSize; split_ifs <;> omega
  unfold blockSize WORDSIZE
  rw [ALIGN_eq (by omega), add32_eq (by omega)]
  omega

/-- `mm_malloc` on an initialised heap, for a nonzero request: the search, followed by
placement or by extension and placement. -/
theorem mm_malloc_unfold {fuel : Nat} {s : State} {size : Nat} (hroot : s.heap_root ≠ 0)
    (hsz : adjSize size ≠ 0) :
    mm_malloc fuel s size = (do
      let block_ptr ← first_fit fuel s (blockSize size)
      if block_ptr = NULL then do
        let r ← extend_heap s
          ((if blockSize size > PAGESIZE then blockSize size else PAGESIZE) / WORDSIZE)
        if r.1 = NULL then pure (NULL, r.2)
        else do
          let s1 ← allocate r.2 r.1 (blockSize size)
          pure (r.1, s1)
      else do
        let s1 ← allocate s block_ptr (blockSize size)
        pure (block_ptr, s1)) := by
  unfold mm_malloc
  have h1 : (if (if size = 112 then 128 else size) = 448 then 512
      else (if size = 112 then 128 else size)) = adjSize size := rfl
  simp only [h1, if_neg hsz, NULL, if_neg hroot, pure_ok, ok_bind]
  have h2 : ¬ ((0 : Int) = -1) := by decide
  simp only [if_neg h2]
  rfl

/-- `allocate` on a free block that is large enough: the block at the same pointer is
allocated afterwards and holds at least `bs` bytes. -/
theorem allocate_spec {s : State} {pre post : List Blk} {b : Blk} {fl : List Nat}
    (h : WF s (pre ++ b :: post) fl) (hb : b.st = St.F) {bs : Nat} (h16 : 16 ≤ bs)
    (h8 : bs % 8 = 0) (hbs : bs ≤ b.sz) :
    ∃ m' L' fl', allocate s b.ptr bs = .ok (s.withMem m') ∧ WF (s.withMem m') L' fl' ∧
      Keeps s.mem m' (pre ++ post) L' ∧
      ∃ a ∈ L', a.ptr = b.ptr ∧ a.st = St.A ∧ bs ≤ a.sz := by
  by_cases hsur : b.sz - bs ≤ 32
  · obtain ⟨m', e, w, k⟩ := allocate_whole h hb hbs hsur
    exact ⟨m', _, _, e, w, k, { b with st := St.A }, by simp, rfl, rfl, hbs⟩
  · obtain ⟨m', e, w, k⟩ := allocate_split h hb h16 h8 (by omega)
    exact ⟨m', _, _, e, w, k, ⟨b.ptr, bs, St.A⟩, by simp, rfl, rfl, Nat.le_refl _⟩

/-- The number of words `mm_malloc` passes to `extend_heap` is even and stands for
`max(block size, PAGESIZE)` bytes. -/
theorem extension_words {bs : Nat} (h8 : bs % 8 = 0) (hle : bs ≤ 2147483656) :
    (if ((if bs > PAGESIZE then bs else PAGESIZE) / WORDSIZE) % 2 = 0
      then mul32 ((if bs > PAGESIZE then bs else PAGESIZE) / WORDSIZE) WORDSIZE
      else mul32 (add32 ((if bs > PAGESIZE then bs else PAGESIZE) / WORDSIZE) 1) WORDSIZE)
      = max bs 4096 := by
  have hP : PAGESIZE = 4096 := rfl
  rw [hP]
  unfold WORDSIZE
  by_cases hb : bs > 4096
  · rw [if_pos hb, if_pos (by omega), mul32_eq (by omega)]
    omega
  · rw [if_neg hb, if_pos (by omega), mul32_eq (by omega)]
    omega

/-- `mm_malloc` on a well-formed heap, for a request of `1 ≤ size < 2^31` bytes, once
the free-list search has returned: it either fails with NULL and leaves the state
unchanged, or returns an allocated block of a well-formed heap that holds the block
size, is none of the blocks allocated before, and leaves those untouched. -/
theorem mm_malloc_spec {fuel : Nat} {s : State} {L : List Blk} {fl : List Nat}
    (h : WF s L fl) {size : Nat} (h1 : 1 ≤ size) (h2 : size < 2147483648) {r : Nat}
    (hff : first_fit fuel s (blockSize size) = .ok r) :
    ∃ p s', mm_malloc fuel s size = .ok (p, s') ∧
      ((p = 0 ∧ s' = s) ∨
       (p ≠ 0 ∧ ∃ L' fl', WF s' L' fl' ∧ s'.mem_heap = s.mem_heap ∧
          s'.mem_max_addr = s.mem_max_addr ∧ s.mem_brk ≤ s'.mem_brk ∧
          Keeps s.mem s'.mem L L' ∧
          ∃ b ∈ L', b.ptr = p ∧ b.st = St.A ∧ blockSize size ≤ b.sz ∧
            ∀ c ∈ L, c.st = St.A → c.ptr ≠ p)) := by
  obtain ⟨b16, b8, bsz, ble, badj, _⟩ := blockSize_facts h1 h2
  have hi := h.1
  have hbf := hi.brk_facts
  have hroot : s.heap_root ≠ 0 := by rw [hi.hroot]; omega
  have hr := (first_fit_spec hi (blockSize size)).2 fuel r hff
  rw [mm_malloc_unfold hroot badj, hff]
  simp only [ok_bind, NULL]
  rcases hi.firstFit_blk (blockSize size) with ⟨f0, hnone⟩ | ⟨f0, b, hb, hbp, hbF, hle⟩
  · -- no fit: extend the heap
    rw [hr, if_pos f0]
    have hw := extension_words b8 ble
    by_cases hfail : 2147483648 ≤ max (blockSize size) 4096 ∨
        s.mem_max_addr < s.mem_brk + max (blockSize size) 4096
    · rw [extend_heap_fail hw hfail]
      simp only [ok_bind, NULL, if_true, pure_ok]
      exact ⟨0, s, rfl, Or.inl ⟨rfl, rfl⟩⟩
    · obtain ⟨m7, e7, i7, k7⟩ := extend_heap_eq hi hw (by omega) (by omega) (by omega)
        (by omega)
      obtain ⟨m8, r8, L8, fl8, e8, w8, k8, blk, hblk, hr8, hF8, hle1, hle2⟩ :=
        coalesce_spec (P := L) (Q := []) (b := ⟨s.mem_brk, _, St.D⟩) i7 rfl (by
          intro c hc; simp only [List.append_nil] at hc; exact h.2 c hc)
      simp only [withMem_withMem, withMem_mem, List.append_nil] at e8 w8 k8 hle1 hle2
      obtain ⟨pre8, post8, hL8⟩ := List.append_of_mem hblk
      rw [hL8] at w8
      obtain ⟨m9, L9, fl9, e9, w9, k9, a, ha, hap, haA, hasz⟩ :=
        allocate_spec w8 hF8 b16 b8 (by omega)
      simp only [withMem_withMem, withMem_mem] at e9 w9 k9
      have fblk := w8.1.facts (b := blk) (by simp)
      simp only [withMem_heap, grow_heap] at fblk
      have hr0 : r8 ≠ 0 := by omega
      rw [e7, e8]
      simp only [ok_bind, if_neg hr0]
      rw [← hr8, e9]
      simp only [ok_bind, pure_ok]
      refine ⟨_, _, rfl, Or.inr ⟨by omega, L9, fl9, w9, rfl, rfl, by
        simp only [withMem_brk, grow_brk]; omega, ?_, a, ha, hap, haA, hasz, ?_⟩⟩
      · simp only [withMem_mem]
        have k78 : Keeps s.mem m8 L L8 := k7.trans (k8.mono (by
          intro c hc hA
          simp only [List.mem_append, List.mem_singleton] at hc
          rcases hc with hc | hc
          · exact hc
          · rw [hc] at hA; simp at hA))
        rw [hL8] at k78
        refine k78.trans (k9.mono ?_)
        intro c hc hA
        simp only [List.mem_append, List.mem_cons] at hc ⊢
        rcases hc with hc | hc | hc
        · exact Or.inl hc
        · rw [hc, hF8] at hA; exact absurd hA (by decide)
        · exact Or.inr hc
      · intro c hc hA hcp
        have hc8 : c ∈ L8 := ((k7.trans (k8.mono (by
          intro c hc hA
          simp only [List.mem_append, List.mem_singleton] at hc
          rcases hc with hc | hc
          · exact hc
          · rw [hc] at hA; simp at hA))) c hc hA).1
        rw [hL8] at hc8
        have := w8.1.ptr_inj hc8 (b := c) (c := blk) (by simp) (by rw [hcp])
        rw [this, hF8] at hA
        exact absurd hA (by decide)
  · -- a fit was found
    rw [hr, if_neg f0]
    obtain ⟨pre, post, hL⟩ := List.append_of_mem hb
    subst hL
    obtain ⟨m9, L9, fl9, e9, w9, k9, a, ha, hap, haA, hasz⟩ :=
      allocate_spec h hbF b16 b8 hle
    rw [← hbp, e9]
    simp only [ok_bind, pure_ok]
    have fb := hi.facts hb
    refine ⟨_, _, rfl, Or.inr ⟨by omega, L9, fl9, w9, rfl, rfl, Nat.le_refl _, ?_, a, ha, hap,
      haA, hasz, ?_⟩⟩
    · simp only [withMem_mem]
      intro c hc hA
      simp only [List.mem_append, List.mem_cons] at hc
      rcases hc with hc | hc | hc
      · exact k9 c (by simp [hc]) hA
      · rw [hc, hbF] at hA; exact absurd hA (by decide)
      · exact k9 c (by simp [hc]) hA
    · intro c hc hA hcp
      have := hi.ptr_inj hc hb hcp
      rw [this, hbF] at hA
      exact absurd hA (by decide)

/-! ## `mm_init` -/

/-- The memory after the six stores of `mm_init` at the start `lo` of an empty arena. -/
theorem init_words (m : Nat → Nat) (lo : Nat) :
    ∃ m6, m6 = upd (upd (upd (upd (upd (upd m lo 0) (lo + 4) 0) (lo + 8) 0) (lo + 12) 9)
      (lo + 16) 9) (lo + 20) 1 ∧
      m6 (lo + 8) = 0 ∧ m6 (lo + 12) = 9 ∧ m6 (lo + 16) = 9 ∧ m6 (lo + 20) = 1 := by
  refine ⟨_, rfl, ?_, ?_, ?_, ?_⟩
  · rw [upd_ne (by omega), upd_ne (by omega), upd_ne (by omega), upd_same]
  · rw [upd_ne (by omega), upd_ne (by omega), upd_same]
  · rw [upd_ne (by omega), upd_same]
  · rw [upd_same]

/-- `mm_init` up to its call of `extend_heap`, on an empty arena with room for the
prologue and the epilogue: the state holds an empty heap that satisfies the
invariant. -/
theorem mm_init_eq {s0 : State} (hbrk : s0.mem_brk = s0.mem_heap) (hlo : 0 < s0.mem_heap)
    (hmax : s0.mem_max_addr < 4294967296) (hroom : s0.mem_heap + 24 ≤ s0.mem_max_addr) :
    ∃ s6, (mm_init s0 = do
        let r ← extend_heap s6 (PAGESIZE / WORDSIZE)
        if r.1 = NULL then pure (-1, r.2) else pure (0, r.2)) ∧
      WF s6 [] [] ∧ s6.mem_heap = s0.mem_heap ∧ s6.mem_brk = s0.mem_heap + 24 ∧
      s6.mem_max_addr = s0.mem_max_addr := by
  obtain ⟨m6, hm6, w1, w2, w3, w4⟩ := init_words s0.mem s0.mem_heap
  have hs : mem_sbrk s0 (6 * WORDSIZE) = (s0.mem_heap, s0.grow 24) := by
    have := mem_sbrk_ok (s := s0) (k := 24) (by omega) (by omega)
    rw [hbrk] at this
    exact this
  refine ⟨State.mk m6 s0.mem_heap (s0.mem_heap + 24) s0.mem_max_addr (s0.mem_heap + 16)
    (s0.mem_heap + 8), ?_, ⟨?_, by simp⟩, rfl, rfl, rfl⟩
  · unfold mm_init
    simp only [hs]
    rw [if_neg (by omega)]
    have hv : ∀ k, k ≤ 20 → k % 4 = 0 → ∀ m,
        valid (({ s0.grow 24 with heap_root := s0.mem_heap } : State).withMem m)
          (s0.mem_heap + k) := by
      intro k hk hk4 m
      unfold valid
      simp only [withMem_heap, withMem_brk]
      show s0.mem_heap ≤ s0.mem_heap + k ∧ s0.mem_heap + k + 4 ≤ s0.mem_brk + 24 ∧
        (s0.mem_heap + k - s0.mem_heap) % 4 = 0
      omega
    have e0 : (({ s0.grow 24 with heap_root := s0.mem_heap } : State)) =
        (({ s0.grow 24 with heap_root := s0.mem_heap } : State)).withMem s0.mem := rfl
    rw [e0]
    simp only [withMem_hroot, WORDSIZE, NULL]
    have a1 : add32 s0.mem_heap (1 * 4) = s0.mem_heap + 4 := add32_eq (by omega)
    have a2 : add32 s0.mem_heap (2 * 4) = s0.mem_heap + 8 := add32_eq (by omega)
    have a3 : add32 s0.mem_heap (3 * 4) = s0.mem_heap + 12 := add32_eq (by omega)
    have a4 : add32 s0.mem_heap (4 * 4) = s0.mem_heap + 16 := add32_eq (by omega)
    have a5 : add32 s0.mem_heap (5 * 4) = s0.mem_heap + 20 := add32_eq (by omega)
    have o1 : (2 * 4 ||| ALLOCATED) = 9 := by decide
    have o2 : (0 * 4 ||| ALLOCATED) = 1 := by decide
    have p0 := PUT_withMem (s := ({ s0.grow 24 with heap_root := s0.mem_heap } : State))
      (m := s0.mem) (a := s0.mem_heap) (v := 0) (by simpa using hv 0 (by omega) rfl s0.mem)
      (by omega)
    rw [p0]
    simp only [ok_bind, withMem_hroot]
    rw [a1, PUT_withMem (by simpa using hv 4 (by omega) rfl s0.mem) (by omega)]
    simp only [ok_bind, withMem_hroot]
    rw [a2, PUT_withMem (by simpa using hv 8 (by omega) rfl s0.mem) (by omega)]
    simp only [ok_bind, withMem_hroot]
    rw [a3, o1, PUT_withMem (by simpa using hv 12 (by omega) rfl s0.mem) (by omega)]
    simp only [ok_bind, withMem_hroot]
    rw [a4, PUT_withMem (by simpa using hv 16 (by omega) rfl s0.mem) (by omega)]
    simp only [ok_bind, withMem_hroot]
    rw [a5, o2, PUT_withMem (by simpa using hv 20 (by omega) rfl s0.mem) (by omega)]
    simp only [ok_bind, withMem_hroot]
    rw [a2, a4, ← hm6]
    simp only [withMem_mem, withMem_heap, withMem_brk, withMem_max, grow_heap, grow_brk,
      grow_max, hbrk]
  · refine ⟨hlo, hmax, ?_, rfl, rfl, w2, w3, rfl, ?_, ?_, ?_, ?_, List.nodup_nil, ?_⟩
    · show s0.mem_heap + 24 ≤ s0.mem_max_addr; exact hroom
    · show m6 (s0.mem_heap + 24 - 4) = 1
      rw [show s0.mem_heap + 24 - 4 = s0.mem_heap + 20 by omega]; exact w4
    · intro b hb; simp at hb
    · intro b hb; simp at hb
    · show m6 (s0.mem_heap + 8) = 0; exact w1
    · intro p; simp

theorem init_words_size :
    (if (PAGESIZE / WORDSIZE) % 2 = 0 then mul32 (PAGESIZE / WORDSIZE) WORDSIZE
      else mul32 (add32 (PAGESIZE / WORDSIZE) 1) WORDSIZE) = 4096 := by decide

/-- `mm_init` on an empty arena: with room for `24 + 4096` bytes it returns 0 and leaves
a well-formed heap with one free block of 4096 bytes; otherwise it returns -1. -/
theorem mm_init_spec {s0 : State} (hbrk : s0.mem_brk = s0.mem_heap) (hlo : 0 < s0.mem_heap)
    (hmax : s0.mem_max_addr < 4294967296) :
    (s0.mem_heap + 4120 ≤ s0.mem_max_addr →
      ∃ s', mm_init s0 = .ok (0, s') ∧
        WF s' [⟨s0.mem_heap + 24, 4096, St.F⟩] [s0.mem_heap + 24] ∧
        s'.mem_heap = s0.mem_heap ∧ s'.mem_brk = s0.mem_heap + 4120 ∧
        s'.mem_max_addr = s0.mem_max_addr) ∧
    (s0.mem_max_addr < s0.mem_heap + 4120 → ∃ s', mm_init s0 = .ok (-1, s')) := by
  constructor
  · intro hroom
    obtain ⟨s6, e6, w6, f1, f2, f3⟩ := mm_init_eq hbrk hlo hmax (by omega)
    obtain ⟨m7, e7, i7, _⟩ := extend_heap_eq w6.1 init_words_size (by omega) (by omega)
      (by omega) (by omega)
    simp only [List.nil_append] at i7
    obtain ⟨m8, e8, i8, _⟩ := coalesce_case1 (P := []) (Q := [])
      (b := ⟨s6.mem_brk, 4096, St.D⟩) i7 rfl rfl rfl
    simp only [withMem_withMem, List.nil_append] at e8 i8
    have hne : s6.mem_brk ≠ 0 := by omega
    refine ⟨(s6.grow 4096).withMem m8, ?_, ?_, ?_, ?_, ?_⟩
    · rw [e6, e7, e8]
      simp only [ok_bind, NULL, if_neg hne, pure_ok]
    · refine ⟨?_, ?_⟩
      · rw [← f2]; exact i8
      · intro b hb
        rw [List.mem_singleton.1 hb]; simp
    · simp only [withMem_heap, grow_heap]; exact f1
    · simp only [withMem_brk, grow_brk]; omega
    · simp only [withMem_max, grow_max]; exact f3
  · intro hno
    by_cases hroom : s0.mem_heap + 24 ≤ s0.mem_max_addr
    · obtain ⟨s6, e6, w6, f1, f2, f3⟩ := mm_init_eq hbrk hlo hmax hroom
      have := extend_heap_fail (s := s6) init_words_size (Or.inr (by omega))
      refine ⟨s6, ?_⟩
      rw [e6, this]
      simp only [ok_bind, NULL, if_true, pure_ok]
    · have hs : mem_sbrk s0 (6 * WORDSIZE) = (4294967295, s0) :=
        mem_sbrk_fail (Or.inr (by simp only [WORDSIZE]; omega))
      refine ⟨{ s0 with heap_root := 4294967295 }, ?_⟩
      unfold mm_init
      simp only [hs, if_true, pure_ok]

/-! ## The invariant holds in every reachable state -/

/-- A store of the client into the payload of an allocated block preserves the
invariant. -/
theorem WF_store {s : State} {L : List Blk} {fl : List Nat} (h : WF s L fl) {b : Blk}
    (hb : b ∈ L) (hA : b.st = St.A) {a v : Nat} (h1 : b.ptr ≤ a) (h2 : a + 8 < b.ptr + b.sz) :
    WF (s.withMem (upd s.mem a v)) L fl := by
  obtain ⟨pre, post, rfl⟩ := List.append_of_mem hb
  have hbl := h.1.blk b hb
  have hfa := h.1.facts hb
  have r := (Inv_rewrite1 (M := [b]) h.1 (by rw [hA]; decide) ⟨rfl, rfl⟩
    (by intro c hc; rw [List.mem_singleton.1 hc, hA]; decide) (upd s.mem a v)
    (by
      intro c hc
      rw [List.mem_singleton.1 hc]
      refine ⟨hbl.1, hbl.2.1, ?_, ?_⟩
      · rw [upd_ne (by omega)]; exact hbl.2.2.1
      · rw [upd_ne (by omega)]; exact hbl.2.2.2)
    (by intro x hx; rw [upd_ne (by omega)])).1
  simp only [List.append_assoc, List.singleton_append] at r
  exact ⟨r, h.2⟩

theorem mm_init_ok {s0 s : State} (hbrk : s0.mem_brk = s0.mem_heap) (hlo : 0 < s0.mem_heap)
    (hmax : s0.mem_max_addr < 4294967296) (hinit : mm_init s0 = .ok (0, s)) :
    WF s [⟨s0.mem_heap + 24, 4096, St.F⟩] [s0.mem_heap + 24] ∧
    s.mem_heap = s0.mem_heap ∧ s.mem_brk = s0.mem_heap + 4120 ∧
    s.mem_max_addr = s0.mem_max_addr := by
  by_cases hroom : s0.mem_heap + 4120 ≤ s0.mem_max_addr
  · obtain ⟨s', e, w⟩ := (mm_init_spec hbrk hlo hmax).1 hroom
    rw [e] at hinit
    injection hinit with hinit
    injection hinit with _ hs
    subst hs
    exact w
  · obtain ⟨s', e⟩ := (mm_init_spec hbrk hlo hmax).2 (by omega)
    rw [e] at hinit
    injection hinit with hinit
    injection hinit with h0 _
    exact absurd h0 (by decide)

/-- When `mm_malloc` returns, its free-list search has returned. -/
theorem mm_malloc_search {fuel : Nat} {s : State} {size p : Nat} {s' : State}
    (hroot : s.heap_root ≠ 0) (hsz : adjSize size ≠ 0)
    (hm : mm_malloc fuel s size = .ok (p, s')) :
    ∃ r, first_fit fuel s (blockSize size) = .ok r := by
  rw [mm_malloc_unfold hroot hsz] at hm
  cases hf : first_fit fuel s (blockSize size) with
  | ok r => exact ⟨r, rfl⟩
  | error e => rw [hf] at hm; simp only [err_bind] at hm; exact absurd hm (by simp)

theorem LiveOK_erase {L L' : List Blk} {live : List (Nat × Nat)} {p n : Nat}
    (hl : LiveOK L live) (hp : (p, n) ∈ live)
    (hk : ∀ c ∈ L, c.st = St.A → c.ptr ≠ p → c ∈ L') : LiveOK L' (live.erase (p, n)) := by
  have hnd : live.Nodup := List.Nodup.of_map _ hl.2
  refine ⟨?_, List.Nodup.sublist ((List.erase_sublist _ _).map _) hl.2⟩
  intro e he
  rw [hnd.mem_erase_iff] at he
  have hne : e.1 ≠ p := by
    intro h
    exact he.1 (List.inj_on_of_nodup_map hl.2 he.2 hp h)
  obtain ⟨b, hb, hbp, hbA, hsz⟩ := hl.1 e he.2
  exact ⟨b, hk b hb hbA (by rw [hbp]; exact hne), hbp, hbA, hsz⟩

/-- Every reachable state is a well-formed heap in which the live allocations are
allocated blocks. -/
theorem Reach.inv {s : State} {live : List (Nat × Nat)} (h : Reach s live) :
    ∃ L fl, WF s L fl ∧ LiveOK L live := by
  induction h with
  | init hbrk hlo hmax hinit =>
    exact ⟨_, _, (mm_init_ok hbrk hlo hmax hinit).1, by simp [LiveOK]⟩
  | @malloc s s' live fuel size p _ h1 h2 hm hp ih =>
    obtain ⟨L, fl, w, hl⟩ := ih
    have hroot : s.heap_root ≠ 0 := by rw [w.1.hroot]; omega
    obtain ⟨r, hr⟩ := mm_malloc_search hroot (blockSize_facts h1 h2).2.2.2.2.1 hm
    obtain ⟨p', s'', e, hcase⟩ := mm_malloc_spec w h1 h2 hr
    rw [e] at hm
    injection hm with hm
    injection hm with hp' hs'
    subst hp'; subst hs'
    rcases hcase with ⟨h0, _⟩ | ⟨_, L', fl', w', _, _, _, hk, b, hb, hbp, hbA, hbs, hnew⟩
    · exact absurd h0 hp
    · refine ⟨L', fl', w', ?_, ?_⟩
      · intro e he
        rcases List.mem_cons.1 he with rfl | he
        · exact ⟨b, hb, hbp, hbA, by have := (blockSize_facts h1 h2).2.2.1; simp only; omega⟩
        · obtain ⟨c, hc, hcp, hcA, hsz⟩ := hl.1 e he
          exact ⟨c, (hk c hc hcA).1, hcp, hcA, hsz⟩
      · rw [List.map_cons, List.nodup_cons]
        refine ⟨?_, hl.2⟩
        intro hmem
        obtain ⟨e, he, hep⟩ := List.mem_map.1 hmem
        obtain ⟨c, hc, hcp, hcA, _⟩ := hl.1 e he
        exact hnew c hc hcA (by rw [hcp, hep])
  | @malloc_null s s' live fuel size _ h1 h2 hm ih =>
    obtain ⟨L, fl, w, hl⟩ := ih
    have hroot : s.heap_root ≠ 0 := by rw [w.1.hroot]; omega
    obtain ⟨r, hr⟩ := mm_malloc_search hroot (blockSize_facts h1 h2).2.2.2.2.1 hm
    obtain ⟨p', s'', e, hcase⟩ := mm_malloc_spec w h1 h2 hr
    rw [e] at hm
    injection hm with hm
    injection hm with hp' hs'
    subst hs'
    rcases hcase with ⟨_, hs⟩ | ⟨h0, _⟩
    · rw [hs]; exact ⟨L, fl, w, hl⟩
    · exact absurd hp' h0
  | @free s s' live p n _ hp hf ih =>
    obtain ⟨L, fl, w, hl⟩ := ih
    obtain ⟨b, hb, hbp, hbA, _⟩ := hl.1 (p, n) hp
    obtain ⟨pre, post, rfl⟩ := List.append_of_mem hb
    obtain ⟨m', L', fl', e, w', hk, _⟩ := mm_free_spec w hbA
    simp only at hbp
    rw [hbp, hf] at e
    injection e with e
    subst e
    refine ⟨L', fl', w', LiveOK_erase hl hp ?_⟩
    intro c hc hcA hcp
    refine (hk c ?_ hcA).1
    simp only [List.mem_append, List.mem_cons] at hc ⊢
    rcases hc with hc | rfl | hc
    · exact Or.inl hc
    · exact absurd hbp hcp
    · exact Or.inr hc
  | @store s live p n a v _ hp h1 h2 h3 _ ih =>
    obtain ⟨L, fl, w, hl⟩ := ih
    obtain ⟨b, hb, hbp, hbA, hsz⟩ := hl.1 (p, n) hp
    simp only at hbp hsz
    exact ⟨L, fl, WF_store w hb hbA (by omega) (by omega), hl⟩

/-! ## What the two walks observe on a well-formed heap -/

/-- The header word of a block, as the scan reads it. -/
theorem Inv.hdr_word {s : State} {L : List Blk} {fl : List Nat} (h : Inv s L fl) {b : Blk}
    (hb : b ∈ L) :
    GET s (HEADER_PTR b.ptr) = .ok b.tag ∧ b.tag &&& 0xFFFFFFF8 = b.sz ∧
    b.tag &&& 1 = b.bit := by
  have hf := h.facts hb
  have hbl := h.blk b hb
  have hv : valid s (b.ptr - 4) := by unfold valid; omega
  rw [HEADER_PTR_eq (by omega) (by omega), GET_ok hv, hbl.2.2.1]
  exact ⟨rfl, tag_size hf.2.2.2.2.1 b.bit_le (by omega), tag_bit hf.2.2.2.2.1 b.bit_le⟩

/-- The header word at the end of the heap is the epilogue. -/
theorem Inv.epi_word {s : State} {L : List Blk} {fl : List Nat} (h : Inv s L fl) :
    GET s (HEADER_PTR s.mem_brk) = .ok 1 := by
  have hf := h.brk_facts
  have hv : valid s (s.mem_brk - 4) := by unfold valid; omega
  rw [HEADER_PTR_eq (by omega) (by omega), GET_ok hv, h.epi]

/-- The scan from the start of a suffix of the tiling visits that suffix. -/
theorem heap_scan_loop_spec {s : State} {L : List Blk} {fl : List Nat} (h : Inv s L fl)
    (post : List Blk) : ∀ (a : Nat), Chain a post s.mem_brk → (∀ b ∈ post, b ∈ L) →
    ∀ fuel, post.length < fuel →
      heap_scan_loop fuel s a = .ok (post.map (fun b => (b.ptr, b.tag))) := by
  induction post with
  | nil =>
    intro a hc _ fuel hfuel
    have ha : a = s.mem_brk := hc
    subst ha
    cases fuel with
    | zero => simp at hfuel
    | succ k =>
      simp only [heap_scan_loop, h.epi_word, ok_bind]
      rfl
  | cons b post ih =>
    intro a hc hsub fuel hfuel
    have hb : b ∈ L := hsub b (List.mem_cons_self _ _)
    obtain ⟨w1, w2, _⟩ := h.hdr_word hb
    have hpos := (h.facts hb).2.2.2.1
    have ha : b.ptr = a := hc.1
    subst ha
    cases fuel with
    | zero => simp at hfuel
    | succ k =>
      have hrec := ih (b.ptr + b.sz) hc.2 (fun c hc' => hsub c (List.mem_cons_of_mem _ hc')) k
        (by simp at hfuel; omega)
      have hnz : ¬ (b.tag &&& 0xFFFFFFF8 = 0) := by rw [w2]; omega
      simp only [heap_scan_loop, w1, ok_bind, if_neg hnz, (h.reads hb).2.2.2, hrec, pure_ok,
        List.map_cons]

/-- The linear scan of a heap that satisfies the invariant returns the blocks of the
tiling with their tags. -/
theorem heap_scan_spec {s : State} {L : List Blk} {fl : List Nat} (h : Inv s L fl)
    {fuel : Nat} (hfuel : L.length < fuel) :
    heap_scan fuel s = .ok (L.map (fun b => (b.ptr, b.tag))) := by
  have hf := h.brk_facts
  have hp := (hdr_reads (s := s) (p := s.mem_heap + 16) (z := 8) (t := 1) (by omega)
    (by omega) (by omega) hf.2.2.1 (by
      rw [show s.mem_heap + 16 - 4 = s.mem_heap + 12 by omega]; exact h.pro_h) rfl
    (by omega) (by omega) (by omega)).2.2.2
  unfold heap_scan
  rw [h.hroot, hp]
  simp only [ok_bind]
  exact heap_scan_loop_spec h L _ h.chain (fun _ hb => hb) fuel hfuel

/-- The walk along a linked list returns its nodes. -/
theorem free_list_walk_loop_spec {s : State} {l : List Nat} {prev h : Nat}
    (hfl : FL s.mem prev l h) (hv : ∀ p ∈ l, valid s p) :
    ∀ fuel, l.length < fuel → free_list_walk_loop fuel s h = .ok l := by
  induction l generalizing prev h with
  | nil =>
    have h0 : h = 0 := hfl
    subst h0
    intro fuel hf
    cases fuel with
    | zero => simp at hf
    | succ k => simp [free_list_walk_loop, NULL, pure_ok]
  | cons p l ih =>
    obtain ⟨e1, e2, e3, e4⟩ := hfl
    subst e1
    intro fuel hf
    cases fuel with
    | zero => simp at hf
    | succ k =>
      have hrec := ih e4 (fun q hq => hv q (List.mem_cons_of_mem _ hq)) k
        (by simp at hf; omega)
      simp only [free_list_walk_loop, NULL, if_neg e2, NEXT_PTR,
        GET_ok (hv h (List.mem_cons_self _ _)), ok_bind, hrec, pure_ok]

/-- The walk from the free-list head of a heap that satisfies the invariant returns the
free list. -/
theorem free_list_walk_spec {s : State} {L : List Blk} {fl : List Nat} (h : Inv s L fl)
    {fuel : Nat} (hfuel : fl.length < fuel) : free_list_walk fuel s = .ok fl := by
  unfold free_list_walk
  rw [h.froot, GET_ok h.valid_root]
  simp only [ok_bind]
  refine free_list_walk_loop_spec h.fl_ok ?_ fuel hfuel
  intro p hp
  obtain ⟨b, hb, hbp, _⟩ := h.fl_blk hp
  rw [← hbp]
  exact (h.valid_links hb).1

/-- Consecutive blocks of a tiling are physically adjacent. -/
theorem Chain_adjacent {a e : Nat} {L : List Blk} (h : Chain a L e) :
    L.Chain' (fun b c => b.ptr + b.sz = c.ptr) := by
  induction L generalizing a with
  | nil => exact List.chain'_nil
  | cons b l ih =>
    cases l with
    | nil => exact List.chain'_singleton _
    | cons c l =>
      rw [List.chain'_cons]
      refine ⟨?_, ih h.2⟩
      have h1 : b.ptr = a := h.1
      have h2 : c.ptr = a + b.sz := h.2.1
      omega

/-- A relation that holds between any two adjacent members of a list holds along the
list. -/
theorem Chain'_of_mem {α : Type} {R S : α → α → Prop} {l : List α}
    (hS : l.Chain' S) (hR : ∀ x ∈ l, ∀ y ∈ l, S x y → R x y) : l.Chain' R := by
  induction l with
  | nil => exact List.chain'_nil
  | cons x l ih =>
    cases l with
    | nil => exact List.chain'_singleton _
    | cons y l =>
      rw [List.chain'_cons] at hS ⊢
      refine ⟨hR x (List.mem_cons_self _ _) y (List.mem_cons_of_mem _ (List.mem_cons_self _ _))
        hS.1, ih hS.2 ?_⟩
      intro u hu v hv
      exact hR u (List.mem_cons_of_mem _ hu) v (List.mem_cons_of_mem _ hv)

/-- In a well-formed heap a block is marked free in its tag exactly when its status is
`F`. -/
theorem WF.bit_zero_iff {s : State} {L : List Blk} {fl : List Nat} (h : WF s L fl) {b : Blk}
    (hb : b ∈ L) : b.tag &&& 1 = FREE ↔ b.st = St.F := by
  rw [(h.1.hdr_word hb).2.2]
  show b.bit = 0 ↔ _
  rw [Blk.bit_eq_zero]
  constructor
  · intro hA
    exact St.eq_F_of hA (h.2 b hb)
  · intro hF; rw [hF]; decide

/-! ## Progress: valid calls return -/

/-- In a reachable state `mm_malloc` returns for every request of `1 ≤ size < 2^31`
bytes, given fuel for the free-list search. -/
theorem Reach.malloc_returns {s : State} {live : List (Nat × Nat)} (h : Reach s live)
    {size : Nat} (h1 : 1 ≤ size) (h2 : size < 2147483648) :
    ∃ N, ∀ fuel, N ≤ fuel → ∃ p s', mm_malloc fuel s size = .ok (p, s') := by
  obtain ⟨L, fl, w, _⟩ := h.inv
  refine ⟨fl.length + 1, fun fuel hfuel => ?_⟩
  obtain ⟨p, s', e, _⟩ := mm_malloc_spec w h1 h2
    ((first_fit_spec w.1 (blockSize size)).1 fuel (by omega))
  exact ⟨p, s', e⟩

/-- In a reachable state `mm_free` of a live pointer returns. -/
theorem Reach.free_returns {s : State} {live : List (Nat × Nat)} (h : Reach s live)
    {p n : Nat} (hp : (p, n) ∈ live) : ∃ s', mm_free s p = .ok s' := by
  obtain ⟨L, fl, w, hl⟩ := h.inv
  obtain ⟨b, hb, hbp, hbA, _⟩ := hl.1 (p, n) hp
  obtain ⟨pre, post, rfl⟩ := List.append_of_mem hb
  obtain ⟨m', _, _, e, _⟩ := mm_free_spec w hbA
  simp only at hbp
  rw [hbp] at e
  exact ⟨_, e⟩

/-- A concrete reachable state: `mm_init`, `mm_malloc(24)`, `mm_malloc(100)`,
`mm_malloc(8)`, then `mm_free` of the second allocation. -/
theorem reach_demo : Reach demo5 [(65704, 8), (65560, 24)] :=
  @Reach.free demo4 demo5 [(65704, 8), (65592, 100), (65560, 24)] 65592 100
    (@Reach.malloc demo3 demo4 _ 8 8 65704
      (@Reach.malloc demo2 demo3 _ 8 100 65592
        (@Reach.malloc demo1 demo2 _ 8 24 65560
          (@Reach.init demo0 demo1 rfl (by decide) (by decide) rfl)
          (by decide) (by decide) rfl (by decide))
        (by decide) (by decide) rfl (by decide))
      (by decide) (by decide) rfl (by decide))
    (by decide) rfl

/-! ## The heap invariants in every reachable state -/

/-- C1 (no-overlap): in every state reached from a successful `mm_init` by valid calls
(`mm_malloc` with `1 ≤ size < 2^31`, `mm_free` of live pointers, client stores into live
payloads), any two live allocations `(p, s)` and `(q, t)` have disjoint payload ranges
`[p, p + s)` and `[q, q + t)`. -/
theorem no_overlap {s : State} {live : List (Nat × Nat)} (h : Reach s live) :
    live.Pairwise (fun x y => x.1 + x.2 ≤ y.1 ∨ y.1 + y.2 ≤ x.1) := by
  obtain ⟨L, fl, w, hl⟩ := h.inv
  have hne : live.Pairwise (fun x y => x.1 ≠ y.1) := List.pairwise_map.1 hl.2
  refine List.Pairwise.imp_of_mem ?_ hne
  intro x y hx hy hxy
  obtain ⟨b, hb, hbp, _, hbs⟩ := hl.1 x hx
  obtain ⟨c, hc, hcp, _, hcs⟩ := hl.1 y hy
  rcases w.1.disj hb hc with e | e | e
  · exact absurd (by rw [← hbp, ← hcp, e]) hxy
  · left; omega
  · right; omega

/-- The no-overlap property on the concrete reachable state `demo5`. -/
theorem no_overlap_witness :
    Reach demo5 [(65704, 8), (65560, 24)] ∧
    [(65704, 8), (65560, 24)].Pairwise (fun x y => x.1 + x.2 ≤ y.1 ∨ y.1 + y.2 ≤ x.1) :=
  ⟨reach_demo, no_overlap reach_demo⟩

/-- C2 (free-list completeness): in every reachable state the walk from the free-list
head (`GET(free_root)`, following NEXT links) and the linear scan from the prologue to
the epilogue both terminate, and the pointers the walk reaches are exactly the blocks of
the scan whose header is marked FREE. -/
theorem free_list_complete {s : State} {live : List (Nat × Nat)} (h : Reach s live) :
    ∃ blocks fl N,
      (∀ fuel, N ≤ fuel →
        heap_scan fuel s = .ok blocks ∧ free_list_walk fuel s = .ok fl) ∧
      ∀ p, p ∈ fl ↔ ∃ e ∈ blocks, e.1 = p ∧ e.2 &&& 1 = FREE := by
  obtain ⟨L, fl, w, _⟩ := h.inv
  refine ⟨L.map (fun b => (b.ptr, b.tag)), fl, L.length + fl.length + 1, ?_, ?_⟩
  · intro fuel hfuel
    exact ⟨heap_scan_spec w.1 (by omega), free_list_walk_spec w.1 (by omega)⟩
  · intro p
    rw [w.1.fl_iff p]
    constructor
    · rintro ⟨b, hb, hbp, hbF⟩
      exact ⟨(b.ptr, b.tag), List.mem_map.2 ⟨b, hb, rfl⟩, hbp, (w.bit_zero_iff hb).2 hbF⟩
    · rintro ⟨e, he, hep, hbit⟩
      obtain ⟨b, hb, rfl⟩ := List.mem_map.1 he
      exact ⟨b, hb, hep, (w.bit_zero_iff hb).1 hbit⟩

/-- Free-list completeness on the concrete reachable state `demo5`. -/
theorem free_list_complete_witness :
    Reach demo5 [(65704, 8), (65560, 24)] ∧
    ∃ blocks fl N,
      (∀ fuel, N ≤ fuel →
        heap_scan fuel demo5 = .ok blocks ∧ free_list_walk fuel demo5 = .ok fl) ∧
      ∀ p, p ∈ fl ↔ ∃ e ∈ blocks, e.1 = p ∧ e.2 &&& 1 = FREE :=
  ⟨reach_demo, free_list_complete reach_demo⟩

/-- C3 (coalescing completeness): in every reachable state the linear scan from the
prologue to the epilogue terminates, and no two blocks that follow one another in it
(physically adjacent blocks) are both marked free. -/
theorem coalescing_complete {s : State} {live : List (Nat × Nat)} (h : Reach s live) :
    ∃ blocks N, (∀ fuel, N ≤ fuel → heap_scan fuel s = .ok blocks) ∧
      blocks.Chain' (fun x y => ¬ (x.2 &&& 1 = FREE ∧ y.2 &&& 1 = FREE)) := by
  obtain ⟨L, fl, w, _⟩ := h.inv
  refine ⟨L.map (fun b => (b.ptr, b.tag)), L.length + 1, ?_, ?_⟩
  · intro fuel hfuel
    exact heap_scan_spec w.1 (by omega)
  · rw [List.chain'_map]
    refine Chain'_of_mem (Chain_adjacent w.1.chain) ?_
    intro b hb c hc hbc hF
    exact w.1.adj b hb c hc hbc ⟨(w.bit_zero_iff hb).1 hF.1, (w.bit_zero_iff hc).1 hF.2⟩

/-- Coalescing completeness on the concrete reachable state `demo5`. -/
theorem coalescing_complete_witness :
    Reach demo5 [(65704, 8), (65560, 24)] ∧
    ∃ blocks N, (∀ fuel, N ≤ fuel → heap_scan fuel demo5 = .ok blocks) ∧
      blocks.Chain' (fun x y => ¬ (x.2 &&& 1 = FREE ∧ y.2 &&& 1 = FREE)) :=
  ⟨reach_demo, coalescing_complete reach_demo⟩

/-- C4 (boundary tags): in every reachable state the linear scan from the prologue to
the epilogue terminates, and for every block `(p, header)` in it `FOOTER_PTR(p)` is
`p + size - 8` and the word stored there equals the header word (same size, same
allocation bit). -/
theorem boundary_tags {s : State} {live : List (Nat × Nat)} (h : Reach s live) :
    ∃ blocks N, (∀ fuel, N ≤ fuel → heap_scan fuel s = .ok blocks) ∧
      ∀ e ∈ blocks, FOOTER_PTR s e.1 = .ok (e.1 + (e.2 &&& 0xFFFFFFF8) - 8) ∧
        GET s (e.1 + (e.2 &&& 0xFFFFFFF8) - 8) = .ok e.2 := by
  obtain ⟨L, fl, w, _⟩ := h.inv
  refine ⟨L.map (fun b => (b.ptr, b.tag)), L.length + 1, ?_, ?_⟩
  · intro fuel hfuel
    exact heap_scan_spec w.1 (by omega)
  · intro e he
    obtain ⟨b, hb, rfl⟩ := List.mem_map.1 he
    have hf := w.1.facts hb
    have hv : valid s (b.ptr + b.sz - 8) := by unfold valid; omega
    simp only
    rw [(w.1.hdr_word hb).2.1, GET_ok hv, (w.1.blk b hb).2.2.2]
    exact ⟨(w.1.reads hb).2.2.1, rfl⟩

/-- The boundary-tag invariant on the concrete reachable state `demo5`. -/
theorem boundary_tags_witness :
    Reach demo5 [(65704, 8), (65560, 24)] ∧
    ∃ blocks N, (∀ fuel, N ≤ fuel → heap_scan fuel demo5 = .ok blocks) ∧
      ∀ e ∈ blocks, FOOTER_PTR demo5 e.1 = .ok (e.1 + (e.2 &&& 0xFFFFFFF8) - 8) ∧
        GET demo5 (e.1 + (e.2 &&& 0xFFFFFFF8) - 8) = .ok e.2 :=
  ⟨reach_demo, boundary_tags reach_demo⟩

/-! ## Allocation and release on a heap that holds one free block -/

/-- `allocate` on the only block of a heap, which is free: the block becomes allocated,
whole or split, and what remains is a single free block or nothing. -/
theorem single_alloc {s : State} {a T bs : Nat} (w : WF s [⟨a, T, St.F⟩] [a])
    (h16 : 16 ≤ bs) (h8 : bs % 8 = 0) (hbs : bs ≤ T) :
    ∃ m' X R flr, allocate s a bs = .ok (s.withMem m') ∧
      WF (s.withMem m') (⟨a, X, St.A⟩ :: R) flr ∧ bs ≤ X ∧
      ((R = [] ∧ flr = []) ∨ ∃ Y, R = [⟨a + X, Y, St.F⟩] ∧ flr = [a + X]) := by
  by_cases hsur : T - bs ≤ 32
  · obtain ⟨m', e, w', _⟩ := @allocate_whole s [] [] ⟨a, T, St.F⟩ [a] w rfl bs hbs hsur
    refine ⟨m', T, [], [], e, ?_, hbs, Or.inl ⟨rfl, rfl⟩⟩
    simpa using w'
  · obtain ⟨m', e, w', _⟩ := @allocate_split s [] [] ⟨a, T, St.F⟩ [a] w rfl bs h16 h8
      (by simp only; omega)
    refine ⟨m', bs, [⟨a + bs, T - bs, St.F⟩], [a + bs], e, ?_, le_refl _, Or.inr ⟨_, rfl, rfl⟩⟩
    simpa using w'

/-- `mm_free` of the only allocated block of such a heap leaves a single free block. -/
theorem single_free {s : State} {a X : Nat} {R : List Blk} {flr : List Nat}
    (w : WF s (⟨a, X, St.A⟩ :: R) flr)
    (hR : (R = [] ∧ flr = []) ∨ ∃ Y, R = [⟨a + X, Y, St.F⟩] ∧ flr = [a + X]) :
    ∃ m' T, mm_free s a = .ok (s.withMem m') ∧ WF (s.withMem m') [⟨a, T, St.F⟩] [a] ∧
      X ≤ T := by
  obtain ⟨m4, hfree, i4, _⟩ := @mm_free_eq s [] R ⟨a, X, St.A⟩ flr w.1 rfl
  simp only [List.nil_append] at i4
  rcases hR with ⟨rfl, rfl⟩ | ⟨Y, rfl, rfl⟩
  · obtain ⟨m5, e5, i5, _⟩ := @coalesce_case1 (s.withMem m4) [] [] ⟨a, X, St.D⟩ [] i4 rfl
      rfl rfl
    simp only [withMem_withMem, List.nil_append] at e5 i5
    refine ⟨m5, X, hfree _ _ e5, ⟨i5, ?_⟩, le_refl _⟩
    intro b hb
    rw [List.mem_singleton.1 hb]; simp
  · obtain ⟨m5, e5, i5, _⟩ := @coalesce_case2 (s.withMem m4) [] [] ⟨a, X, St.D⟩
      ⟨a + X, Y, St.F⟩ [a + X] i4 rfl rfl rfl
    simp only [withMem_withMem, List.nil_append, List.erase_cons_head] at e5 i5
    refine ⟨m5, X + Y, hfree _ _ e5, ⟨i5, ?_⟩, by omega⟩
    intro b hb
    rw [List.mem_singleton.1 hb]; simp

/-- The free-list search on a heap that holds one free block. -/
theorem single_search {s : State} {a T : Nat} (w : WF s [⟨a, T, St.F⟩] [a]) {fuel : Nat}
    (hfuel : 2 ≤ fuel) (bs : Nat) :
    first_fit fuel s bs = .ok (if bs > T then 0 else a) := by
  have hm : s.mem (a - 4) = T := (w.1.blk _ (List.mem_singleton_self _)).2.2.1
  rw [(first_fit_spec w.1 bs).1 fuel (by simp; omega)]
  simp only [firstFit, hm]

/-- `mm_malloc` on a heap that holds one free block which is large enough: the block is
returned and the heap does not grow. -/
theorem single_malloc {s : State} {a T : Nat} (w : WF s [⟨a, T, St.F⟩] [a]) {fuel : Nat}
    (hfuel : 2 ≤ fuel) {size : Nat} (h1 : 1 ≤ size) (h2 : size < 2147483648)
    (hfit : blockSize size ≤ T) :
    ∃ m' X R flr, mm_malloc fuel s size = .ok (a, s.withMem m') ∧
      WF (s.withMem m') (⟨a, X, St.A⟩ :: R) flr ∧ blockSize size ≤ X ∧
      ((R = [] ∧ flr = []) ∨ ∃ Y, R = [⟨a + X, Y, St.F⟩] ∧ flr = [a + X]) := by
  have hbs := blockSize_facts h1 h2
  have hroot : s.heap_root ≠ 0 := by rw [w.1.hroot]; omega
  have ha : a ≠ 0 := by
    have := (w.1.facts (List.mem_singleton_self _)).1
    simp only at this; omega
  obtain ⟨m', X, R, flr, e, w', hX, hR⟩ := single_alloc w hbs.1 hbs.2.1 hfit
  refine ⟨m', X, R, flr, ?_, w', hX, hR⟩
  rw [mm_malloc_unfold hroot hbs.2.2.2.2.1, single_search w hfuel, if_neg (by omega)]
  simp only [ok_bind, NULL, if_neg ha, e, pure_ok]

/-- `mm_malloc` on a heap that holds one free block which is too small: the heap is
extended, the new space merges with the block, and the merged block is returned, unless
the extension fails and NULL is returned. -/
theorem single_malloc_grow {s : State} {a T : Nat} (w : WF s [⟨a, T, St.F⟩] [a])
    {fuel : Nat} (hfuel : 2 ≤ fuel) {size : Nat} (h1 : 1 ≤ size) (h2 : size < 2147483648)
    (hfit : T < blockSize size) :
    mm_malloc fuel s size = .ok (0, s) ∨
    ∃ s' X R flr, mm_malloc fuel s size = .ok (a, s') ∧
      WF s' (⟨a, X, St.A⟩ :: R) flr ∧ blockSize size ≤ X ∧
      ((R = [] ∧ flr = []) ∨ ∃ Y, R = [⟨a + X, Y, St.F⟩] ∧ flr = [a + X]) := by
  have hbs := blockSize_facts h1 h2
  have hroot : s.heap_root ≠ 0 := by rw [w.1.hroot]; omega
  have hfa := w.1.facts (List.mem_singleton_self _)
  simp only at hfa
  have ha : a ≠ 0 := by omega
  have hw := extension_words hbs.2.1 hbs.2.2.2.1
  rw [mm_malloc_unfold hroot hbs.2.2.2.2.1, single_search w hfuel, if_pos (by omega)]
  simp only [ok_bind, NULL, if_true]
  by_cases hroom : max (blockSize size) 4096 < 2147483648 ∧
      s.mem_brk + max (blockSize size) 4096 ≤ s.mem_max_addr
  · right
    obtain ⟨m7, e7, i7, _⟩ := extend_heap_eq w.1 hw (by omega) (by omega) hroom.1 hroom.2
    obtain ⟨m8, e8, i8, _⟩ := @coalesce_case3 ((s.grow (max (blockSize size) 4096)).withMem m7)
      [] [] ⟨s.mem_brk, max (blockSize size) 4096, St.D⟩ ⟨a, T, St.F⟩ [a] i7 rfl rfl rfl
    simp only [withMem_withMem, List.nil_append, List.erase_cons_head] at e8 i8
    have w8 : WF ((s.grow (max (blockSize size) 4096)).withMem m8)
        [⟨a, T + max (blockSize size) 4096, St.F⟩] [a] := by
      refine ⟨i8, ?_⟩
      intro b hb
      rw [List.mem_singleton.1 hb]; simp
    obtain ⟨m', X, R, flr, e, w', hX, hR⟩ := single_alloc w8 hbs.1 hbs.2.1 (by omega)
    refine ⟨_, X, R, flr, ?_, w', hX, hR⟩
    rw [e7, e8]
    simp only [ok_bind, if_neg ha, e, pure_ok]
  · left
    rw [extend_heap_fail hw (by omega)]
    simp only [ok_bind, NULL, if_true, pure_ok]

/-- On a freshly initialised heap, a successful `mm_malloc(size)` followed by `mm_free`
of its result leaves a heap that holds one free block, at the address that was
returned, large enough for the same request. -/
theorem round_trip_shape {s0 s1 s2 : State} {fuel size p : Nat}
    (hbrk : s0.mem_brk = s0.mem_heap) (hlo : 0 < s0.mem_heap)
    (hmax : s0.mem_max_addr < 4294967296) (hinit : mm_init s0 = .ok (0, s1))
    (h1 : 1 ≤ size) (h2 : size < 2147483648) (hfuel : 2 ≤ fuel)
    (hm : mm_malloc fuel s1 size = .ok (p, s2)) (hp : p ≠ NULL) :
    ∃ m' T, mm_free s2 p = .ok (s2.withMem m') ∧ WF (s2.withMem m') [⟨p, T, St.F⟩] [p] ∧
      blockSize size ≤ T := by
  have w1 := (mm_init_ok hbrk hlo hmax hinit).1
  have key : ∃ X R flr, p = s0.mem_heap + 24 ∧
      WF s2 (⟨s0.mem_heap + 24, X, St.A⟩ :: R) flr ∧ blockSize size ≤ X ∧
      ((R = [] ∧ flr = []) ∨
        ∃ Y, R = [⟨s0.mem_heap + 24 + X, Y, St.F⟩] ∧ flr = [s0.mem_heap + 24 + X]) := by
    by_cases hfit : blockSize size ≤ 4096
    · obtain ⟨m', X, R, flr, e, w', hX, hR⟩ := single_malloc w1 hfuel h1 h2 hfit
      rw [e] at hm
      injection hm with hm
      injection hm with e1 e2
      subst e1; subst e2
      exact ⟨X, R, flr, rfl, w', hX, hR⟩
    · rcases single_malloc_grow w1 hfuel h1 h2 (by omega) with e | ⟨s', X, R, flr, e, w', hX, hR⟩
      · rw [e] at hm
        injection hm with hm
        injection hm with e1 _
        exact absurd e1.symm hp
      · rw [e] at hm
        injection hm with hm
        injection hm with e1 e2
        subst e1; subst e2
        exact ⟨X, R, flr, rfl, w', hX, hR⟩
  obtain ⟨X, R, flr, rfl, w2, hX, hR⟩ := key
  obtain ⟨m', T, e, w3, hT⟩ := single_free w2 hR
  exact ⟨m', T, e, w3, by omega⟩

/-- C5 (LIFO reuse without growth): on a freshly initialised heap (`mm_init` returned 0
on an empty arena), for every size with `1 ≤ size < 2^31`, if `p = mm_malloc(size)` is
not NULL, then `mm_free(p)` returns and a second `mm_malloc(size)` returns the same
address `p` without moving the high-water mark of the heap (the search is given fuel for
two steps). -/
theorem lifo_reuse {s0 s1 s2 : State} {fuel size p : Nat}
    (hbrk : s0.mem_brk = s0.mem_heap) (hlo : 0 < s0.mem_heap)
    (hmax : s0.mem_max_addr < 4294967296) (hinit : mm_init s0 = .ok (0, s1))
    (h1 : 1 ≤ size) (h2 : size < 2147483648) (hfuel : 2 ≤ fuel)
    (hm : mm_malloc fuel s1 size = .ok (p, s2)) (hp : p ≠ NULL) :
    ∃ s3 s4, mm_free s2 p = .ok s3 ∧ mm_malloc fuel s3 size = .ok (p, s4) ∧
      s3.mem_brk = s2.mem_brk ∧ s4.mem_brk = s2.mem_brk := by
  obtain ⟨m', T, e, w3, hT⟩ := round_trip_shape hbrk hlo hmax hinit h1 h2 hfuel hm hp
  obtain ⟨m'', _, _, _, e', _⟩ := single_malloc w3 hfuel h1 h2 hT
  exact ⟨_, _, e, e', rfl, rfl⟩

/-- LIFO reuse for `size = 24` on the concrete arena `demo0`. -/
theorem lifo_reuse_witness :
    ∃ s3 s4, mm_free demo2 65560 = .ok s3 ∧ mm_malloc 8 s3 24 = .ok (65560, s4) ∧
      s3.mem_brk = demo2.mem_brk ∧ s4.mem_brk = demo2.mem_brk :=
  @lifo_reuse demo0 demo1 demo2 8 24 65560 rfl (by decide) (by decide) rfl (by decide)
    (by decide) (by decide) rfl (by decide)

/-! ## The checker on a heap that holds one free block -/

/-- What the checker reads on a heap that holds one free block `a` of size `T`. -/
theorem single_reads {s : State} {a T : Nat} (w : WF s [⟨a, T, St.F⟩] [a]) :
    (s.free_root = s.mem_heap + 8 ∧ s.heap_root = s.mem_heap + 16 ∧
      a = s.mem_heap + 24 ∧ s.mem_brk = a + T ∧ 16 ≤ T ∧ s.mem_brk < 4294967296 ∧
      T % 8 = 0) ∧
    (GET s (s.mem_heap + 8) = .ok a ∧ GET s a = .ok 0) ∧
    (GET_SIZE s (HEADER_PTR (s.mem_heap + 16)) = .ok 8 ∧
      GET_IS_ALLOCATED s (HEADER_PTR (s.mem_heap + 16)) = .ok 1 ∧
      NEXT_BLOCK_PTR s (s.mem_heap + 16) = .ok a) ∧
    (GET s (HEADER_PTR a) = .ok T ∧ GET_SIZE s (HEADER_PTR a) = .ok T ∧
      GET_IS_ALLOCATED s (HEADER_PTR a) = .ok 0 ∧ FOOTER_PTR s a = .ok (a + T - 8) ∧
      GET_IS_ALLOCATED s (a + T - 8) = .ok 0 ∧ NEXT_BLOCK_PTR s a = .ok (a + T) ∧
      PREV_BLOCK_PTR s a = .ok (s.mem_heap + 16)) ∧
    (GET_SIZE s (HEADER_PTR (a + T)) = .ok 0 ∧
      GET_IS_ALLOCATED s (HEADER_PTR (a + T)) = .ok 1) := by
  have hb : (⟨a, T, St.F⟩ : Blk) ∈ [(⟨a, T, St.F⟩ : Blk)] := List.mem_singleton_self _
  have hf := w.1.facts hb
  have hbf := w.1.brk_facts
  have hbl := w.1.blk _ hb
  have hc := w.1.chain
  have ha : a = s.mem_heap + 24 := hc.1
  have hbrk : s.mem_brk = a + T := by
    have : s.mem_heap + 24 + T = s.mem_brk := hc.2
    omega
  simp only at hf hbl
  have htag : (⟨a, T, St.F⟩ : Blk).tag = T + 0 := rfl
  rw [htag] at hbl
  obtain ⟨fl1, _, _, fl4⟩ := w.1.fl_ok
  have fl4' : s.mem a = 0 := fl4
  have hrd := w.1.reads hb
  simp only at hrd
  have hpro := hdr_reads (s := s) (p := s.mem_heap + 16) (z := 8) (t := 1) (by omega)
    (by omega) (by omega) hbf.2.2.1 (by
      rw [show s.mem_heap + 16 - 4 = s.mem_heap + 12 by omega]; exact w.1.pro_h) rfl
    (by omega) (by omega) (by omega)
  have hepi := hdr_reads (s := s) (p := a + T) (z := 0) (t := 1) (by omega)
    (by omega) (by omega) hbf.2.2.1 (by rw [← hbrk, w.1.epi]) rfl
    (by omega) (by omega) (by omega)
  have hva : valid s a := (w.1.valid_links hb).1
  have hvh : valid s (a - 4) := by unfold valid; omega
  have hvf : valid s (a + T - 8) := by unfold valid; omega
  refine ⟨⟨w.1.froot, w.1.hroot, ha, hbrk, hf.2.2.2.1, hbf.2.2.1, hf.2.2.2.2.1⟩, ⟨?_, ?_⟩,
    ⟨hpro.1, hpro.2.1, ?_⟩, ⟨?_, hrd.1, hrd.2.1, hrd.2.2.1, ?_, hrd.2.2.2, ?_⟩,
    ⟨hepi.1, hepi.2.1⟩⟩
  · rw [GET_ok w.1.valid_root, ← fl1]
  · rw [GET_ok hva, fl4']
  · rw [hpro.2.2.2, ha]
  · rw [HEADER_PTR_eq (by omega) (by omega), GET_ok hvh, hbl.2.2.1, Nat.add_zero]
  · exact GET_IS_ALLOCATED_ok hvf hbl.2.2.2 hf.2.2.2.2.1 (by omega)
  · have := prev_read (s := s) (p := a) (z := 8) (t := 1) (by omega) (by omega) (by omega)
      hbf.2.2.1 (by rw [show a - 8 = s.mem_heap + 16 by omega]; exact w.1.pro_f) rfl
      (by omega) (by omega)
    rw [this, show a - 8 = s.mem_heap + 16 by omega]

/-- On a heap that holds one free block every check of `mm_check` returns its flag: the
status is `0x3f`. -/
theorem mm_check_single {s : State} {a T : Nat} (w : WF s [⟨a, T, St.F⟩] [a]) {fuel : Nat}
    (hfuel : 3 ≤ fuel) : mm_check_status fuel s = .ok 0x3f := by
  obtain ⟨⟨g1, g2, g3, g4, g5, g6, g7⟩, ⟨r1, r2⟩, ⟨p1, p2, p3⟩, ⟨b0, b1, b2, b3, b4, b5, b6⟩,
    ⟨e1, e2⟩⟩ := single_reads w
  obtain ⟨k, rfl⟩ : ∃ k, fuel = k + 3 := ⟨fuel - 3, by omega⟩
  have ha0 : a ≠ 0 := by omega
  have hb0 : a + T ≠ 0 := by omega
  have hr0 : s.mem_heap + 16 ≠ 0 := by omega
  have hhi : mem_heap_hi s = a + T - 1 := by
    unfold mem_heap_hi; rw [g4, sub32_eq (by omega) (by omega)]
  have c0 : is_all_marked_free (k + 3) s = .ok 1 := by
    simp only [is_all_marked_free, is_all_marked_free_loop, g1, r1, r2, ok_bind, NULL,
      if_neg ha0, b2, FREE, b3, b4, NEXT_PTR, if_true, pure_ok]
    rfl
  have c1 : is_contiguous_not_escaped (k + 3) s = .ok 2 := by
    simp only [is_contiguous_not_escaped, is_contiguous_not_escaped_loop, g1, r1, r2, ok_bind,
      NULL, if_neg ha0, b5, b6, ne_eq, hb0, hr0, not_false_eq_true, if_true, e2, p2, FREE,
      NEXT_PTR, pure_ok, one_ne_zero, decide_False, Bool.false_eq_true, if_false]
    rfl
  have c2 : is_all_free_block_in_list (k + 3) s = .ok 4 := by
    simp only [is_all_free_block_in_list, is_all_free_block_in_list_loop, g2, ne_eq, hr0,
      not_false_eq_true, if_true, p2, ok_bind, FREE, one_ne_zero, if_false, pure_ok,
      Bool.false_eq_true, p3, r2, NULL, not_true_eq_false]
    rfl
  have c3 : is_all_valid_free_ptr (k + 3) s = .ok 8 := by
    have hin : block_is_invalid s a = .ok false := by
      have h1 : mem_heap_lo s ≤ HEADER_PTR a := by
        rw [HEADER_PTR_eq (by omega) (by omega)]; unfold mem_heap_lo; omega
      have h2 : a + T - 8 ≤ a + T - 1 := by omega
      have h3 : T &&& 1 = 0 := by
        have := @tag_bit T 0 (by omega) (by omega)
        simpa using this
      simp only [block_is_invalid, if_pos h1, b3, ok_bind, hhi, pure_ok, h2, decide_True,
        not_true_eq_false, if_false, b0, ne_eq, OfNat.ofNat_ne_zero, not_false_eq_true,
        if_true, h3, decide_False, Bool.not_eq_true]
      rfl
    have hlt : a < a + T - 1 := by omega
    have hnl : ¬ (a + T < a + T - 1) := by omega
    simp only [is_all_valid_free_ptr, is_all_valid_free_ptr_loop, g2, p3, ok_bind, hhi,
      if_pos hlt, b2, FREE, if_true, hin, Bool.false_eq_true, if_false, b5, if_neg hnl,
      pure_ok]
    rfl
  have c4 : is_no_overlap (k + 3) s = .ok 16 := by
    simp only [is_no_overlap, is_no_overlap_loop, g2, NULL, if_neg hr0, p1, ok_bind,
      OfNat.ofNat_ne_zero, if_false, p2, FREE, one_ne_zero, p3, ne_eq, ha0,
      not_false_eq_true, if_true, b2, pure_ok, Bool.false_eq_true, if_neg ha0, b1,
      show ¬ (T = 0) by omega, b5, if_neg hb0, e1]
    rfl
  have c5 : is_all_valid_allocated_ptr (k + 3) s = .ok 32 := by
    have hlt : a < a + T - 1 := by omega
    have hnl : ¬ (a + T < a + T - 1) := by omega
    simp only [is_all_valid_allocated_ptr, is_all_valid_allocated_ptr_loop, g2, p3, ok_bind,
      hhi, if_pos hlt, b2, ALLOCATED, zero_ne_one, if_false, pure_ok, Bool.false_eq_true,
      b5, if_neg hnl]
    rfl
  simp only [mm_check_status, c0, c1, c2, c3, c4, c5, ok_bind, pure_ok]
  rfl

/-- C6 (the round trip leaves the checker passing): on a freshly initialised heap, for
every size with `1 ≤ size < 2^31`, if `p = mm_malloc(size)` is not NULL, then
`mm_free(p)` returns and afterwards `mm_check` computes the status `0x3f` (all six bits)
and returns 1, with `mem_heap_lo` / `mem_heap_hi` the addresses of the first and the
last heap byte (the loops are given fuel for three steps). -/
theorem round_trip_check {s0 s1 s2 : State} {fuel k size p : Nat}
    (hbrk : s0.mem_brk = s0.mem_heap) (hlo : 0 < s0.mem_heap)
    (hmax : s0.mem_max_addr < 4294967296) (hinit : mm_init s0 = .ok (0, s1))
    (h1 : 1 ≤ size) (h2 : size < 2147483648) (hfuel : 2 ≤ fuel) (hk : 3 ≤ k)
    (hm : mm_malloc fuel s1 size = .ok (p, s2)) (hp : p ≠ NULL) :
    ∃ s3, mm_free s2 p = .ok s3 ∧ mm_check_status k s3 = .ok 0x3f ∧
      mm_check k s3 = .ok 1 := by
  obtain ⟨m', T, e, w3, _⟩ := round_trip_shape hbrk hlo hmax hinit h1 h2 hfuel hm hp
  have hc := mm_check_single w3 hk
  refine ⟨_, e, hc, ?_⟩
  simp only [mm_check, hc, ok_bind, pure_ok, if_true]

/-- The round trip for `size = 5000`, which makes the heap grow, on the concrete arena
`demo0`. -/
theorem round_trip_check_witness :
    ∃ s3, mm_free (stateOf demo1 (mm_malloc 8 demo1 5000)) 65560 = .ok s3 ∧
      mm_check_status 8 s3 = .ok 0x3f ∧ mm_check 8 s3 = .ok 1 :=
  @round_trip_check demo0 demo1 (stateOf demo1 (mm_malloc 8 demo1 5000)) 8 8 5000 65560 rfl
    (by decide) (by decide) rfl (by decide) (by decide) (by decide) (by decide) rfl
    (by decide)

/-! ## Runs on which the code departs from its description -/

/-- C7 (the code fails the claim): after scenario B (`a = mm_malloc(4096)`,
`b = mm_malloc(4096)`, `mm_free(a)`) the heap is consistent (blocks `a` free, `b`
allocated, remainder free; the free list holds exactly the two free blocks), yet
`is_all_valid_allocated_ptr` returns 0 instead of `1 << 5`, because its test
`GET(HEADER_PTR(b)) & 0x6 != 0` reads the allocation bit of the allocated block `b`;
`is_all_free_block_in_list` steps with `GET(NEXT_BLOCK_PTR(p))` and reads the word at
`mem_brk`, outside the heap. The four other checks return their flags. So `mm_check`
does not report status `0x3f`. -/
theorem mm_check_scenario_B :
    (do let s ← scenario_B 8; heap_scan 8 s) =
      .ok [(65560, 4104), (69664, 4105), (73768, 4096)] ∧
    (do let s ← scenario_B 8; free_list_walk 8 s) = .ok [65560, 73768] ∧
    (do let s ← scenario_B 8; pure s.mem_brk) = .ok 77864 ∧
    (do let s ← scenario_B 8; is_all_marked_free 8 s) = .ok 1 ∧
    (do let s ← scenario_B 8; is_contiguous_not_escaped 8 s) = .ok 2 ∧
    (do let s ← scenario_B 8; is_all_free_block_in_list 8 s) = .error (.access 77864) ∧
    (do let s ← scenario_B 8; is_all_valid_free_ptr 8 s) = .ok 8 ∧
    (do let s ← scenario_B 8; is_no_overlap 8 s) = .ok 16 ∧
    (do let s ← scenario_B 8; is_all_valid_allocated_ptr 8 s) = .ok 0 ∧
    (do let s ← scenario_B 8; mm_check 8 s) = .error (.access 77864) :=
  ⟨rfl, rfl, rfl, rfl, rfl, rfl, rfl, rfl, rfl, rfl⟩

/-- C8 (the code fails the claim): on a heap whose only allocation `p` (16 payload
bytes) holds the words `0x11111111, 0x22222222, 0x33333333, 0x44444444`,
`mm_realloc(p, 2^31 + 2048)` returns `p` itself, non-NULL, with the third payload word
overwritten by the tag `17`: on the path that extends the heap the new block size
`size + allocate_size` wraps around to 16 and the footer is stored at `p + 8`. -/
theorem mm_realloc_clobbers_payload :
    (do
      let r ← pattern_heap 8
      let q ← mm_realloc 8 r.2 r.1 2147485696
      pure (r.1, [r.2.mem r.1, r.2.mem (r.1 + 4), r.2.mem (r.1 + 8), r.2.mem (r.1 + 12)],
        q.1, [q.2.mem q.1, q.2.mem (q.1 + 4), q.2.mem (q.1 + 8), q.2.mem (q.1 + 12)])) =
    .ok (65560, [0x11111111, 0x22222222, 0x33333333, 0x44444444],
      65560, [0x11111111, 0x22222222, 17, 0x44444444]) :=
  rfl

/-- C9 (the code fails the claim): on a well-formed heap with blocks `a` (free), `b`,
`c`, `d` (allocated, 16 payload bytes each) and a free remainder, `mm_realloc(c, 64)`
takes the path that copies to a fresh block (the block after `c` is allocated) and
returns the new pointer; afterwards the block `a`, free before the call and neither
chosen nor merged, and the free remainder of the split are still marked free in the
heap but the free list holds the old block `c` only: the second `allocate(newptr, size)`
unlinks a block that is not in the list and stores NULL in the list head. -/
theorem mm_realloc_loses_free_blocks :
    (do
      let r ← four_blocks 8
      let before ← heap_scan 8 r.2
      let fl ← free_list_walk 8 r.2
      let q ← mm_realloc 8 r.2 r.1 64
      let after ← heap_scan 8 q.2
      let fl' ← free_list_walk 8 q.2
      pure (r.1, before, fl, q.1, after, fl')) =
    .ok (65608,
      [(65560, 24), (65584, 25), (65608, 25), (65632, 25), (65656, 4000)], [65560, 65656],
      65656,
      [(65560, 24), (65584, 25), (65608, 24), (65632, 25), (65656, 81), (65736, 3920)],
      [65608]) :=
  rfl

/-- C10 (the code fails the claim): with `p = mm_malloc(16)` on a fresh heap (block size
24, followed by a free block of 4072 bytes, heap end at `0x11018`),
`mm_realloc(p, 5000)` needs `5008 - 4096 = 912` more bytes; its call
`extend_heap(allocate_size / PAGESIZE)` grows the heap by 8 bytes only, the block size is
set to `5008 + 4096 = 9104`, and the footer store at `p + 9104 - 8 = 0x123a0` lies
outside the heap, which ends at `0x11020`. -/
theorem mm_realloc_short_extension :
    (do
      let r ← mm_init demo0
      let p ← mm_malloc 8 r.2 16
      let e ← extend_heap p.2 (PAGESIZE / PAGESIZE)
      pure (p.1, p.2.mem (p.1 - 4), p.2.mem (p.1 + 24 - 4), p.2.mem_brk, e.2.mem_brk)) =
      .ok (65560, 25, 4072, 69656, 69664) ∧
    (do
      let r ← mm_init demo0
      let p ← mm_malloc 8 r.2 16
      mm_realloc 8 p.2 p.1 5000) = .error (.access 74656) :=
  ⟨rfl, rfl⟩

/-! ## `mm_realloc` on a block of a well-formed heap -/

/-- `mm_realloc(p, 0)` on a block of the heap is `mm_free(p)`, with result NULL. -/
theorem mm_realloc_zero {s : State} {pre post : List Blk} {b : Blk} {fl : List Nat}
    (h : Inv s (pre ++ b :: post) fl) (fuel : Nat) :
    mm_realloc fuel s b.ptr 0 = (do
      let s1 ← mm_free s b.ptr
      pure (NULL, s1)) := by
  obtain ⟨_, _, _, _, r5, _, _, r8⟩ := h.coalesce_reads
  have hne : b.ptr ≠ 0 := by
    have := (h.facts (show b ∈ pre ++ b :: post by simp)).1; omega
  unfold mm_realloc
  rw [r5]
  simp only [ok_bind]
  rw [r8]
  simp only [ok_bind, NULL, if_neg hne, if_true]

/-- `mm_realloc(p, n)` with a block size that the block at `p` already has: nothing
happens. -/
theorem mm_realloc_keep {s : State} {pre post : List Blk} {b : Blk} {fl : List Nat}
    (h : Inv s (pre ++ b :: post) fl) (fuel : Nat) {n : Nat} (hn : n ≠ 0)
    (hle : add32 (ALIGN n) 8 ≤ b.sz) : mm_realloc fuel s b.ptr n = .ok (b.ptr, s) := by
  obtain ⟨r1, _, _, _, r5, r6, _, r8⟩ := h.coalesce_reads
  have hne : b.ptr ≠ 0 := by
    have := (h.facts (show b ∈ pre ++ b :: post by simp)).1; omega
  have e8 : add32 (ALIGN n) (2 * WORDSIZE) = add32 (ALIGN n) 8 := rfl
  unfold mm_realloc
  rw [r5]
  simp only [ok_bind]
  rw [r8, r1, r6]
  simp only [ok_bind, NULL, if_neg hne, if_neg hn, e8, if_neg (not_lt.2 hle), pure_ok]

/-- Growth in place: the block `b` is allocated, the block `nb` after it is free and
covers what the new block size needs; `mm_realloc` unlinks `nb` and makes the two blocks
one allocated block. The payload of `b` is untouched. -/
theorem mm_realloc_absorb {s : State} {pre post : List Blk} {b nb : Blk} {fl : List Nat}
    (w : WF s (pre ++ b :: nb :: post) fl) (hb : b.st = St.A) (hnb : nb.st = St.F)
    (fuel : Nat) {n : Nat} (hn : n ≠ 0) (hgrow : b.sz < add32 (ALIGN n) 8)
    (hfit : add32 (ALIGN n) 8 - b.sz ≤ nb.sz) :
    ∃ m', mm_realloc fuel s b.ptr n = .ok (b.ptr, s.withMem m') ∧
      WF (s.withMem m') (pre ++ ⟨b.ptr, b.sz + nb.sz, St.A⟩ :: post) (fl.erase nb.ptr) ∧
      (∀ x, b.ptr ≤ x → x + 8 < b.ptr + b.sz → m' x = s.mem x) ∧
      m' (b.ptr - 4) = b.sz + nb.sz + 1 ∧ m' (b.ptr + (b.sz + nb.sz) - 8) = b.sz + nb.sz + 1 := by
  obtain ⟨hi, hnoD⟩ := w
  have hbL : b ∈ pre ++ b :: nb :: post := by simp
  have hnL : nb ∈ pre ++ b :: nb :: post := by simp
  have fb := hi.facts hbL
  have fn := hi.facts hnL
  obtain ⟨r1, _, _, _, r5, r6, _, r8⟩ := hi.coalesce_reads
  simp only [nextSz_cons, nextBit_cons] at r6 r8
  have hnp : nb.ptr = b.ptr + b.sz := (Chain_split hi.chain).2.1
  have hbit : nb.bit = 0 := Blk.bit_eq_zero.2 (by rw [hnb]; decide)
  have hne : b.ptr ≠ 0 := by omega
  have e8 : add32 (ALIGN n) (2 * WORDSIZE) = add32 (ALIGN n) 8 := rfl
  have hlt : add32 (ALIGN n) 8 < 4294967296 := Nat.mod_lt _ (by decide)
  have hi' : Inv s ((pre ++ [b]) ++ nb :: post) fl := by simpa using hi
  obtain ⟨m1, e1, i1, lf1, _, _⟩ := delete_spec hi' hnb
  have rt := retag_exec (s := s) (m := m1) (p := b.ptr) (X := b.sz + nb.sz) (t := 1)
    (by omega) (by omega) (by omega) (by omega) (by omega) fb.2.2.2.2.2 (by omega)
  have i1' : Inv (s.withMem m1) (pre ++ [b, { nb with st := St.D }] ++ post)
      (fl.erase nb.ptr) := by simpa using i1
  have hbl1 := i1'.blk b (by simp)
  have i2 := Inv_rewrite (M := [⟨b.ptr, b.sz + nb.sz, St.A⟩]) i1' (a := b.ptr)
    (e := b.ptr + (b.sz + nb.sz)) (by simp) ⟨rfl, hnp,
      by show b.ptr + b.sz + nb.sz = b.ptr + (b.sz + nb.sz); omega⟩ ⟨rfl, rfl⟩
    (by
      intro c hc
      simp only [List.mem_cons, List.mem_singleton, List.not_mem_nil, or_false] at hc
      rcases hc with rfl | rfl
      · rw [hb]; decide
      · simp)
    (by intro c hc; rw [List.mem_singleton.1 hc]; simp)
    (upd (upd m1 (b.ptr - 4) (b.sz + nb.sz + 1)) (b.ptr + (b.sz + nb.sz) - 8)
      (b.sz + nb.sz + 1))
    (by
      intro c hc
      rw [List.mem_singleton.1 hc]
      simp only [Blk.tag, if_true]
      refine ⟨by omega, by omega, ?_, ?_⟩
      · rw [upd_ne (by omega), upd_same]
      · rw [upd_same])
    (by
      intro x hx
      simp only [withMem_mem] at hx ⊢
      rw [upd_ne (by omega), upd_ne (by omega)])
  simp only [withMem_withMem, List.append_assoc, List.singleton_append] at i2
  have hpay : ∀ x, b.ptr ≤ x → x + 8 < b.ptr + b.sz → m1 x = s.mem x := by
    intro x hx hx'
    have hbL' : b ∈ (pre ++ [b]) ++ nb :: post := by simp
    exact lf1.payload hi' hbL' hb hx hx'
  refine ⟨_, ?_, ⟨i2, ?_⟩, ?_, ?_, ?_⟩
  · unfold mm_realloc
    rw [r5]
    simp only [ok_bind]
    rw [r8, r1, r6]
    simp only [ok_bind, NULL, if_neg hne, if_neg hn, e8, if_pos hgrow]
    rw [sub32_eq (by omega) hlt, hbit, if_pos ⟨by omega, by simp⟩, ← hnp, e1]
    simp only [ok_bind]
    rw [add32_eq (by omega), or_ALLOCATED (by omega), rt.1]
    simp only [ok_bind]
    rw [rt.2.1]
    simp only [ok_bind]
    rw [rt.2.2.2.1]
    rfl
  · intro c hc
    simp only [List.mem_append, List.mem_cons] at hc
    rcases hc with hc | hc | hc
    · exact hnoD c (by simp [hc])
    · rw [hc]; simp
    · exact hnoD c (by simp [hc])
  · intro x hx hx'
    rw [upd_ne (by omega), upd_ne (by omega)]
    exact hpay x hx hx'
  · rw [upd_ne (by omega), upd_same]
  · rw [upd_same]

/-- A live allocation of a reachable state is an allocated block of a well-formed
heap. -/
theorem Reach.block {s : State} {live : List (Nat × Nat)} (h : Reach s live) {p k : Nat}
    (hp : (p, k) ∈ live) :
    ∃ pre post b fl, WF s (pre ++ b :: post) fl ∧ b.ptr = p ∧ b.st = St.A ∧ k + 8 ≤ b.sz := by
  obtain ⟨L, fl, w, hl⟩ := h.inv
  obtain ⟨b, hb, hbp, hbA, hsz⟩ := hl.1 (p, k) hp
  obtain ⟨pre, post, rfl⟩ := List.append_of_mem hb
  exact ⟨pre, post, b, fl, w, hbp, hbA, hsz⟩

/-- A reachable state with one live allocation and a free block after it. -/
theorem reach_demo2 : Reach demo2 [(65560, 24)] :=
  @Reach.malloc demo1 demo2 _ 8 24 65560
    (@Reach.init demo0 demo1 rfl (by decide) (by decide) rfl)
    (by decide) (by decide) rfl (by decide)

/-- C11 (realloc in place): for a live pointer `p` of a reachable state whose next
physical block `q` is marked free, with `old` and `next` the sizes in the two headers
and `old < ALIGN(n) + 8 ≤ old + next` (the block size computed as the code does, modulo
`2^32`), `mm_realloc(p, n)` returns `p`, does not move the high-water mark, leaves every
payload word of `p` unchanged, writes header and footer of `p` as
`(old + next) | ALLOCATED`, and removes `q` from the free list. -/
theorem realloc_in_place {s : State} {live : List (Nat × Nat)} {p k n fuel hp q hq : Nat}
    (h : Reach s live) (hlive : (p, k) ∈ live) (hn : n < 4294967296)
    (hhdr : GET s (HEADER_PTR p) = .ok hp) (hnext : NEXT_BLOCK_PTR s p = .ok q)
    (hnh : GET s (HEADER_PTR q) = .ok hq) (hfree : hq &&& 1 = FREE)
    (hgrow : hp &&& 0xFFFFFFF8 < add32 (ALIGN n) 8)
    (hfit : add32 (ALIGN n) 8 - (hp &&& 0xFFFFFFF8) ≤ hq &&& 0xFFFFFFF8) :
    ∃ s', mm_realloc fuel s p n = .ok (p, s') ∧ s'.mem_brk = s.mem_brk ∧
      (∀ x, p ≤ x → x + 8 < p + (hp &&& 0xFFFFFFF8) → s'.mem x = s.mem x) ∧
      GET s' (HEADER_PTR p) =
        .ok (((hp &&& 0xFFFFFFF8) + (hq &&& 0xFFFFFFF8)) ||| ALLOCATED) ∧
      FOOTER_PTR s' p = .ok (p + ((hp &&& 0xFFFFFFF8) + (hq &&& 0xFFFFFFF8)) - 8) ∧
      GET s' (p + ((hp &&& 0xFFFFFFF8) + (hq &&& 0xFFFFFFF8)) - 8) =
        .ok (((hp &&& 0xFFFFFFF8) + (hq &&& 0xFFFFFFF8)) ||| ALLOCATED) ∧
      ∃ N, ∀ f, N ≤ f → ∃ fl, free_list_walk f s = .ok fl ∧ q ∈ fl ∧
        free_list_walk f s' = .ok (fl.erase q) := by
  obtain ⟨pre, post, b, fl, w, rfl, hbA, _⟩ := h.block hlive
  have hbL : b ∈ pre ++ b :: post := by simp
  have hw := w.1.hdr_word hbL
  rw [hw.1] at hhdr
  injection hhdr with hhdr
  subst hhdr
  rw [(w.1.reads hbL).2.2.2] at hnext
  injection hnext with hnext
  subst hnext
  rw [hw.2.1] at hgrow hfit ⊢
  cases post with
  | nil =>
    have e : b.ptr + b.sz = s.mem_brk := by
      have := (Chain_split w.1.chain).2
      simpa [Chain] using this
    rw [e, w.1.epi_word] at hnh
    injection hnh with hnh
    subst hnh
    exact absurd hfree (by decide)
  | cons nb post =>
    have hnL : nb ∈ pre ++ b :: nb :: post := by simp
    have hnp : nb.ptr = b.ptr + b.sz := (Chain_split w.1.chain).2.1
    have hwn := w.1.hdr_word hnL
    rw [← hnp, hwn.1] at hnh
    injection hnh with hnh
    subst hnh
    have hnF : nb.st = St.F := (w.bit_zero_iff hnL).1 hfree
    rw [hwn.2.1] at hfit ⊢
    have hn0 : n ≠ 0 := by
      rintro rfl
      have : add32 (ALIGN 0) 8 = 8 := by decide
      have := (w.1.facts hbL).2.2.2.1
      omega
    obtain ⟨m', e, w', hpay, hh, hf⟩ := mm_realloc_absorb w hbA hnF fuel hn0 hgrow hfit
    have fb := w.1.facts hbL
    have fn := w.1.facts hnL
    have hNL : (⟨b.ptr, b.sz + nb.sz, St.A⟩ : Blk) ∈
        pre ++ ⟨b.ptr, b.sz + nb.sz, St.A⟩ :: post := by simp
    have hor : (b.sz + nb.sz) ||| ALLOCATED = b.sz + nb.sz + 1 := or_ALLOCATED (by omega)
    have hv : valid (s.withMem m') (b.ptr + (b.sz + nb.sz) - 8) := by
      unfold valid; simp only [withMem_heap, withMem_brk]; omega
    refine ⟨_, e, rfl, hpay, ?_, (w'.1.reads hNL).2.2.1, ?_, fl.length + 1, ?_⟩
    · rw [(w'.1.hdr_word hNL).1, hor]; rfl
    · rw [GET_ok hv, hor]; exact congrArg _ hf
    · intro f hf'
      refine ⟨fl, free_list_walk_spec w.1 (by omega), ?_, ?_⟩
      · rw [← hnp]; exact (w.1.fl_iff _).2 ⟨nb, hnL, rfl, hnF⟩
      · rw [← hnp]
        refine free_list_walk_spec w'.1 ?_
        have := List.length_erase_le nb.ptr fl
        omega

/-- Growth in place on the concrete state `demo2`: `mm_realloc(0x10018, 100)`. -/
theorem realloc_in_place_witness :
    ∃ s', mm_realloc 8 demo2 65560 100 = .ok (65560, s') ∧ s'.mem_brk = demo2.mem_brk ∧
      (∀ x, 65560 ≤ x → x + 8 < 65560 + (33 &&& 0xFFFFFFF8) → s'.mem x = demo2.mem x) ∧
      GET s' (HEADER_PTR 65560) =
        .ok (((33 &&& 0xFFFFFFF8) + (4064 &&& 0xFFFFFFF8)) ||| ALLOCATED) ∧
      FOOTER_PTR s' 65560 = .ok (65560 + ((33 &&& 0xFFFFFFF8) + (4064 &&& 0xFFFFFFF8)) - 8) ∧
      GET s' (65560 + ((33 &&& 0xFFFFFFF8) + (4064 &&& 0xFFFFFFF8)) - 8) =
        .ok (((33 &&& 0xFFFFFFF8) + (4064 &&& 0xFFFFFFF8)) ||| ALLOCATED) ∧
      ∃ N, ∀ f, N ≤ f → ∃ fl, free_list_walk f demo2 = .ok fl ∧ 65592 ∈ fl ∧
        free_list_walk f s' = .ok (fl.erase 65592) :=
  @realloc_in_place demo2 [(65560, 24)] 65560 24 100 8 33 65592 4064 reach_demo2
    (by decide) (by decide) rfl rfl rfl (by decide) (by decide) (by decide)

/-- C12 (realloc never shrinks): for a live pointer `p` of a reachable state and every
`n ≥ 1` that is at most the payload size of `p` (block size minus 8), `mm_realloc(p, n)`
returns `p` and the state it leaves is the state before the call: memory, free list,
roots and high-water mark are unchanged. -/
theorem realloc_no_shrink {s : State} {live : List (Nat × Nat)} {p k n hp : Nat}
    (h : Reach s live) (hlive : (p, k) ∈ live) (hhdr : GET s (HEADER_PTR p) = .ok hp)
    (h1 : 1 ≤ n) (h2 : n + 8 ≤ hp &&& 0xFFFFFFF8) (fuel : Nat) :
    mm_realloc fuel s p n = .ok (p, s) := by
  obtain ⟨pre, post, b, fl, w, rfl, hbA, _⟩ := h.block hlive
  have hbL : b ∈ pre ++ b :: post := by simp
  have hw := w.1.hdr_word hbL
  rw [hw.1] at hhdr
  injection hhdr with hhdr
  subst hhdr
  rw [hw.2.1] at h2
  have fb := w.1.facts hbL
  refine mm_realloc_keep w.1 fuel (by omega) ?_
  rw [ALIGN_eq (by omega), add32_eq (by omega)]
  omega

/-- No shrinking on the concrete state `demo2`: `mm_realloc(0x10018, 10)`. -/
theorem realloc_no_shrink_witness : mm_realloc 8 demo2 65560 10 = .ok (65560, demo2) :=
  @realloc_no_shrink demo2 [(65560, 24)] 65560 24 10 33 reach_demo2 (by decide) rfl
    (by decide) (by decide) 8

/-- C13 (the code fails the claim): on the freshly initialised heap `demo1`,
`mm_malloc(16)` returns `0x10018`, but `mm_realloc(NULL, 16)` evaluates
`NEXT_BLOCK_PTR(ptr)` before it tests `ptr == NULL` and reads the word at address
`NULL - 4 = 0xFFFFFFFC`, outside the heap: a memory fault, no call of `mm_malloc`. -/
theorem mm_realloc_null_faults :
    mm_malloc 8 demo1 16 = .ok (65560, stateOf demo1 (mm_malloc 8 demo1 16)) ∧
    mm_realloc 8 demo1 NULL 16 = .error (.access 4294967292) :=
  ⟨rfl, rfl⟩

/-- C14 (`mm_realloc(p, 0)` is `mm_free(p)`): for a live pointer `p` of a reachable
state, `mm_free(p)` returns, `mm_realloc(p, 0)` returns NULL and leaves the very state
`mm_free(p)` leaves; that state is reachable with `p` no longer live (so it is
coalesced and its free list is complete), and a block that is marked free and linked in
the free list covers the old block. -/
theorem realloc_zero_frees {s : State} {live : List (Nat × Nat)} {p k : Nat}
    (h : Reach s live) (hlive : (p, k) ∈ live) (fuel : Nat) :
    ∃ s', mm_free s p = .ok s' ∧ mm_realloc fuel s p 0 = .ok (NULL, s') ∧
      Reach s' (live.erase (p, k)) ∧
      ∃ blocks fl N,
        (∀ f, N ≤ f → heap_scan f s' = .ok blocks ∧ free_list_walk f s' = .ok fl) ∧
        ∃ e ∈ blocks, e.2 &&& 1 = FREE ∧ e.1 ∈ fl ∧ e.1 ≤ p ∧
          p + k + 8 ≤ e.1 + (e.2 &&& 0xFFFFFFF8) := by
  obtain ⟨pre, post, b, fl, w, rfl, hbA, hk⟩ := h.block hlive
  obtain ⟨m', L', fl', e, w', _, blk, hblk, hF, hlo, hhi⟩ := mm_free_spec w hbA
  refine ⟨_, e, ?_, Reach.free h hlive e, L'.map (fun c => (c.ptr, c.tag)), fl',
    L'.length + fl'.length + 1, ?_, (blk.ptr, blk.tag), List.mem_map.2 ⟨blk, hblk, rfl⟩, ?_⟩
  · rw [mm_realloc_zero w.1, e]; rfl
  · intro f hf
    exact ⟨heap_scan_spec w'.1 (by omega), free_list_walk_spec w'.1 (by omega)⟩
  · refine ⟨(w'.bit_zero_iff hblk).2 hF, (w'.1.fl_iff _).2 ⟨blk, hblk, rfl, hF⟩, hlo, ?_⟩
    rw [(w'.1.hdr_word hblk).2.1]
    simp only
    omega

/-- The equivalence on the concrete state `demo2`: `mm_realloc(0x10018, 0)`. -/
theorem realloc_zero_frees_witness :
    ∃ s', mm_free demo2 65560 = .ok s' ∧ mm_realloc 8 demo2 65560 0 = .ok (NULL, s') ∧
      Reach s' ([(65560, 24)].erase (65560, 24)) ∧
      ∃ blocks fl N,
        (∀ f, N ≤ f → heap_scan f s' = .ok blocks ∧ free_list_walk f s' = .ok fl) ∧
        ∃ e ∈ blocks, e.2 &&& 1 = FREE ∧ e.1 ∈ fl ∧ e.1 ≤ 65560 ∧
          65560 + 24 + 8 ≤ e.1 + (e.2 &&& 0xFFFFFFF8) :=
  @realloc_zero_frees demo2 [(65560, 24)] 65560 24 reach_demo2 (by decide) 8

/-! ## Requests at the edges: zero, out of memory, wrap-around -/

/-- For every request the block size is a multiple of 8 below `2^32`. -/
theorem blockSize_any (size : Nat) :
    blockSize size % 8 = 0 ∧ blockSize size < 4294967296 := by
  have hy : (adjSize size + 7) % 4294967296 < 4294967296 := Nat.mod_lt _ (by decide)
  have e : blockSize size = ((adjSize size + 7) % 4294967296 -
      (adjSize size + 7) % 4294967296 % 8 + 8) % 4294967296 := by
    unfold blockSize ALIGN
    rw [show add32 (adjSize size) (ALIGNMENT - 1) = (adjSize size + 7) % 4294967296 from rfl,
      and_mask _ hy]
    rfl
  rw [e]
  omega

/-- The number of bytes `extend_heap` requests for `mm_malloc`, for every block size. -/
theorem extension_words_any {bs : Nat} (h8 : bs % 8 = 0) (hlt : bs < 4294967296) :
    (if ((if bs > PAGESIZE then bs else PAGESIZE) / WORDSIZE) % 2 = 0
      then mul32 ((if bs > PAGESIZE then bs else PAGESIZE) / WORDSIZE) WORDSIZE
      else mul32 (add32 ((if bs > PAGESIZE then bs else PAGESIZE) / WORDSIZE) 1) WORDSIZE)
      = max bs 4096 := by
  have hP : PAGESIZE = 4096 := rfl
  rw [hP]
  unfold WORDSIZE
  by_cases hb : bs > 4096
  · rw [if_pos hb, if_pos (by omega), mul32_eq (by omega)]
    omega
  · rw [if_neg hb, if_pos (by omega), mul32_eq (by omega)]
    omega

/-- Whenever the walk along a linked list returns, it returns the nodes of the list. -/
theorem free_list_walk_loop_sound {s : State} {l : List Nat} {prev h : Nat}
    (hfl : FL s.mem prev l h) (hv : ∀ p ∈ l, valid s p) :
    ∀ fuel r, free_list_walk_loop fuel s h = .ok r → r = l := by
  induction l generalizing prev h with
  | nil =>
    have h0 : h = 0 := hfl
    subst h0
    intro fuel r hr
    cases fuel with
    | zero => simp [free_list_walk_loop] at hr
    | succ k =>
      simp only [free_list_walk_loop, NULL, if_true, pure_ok] at hr
      injection hr with hr
      exact hr.symm
  | cons p l ih =>
    obtain ⟨e1, e2, e3, e4⟩ := hfl
    subst e1
    intro fuel r hr
    cases fuel with
    | zero => simp [free_list_walk_loop] at hr
    | succ k =>
      simp only [free_list_walk_loop, NULL, if_neg e2, NEXT_PTR,
        GET_ok (hv h (List.mem_cons_self _ _)), ok_bind] at hr
      cases hrec : free_list_walk_loop k s (s.mem h) with
      | error e => rw [hrec] at hr; simp only [err_bind] at hr; exact absurd hr (by simp)
      | ok rest =>
        rw [hrec] at hr
        simp only [ok_bind, pure_ok] at hr
        injection hr with hr
        rw [← hr, ih e4 (fun q hq => hv q (List.mem_cons_of_mem _ hq)) k rest hrec]

/-- Whenever the walk from the free-list head returns, it returns the free list. -/
theorem free_list_walk_sound {s : State} {L : List Blk} {fl : List Nat} (h : Inv s L fl)
    {fuel : Nat} {r : List Nat} (hr : free_list_walk fuel s = .ok r) : r = fl := by
  unfold free_list_walk at hr
  rw [h.froot, GET_ok h.valid_root] at hr
  simp only [ok_bind] at hr
  refine free_list_walk_loop_sound h.fl_ok ?_ fuel r hr
  intro p hp
  obtain ⟨b, hb, hbp, _⟩ := h.fl_blk hp
  rw [← hbp]
  exact (h.valid_links hb).1

/-- C15 (`mm_malloc(0)` is a no-op): in every state `mm_malloc(0)` returns NULL and the
state it leaves is the state before the call: memory, free list, `heap_root`,
`free_root` and the high-water mark are unchanged; neither `mm_init` nor `extend_heap`
is reached. -/
theorem malloc_zero_noop (fuel : Nat) (s : State) : mm_malloc fuel s 0 = .ok (NULL, s) :=
  rfl

/-- An allocation of `1 ≤ size < 2^31` bytes in a reachable state is marked allocated in
header and footer, has a size that is a multiple of 8, and holds at least `size` payload
bytes. -/
theorem Reach.malloc_capacity {s s' : State} {live : List (Nat × Nat)} {fuel size p : Nat}
    (h : Reach s live) (h1 : 1 ≤ size) (h2 : size < 2147483648)
    (hm : mm_malloc fuel s size = .ok (p, s')) (hp : p ≠ NULL) :
    ∃ hd, GET s' (HEADER_PTR p) = .ok hd ∧ hd &&& 1 = ALLOCATED ∧
      (hd &&& 0xFFFFFFF8) % 8 = 0 ∧ size + 8 ≤ hd &&& 0xFFFFFFF8 ∧
      GET s' (p + (hd &&& 0xFFFFFFF8) - 8) = .ok hd := by
  obtain ⟨pre, post, b, fl, w, rfl, hbA, hk⟩ :=
    (Reach.malloc h h1 h2 hm hp).block (List.mem_cons_self _ _)
  have hbL : b ∈ pre ++ b :: post := by simp
  obtain ⟨g1, g2, g3⟩ := w.1.hdr_word hbL
  have fb := w.1.facts hbL
  have hv : valid s' (b.ptr + b.sz - 8) := by unfold valid; omega
  refine ⟨b.tag, g1, ?_, ?_, ?_, ?_⟩
  · rw [g3]; exact Blk.bit_eq_one.2 hbA
  · rw [g2]; exact fb.2.2.2.2.1
  · rw [g2]; exact hk
  · rw [g2, GET_ok hv, (w.1.blk b hbL).2.2.2]

/-- C16 (the code fails the claim): on the freshly initialised heap `demo1`,
`mm_malloc(0xFFFFFFFF)` computes `ALIGN(size) + 8 = 8` modulo `2^32`, finds the free
block, and returns `0x10018`, not NULL, as a block of total size 8 (header word 9, the
footer word lies on the payload pointer): its payload capacity is 0 bytes. For
`size = 0xFFFFFFF8` the computed block size is 0 and `allocate` stores a footer outside
the heap. -/
theorem mm_malloc_wraps :
    (do
      let r ← mm_malloc 8 demo1 4294967295
      let hd ← GET r.2 (HEADER_PTR r.1)
      let fp ← FOOTER_PTR r.2 r.1
      pure (r.1, hd, hd &&& 0xFFFFFFF8, fp)) = .ok (65560, 9, 8, 65560) ∧
    blockSize 4294967295 = 8 ∧ blockSize 4294967288 = 0 ∧
    mm_malloc 8 demo1 4294967288 = .error (.access 73744) :=
  ⟨rfl, rfl, rfl, rfl⟩

/-- C17 (out of memory on allocate): in a reachable state, for a request of
`1 ≤ size < 2^32` bytes, if no block of the free list has a size of at least the block
size the code computes, and the growth primitive `mem_sbrk` fails for the
`max(block size, PAGESIZE)` bytes asked of it, then `mm_malloc(size)` returns NULL and
leaves the state as it was: memory, free list and high-water mark are unchanged. -/
theorem malloc_oom {s : State} {live : List (Nat × Nat)} {size k : Nat} {fl : List Nat}
    (h : Reach s live) (h1 : 1 ≤ size) (h2 : size < 4294967296)
    (hwalk : free_list_walk k s = .ok fl)
    (hsmall : ∀ q ∈ fl, ∀ hd, GET s (HEADER_PTR q) = .ok hd →
      hd &&& 0xFFFFFFF8 < blockSize size)
    (hfail : (mem_sbrk s (max (blockSize size) 4096)).1 = 4294967295) :
    ∃ N, ∀ fuel, N ≤ fuel → mm_malloc fuel s size = .ok (NULL, s) := by
  obtain ⟨L, fl', w, _⟩ := h.inv
  have hfl : fl = fl' := free_list_walk_sound w.1 hwalk
  subst hfl
  have hbs := blockSize_any size
  have hroot : s.heap_root ≠ 0 := by rw [w.1.hroot]; omega
  have hadj : adjSize size ≠ 0 := by unfold adjSize; split_ifs <;> omega
  have hbf := w.1.brk_facts
  have hoom : 2147483648 ≤ max (blockSize size) 4096 ∨
      s.mem_max_addr < s.mem_brk + max (blockSize size) 4096 := by
    by_contra hc
    have hs := mem_sbrk_ok (s := s) (k := max (blockSize size) 4096) (by omega) (by omega)
    rw [hs] at hfail
    have hmx := w.1.max_lt
    simp only at hfail
    omega
  refine ⟨fl.length + 1, fun fuel hfuel => ?_⟩
  have hff : first_fit fuel s (blockSize size) = .ok 0 := by
    rw [(first_fit_spec w.1 (blockSize size)).1 fuel (by omega)]
    rcases w.1.firstFit_blk (blockSize size) with ⟨h0, _⟩ | ⟨_, b, hb, hbp, hbF, hle⟩
    · rw [h0]
    · exfalso
      have hq : b.ptr ∈ fl := (w.1.fl_iff _).2 ⟨b, hb, rfl, hbF⟩
      have hw := w.1.hdr_word hb
      have := hsmall b.ptr hq b.tag hw.1
      rw [hw.2.1] at this
      omega
  rw [mm_malloc_unfold hroot hadj, hff]
  simp only [ok_bind, NULL, if_true]
  rw [extend_heap_fail (extension_words_any hbs.1 hbs.2) hoom]
  simp only [ok_bind, NULL, if_true, pure_ok]

/-- A reachable state whose arena cannot grow. -/
theorem reach_small1 : Reach small1 [] :=
  @Reach.init small0 small1 rfl (by decide) (by decide) rfl

/-- Out of memory on the small arena: `mm_malloc(5000)` after `mm_init`. -/
theorem malloc_oom_witness :
    ∃ N, ∀ fuel, N ≤ fuel → mm_malloc fuel small1 5000 = .ok (NULL, small1) :=
  @malloc_oom small1 [] 5000 8 [65560] reach_small1 (by decide) (by decide) rfl
    (by
      intro q hq hd hg
      rw [List.mem_singleton.1 hq, show GET small1 (HEADER_PTR 65560) = .ok 4096 from rfl] at hg
      injection hg with hg
      rw [← hg]
      decide)
    rfl

/-- C18 (the code fails the claim): on the small arena, after `p = mm_malloc(4088)` the
heap holds the allocated block `p` only, no free block, and cannot grow.
`mm_realloc(p, 5000)` takes the path for an allocated next block (the epilogue):
`mm_malloc(5008)` returns NULL and leaves the heap as it is, but the result is not
tested and `allocate(NULL, 5008)` reads the word at `NULL - 4 = 0xFFFFFFFC`, outside the
heap: `mm_realloc` faults instead of returning NULL. -/
theorem mm_realloc_oom_faults :
    mm_malloc 8 small1 4088 = .ok (65560, small2) ∧
    heap_scan 8 small2 = .ok [(65560, 4097)] ∧ free_list_walk 8 small2 = .ok [] ∧
    small2.mem_brk = small2.mem_max_addr ∧
    mm_malloc 8 small2 5008 = .ok (NULL, small2) ∧
    mm_realloc 8 small2 65560 5000 = .error (.access 4294967292) :=
  ⟨rfl, rfl, rfl, rfl, rfl, rfl⟩

/-! ## The heap after `mm_init`; the block size of a request -/

/-- C19 (`mm_init` post-state): on an empty arena (`mem_brk = mem_heap`) with room for
the 24 + 4096 bytes the two calls of `mem_sbrk` ask for, `mm_init` returns 0 and leaves a
heap of 24 + 4096 bytes: the prologue (header and footer `8 | ALLOCATED`), directly after
it one free block of 4096 bytes (header equals footer, both links NULL) that is the head
and only member of the free list and the only block of the linear scan, and the epilogue
header `0 | ALLOCATED` in the last word. Without that room one of the two calls of
`mem_sbrk` fails and `mm_init` returns -1. -/
theorem mm_init_post {s0 : State} (hbrk : s0.mem_brk = s0.mem_heap) (hlo : 0 < s0.mem_heap)
    (hmax : s0.mem_max_addr < 4294967296) :
    (s0.mem_heap + 4120 ≤ s0.mem_max_addr →
      ∃ s', mm_init s0 = .ok (0, s') ∧
        s'.mem_heap = s0.mem_heap ∧ s'.mem_brk = s0.mem_heap + 24 + 4096 ∧
        s'.heap_root = s0.mem_heap + 16 ∧ s'.free_root = s0.mem_heap + 8 ∧
        s'.mem (s0.mem_heap + 12) = (8 ||| ALLOCATED) ∧
        s'.mem (s0.mem_heap + 16) = (8 ||| ALLOCATED) ∧
        s'.mem (s0.mem_heap + 20) = (4096 ||| FREE) ∧
        s'.mem (s0.mem_heap + 24 + 4096 - 8) = (4096 ||| FREE) ∧
        s'.mem (s0.mem_heap + 24) = NULL ∧ s'.mem (s0.mem_heap + 28) = NULL ∧
        s'.mem (s0.mem_heap + 8) = s0.mem_heap + 24 ∧
        s'.mem (s'.mem_brk - 4) = (0 ||| ALLOCATED) ∧
        ∀ fuel, 2 ≤ fuel →
          heap_scan fuel s' = .ok [(s0.mem_heap + 24, 4096)] ∧
          free_list_walk fuel s' = .ok [s0.mem_heap + 24]) ∧
    (s0.mem_max_addr < s0.mem_heap + 4120 →
      ((mem_sbrk s0 24).1 = 4294967295 ∨ (mem_sbrk (s0.grow 24) 4096).1 = 4294967295) ∧
      ∃ s', mm_init s0 = .ok (-1, s')) := by
  constructor
  · intro hroom
    obtain ⟨s', e, w, f1, f2, f3⟩ := (mm_init_spec hbrk hlo hmax).1 hroom
    have hb : (⟨s0.mem_heap + 24, 4096, St.F⟩ : Blk) ∈
        [(⟨s0.mem_heap + 24, 4096, St.F⟩ : Blk)] := List.mem_singleton_self _
    have hbl := w.1.blk _ hb
    obtain ⟨fl1, _, fl3, fl4⟩ := w.1.fl_ok
    have fl4' : s'.mem (s0.mem_heap + 24) = 0 := fl4
    have hph := w.1.pro_h
    have hpf := w.1.pro_f
    have hep := w.1.epi
    rw [f1] at hph hpf fl1
    simp only at hbl
    have ht : (⟨s0.mem_heap + 24, 4096, St.F⟩ : Blk).tag = (4096 ||| FREE) := by
      rw [or_FREE]; rfl
    refine ⟨s', e, f1, by omega, by rw [w.1.hroot, f1], by rw [w.1.froot, f1], hph, hpf,
      ?_, ?_, fl4', fl3, fl1, hep, ?_⟩
    · rw [show s0.mem_heap + 20 = s0.mem_heap + 24 - 4 by omega]
      exact hbl.2.2.1.trans ht
    · exact hbl.2.2.2.trans ht
    · intro fuel hfuel
      exact ⟨heap_scan_spec w.1 (by simp; omega), free_list_walk_spec w.1 (by simp; omega)⟩
  · intro hno
    refine ⟨?_, (mm_init_spec hbrk hlo hmax).2 hno⟩
    by_cases h24 : s0.mem_max_addr < s0.mem_heap + 24
    · left
      rw [mem_sbrk_fail (Or.inr (by omega))]
    · right
      rw [mem_sbrk_fail (Or.inr (by simp only [grow_brk, grow_max]; omega))]

/-- The post-state of `mm_init` on the concrete arena `demo0`, and its failure on an
arena of 100 bytes. -/
theorem mm_init_post_witness :
    (∃ s', mm_init demo0 = .ok (0, s') ∧
        s'.mem_heap = demo0.mem_heap ∧ s'.mem_brk = demo0.mem_heap + 24 + 4096 ∧
        s'.heap_root = demo0.mem_heap + 16 ∧ s'.free_root = demo0.mem_heap + 8 ∧
        s'.mem (demo0.mem_heap + 12) = (8 ||| ALLOCATED) ∧
        s'.mem (demo0.mem_heap + 16) = (8 ||| ALLOCATED) ∧
        s'.mem (demo0.mem_heap + 20) = (4096 ||| FREE) ∧
        s'.mem (demo0.mem_heap + 24 + 4096 - 8) = (4096 ||| FREE) ∧
        s'.mem (demo0.mem_heap + 24) = NULL ∧ s'.mem (demo0.mem_heap + 28) = NULL ∧
        s'.mem (demo0.mem_heap + 8) = demo0.mem_heap + 24 ∧
        s'.mem (s'.mem_brk - 4) = (0 ||| ALLOCATED) ∧
        ∀ fuel, 2 ≤ fuel →
          heap_scan fuel s' = .ok [(demo0.mem_heap + 24, 4096)] ∧
          free_list_walk fuel s' = .ok [demo0.mem_heap + 24]) ∧
    (((mem_sbrk (arena 65536 65636) 24).1 = 4294967295 ∨
        (mem_sbrk ((arena 65536 65636).grow 24) 4096).1 = 4294967295) ∧
      ∃ s', mm_init (arena 65536 65636) = .ok (-1, s')) :=
  ⟨(@mm_init_post demo0 rfl (by decide) (by decide)).1 (by decide),
    (@mm_init_post (arena 65536 65636) rfl (by decide) (by decide)).2 (by decide)⟩

/-- The block size of the code agrees with the block size of the description for
requests below `2^31`. -/
theorem blockSize_eq_spec {size : Nat} (h1 : 1 ≤ size) (h2 : size < 2147483648) :
    blockSize size = block_size_spec size := by
  rw [(blockSize_facts h1 h2).2.2.2.2.2]
  unfold block_size_spec adjSize
  by_cases h112 : size = 112
  · subst h112; rfl
  · by_cases h448 : size = 448
    · subst h448; rfl
    · simp only [if_neg h112, if_neg h448]

/-- C20 (block size computation): on an initialised heap, for every request of
`1 ≤ size < 2^31` bytes, `mm_malloc` searches for and places a block of
`block_size_spec size = ALIGN(s') + 8` bytes, where `s'` is `size` except that 112
becomes 128 and 448 becomes 512; and in every state `mm_malloc(112)` is `mm_malloc(128)`
and `mm_malloc(448)` is `mm_malloc(512)`. -/
theorem block_size_refines {fuel : Nat} {s : State} {size : Nat} (hroot : s.heap_root ≠ NULL)
    (h1 : 1 ≤ size) (h2 : size < 2147483648) :
    mm_malloc fuel s size = (do
      let block_ptr ← first_fit fuel s (block_size_spec size)
      if block_ptr = NULL then do
        let r ← extend_heap s
          ((if block_size_spec size > PAGESIZE then block_size_spec size else PAGESIZE) /
            WORDSIZE)
        if r.1 = NULL then pure (NULL, r.2)
        else do
          let s1 ← allocate r.2 r.1 (block_size_spec size)
          pure (r.1, s1)
      else do
        let s1 ← allocate s block_ptr (block_size_spec size)
        pure (block_ptr, s1)) ∧
    add32 (ALIGN (if size = 112 then 128 else if size = 448 then 512 else size))
      (2 * WORDSIZE) = block_size_spec size ∧
    mm_malloc fuel s 112 = mm_malloc fuel s 128 ∧
    mm_malloc fuel s 448 = mm_malloc fuel s 512 := by
  refine ⟨?_, ?_, rfl, rfl⟩
  · rw [mm_malloc_unfold hroot (blockSize_facts h1 h2).2.2.2.2.1, blockSize_eq_spec h1 h2]
  · rw [← blockSize_eq_spec h1 h2]
    unfold blockSize adjSize
    by_cases h112 : size = 112
    · subst h112; rfl
    · simp only [if_neg h112]

/-- The block size for the request `112` on the concrete heap `demo1`. -/
theorem block_size_refines_witness :
    mm_malloc 8 demo1 112 = (do
      let block_ptr ← first_fit 8 demo1 (block_size_spec 112)
      if block_ptr = NULL then do
        let r ← extend_heap demo1
          ((if block_size_spec 112 > PAGESIZE then block_size_spec 112 else PAGESIZE) /
            WORDSIZE)
        if r.1 = NULL then pure (NULL, r.2)
        else do
          let s1 ← allocate r.2 r.1 (block_size_spec 112)
          pure (r.1, s1)
      else do
        let s1 ← allocate demo1 block_ptr (block_size_spec 112)
        pure (block_ptr, s1)) ∧
    add32 (ALIGN (if 112 = 112 then 128 else if 112 = 448 then 512 else 112))
      (2 * WORDSIZE) = block_size_spec 112 ∧
    mm_malloc 8 demo1 112 = mm_malloc 8 demo1 128 ∧
    mm_malloc 8 demo1 448 = mm_malloc 8 demo1 512 :=
  @block_size_refines 8 demo1 112 (by decide) (by decide) (by decide)

/-! ## The exact result of `coalesce` and of `mm_free` -/

/-- `coalesce` on the only detached block `b` of a heap, with the result spelled out: the
pointer returned is `b` when the block in front is allocated and that block otherwise,
the merged block has the size of `b` plus the sizes of its free neighbours, it is free
and it is the head of the free list; the rest of the free list is taken from the old
one. -/
theorem coalesce_full {s : State} {P Q : List Blk} {b : Blk} {fl : List Nat}
    (h : Inv s (P ++ b :: Q) fl) (hb : b.st = St.D)
    (hnoD : ∀ c ∈ P ++ Q, c.st ≠ St.D) :
    ∃ m' L' fl',
      coalesce s b.ptr =
        .ok (if prevBit P = 1 then b.ptr else prevPtr s P, s.withMem m') ∧
      WF (s.withMem m') L' ((if prevBit P = 1 then b.ptr else prevPtr s P) :: fl') ∧
      Keeps s.mem m' (P ++ Q) L' ∧
      (⟨if prevBit P = 1 then b.ptr else prevPtr s P,
        b.sz + (if prevBit P = 1 then 0 else prevSz P) +
          (if nextBit Q = 1 then 0 else nextSz Q), St.F⟩ : Blk) ∈ L' ∧
      fl'.Sublist fl := by
  have hpb := h.prev_facts.2.2.2.2.1
  have hnb := h.next_facts.2.2.1
  by_cases hp : prevBit P = 1
  · simp only [if_pos hp]
    by_cases hn : nextBit Q = 1
    · simp only [if_pos hn]
      obtain ⟨m', e, i, k⟩ := coalesce_case1 h hb hp hn
      refine ⟨m', _, fl, e, ⟨i, ?_⟩, k.mono (by
        intro c hc _; simp only [List.mem_append, List.mem_cons] at hc ⊢; tauto),
        by simp, List.Sublist.refl _⟩
      intro c hc
      simp only [List.mem_append, List.mem_cons] at hc
      rcases hc with hc | hc | hc
      · exact hnoD c (by simp [hc])
      · rw [hc]; simp
      · exact hnoD c (by simp [hc])
    · simp only [if_neg hn]
      cases Q with
      | nil => simp at hn
      | cons n post' =>
        have hn0 : n.bit = 0 := by simp only [nextBit_cons] at hn hnb; omega
        have hnF : n.st = St.F :=
          St.eq_F_of (Blk.bit_eq_zero.1 hn0) (hnoD n (by simp))
        obtain ⟨m', e, i, k⟩ := coalesce_case2 h hb hnF hp
        refine ⟨m', _, fl.erase n.ptr, e, ⟨i, ?_⟩, ?_, by simp,
          List.erase_sublist _ _⟩
        · intro c hc
          simp only [List.mem_append, List.mem_cons] at hc
          rcases hc with hc | hc | hc
          · exact hnoD c (by simp [hc])
          · rw [hc]; simp
          · exact hnoD c (by simp [hc])
        · intro c hc hA
          simp only [List.mem_append, List.mem_cons] at hc
          rcases hc with hc | hc | hc
          · exact k c (by simp [hc]) hA
          · rw [hc, hnF] at hA; exact absurd hA (by decide)
          · exact k c (by simp [hc]) hA
  · simp only [if_neg hp]
    rcases List.eq_nil_or_concat P with hpre | ⟨pre', c, hpre⟩
    · subst hpre; simp at hp
    · rw [List.concat_eq_append] at hpre
      subst hpre
      have hc0 : c.bit = 0 := by simp only [prevBit_snoc] at hp hpb; omega
      have hcF : c.st = St.F :=
        St.eq_F_of (Blk.bit_eq_zero.1 hc0) (hnoD c (by simp))
      have hL : (pre' ++ [c]) ++ b :: Q = pre' ++ c :: b :: Q := by simp
      rw [hL] at h
      simp only [prevPtr_snoc, prevSz_snoc]
      by_cases hn : nextBit Q = 1
      · simp only [if_pos hn]
        obtain ⟨m', e, i, k⟩ := coalesce_case3 h hb hcF hn
        refine ⟨m', _, fl.erase c.ptr, e, ⟨i, ?_⟩, ?_, ?_, List.erase_sublist _ _⟩
        · intro d hd
          simp only [List.mem_append, List.mem_cons] at hd
          rcases hd with hd | hd | hd
          · exact hnoD d (by simp [hd])
          · rw [hd]; simp
          · exact hnoD d (by simp [hd])
        · intro d hd hA
          simp only [List.mem_append, List.mem_cons, List.not_mem_nil, or_false] at hd
          rcases hd with (hd | hd) | hd
          · exact k d (by simp [hd]) hA
          · rw [hd, hcF] at hA; exact absurd hA (by decide)
          · exact k d (by simp [hd]) hA
        · rw [show b.sz + c.sz + 0 = c.sz + b.sz by omega]; simp
      · simp only [if_neg hn]
        cases Q with
        | nil => simp at hn
        | cons n post' =>
          have hn0 : n.bit = 0 := by simp only [nextBit_cons] at hn hnb; omega
          have hnF : n.st = St.F :=
            St.eq_F_of (Blk.bit_eq_zero.1 hn0) (hnoD n (by simp))
          obtain ⟨m', e, i, k⟩ := coalesce_case4 h hb hcF hnF
          refine ⟨m', _, (fl.erase c.ptr).erase n.ptr, e, ⟨i, ?_⟩, ?_, ?_,
            (List.erase_sublist _ _).trans (List.erase_sublist _ _)⟩
          · intro d hd
            simp only [List.mem_append, List.mem_cons] at hd
            rcases hd with hd | hd | hd
            · exact hnoD d (by simp [hd])
            · rw [hd]; simp
            · exact hnoD d (by simp [hd])
          · intro d hd hA
            simp only [List.mem_append, List.mem_cons, List.not_mem_nil, or_false] at hd
            rcases hd with (hd | hd) | hd | hd
            · exact k d (by simp [hd]) hA
            · rw [hd, hcF] at hA; exact absurd hA (by decide)
            · rw [hd, hnF] at hA; exact absurd hA (by decide)
            · exact k d (by simp [hd]) hA
          · simp only [nextSz_cons]
            rw [show b.sz + c.sz + n.sz = c.sz + b.sz + n.sz by omega]; simp

/-- The boundary tags next to a block `b`, as words of memory, decide the result of a
merge: the pointer and the size of the merged block read off the footer in front of `b`
and the header after it. -/
theorem merge_words {s : State} {P Q : List Blk} {b : Blk} {fl : List Nat}
    (h : Inv s (P ++ b :: Q) fl) :
    (s.mem (b.ptr - 8) &&& 1 = ALLOCATED ↔ prevBit P = 1) ∧
    (s.mem (b.ptr + b.sz - 4) &&& 1 = ALLOCATED ↔ nextBit Q = 1) ∧
    (if s.mem (b.ptr - 8) &&& 1 = ALLOCATED then b.ptr
      else b.ptr - (s.mem (b.ptr - 8) &&& 0xFFFFFFF8)) =
      (if prevBit P = 1 then b.ptr else prevPtr s P) ∧
    b.sz + (if s.mem (b.ptr - 8) &&& 1 = ALLOCATED then 0
        else s.mem (b.ptr - 8) &&& 0xFFFFFFF8) +
      (if s.mem (b.ptr + b.sz - 4) &&& 1 = ALLOCATED then 0
        else s.mem (b.ptr + b.sz - 4) &&& 0xFFFFFFF8) =
      b.sz + (if prevBit P = 1 then 0 else prevSz P) +
        (if nextBit Q = 1 then 0 else nextSz Q) := by
  obtain ⟨p1, _, _, p4, p5, _, p7⟩ := h.prev_facts
  obtain ⟨n1, n2, n3, n4⟩ := h.next_facts
  have hbf := h.brk_facts
  have fb := h.facts (show b ∈ P ++ b :: Q by simp)
  have e1 : s.mem (b.ptr - 8) &&& 1 = prevBit P := by rw [p7]; exact tag_bit p4 p5
  have e2 : s.mem (b.ptr - 8) &&& 0xFFFFFFF8 = prevSz P := by
    rw [p7]; exact tag_size p4 p5 (by omega)
  have e3 : s.mem (b.ptr + b.sz - 4) &&& 1 = nextBit Q := by rw [n1]; exact tag_bit n2 n3
  have e4 : s.mem (b.ptr + b.sz - 4) &&& 0xFFFFFFF8 = nextSz Q := by
    rw [n1]; exact tag_size n2 n3 (by omega)
  rw [e1, e2, e3, e4]
  refine ⟨Iff.rfl, Iff.rfl, ?_, rfl⟩
  show (if prevBit P = 1 then b.ptr else b.ptr - prevSz P) = _
  by_cases hp : prevBit P = 1
  · rw [if_pos hp, if_pos hp]
  · rw [if_neg hp, if_neg hp]; omega

/-- `mm_free` on an allocated block of a well-formed heap, with the result spelled out:
the merged block is free, is the head of the free list, and has the size of the block
plus the sizes of its free neighbours. -/
theorem mm_free_full {s : State} {pre post : List Blk} {b : Blk} {fl : List Nat}
    (w : WF s (pre ++ b :: post) fl) (hb : b.st = St.A) :
    ∃ m' L' fl', mm_free s b.ptr = .ok (s.withMem m') ∧
      WF (s.withMem m') L' ((if prevBit pre = 1 then b.ptr else prevPtr s pre) :: fl') ∧
      Keeps s.mem m' (pre ++ post) L' ∧
      (⟨if prevBit pre = 1 then b.ptr else prevPtr s pre,
        b.sz + (if prevBit pre = 1 then 0 else prevSz pre) +
          (if nextBit post = 1 then 0 else nextSz post), St.F⟩ : Blk) ∈ L' ∧
      fl'.Sublist fl := by
  obtain ⟨m4, hfree, i4, k4⟩ := mm_free_eq w.1 hb
  obtain ⟨m', L', fl', e, w', k, hmem, hsub⟩ := coalesce_full i4 rfl (by
    intro c hc hD
    have : c ∈ pre ++ b :: post := by
      simp only [List.mem_append, List.mem_cons] at hc ⊢; tauto
    exact w.2 c this hD)
  simp only [withMem_withMem, withMem_mem] at e w' k hmem
  refine ⟨m', L', fl', hfree _ _ e, w', ?_, hmem, hsub⟩
  refine k4.trans (k.mono ?_)
  intro c hc hA
  simp only [List.mem_append, List.mem_cons] at hc ⊢
  rcases hc with hc | hc | hc
  · exact Or.inl hc
  · rw [hc] at hA; simp at hA
  · exact Or.inr hc

/-- The heap `det1` holds one block, marked free and detached from the free list. -/
theorem inv_det1 : Inv det1 [⟨65560, 4096, St.D⟩] [] := by
  have w := (@mm_init_ok demo0 demo1 rfl (by decide) (by decide) rfl).1
  obtain ⟨m', e, i, _⟩ := @delete_spec demo1 [] [] ⟨65560, 4096, St.F⟩ [65560] w.1 rfl
  have hd : det1 = demo1.withMem m' := by
    unfold det1
    simp only at e
    rw [e]
  rw [hd]
  simpa using i

/-- C28 (result of `coalesce`): for a block `b` of a heap that satisfies the invariant,
marked free in header and footer and not in the free list (every other block being
allocated, or free and in the list), `coalesce(b)` returns `R`: `b` itself when the
footer in front of `b` is marked allocated and the block in front otherwise. Afterwards
the block at `R` is free with header equal to footer, of size `T`: the size of `b` plus
the sizes of its free physical neighbours, so header and footer are those of the lowest
and of the highest merged block; `R` is the head of the free list. When neither
neighbour is free, `coalesce(b)` is `insert_free_block(b)`. -/
theorem coalesce_result {s : State} {P Q : List Blk} {b : Blk} {fl : List Nat}
    (h : Inv s (P ++ b :: Q) fl) (hb : b.st = St.D)
    (hnoD : ∀ c ∈ P ++ Q, c.st ≠ St.D) :
    ∃ s' R T,
      R = (if s.mem (b.ptr - 8) &&& 1 = ALLOCATED then b.ptr
        else b.ptr - (s.mem (b.ptr - 8) &&& 0xFFFFFFF8)) ∧
      T = b.sz + (if s.mem (b.ptr - 8) &&& 1 = ALLOCATED then 0
          else s.mem (b.ptr - 8) &&& 0xFFFFFFF8) +
        (if s.mem (b.ptr + b.sz - 4) &&& 1 = ALLOCATED then 0
          else s.mem (b.ptr + b.sz - 4) &&& 0xFFFFFFF8) ∧
      coalesce s b.ptr = .ok (R, s') ∧
      s'.mem (R - 4) = (T ||| FREE) ∧ s'.mem (R + T - 8) = (T ||| FREE) ∧
      s'.mem (s.mem_heap + 8) = R ∧
      (∃ L' fl', WF s' L' (R :: fl') ∧ (⟨R, T, St.F⟩ : Blk) ∈ L' ∧ fl'.Sublist fl) ∧
      (s.mem (b.ptr - 8) &&& 1 = ALLOCATED → s.mem (b.ptr + b.sz - 4) &&& 1 = ALLOCATED →
        coalesce s b.ptr = (do
          let s1 ← insert_free_block s b.ptr
          pure (b.ptr, s1))) := by
  obtain ⟨q1, q2, q3, q4⟩ := merge_words h
  obtain ⟨m', L', fl', e, w', _, hmem, hsub⟩ := coalesce_full h hb hnoD
  have hbl := w'.1.blk _ hmem
  have hhead : (s.withMem m').mem ((s.withMem m').mem_heap + 8) = _ := w'.1.fl_ok.1
  refine ⟨s.withMem m', _, _, q3.symm, q4.symm, e, ?_, ?_, hhead, ⟨L', fl', w', hmem, hsub⟩, ?_⟩
  · rw [or_FREE]; exact hbl.2.2.1
  · rw [or_FREE]; exact hbl.2.2.2
  · intro h1 h2
    have hp : prevBit P ≠ 0 := by rw [q1.1 h1]; decide
    have hn : nextBit Q ≠ 0 := by rw [q2.1 h2]; decide
    rw [h.coalesce_eq, if_pos ⟨hp, hn⟩]

/-- The result of `coalesce` on the detached block of `det1`, whose neighbours are the
prologue and the epilogue. -/
theorem coalesce_result_witness :
    ∃ s' R T,
      R = (if det1.mem (65560 - 8) &&& 1 = ALLOCATED then 65560
        else 65560 - (det1.mem (65560 - 8) &&& 0xFFFFFFF8)) ∧
      T = 4096 + (if det1.mem (65560 - 8) &&& 1 = ALLOCATED then 0
          else det1.mem (65560 - 8) &&& 0xFFFFFFF8) +
        (if det1.mem (65560 + 4096 - 4) &&& 1 = ALLOCATED then 0
          else det1.mem (65560 + 4096 - 4) &&& 0xFFFFFFF8) ∧
      coalesce det1 65560 = .ok (R, s') ∧
      s'.mem (R - 4) = (T ||| FREE) ∧ s'.mem (R + T - 8) = (T ||| FREE) ∧
      s'.mem (det1.mem_heap + 8) = R ∧
      (∃ L' fl', WF s' L' (R :: fl') ∧ (⟨R, T, St.F⟩ : Blk) ∈ L' ∧ fl'.Sublist []) ∧
      (det1.mem (65560 - 8) &&& 1 = ALLOCATED → det1.mem (65560 + 4096 - 4) &&& 1 = ALLOCATED →
        coalesce det1 65560 = (do
          let s1 ← insert_free_block det1 65560
          pure (65560, s1))) :=
  @coalesce_result det1 [] [] ⟨65560, 4096, St.D⟩ [] inv_det1 rfl (by simp)

/-- A reachable state with three live allocations. -/
theorem reach_demo4 : Reach demo4 [(65704, 8), (65592, 100), (65560, 24)] :=
  @Reach.malloc demo3 demo4 _ 8 8 65704
    (@Reach.malloc demo2 demo3 _ 8 100 65592 reach_demo2 (by decide) (by decide) rfl
      (by decide))
    (by decide) (by decide) rfl (by decide)

/-- C22 (effect of `mm_free`): for a live pointer `p` of a reachable state, with `hd` the
header word of `p`, `mm_free(p)` returns; afterwards the block `R` of size `T` (the
block of `p` merged with its free physical neighbours, as the tags next to `p` tell) is a
block of the heap marked FREE in header and footer, covers the old block, and is the head
of the free list; no two neighbouring blocks are both free; and every other allocated
block is still a block of the heap with the same header, footer and payload words. -/
theorem free_effect {s : State} {live : List (Nat × Nat)} {p k hd : Nat}
    (h : Reach s live) (hlive : (p, k) ∈ live) (hhd : GET s (HEADER_PTR p) = .ok hd) :
    ∃ s' R T blocks blocks' fl' N,
      R = (if s.mem (p - 8) &&& 1 = ALLOCATED then p
        else p - (s.mem (p - 8) &&& 0xFFFFFFF8)) ∧
      T = (hd &&& 0xFFFFFFF8) + (if s.mem (p - 8) &&& 1 = ALLOCATED then 0
          else s.mem (p - 8) &&& 0xFFFFFFF8) +
        (if s.mem (p + (hd &&& 0xFFFFFFF8) - 4) &&& 1 = ALLOCATED then 0
          else s.mem (p + (hd &&& 0xFFFFFFF8) - 4) &&& 0xFFFFFFF8) ∧
      mm_free s p = .ok s' ∧
      (∀ f, N ≤ f → heap_scan f s = .ok blocks ∧ heap_scan f s' = .ok blocks' ∧
        free_list_walk f s' = .ok (R :: fl')) ∧
      (R, T ||| FREE) ∈ blocks' ∧ GET s' (R + T - 8) = .ok (T ||| FREE) ∧
      R ≤ p ∧ p + (hd &&& 0xFFFFFFF8) ≤ R + T ∧
      blocks'.Chain' (fun x y => ¬ (x.2 &&& 1 = FREE ∧ y.2 &&& 1 = FREE)) ∧
      ∀ c ∈ blocks, c.2 &&& 1 = ALLOCATED → c.1 ≠ p →
        c ∈ blocks' ∧
        s'.mem (c.1 + (c.2 &&& 0xFFFFFFF8) - 8) = s.mem (c.1 + (c.2 &&& 0xFFFFFFF8) - 8) ∧
        ∀ x, c.1 ≤ x → x + 8 < c.1 + (c.2 &&& 0xFFFFFFF8) → s'.mem x = s.mem x := by
  obtain ⟨pre, post, b, fl, w, rfl, hbA, _⟩ := h.block hlive
  have hbL : b ∈ pre ++ b :: post := by simp
  have hw := w.1.hdr_word hbL
  rw [hw.1] at hhd
  injection hhd with hhd
  subst hhd
  rw [hw.2.1]
  obtain ⟨_, _, q3, q4⟩ := merge_words w.1
  obtain ⟨m', L', fl', e, w', k', hmem, _⟩ := mm_free_full w hbA
  have fr := w'.1.facts hmem
  have hbl := w'.1.blk _ hmem
  have pf := w.1.prev_facts
  have fb := w.1.facts hbL
  simp only [withMem_heap, withMem_brk] at fr
  have hv : valid (s.withMem m') ((if prevBit pre = 1 then b.ptr else prevPtr s pre) +
      (b.sz + (if prevBit pre = 1 then 0 else prevSz pre) +
        (if nextBit post = 1 then 0 else nextSz post)) - 8) := by
    unfold valid; simp only [withMem_heap, withMem_brk]; omega
  refine ⟨s.withMem m', _, _, (pre ++ b :: post).map (fun c => (c.ptr, c.tag)),
    L'.map (fun c => (c.ptr, c.tag)), fl',
    (pre ++ b :: post).length + L'.length + fl'.length + 2, q3.symm, q4.symm, e, ?_, ?_, ?_,
    ?_, ?_, ?_, ?_⟩
  · intro f hf
    exact ⟨heap_scan_spec w.1 (by omega), heap_scan_spec w'.1 (by omega),
      free_list_walk_spec w'.1 (by simp only [List.length_cons]; omega)⟩
  · rw [or_FREE]
    exact List.mem_map.2 ⟨_, hmem, rfl⟩
  · rw [or_FREE, GET_ok hv]
    exact congrArg _ hbl.2.2.2
  · by_cases hp : prevBit pre = 1
    · rw [if_pos hp]
    · rw [if_neg hp]; omega
  · by_cases hp : prevBit pre = 1
    · rw [if_pos hp, if_pos hp]; omega
    · rw [if_neg hp, if_neg hp]; omega
  · rw [List.chain'_map]
    refine Chain'_of_mem (Chain_adjacent w'.1.chain) ?_
    intro x hx y hy hxy hF
    exact w'.1.adj x hx y hy hxy ⟨(w'.bit_zero_iff hx).1 hF.1, (w'.bit_zero_iff hy).1 hF.2⟩
  · intro c hc hcA hcp
    obtain ⟨d, hd, rfl⟩ := List.mem_map.1 hc
    have hwd := w.1.hdr_word hd
    simp only at hcA hcp ⊢
    rw [hwd.2.2] at hcA
    have hdA : d.st = St.A := Blk.bit_eq_one.1 hcA
    have hd' : d ∈ pre ++ post := by
      simp only [List.mem_append, List.mem_cons] at hd ⊢
      rcases hd with hd | hd | hd
      · exact Or.inl hd
      · rw [hd] at hcp; exact absurd rfl hcp
      · exact Or.inr hd
    obtain ⟨k1, k2⟩ := k' d hd' hdA
    rw [hwd.2.1]
    refine ⟨List.mem_map.2 ⟨d, k1, rfl⟩, ?_, k2⟩
    show m' (d.ptr + d.sz - 8) = s.mem (d.ptr + d.sz - 8)
    rw [(w.1.blk d hd).2.2.2]
    exact (w'.1.blk d k1).2.2.2

/-- The effect of `mm_free(0x10038)` on the concrete state `demo4`, where the block lies
between two allocated blocks. -/
theorem free_effect_witness :
    ∃ s' R T blocks blocks' fl' N,
      R = (if demo4.mem (65592 - 8) &&& 1 = ALLOCATED then 65592
        else 65592 - (demo4.mem (65592 - 8) &&& 0xFFFFFFF8)) ∧
      T = (113 &&& 0xFFFFFFF8) + (if demo4.mem (65592 - 8) &&& 1 = ALLOCATED then 0
          else demo4.mem (65592 - 8) &&& 0xFFFFFFF8) +
        (if demo4.mem (65592 + (113 &&& 0xFFFFFFF8) - 4) &&& 1 = ALLOCATED then 0
          else demo4.mem (65592 + (113 &&& 0xFFFFFFF8) - 4) &&& 0xFFFFFFF8) ∧
      mm_free demo4 65592 = .ok s' ∧
      (∀ f, N ≤ f → heap_scan f demo4 = .ok blocks ∧ heap_scan f s' = .ok blocks' ∧
        free_list_walk f s' = .ok (R :: fl')) ∧
      (R, T ||| FREE) ∈ blocks' ∧ GET s' (R + T - 8) = .ok (T ||| FREE) ∧
      R ≤ 65592 ∧ 65592 + (113 &&& 0xFFFFFFF8) ≤ R + T ∧
      blocks'.Chain' (fun x y => ¬ (x.2 &&& 1 = FREE ∧ y.2 &&& 1 = FREE)) ∧
      ∀ c ∈ blocks, c.2 &&& 1 = ALLOCATED → c.1 ≠ 65592 →
        c ∈ blocks' ∧
        s'.mem (c.1 + (c.2 &&& 0xFFFFFFF8) - 8) =
          demo4.mem (c.1 + (c.2 &&& 0xFFFFFFF8) - 8) ∧
        ∀ x, c.1 ≤ x → x + 8 < c.1 + (c.2 &&& 0xFFFFFFF8) → s'.mem x = demo4.mem x :=
  @free_effect demo4 _ 65592 100 113 reach_demo4 (by decide) rfl

/-! ## Placement and growth policy of `mm_malloc` -/

/-- The footer word in front of the epilogue is the footer of the last block of the heap,
or of the prologue. -/
theorem Inv.last_footer {s : State} {L : List Blk} {fl : List Nat} (h : Inv s L fl) :
    s.mem (s.mem_brk - 8) = prevSz L + prevBit L ∧ prevPtr s L + prevSz L = s.mem_brk ∧
    prevSz L % 8 = 0 ∧ prevBit L ≤ 1 ∧ prevSz L < 4294967296 := by
  have hbf := h.brk_facts
  rcases List.eq_nil_or_concat L with hL | ⟨pre, c, hL⟩
  · subst hL
    have hc : s.mem_heap + 24 = s.mem_brk := by simpa [Chain] using h.chain
    refine ⟨?_, ?_, rfl, Nat.le_refl 1, by decide⟩
    · show s.mem (s.mem_brk - 8) = 8 + 1
      rw [show s.mem_brk - 8 = s.mem_heap + 16 by omega]
      exact h.pro_f
    · show s.mem_heap + 16 + 8 = s.mem_brk
      omega
  · rw [List.concat_eq_append] at hL
    subst hL
    have hcL : c ∈ pre ++ [c] := by simp
    have hend := Chain_snoc h.chain
    have fc := h.facts hcL
    have hbl := h.blk c hcL
    simp only [prevSz_snoc, prevBit_snoc, prevPtr_snoc]
    refine ⟨?_, hend, fc.2.2.2.2.1, c.bit_le_one, by omega⟩
    rw [← hend, hbl.2.2.2]
    rfl

theorem firstFit_first (m : Nat → Nat) (bs q : Nat) (post : List Nat) :
    ∀ pre : List Nat, (∀ x ∈ pre, bs > m (x - 4)) → ¬ bs > m (q - 4) →
      firstFit m bs (pre ++ q :: post) = q := by
  intro pre
  induction pre with
  | nil => intro _ hq; simp only [List.nil_append, firstFit, if_neg hq]
  | cons x pre ih =>
    intro hpre hq
    simp only [List.cons_append, firstFit, if_pos (hpre x (List.mem_cons_self _ _))]
    exact ih (fun y hy => hpre y (List.mem_cons_of_mem _ hy)) hq

theorem firstFit_none (m : Nat → Nat) (bs : Nat) :
    ∀ l : List Nat, (∀ x ∈ l, bs > m (x - 4)) → firstFit m bs l = 0 := by
  intro l
  induction l with
  | nil => intro _; rfl
  | cons x l ih =>
    intro hl
    simp only [firstFit, if_pos (hl x (List.mem_cons_self _ _))]
    exact ih (fun y hy => hl y (List.mem_cons_of_mem _ hy))

/-- The header word of a node of the free list is the size of its block. -/
theorem Inv.fl_hdr {s : State} {L : List Blk} {fl : List Nat} (h : Inv s L fl) {x : Nat}
    (hx : x ∈ fl) :
    s.mem (x - 4) &&& 0xFFFFFFF8 = s.mem (x - 4) ∧
    ∃ b ∈ L, b.ptr = x ∧ b.st = St.F ∧ s.mem (x - 4) = b.sz := by
  obtain ⟨b, hb, hbp, hbF⟩ := h.fl_blk hx
  have hbl := h.blk b hb
  have fb := h.facts hb
  have ht : s.mem (x - 4) = b.sz := by
    rw [← hbp, hbl.2.2.1]; exact Blk.tag_of_not_A (by rw [hbF]; decide)
  refine ⟨?_, b, hb, hbp, hbF, ht⟩
  rw [ht, and_mask _ (by omega)]
  omega

/-- The block size of the code for every request up to `2^32 - 16` bytes, the range in
which neither `ALIGN(size)` nor the addition of the 8 bytes of overhead wraps modulo
`2^32`: it is the block size of the description. -/
theorem blockSize_wide {size : Nat} (h1 : 1 ≤ size) (h2 : size ≤ 4294967280) :
    16 ≤ blockSize size ∧ blockSize size % 8 = 0 ∧ blockSize size < 4294967296 ∧
    adjSize size ≠ 0 ∧ blockSize size = block_size_spec size := by
  have ha : size ≤ adjSize size ∧ adjSize size ≤ 4294967280 := by
    unfold adjSize; split_ifs <;> omega
  have e : blockSize size = (adjSize size + 7) / 8 * 8 + 8 := by
    unfold blockSize WORDSIZE
    rw [ALIGN_eq (by omega), add32_eq (by omega)]
  refine ⟨by omega, by omega, by omega, by omega, ?_⟩
  rw [e]
  unfold block_size_spec adjSize
  by_cases h112 : size = 112
  · subst h112; rfl
  · by_cases h448 : size = 448
    · subst h448; rfl
    · simp only [if_neg h112, if_neg h448]

/-- C21, as stated, fails on the code, in three ways.
(1) No growth on a miss: on the small arena after `mm_init` the free list holds one block
of 4096 bytes, the request `mm_malloc(5000)` needs a block of 5008 bytes, so no free-list
block is large enough; but `mem_sbrk` cannot supply the 5008 bytes, and `mm_malloc`
returns NULL and leaves the state, and with it the high-water mark, unchanged.
(2) The request 0: on the heap `demo1` after `mm_init` the free block of 4096 bytes is
at least as large as the block size 8 of the request 0, but `mm_malloc(0)` returns NULL,
not that block.
(3) Requests above `2^32 - 16`, for which the block size wraps modulo `2^32`: for
`mm_malloc(0xFFFFFFFF)` on `demo1` the block size of the description is `2^32 + 8`,
larger than the one free block, but the code computes 8, and `mm_malloc` returns the
free block `0x10018` and the high-water mark stays: no growth on this miss; the first
request whose block size wraps is `2^32 - 15`, with the computed block size 0; and for
`mm_malloc(0xFFFFFFF8)` on the small arena (computed block size 0, so that the free
block fits, also as the code counts) `allocate` stores a footer at `73744`, which is
beyond the end `69656` of the arena, where the claim has `mm_malloc` return that block. -/
theorem malloc_miss_without_growth :
    (free_list_walk 8 small1 = .ok [65560] ∧
      small1.mem (65560 - 4) &&& 0xFFFFFFF8 = 4096 ∧ blockSize 5000 = 5008 ∧
      (mem_sbrk small1 (max (blockSize 5000) 4096)).1 = 4294967295 ∧
      mm_malloc 8 small1 5000 = .ok (NULL, small1)) ∧
    (free_list_walk 8 demo1 = .ok [65560] ∧
      demo1.mem (65560 - 4) &&& 0xFFFFFFF8 = 4096 ∧
      blockSize 0 = 8 ∧ block_size_spec 0 = 8 ∧
      mm_malloc 8 demo1 0 = .ok (NULL, demo1)) ∧
    (block_size_spec 4294967295 = 4294967304 ∧ blockSize 4294967295 = 8 ∧
      (do
        let r ← mm_malloc 8 demo1 4294967295
        pure (r.1, r.2.mem_brk)) = .ok (65560, demo1.mem_brk) ∧
      blockSize 4294967280 = 4294967288 ∧ blockSize 4294967281 = 0 ∧
      blockSize 4294967288 = 0 ∧ small1.mem_max_addr = 69656 ∧
      mm_malloc 8 small1 4294967288 = .error (.access 73744)) :=
  ⟨⟨rfl, rfl, rfl, rfl, rfl⟩, ⟨rfl, rfl, rfl, rfl, rfl⟩,
    ⟨rfl, rfl, rfl, rfl, rfl, rfl, rfl, rfl⟩⟩

/-- C21, amended (placement and growth policy of `mm_malloc`): in a well-formed heap, for
a request of `1 ≤ size ≤ 2^32 - 16` bytes, the block size `bs` that the code computes is
the block size of the description, and, with `fl` the free list as a walk from the list
head finds it: if a node `q` of the free list has a size of at least `bs` and all nodes
before it are smaller, `mm_malloc` returns `q` and the high-water mark does not move; if
every node is smaller and `mem_sbrk` succeeds for `max(bs, 4096)` bytes, the heap grows
by exactly that amount and `mm_malloc` returns the block that the extension and the
merge produce, the old end of the heap when the last block is allocated, the last block
when it is free; if every node is smaller and `mem_sbrk` fails for `max(bs, 4096)`
bytes, `mm_malloc` returns NULL and the state, and with it the high-water mark, is as
before the call. -/
theorem malloc_policy {s : State} {L : List Blk} {fl0 : List Nat} {size k : Nat}
    {fl : List Nat} (h : WF s L fl0) (h1 : 1 ≤ size) (h2 : size ≤ 4294967280)
    (hwalk : free_list_walk k s = .ok fl) :
    blockSize size = block_size_spec size ∧
    (∀ pre q post, fl = pre ++ q :: post →
      (∀ x ∈ pre, s.mem (x - 4) &&& 0xFFFFFFF8 < blockSize size) →
      blockSize size ≤ s.mem (q - 4) &&& 0xFFFFFFF8 →
      ∃ N, ∀ fuel, N ≤ fuel →
        ∃ s', mm_malloc fuel s size = .ok (q, s') ∧ s'.mem_brk = s.mem_brk) ∧
    ((∀ x ∈ fl, s.mem (x - 4) &&& 0xFFFFFFF8 < blockSize size) →
      (mem_sbrk s (max (blockSize size) 4096)).1 ≠ 4294967295 →
      ∃ N, ∀ fuel, N ≤ fuel →
        ∃ s', mm_malloc fuel s size =
            .ok (if s.mem (s.mem_brk - 8) &&& 1 = ALLOCATED then s.mem_brk
              else s.mem_brk - (s.mem (s.mem_brk - 8) &&& 0xFFFFFFF8), s') ∧
          s'.mem_brk = s.mem_brk + max (blockSize size) 4096) ∧
    ((∀ x ∈ fl, s.mem (x - 4) &&& 0xFFFFFFF8 < blockSize size) →
      (mem_sbrk s (max (blockSize size) 4096)).1 = 4294967295 →
      ∃ N, ∀ fuel, N ≤ fuel → mm_malloc fuel s size = .ok (NULL, s)) := by
  have w := h
  have hfl : fl = fl0 := free_list_walk_sound w.1 hwalk
  subst hfl
  obtain ⟨b16, b8, blt, badj, bspec⟩ := blockSize_wide h1 h2
  have hroot : s.heap_root ≠ 0 := by rw [w.1.hroot]; omega
  have hbf := w.1.brk_facts
  have hmiss : (∀ x ∈ fl, s.mem (x - 4) &&& 0xFFFFFFF8 < blockSize size) →
      ∀ fuel, fl.length + 1 ≤ fuel → first_fit fuel s (blockSize size) = .ok 0 := by
    intro hall fuel hfuel
    rw [(first_fit_spec w.1 (blockSize size)).1 fuel (by omega)]
    refine congrArg _ (firstFit_none _ _ _ ?_)
    intro x hx
    have := hall x hx
    rw [(w.1.fl_hdr hx).1] at this
    exact this
  refine ⟨bspec, ?_, ?_, ?_⟩
  · intro pre q post hfl hpre hq
    refine ⟨fl.length + 1, fun fuel hfuel => ?_⟩
    have hqfl : q ∈ fl := by rw [hfl]; simp
    obtain ⟨hqm, b, hb, hbp, hbF, hbsz⟩ := w.1.fl_hdr hqfl
    have hff : first_fit fuel s (blockSize size) = .ok q := by
      rw [(first_fit_spec w.1 (blockSize size)).1 fuel (by omega), hfl]
      refine congrArg _ (firstFit_first _ _ _ _ _ ?_ (by omega))
      intro x hx
      have hxfl : x ∈ fl := by rw [hfl]; simp [hx]
      have := hpre x hx
      rw [(w.1.fl_hdr hxfl).1] at this
      exact this
    have hq0 : q ≠ 0 := FL_ne_zero w.1.fl_ok q hqfl
    obtain ⟨pre', post', rfl⟩ := List.append_of_mem hb
    obtain ⟨m', L', fl2, e, _⟩ := allocate_spec w hbF b16 b8 (by omega)
    refine ⟨s.withMem m', ?_, rfl⟩
    rw [mm_malloc_unfold hroot badj, hff]
    simp only [ok_bind, NULL, if_neg hq0]
    rw [← hbp, e]
    rfl
  · intro hall hsbrk
    have hroom : max (blockSize size) 4096 < 2147483648 ∧
        s.mem_brk + max (blockSize size) 4096 ≤ s.mem_max_addr := by
      by_contra hc
      exact hsbrk (by rw [mem_sbrk_fail (by omega)])
    refine ⟨fl.length + 1, fun fuel hfuel => ?_⟩
    have hff := hmiss hall fuel hfuel
    obtain ⟨f1, f2, f3, f4, f5⟩ := w.1.last_footer
    have e1 : s.mem (s.mem_brk - 8) &&& 1 = prevBit L := by rw [f1]; exact tag_bit f3 f4
    have e2 : s.mem (s.mem_brk - 8) &&& 0xFFFFFFF8 = prevSz L := by
      rw [f1]; exact tag_size f3 f4 f5
    have hR : (if s.mem (s.mem_brk - 8) &&& 1 = ALLOCATED then s.mem_brk
        else s.mem_brk - (s.mem (s.mem_brk - 8) &&& 0xFFFFFFF8)) =
        (if prevBit L = 1 then s.mem_brk else prevPtr s L) := by
      rw [e1, e2]
      show (if prevBit L = 1 then s.mem_brk else s.mem_brk - prevSz L) = _
      by_cases hp : prevBit L = 1
      · rw [if_pos hp, if_pos hp]
      · rw [if_neg hp, if_neg hp]; omega
    rw [hR]
    obtain ⟨m7, e7, i7, _⟩ := extend_heap_eq w.1 (extension_words_any b8 blt) (by omega)
      (by omega) hroom.1 hroom.2
    obtain ⟨m8, L8, fl8, e8, w8, _, hmem, _⟩ :=
      coalesce_full (b := ⟨s.mem_brk, max (blockSize size) 4096, St.D⟩) i7 rfl (by
        intro c hc; simp only [List.append_nil] at hc; exact w.2 c hc)
    simp only [withMem_withMem] at e8 w8
    obtain ⟨pre8, post8, hL8⟩ := List.append_of_mem hmem
    rw [hL8] at w8
    have hin := w8.1.facts (List.mem_append_right pre8 (List.mem_cons_self _ post8))
    have h24 : s.mem_heap + 24 ≤
        (if prevBit L = 1 then s.mem_brk else
          prevPtr ((s.grow (max (blockSize size) 4096)).withMem m7) L) := hin.1
    obtain ⟨m9, L9, fl9, e9, _⟩ := allocate_spec w8 rfl b16 b8
      (Nat.le_trans (le_max_left _ _) (Nat.le_trans (Nat.le_add_right _ _)
        (Nat.le_add_right _ _)))
    simp only [withMem_withMem] at e9
    refine ⟨(s.grow (max (blockSize size) 4096)).withMem m9, ?_, rfl⟩
    rw [mm_malloc_unfold hroot badj, hff]
    simp only [ok_bind, NULL, if_true]
    rw [e7, e8]
    simp only [ok_bind]
    rw [if_neg (by omega), e9]
    simp only [ok_bind, pure_ok, withMem_brk, grow_brk]
    rfl
  · intro hall hfail
    have hoom : 2147483648 ≤ max (blockSize size) 4096 ∨
        s.mem_max_addr < s.mem_brk + max (blockSize size) 4096 := by
      by_contra hc
      have hs := mem_sbrk_ok (s := s) (k := max (blockSize size) 4096) (by omega) (by omega)
      rw [hs] at hfail
      have hmx := w.1.max_lt
      simp only at hfail
      omega
    refine ⟨fl.length + 1, fun fuel hfuel => ?_⟩
    rw [mm_malloc_unfold hroot badj, hmiss hall fuel hfuel]
    simp only [ok_bind, NULL, if_true]
    rw [extend_heap_fail (extension_words_any b8 blt) hoom]
    simp only [ok_bind, NULL, if_true, pure_ok]

/-- The policy on concrete states. On the heap `demo1` after `mm_init`, whose free list
holds one block of 4096 bytes: `mm_malloc(100)` takes that block, and `mm_malloc(5000)`
extends the heap by 5008 bytes and returns the free last block merged with the
extension. On the small arena after `mm_init`, which cannot grow: `mm_malloc(5000)`
returns NULL and leaves the state as it was. -/
theorem malloc_policy_witness :
    (blockSize 100 = block_size_spec 100 ∧
      ∃ N, ∀ fuel, N ≤ fuel →
        ∃ s', mm_malloc fuel demo1 100 = .ok (65560, s') ∧ s'.mem_brk = demo1.mem_brk) ∧
    (∃ N, ∀ fuel, N ≤ fuel →
      ∃ s', mm_malloc fuel demo1 5000 =
          .ok (if demo1.mem (demo1.mem_brk - 8) &&& 1 = ALLOCATED then demo1.mem_brk
            else demo1.mem_brk - (demo1.mem (demo1.mem_brk - 8) &&& 0xFFFFFFF8), s') ∧
        s'.mem_brk = demo1.mem_brk + max (blockSize 5000) 4096) ∧
    (∃ N, ∀ fuel, N ≤ fuel → mm_malloc fuel small1 5000 = .ok (NULL, small1)) :=
  ⟨⟨(@malloc_policy demo1 _ _ 100 8 [65560]
        (@mm_init_ok demo0 demo1 rfl (by decide) (by decide) rfl).1
        (by decide) (by decide) rfl).1,
      (@malloc_policy demo1 _ _ 100 8 [65560]
        (@mm_init_ok demo0 demo1 rfl (by decide) (by decide) rfl).1
        (by decide) (by decide) rfl).2.1
        [] 65560 [] rfl (by intro x hx; cases hx) (by decide)⟩,
    (@malloc_policy demo1 _ _ 5000 8 [65560]
      (@mm_init_ok demo0 demo1 rfl (by decide) (by decide) rfl).1
      (by decide) (by decide) rfl).2.2.1
      (by intro x hx; rw [List.mem_singleton.1 hx]; decide) (by decide),
    (@malloc_policy small1 _ _ 5000 8 [65560]
      (@mm_init_ok small0 small1 rfl (by decide) (by decide) rfl).1
      (by decide) (by decide) rfl).2.2.2
      (by intro x hx; rw [List.mem_singleton.1 hx]; decide) rfl⟩

/-! ## Placement in a free block; removal from the free list -/

/-- C29 (split policy of `allocate`): for a free block `b` of a well-formed heap, in the
free list, and a block size `sz` (a multiple of 8 with `16 ≤ sz ≤ size(b)`),
`allocate(b, sz)` returns, removes `b` from the free list and leaves the high-water mark
alone. If the surplus `size(b) - sz` exceeds 32, `b` becomes an allocated block of `sz`
bytes and the surplus, at least 40 bytes, becomes a free block at `b + sz` that is
inserted at the head of the free list. Otherwise `b` becomes an allocated block of its
full size and no free block is created. In both cases the new blocks cover the bytes of
the old one exactly. -/
theorem allocate_policy {s : State} {pre post : List Blk} {b : Blk} {fl : List Nat}
    (w : WF s (pre ++ b :: post) fl) (hb : b.st = St.F) {sz : Nat} (h16 : 16 ≤ sz)
    (h8 : sz % 8 = 0) (hle : sz ≤ b.sz) :
    ∃ s', allocate s b.ptr sz = .ok s' ∧ s'.mem_brk = s.mem_brk ∧ b.ptr ∈ fl ∧
      (32 < b.sz - sz →
        40 ≤ b.sz - sz ∧
        WF s' (pre ++ ⟨b.ptr, sz, St.A⟩ :: ⟨b.ptr + sz, b.sz - sz, St.F⟩ :: post)
          ((b.ptr + sz) :: fl.erase b.ptr) ∧
        s'.mem (b.ptr - 4) = (sz ||| ALLOCATED) ∧
        s'.mem (b.ptr + sz - 8) = (sz ||| ALLOCATED) ∧
        s'.mem (b.ptr + sz - 4) = ((b.sz - sz) ||| FREE) ∧
        s'.mem (b.ptr + b.sz - 8) = ((b.sz - sz) ||| FREE)) ∧
      (b.sz - sz ≤ 32 →
        WF s' (pre ++ ⟨b.ptr, b.sz, St.A⟩ :: post) (fl.erase b.ptr) ∧
        s'.mem (b.ptr - 4) = (b.sz ||| ALLOCATED) ∧
        s'.mem (b.ptr + b.sz - 8) = (b.sz ||| ALLOCATED)) := by
  have hbL : b ∈ pre ++ b :: post := by simp
  have fb := w.1.facts hbL
  have hfl : b.ptr ∈ fl := (w.1.fl_iff _).2 ⟨b, hbL, rfl, hb⟩
  by_cases hsur : b.sz - sz ≤ 32
  · obtain ⟨m', e, w', _⟩ := allocate_whole w hb hle hsur
    have hbl := w'.1.blk { b with st := St.A } (by simp)
    have ht : ({ b with st := St.A } : Blk).tag = (b.sz ||| ALLOCATED) := by
      rw [or_ALLOCATED fb.2.2.2.2.1]; rfl
    rw [ht] at hbl
    exact ⟨_, e, rfl, hfl, fun h => absurd hsur (by omega), fun _ => ⟨w', hbl.2.2.1, hbl.2.2.2⟩⟩
  · obtain ⟨m', e, w', _⟩ := allocate_split w hb h16 h8 (by omega)
    have hbl1 := w'.1.blk ⟨b.ptr, sz, St.A⟩ (by simp)
    have hbl2 := w'.1.blk ⟨b.ptr + sz, b.sz - sz, St.F⟩ (by simp)
    have ht1 : (⟨b.ptr, sz, St.A⟩ : Blk).tag = (sz ||| ALLOCATED) := by
      rw [or_ALLOCATED h8]; rfl
    have ht2 : (⟨b.ptr + sz, b.sz - sz, St.F⟩ : Blk).tag = ((b.sz - sz) ||| FREE) := by
      rw [or_FREE]; rfl
    rw [ht1] at hbl1
    rw [ht2] at hbl2
    simp only at hbl1 hbl2
    refine ⟨_, e, rfl, hfl, fun _ => ⟨by omega, w', hbl1.2.2.1, hbl1.2.2.2, ?_, ?_⟩,
      fun h => absurd h hsur⟩
    · rw [show b.ptr + sz - 4 = b.ptr + sz - 4 from rfl]; exact hbl2.2.2.1
    · rw [show b.ptr + b.sz - 8 = b.ptr + sz + (b.sz - sz) - 8 by omega]; exact hbl2.2.2.2

/-- The split on the freshly initialised heap `demo1`: `allocate(0x10018, 32)` on the
free block of 4096 bytes. -/
theorem allocate_policy_witness :
    ∃ s', allocate demo1 65560 32 = .ok s' ∧ s'.mem_brk = demo1.mem_brk ∧
      65560 ∈ [65560] ∧
      (32 < 4096 - 32 →
        40 ≤ 4096 - 32 ∧
        WF s' ([] ++ ⟨65560, 32, St.A⟩ :: ⟨65560 + 32, 4096 - 32, St.F⟩ :: [])
          ((65560 + 32) :: [65560].erase 65560) ∧
        s'.mem (65560 - 4) = (32 ||| ALLOCATED) ∧
        s'.mem (65560 + 32 - 8) = (32 ||| ALLOCATED) ∧
        s'.mem (65560 + 32 - 4) = ((4096 - 32) ||| FREE) ∧
        s'.mem (65560 + 4096 - 8) = ((4096 - 32) ||| FREE)) ∧
      (4096 - 32 ≤ 32 →
        WF s' ([] ++ ⟨65560, 4096, St.A⟩ :: []) ([65560].erase 65560) ∧
        s'.mem (65560 - 4) = (4096 ||| ALLOCATED) ∧
        s'.mem (65560 + 4096 - 8) = (4096 ||| ALLOCATED)) :=
  @allocate_policy demo1 [] [] ⟨65560, 4096, St.F⟩ [65560]
    (@mm_init_ok demo0 demo1 rfl (by decide) (by decide) rfl).1 rfl 32 (by decide)
    (by decide) (by decide)

/-- C30 (free-list removal): for a block `b` in the free list `fl` of a heap that
satisfies the invariant (the list is doubly linked, without repetition, its head has a
NULL PREV link), `delete_free_block(b)` returns and leaves a well-formed doubly linked
list whose nodes are those of `fl` with `b` erased, in the same order (the head word
changes when `b` was the head, the list is empty when `b` was its only node); both link
words of `b` are NULL; and no header and no footer of a block, nor the prologue or the
epilogue, is modified. -/
theorem delete_result {s : State} {pre post : List Blk} {b : Blk} {fl : List Nat}
    (h : Inv s (pre ++ b :: post) fl) (hb : b.st = St.F) :
    ∃ s', delete_free_block s b.ptr = .ok s' ∧ b.ptr ∈ fl ∧
      FL s'.mem 0 (fl.erase b.ptr) (s'.mem (s.mem_heap + 8)) ∧ (fl.erase b.ptr).Nodup ∧
      (∀ f, fl.length ≤ f → free_list_walk f s' = .ok (fl.erase b.ptr)) ∧
      s'.mem b.ptr = NULL ∧ s'.mem (b.ptr + 4) = NULL ∧
      (∀ c ∈ pre ++ b :: post, s'.mem (c.ptr - 4) = s.mem (c.ptr - 4) ∧
        s'.mem (c.ptr + c.sz - 8) = s.mem (c.ptr + c.sz - 8)) ∧
      s'.mem (s.mem_heap + 12) = s.mem (s.mem_heap + 12) ∧
      s'.mem (s.mem_heap + 16) = s.mem (s.mem_heap + 16) ∧
      s'.mem (s.mem_brk - 4) = s.mem (s.mem_brk - 4) ∧ s'.mem_brk = s.mem_brk := by
  have hbL : b ∈ pre ++ b :: post := by simp
  have hfl : b.ptr ∈ fl := (h.fl_iff _).2 ⟨b, hbL, rfl, hb⟩
  obtain ⟨m', e, i, _, z1, z2⟩ := delete_spec h hb
  have hlen : (fl.erase b.ptr).length < fl.length := by
    rw [List.length_erase_of_mem hfl]
    have := List.length_pos_of_mem hfl
    omega
  refine ⟨_, e, hfl, i.fl_ok, i.nodup, ?_, z1, z2, ?_, ?_, ?_, ?_, rfl⟩
  · intro f hf
    exact free_list_walk_spec i (by omega)
  · intro c hc
    have hold := h.blk c hc
    rw [hold.2.2.1, hold.2.2.2]
    simp only [List.mem_append, List.mem_cons] at hc
    rcases hc with hc | hc | hc
    · have := i.blk c (by simp [hc]); exact ⟨this.2.2.1, this.2.2.2⟩
    · subst hc
      have := i.blk { c with st := St.D } (by simp)
      have ht : ({ c with st := St.D } : Blk).tag = c.tag := by
        rw [Blk.tag_of_not_A (by simp), Blk.tag_of_not_A (by rw [hb]; decide)]
      rw [ht] at this
      exact ⟨this.2.2.1, this.2.2.2⟩
    · have := i.blk c (by simp [hc]); exact ⟨this.2.2.1, this.2.2.2⟩
  · exact i.pro_h.trans h.pro_h.symm
  · exact i.pro_f.trans h.pro_f.symm
  · exact i.epi.trans h.epi.symm

/-- The removal of the only node of the free list of the freshly initialised heap
`demo1`. -/
theorem delete_result_witness :
    ∃ s', delete_free_block demo1 65560 = .ok s' ∧ 65560 ∈ [65560] ∧
      FL s'.mem 0 ([65560].erase 65560) (s'.mem (demo1.mem_heap + 8)) ∧
      ([65560].erase 65560).Nodup ∧
      (∀ f, [65560].length ≤ f → free_list_walk f s' = .ok ([65560].erase 65560)) ∧
      s'.mem 65560 = NULL ∧ s'.mem (65560 + 4) = NULL ∧
      (∀ c ∈ [] ++ (⟨65560, 4096, St.F⟩ : Blk) :: [],
        s'.mem (c.ptr - 4) = demo1.mem (c.ptr - 4) ∧
        s'.mem (c.ptr + c.sz - 8) = demo1.mem (c.ptr + c.sz - 8)) ∧
      s'.mem (demo1.mem_heap + 12) = demo1.mem (demo1.mem_heap + 12) ∧
      s'.mem (demo1.mem_heap + 16) = demo1.mem (demo1.mem_heap + 16) ∧
      s'.mem (demo1.mem_brk - 4) = demo1.mem (demo1.mem_brk - 4) ∧
      s'.mem_brk = demo1.mem_brk :=
  @delete_result demo1 [] [] ⟨65560, 4096, St.F⟩ [65560]
    (@mm_init_ok demo0 demo1 rfl (by decide) (by decide) rfl).1.1 rfl

/-! ## The consistency checker -/

theorem flag_bind {α : Type} {k : Nat} (x : Except Fault α) (f : α → Except Fault Nat)
    (hf : ∀ a r, f a = .ok r → r = 0 ∨ r = 1 <<< k) :
    ∀ r, (x >>= f) = .ok r → r = 0 ∨ r = 1 <<< k := by
  intro r h
  cases x with
  | error e => rw [err_bind] at h; cases h
  | ok a => rw [ok_bind] at h; exact hf a r h

theorem flag_ite {k : Nat} (c : Prop) [Decidable c] (x y : Except Fault Nat)
    (hx : ∀ r, x = .ok r → r = 0 ∨ r = 1 <<< k)
    (hy : ∀ r, y = .ok r → r = 0 ∨ r = 1 <<< k) :
    ∀ r, (if c then x else y) = .ok r → r = 0 ∨ r = 1 <<< k := by
  intro r h
  split at h
  · exact hx r h
  · exact hy r h

theorem flag_zero {k : Nat} : ∀ r, (pure 0 : Except Fault Nat) = .ok r → r = 0 ∨ r = 1 <<< k := by
  intro r h
  cases h
  exact Or.inl rfl

theorem flag_one {k : Nat} :
    ∀ r, (pure (1 <<< k) : Except Fault Nat) = .ok r → r = 0 ∨ r = 1 <<< k := by
  intro r h
  cases h
  exact Or.inr rfl

theorem is_all_marked_free_loop_flag (fuel : Nat) (s : State) (p : Nat) :
    ∀ r, is_all_marked_free_loop fuel s p = .ok r → r = 0 ∨ r = 1 <<< 0 := by
  induction fuel generalizing p with
  | zero => intro r h; rw [is_all_marked_free_loop] at h; cases h
  | succ n ih =>
    rw [is_all_marked_free_loop]
    repeat first
      | apply flag_ite | (apply flag_bind; intro _) | exact flag_zero | exact flag_one
      | exact ih _

theorem is_contiguous_not_escaped_loop_flag (fuel : Nat) (s : State) (p : Nat) :
    ∀ r, is_contiguous_not_escaped_loop fuel s p = .ok r → r = 0 ∨ r = 1 <<< 1 := by
  induction fuel generalizing p with
  | zero => intro r h; rw [is_contiguous_not_escaped_loop] at h; cases h
  | succ n ih =>
    rw [is_contiguous_not_escaped_loop]
    repeat first
      | apply flag_ite | (apply flag_bind; intro _) | exact flag_zero | exact flag_one
      | exact ih _

theorem is_all_free_block_in_list_loop_flag (fuel : Nat) (s : State) (p : Nat) :
    ∀ r, is_all_free_block_in_list_loop fuel s p = .ok r → r = 0 ∨ r = 1 <<< 2 := by
  induction fuel generalizing p with
  | zero => intro r h; rw [is_all_free_block_in_list_loop] at h; cases h
  | succ n ih =>
    rw [is_all_free_block_in_list_loop]
    repeat first
      | apply flag_ite | (apply flag_bind; intro _) | exact flag_zero | exact flag_one
      | exact ih _

theorem is_all_valid_free_ptr_loop_flag (fuel : Nat) (s : State) (p : Nat) :
    ∀ r, is_all_valid_free_ptr_loop fuel s p = .ok r → r = 0 ∨ r = 1 <<< 3 := by
  induction fuel generalizing p with
  | zero => intro r h; rw [is_all_valid_free_ptr_loop] at h; cases h
  | succ n ih =>
    rw [is_all_valid_free_ptr_loop]
    repeat first
      | apply flag_ite | (apply flag_bind; intro _) | exact flag_zero | exact flag_one
      | exact ih _

theorem is_no_overlap_loop_flag (fuel : Nat) (s : State) (p : Nat) :
    ∀ r, is_no_overlap_loop fuel s p = .ok r → r = 0 ∨ r = 1 <<< 4 := by
  induction fuel generalizing p with
  | zero => intro r h; rw [is_no_overlap_loop] at h; cases h
  | succ n ih =>
    rw [is_no_overlap_loop]
    repeat first
      | apply flag_ite | (apply flag_bind; intro _) | exact flag_zero | exact flag_one
      | exact ih _

theorem is_all_valid_allocated_ptr_loop_flag (fuel : Nat) (s : State) (p : Nat) :
    ∀ r, is_all_valid_allocated_ptr_loop fuel s p = .ok r → r = 0 ∨ r = 1 <<< 5 := by
  induction fuel generalizing p with
  | zero => intro r h; rw [is_all_valid_allocated_ptr_loop] at h; cases h
  | succ n ih =>
    rw [is_all_valid_allocated_ptr_loop]
    repeat first
      | apply flag_ite | (apply flag_bind; intro _) | exact flag_zero | exact flag_one
      | exact ih _

/-- The six flags together give `0x3f` exactly when each of them is set. -/
theorem status_full {r0 r1 r2 r3 r4 r5 : Nat} (h0 : r0 = 0 ∨ r0 = 1 <<< 0)
    (h1 : r1 = 0 ∨ r1 = 1 <<< 1) (h2 : r2 = 0 ∨ r2 = 1 <<< 2) (h3 : r3 = 0 ∨ r3 = 1 <<< 3)
    (h4 : r4 = 0 ∨ r4 = 1 <<< 4) (h5 : r5 = 0 ∨ r5 = 1 <<< 5) :
    (r0 ||| r1 ||| r2 ||| r3 ||| r4 ||| r5) = 0x3f ↔
      r0 = 1 <<< 0 ∧ r1 = 1 <<< 1 ∧ r2 = 1 <<< 2 ∧ r3 = 1 <<< 3 ∧ r4 = 1 <<< 4 ∧
        r5 = 1 <<< 5 := by
  rcases h0 with rfl | rfl <;> rcases h1 with rfl | rfl <;> rcases h2 with rfl | rfl <;>
    rcases h3 with rfl | rfl <;> rcases h4 with rfl | rfl <;> rcases h5 with rfl | rfl <;>
    decide

theorem bind_ok_inv {α β : Type} {x : Except Fault α} {f : α → Except Fault β} {r : β}
    (h : (x >>= f) = .ok r) : ∃ a, x = .ok a ∧ f a = .ok r := by
  cases x with
  | error e => rw [err_bind] at h; cases h
  | ok a => exact ⟨a, rfl, by rwa [ok_bind] at h⟩

/-- C24 (checker aggregate): each of the six checks, when it returns, returns 0 or its
own bit `1 << k`; when the six checks return `r0 .. r5`, the status word of `mm_check`
is `r0 | r1 | r2 | r3 | r4 | r5` and `mm_check` returns 1 if the status is `0x3f` and 0
otherwise, so it returns 1 exactly when all six bits are set; and `mm_check` returns a
value only when all six checks did. The checks read the heap through `GET` only (the
source has no store and no call of `mem_sbrk` in them), which is why they are functions
of the state that return no state: memory, free list and high-water mark after the call
are those before it. -/
theorem mm_check_aggregate (fuel : Nat) (s : State) :
    (∀ r, is_all_marked_free fuel s = .ok r → r = 0 ∨ r = 1 <<< 0) ∧
    (∀ r, is_contiguous_not_escaped fuel s = .ok r → r = 0 ∨ r = 1 <<< 1) ∧
    (∀ r, is_all_free_block_in_list fuel s = .ok r → r = 0 ∨ r = 1 <<< 2) ∧
    (∀ r, is_all_valid_free_ptr fuel s = .ok r → r = 0 ∨ r = 1 <<< 3) ∧
    (∀ r, is_no_overlap fuel s = .ok r → r = 0 ∨ r = 1 <<< 4) ∧
    (∀ r, is_all_valid_allocated_ptr fuel s = .ok r → r = 0 ∨ r = 1 <<< 5) ∧
    (∀ r0 r1 r2 r3 r4 r5, is_all_marked_free fuel s = .ok r0 →
      is_contiguous_not_escaped fuel s = .ok r1 →
      is_all_free_block_in_list fuel s = .ok r2 →
      is_all_valid_free_ptr fuel s = .ok r3 →
      is_no_overlap fuel s = .ok r4 →
      is_all_valid_allocated_ptr fuel s = .ok r5 →
      mm_check_status fuel s = .ok (r0 ||| r1 ||| r2 ||| r3 ||| r4 ||| r5) ∧
      mm_check fuel s =
        .ok (if (r0 ||| r1 ||| r2 ||| r3 ||| r4 ||| r5) = 0x3f then 1 else 0) ∧
      (mm_check fuel s = .ok 1 ↔
        r0 = 1 <<< 0 ∧ r1 = 1 <<< 1 ∧ r2 = 1 <<< 2 ∧ r3 = 1 <<< 3 ∧ r4 = 1 <<< 4 ∧
          r5 = 1 <<< 5)) ∧
    (∀ v, mm_check fuel s = .ok v →
      (v = 0 ∨ v = 1) ∧
      ∃ r0 r1 r2 r3 r4 r5, is_all_marked_free fuel s = .ok r0 ∧
        is_contiguous_not_escaped fuel s = .ok r1 ∧
        is_all_free_block_in_list fuel s = .ok r2 ∧
        is_all_valid_free_ptr fuel s = .ok r3 ∧
        is_no_overlap fuel s = .ok r4 ∧
        is_all_valid_allocated_ptr fuel s = .ok r5) := by
  have f0 : ∀ r, is_all_marked_free fuel s = .ok r → r = 0 ∨ r = 1 <<< 0 :=
    flag_bind _ _ (fun a => is_all_marked_free_loop_flag fuel s a)
  have f1 : ∀ r, is_contiguous_not_escaped fuel s = .ok r → r = 0 ∨ r = 1 <<< 1 :=
    flag_bind _ _ (fun a => is_contiguous_not_escaped_loop_flag fuel s a)
  have f2 : ∀ r, is_all_free_block_in_list fuel s = .ok r → r = 0 ∨ r = 1 <<< 2 :=
    is_all_free_block_in_list_loop_flag fuel s _
  have f3 : ∀ r, is_all_valid_free_ptr fuel s = .ok r → r = 0 ∨ r = 1 <<< 3 :=
    flag_bind _ _ (fun a => is_all_valid_free_ptr_loop_flag fuel s a)
  have f4 : ∀ r, is_no_overlap fuel s = .ok r → r = 0 ∨ r = 1 <<< 4 :=
    is_no_overlap_loop_flag fuel s _
  have f5 : ∀ r, is_all_valid_allocated_ptr fuel s = .ok r → r = 0 ∨ r = 1 <<< 5 :=
    flag_bind _ _ (fun a => is_all_valid_allocated_ptr_loop_flag fuel s a)
  refine ⟨f0, f1, f2, f3, f4, f5, ?_, ?_⟩
  · intro r0 r1 r2 r3 r4 r5 e0 e1 e2 e3 e4 e5
    have hs : mm_check_status fuel s = .ok (r0 ||| r1 ||| r2 ||| r3 ||| r4 ||| r5) := by
      rw [mm_check_status, e0, e1, e2, e3, e4, e5]
      rfl
    have hc : mm_check fuel s =
        .ok (if (r0 ||| r1 ||| r2 ||| r3 ||| r4 ||| r5) = 0x3f then 1 else 0) := by
      rw [mm_check, hs]
      rfl
    refine ⟨hs, hc, ?_⟩
    rw [hc, ← status_full (f0 _ e0) (f1 _ e1) (f2 _ e2) (f3 _ e3) (f4 _ e4) (f5 _ e5)]
    by_cases h : (r0 ||| r1 ||| r2 ||| r3 ||| r4 ||| r5) = 0x3f
    · simp [h]
    · simp [h]
  · intro v hv
    obtain ⟨st, hst, hv⟩ := bind_ok_inv hv
    obtain ⟨r0, e0, hst⟩ := bind_ok_inv hst
    obtain ⟨r1, e1, hst⟩ := bind_ok_inv hst
    obtain ⟨r2, e2, hst⟩ := bind_ok_inv hst
    obtain ⟨r3, e3, hst⟩ := bind_ok_inv hst
    obtain ⟨r4, e4, hst⟩ := bind_ok_inv hst
    obtain ⟨r5, e5, hst⟩ := bind_ok_inv hst
    refine ⟨?_, r0, r1, r2, r3, r4, r5, e0, e1, e2, e3, e4, e5⟩
    cases hv
    by_cases h : st = 0x3f
    · exact Or.inr (if_pos h)
    · exact Or.inl (if_neg h)

/-- The aggregate on the freshly initialised heap `demo1`, where the six checks return
1, 2, 4, 8, 16 and 32: the status is `0x3f` and `mm_check` returns 1. -/
theorem mm_check_aggregate_witness :
    mm_check_status 8 demo1 = .ok (1 ||| 2 ||| 4 ||| 8 ||| 16 ||| 32) ∧
    mm_check 8 demo1 = .ok (if (1 ||| 2 ||| 4 ||| 8 ||| 16 ||| 32) = 0x3f then 1 else 0) ∧
    (mm_check 8 demo1 = .ok 1 ↔
      1 = 1 <<< 0 ∧ 2 = 1 <<< 1 ∧ 4 = 1 <<< 2 ∧ 8 = 1 <<< 3 ∧ 16 = 1 <<< 4 ∧
        32 = 1 <<< 5) :=
  (mm_check_aggregate 8 demo1).2.2.2.2.2.2.1 1 2 4 8 16 32 rfl rfl rfl rfl rfl rfl

/-- C25 (the code fails the claim): `is_all_free_block_in_list` does not walk the heap
block by block: its loop steps with `block_ptr = GET(NEXT_BLOCK_PTR(block_ptr))`, which
reads the first payload word of the next block as a pointer. (1) On the initialised heap
with the free-list head cleared, the blocks tile the heap, the only block is free and
the free list is empty, yet the check returns `1 << 2`. (2) After `mm_realloc(c, 64)` on
the heap of four 16-byte blocks, the free blocks at `0x10018` and `0x100c8` are not in
the free list `[0x10048]`, yet the check returns `1 << 2`. (3) On the consistent
heap left by `a = mm_malloc(16)`, `b = mm_malloc(16)`, `mm_free(a)`, whose two free
blocks are both in the free list, the check returns neither `1 << 2` nor 0: it reads the
word at `mem_brk`, outside the heap. -/
theorem is_all_free_block_in_list_misses :
    (do
      let s ← PUT demo1 demo1.free_root NULL
      let blocks ← heap_scan 8 s
      let fl ← free_list_walk 8 s
      let r ← is_all_free_block_in_list 8 s
      pure (blocks, fl, r)) = .ok ([(65560, 4096)], [], 1 <<< 2) ∧
    (do
      let r ← four_blocks 8
      let q ← mm_realloc 8 r.2 r.1 64
      let blocks ← heap_scan 8 q.2
      let fl ← free_list_walk 8 q.2
      let r ← is_all_free_block_in_list 8 q.2
      pure (blocks, fl, r)) =
      .ok ([(65560, 24), (65584, 25), (65608, 24), (65632, 25), (65656, 81), (65736, 3920)],
        [65608], 1 <<< 2) ∧
    (do
      let r ← mm_init demo0
      let a ← mm_malloc 8 r.2 16
      let b ← mm_malloc 8 a.2 16
      let s ← mm_free b.2 a.1
      let blocks ← heap_scan 8 s
      let fl ← free_list_walk 8 s
      pure (blocks, fl, s.mem_brk, is_all_free_block_in_list 8 s)) =
      .ok ([(65560, 24), (65584, 25), (65608, 4048)], [65560, 65608], 69656,
        .error (.access 69656)) :=
  ⟨rfl, rfl, rfl⟩

/-- C26 (the code fails the claim): on the well-formed heap `demo2` (after `mm_init` and
`mm_malloc(24)`) the only allocated block, at `0x10018` with header word 33, has its
header (`0x10014`) and footer (`0x10030`) inside `[mem_heap_lo, mem_heap_hi]` and the
size 32, a multiple of 8 (`33 & 0x6 = 0`); yet `is_all_valid_allocated_ptr` returns 0,
because its test `GET(HEADER_PTR(b)) & 0x6 != 0` is `GET(HEADER_PTR(b)) & 1`, the
allocation bit. It returns `1 << 5` on `demo1`, which has no allocated block. -/
theorem is_all_valid_allocated_ptr_rejects :
    heap_scan 8 demo2 = .ok [(65560, 33), (65592, 4064)] ∧
    mem_heap_lo demo2 = 65536 ∧ mem_heap_hi demo2 = 69655 ∧
    HEADER_PTR 65560 = 65556 ∧ FOOTER_PTR demo2 65560 = .ok 65584 ∧
    33 &&& 0xFFFFFFF8 = 32 ∧ 33 &&& 0x6 = 0 ∧
    block_is_invalid demo2 65560 = .ok true ∧
    is_all_valid_allocated_ptr 8 demo2 = .ok 0 ∧
    is_all_valid_allocated_ptr 8 demo1 = .ok (1 <<< 5) :=
  ⟨rfl, rfl, rfl, rfl, rfl, rfl, rfl, rfl, rfl, rfl⟩

/-! ## Alignment of the pointers handed out -/

theorem mm_malloc_aligned {fuel : Nat} {s : State} {L : List Blk} {fl : List Nat}
    (h : WF s L fl) {size p : Nat} {s' : State}
    (hm : mm_malloc fuel s size = .ok (p, s')) :
    p = 0 ∨ (s.mem_heap + 24 ≤ p ∧ (p - s.mem_heap) % 8 = 0) := by
  have hi := h.1
  have hbf := hi.brk_facts
  have hroot : s.heap_root ≠ 0 := by rw [hi.hroot]; omega
  by_cases hz : adjSize size = 0
  · have h0 : size = 0 := by
      unfold adjSize at hz
      split_ifs at hz
      omega
    subst h0
    rw [show mm_malloc fuel s 0 = .ok (NULL, s) from rfl] at hm
    cases hm
    exact Or.inl rfl
  · rw [mm_malloc_unfold hroot hz] at hm
    obtain ⟨bp, hff, hm⟩ := bind_ok_inv hm
    have hr := (first_fit_spec hi (blockSize size)).2 fuel bp hff
    obtain ⟨b8, blt⟩ := blockSize_any size
    by_cases hbp : bp = NULL
    · rw [if_pos hbp] at hm
      obtain ⟨r, he, hm⟩ := bind_ok_inv hm
      by_cases hr1 : r.1 = NULL
      · rw [if_pos hr1, pure_ok] at hm
        cases hm
        exact Or.inl rfl
      · rw [if_neg hr1] at hm
        obtain ⟨s1, _, hm⟩ := bind_ok_inv hm
        rw [pure_ok] at hm
        cases hm
        have hw := extension_words_any b8 blt
        by_cases hfail : 2147483648 ≤ max (blockSize size) 4096 ∨
            s.mem_max_addr < s.mem_brk + max (blockSize size) 4096
        · rw [extend_heap_fail hw hfail] at he
          cases he
          exact absurd rfl hr1
        · obtain ⟨m7, e7, i7, _⟩ := extend_heap_eq hi hw (by omega) (by omega) (by omega)
            (by omega)
          obtain ⟨m8, r8, L8, fl8, e8, w8, _, blk, hblk, hr8, _, _, _⟩ :=
            @coalesce_spec _ L [] ⟨s.mem_brk, _, St.D⟩ _ i7 rfl (by
              intro c hc; simp only [List.append_nil] at hc; exact h.2 c hc)
          have fblk := w8.1.facts hblk
          simp only [withMem_heap, grow_heap] at fblk
          rw [e7, e8] at he
          cases he
          right
          rw [← hr8]
          exact ⟨fblk.1, fblk.2.2.1⟩
    · rw [if_neg hbp] at hm
      obtain ⟨s1, _, hm⟩ := bind_ok_inv hm
      rw [pure_ok] at hm
      cases hm
      right
      have h0 : ∀ x ∈ fl, x ≠ 0 := fun x hx => by
        have := hi.fl_facts hx
        omega
      rcases firstFit_cases s.mem (blockSize size) fl h0 with ⟨f0, _⟩ | ⟨hin, _⟩
      · exact absurd (hr.trans f0) hbp
      · rw [← hr] at hin
        have := hi.fl_facts hin
        exact ⟨this.1, this.2.2.1⟩

theorem mm_realloc_aligned {fuel : Nat} {s : State} {L : List Blk} {fl : List Nat}
    (h : WF s L fl) {q n p : Nat} {s' : State}
    (hm : mm_realloc fuel s q n = .ok (p, s')) :
    p = 0 ∨ p = q ∨ (s.mem_heap + 24 ≤ p ∧ (p - s.mem_heap) % 8 = 0) := by
  unfold mm_realloc at hm
  obtain ⟨nbp, _, hm⟩ := bind_ok_inv hm
  obtain ⟨nb, _, hm⟩ := bind_ok_inv hm
  obtain ⟨ina, _, hm⟩ := bind_ok_inv hm
  split at hm
  · exact (mm_malloc_aligned h hm).elim Or.inl (fun x => Or.inr (Or.inr x))
  · split at hm
    · obtain ⟨s1, _, hm⟩ := bind_ok_inv hm
      rw [pure_ok] at hm
      cases hm
      exact Or.inl rfl
    · simp only at hm
      obtain ⟨old, _, hm⟩ := bind_ok_inv hm
      obtain ⟨nb2, _, hm⟩ := bind_ok_inv hm
      obtain ⟨ns, _, hm⟩ := bind_ok_inv hm
      split at hm
      · split at hm
        · obtain ⟨s1, _, hm⟩ := bind_ok_inv hm
          obtain ⟨s2, _, hm⟩ := bind_ok_inv hm
          obtain ⟨fp, _, hm⟩ := bind_ok_inv hm
          obtain ⟨s3, _, hm⟩ := bind_ok_inv hm
          rw [pure_ok] at hm
          cases hm
          exact Or.inr (Or.inl rfl)
        · split at hm
          · obtain ⟨r, _, hm⟩ := bind_ok_inv hm
            split at hm
            · rw [pure_ok] at hm
              cases hm
              exact Or.inl rfl
            · obtain ⟨s1, _, hm⟩ := bind_ok_inv hm
              obtain ⟨s2, _, hm⟩ := bind_ok_inv hm
              obtain ⟨fp, _, hm⟩ := bind_ok_inv hm
              obtain ⟨s3, _, hm⟩ := bind_ok_inv hm
              rw [pure_ok] at hm
              cases hm
              exact Or.inr (Or.inl rfl)
          · obtain ⟨r, hmal, hm⟩ := bind_ok_inv hm
            obtain ⟨s1, _, hm⟩ := bind_ok_inv hm
            obtain ⟨s2, _, hm⟩ := bind_ok_inv hm
            obtain ⟨s3, _, hm⟩ := bind_ok_inv hm
            rw [pure_ok] at hm
            cases hm
            exact (@mm_malloc_aligned _ _ _ _ h _ r.1 r.2 hmal).elim Or.inl
              (fun x => Or.inr (Or.inr x))
      · rw [pure_ok] at hm
        cases hm
        exact Or.inr (Or.inl rfl)

/-- Alignment before the first call of `mm_realloc`: in every state reached from `mm_init`
by calls of `mm_malloc` and `mm_free` alone, a non-NULL pointer returned by `mm_malloc`
(any request size) or by `mm_realloc` of a live pointer (any request size) lies at or
above `mem_heap_lo()` at an offset from it that is a multiple of 8; a call of `mm_malloc`
with `1 ≤ size < 2^31` leaves `mem_heap_lo()` as it was. Nothing is said here about the
states that follow a call of `mm_realloc`. -/
theorem returned_pointers_aligned {s : State} {live : List (Nat × Nat)} (h : Reach s live) :
    (∀ fuel size p s', mm_malloc fuel s size = .ok (p, s') → p ≠ NULL →
      mem_heap_lo s ≤ p ∧ (p - mem_heap_lo s) % 8 = 0) ∧
    (∀ fuel q k size p s', (q, k) ∈ live → mm_realloc fuel s q size = .ok (p, s') →
      p ≠ NULL → mem_heap_lo s ≤ p ∧ (p - mem_heap_lo s) % 8 = 0) ∧
    (∀ fuel size p s', 1 ≤ size → size < 2147483648 →
      mm_malloc fuel s size = .ok (p, s') → mem_heap_lo s' = mem_heap_lo s) := by
  obtain ⟨L, fl, w, hlive⟩ := h.inv
  refine ⟨?_, ?_, ?_⟩
  · intro fuel size p s' hm hp
    rcases mm_malloc_aligned w hm with h0 | ⟨h1, h2⟩
    · exact absurd h0 hp
    · exact ⟨by unfold mem_heap_lo; omega, h2⟩
  · intro fuel q k size p s' hq hm hp
    obtain ⟨b, hb, hbq, _, _⟩ := hlive.1 (q, k) hq
    have fb := w.1.facts hb
    rcases mm_realloc_aligned w hm with h0 | h0 | ⟨h1, h2⟩
    · exact absurd h0 hp
    · have hbq : b.ptr = q := hbq
      rw [h0, ← hbq]
      exact ⟨by unfold mem_heap_lo; omega, fb.2.2.1⟩
    · exact ⟨by unfold mem_heap_lo; omega, h2⟩
  · intro fuel size p s' h1 h2 hm
    have hroot : s.heap_root ≠ 0 := by
      have := w.1.brk_facts
      rw [w.1.hroot]
      omega
    obtain ⟨r, hff⟩ := mm_malloc_search hroot (blockSize_facts h1 h2).2.2.2.2.1 hm
    obtain ⟨p1, s1, e1, hcase⟩ := mm_malloc_spec w h1 h2 hff
    rw [hm] at e1
    cases e1
    rcases hcase with ⟨_, hs⟩ | ⟨_, _, _, _, hh, _⟩
    · rw [hs]
    · exact hh

/-- The alignment on the concrete state `demo2` (heap start `0x10000`):
`mm_malloc(100)` returns `0x10038` and `mm_realloc(0x10018, 10)` returns `0x10018`. -/
theorem returned_pointers_aligned_witness :
    (mem_heap_lo demo2 ≤ 65592 ∧ (65592 - mem_heap_lo demo2) % 8 = 0) ∧
    (mem_heap_lo demo2 ≤ 65560 ∧ (65560 - mem_heap_lo demo2) % 8 = 0) ∧
    mem_heap_lo demo3 = mem_heap_lo demo2 :=
  ⟨(returned_pointers_aligned reach_demo2).1 8 100 65592 demo3 rfl (by decide),
    (returned_pointers_aligned reach_demo2).2.1 8 65560 24 10 65560 demo2 (by decide) rfl
      (by decide),
    (returned_pointers_aligned reach_demo2).2.2 8 100 65592 demo3 (by decide) (by decide)
      rfl⟩

/-- C23 (the code fails the claim): a state reached from `mm_init` on an empty arena in
which `mm_malloc` returns a pointer at offset `4 mod 8` from `mem_heap_lo()`. With
`a = mm_malloc(16)`, `b = mm_malloc(16)`, `c = mm_malloc(20000)` and `mm_free(b)`, the
call `mm_realloc(a, 100)` finds the free block `b` (24 bytes) too small, takes its
extend-heap path, and tags `a` with size `112 + 4096 = 4208`, although `a` and `b`
together hold 48 bytes: the block `a` now covers `b` and the first 4160 bytes of `c`,
whose payload is `[65608, 85608)`. The client then stores six words in the payload of
its own block `c` (all six addresses lie in `[69764, 75804)`): `16` at `69764`, where
the header of the block after `a` is now read, `69804` and `0` at `69768` and `69772`,
`6000` at `69800`, `0` at `69804` and `1` at `75800`. `mm_free(a)` reads `16` as the
header of a free block at `69768` and unlinks it, which makes the word `69804` stored
there the head of the free list, and inserts `a` (now 4224 bytes) in front of it.
`mm_malloc(5000)` (block size 5008) passes `a`, reads `6000` at `69800` as the size of
the list node `69804`, and returns `69804 = mem_heap_lo() + 4268`. Every access of the
run is inside the heap. -/
theorem mm_realloc_breaks_alignment :
    (do
      let r ← mm_init demo0
      let a ← mm_malloc 8 r.2 16
      let b ← mm_malloc 8 a.2 16
      let c ← mm_malloc 8 b.2 20000
      let s ← mm_free c.2 b.1
      let q ← mm_realloc 8 s a.1 100
      let t ← PUT q.2 69764 16
      let t ← PUT t 69768 69804
      let t ← PUT t 69772 0
      let t ← PUT t 69800 6000
      let t ← PUT t 69804 0
      let t ← PUT t 75800 1
      let u ← mm_free t a.1
      let m ← mm_malloc 8 u 5000
      pure (a.1, b.1, c.1, c.1 + 20000, q.1, q.2.mem (HEADER_PTR a.1), mem_heap_lo m.2,
        m.1, (m.1 - mem_heap_lo m.2) % 8)) =
    .ok (65560, 65584, 65608, 85608, 65560, 4209, 65536, 69804, 4) :=
  rfl

/-! ## Matrix transpose -/

theorem loop_pure_ind {σ : Type} (Q : σ → Prop) (I : Nat → Prop) (cond : Nat → Bool)
    (step : Nat) (body : Nat → σ → σ)
    (hI : ∀ k, I k → cond k = true → I (k + step))
    (hb : ∀ k st, I k → cond k = true → Q st → Q (body k st)) :
    ∀ fuel k st, I k → Q st → Q (loop_pure cond step body fuel k st) := by
  intro fuel
  induction fuel with
  | zero => intro k st _ hq; exact hq
  | succ n ih =>
    intro k st hk hq
    rw [loop_pure]
    split
    · next hc => exact ih _ _ (hI k hk hc) (hb k st hk hc hq)
    · exact hq

theorem loop_pure_keep {σ : Type} (Q : σ → Prop) (cond : Nat → Bool) (step : Nat)
    (body : Nat → σ → σ) (hb : ∀ k st, Q st → Q (body k st)) (fuel k : Nat) (st : σ)
    (hq : Q st) : Q (loop_pure cond step body fuel k st) :=
  loop_pure_ind Q (fun _ => True) cond step body (fun _ _ _ => trivial)
    (fun k st _ _ => hb k st) fuel k st trivial hq

/-- A loop whose iteration number `t` establishes `Q`, and whose every iteration keeps
`Q`, ends with `Q` when it runs that far. -/
theorem loop_pure_hit {σ : Type} (Q : σ → Prop) (cond : Nat → Bool) (step : Nat)
    (body : Nat → σ → σ) (hb : ∀ k st, Q st → Q (body k st)) :
    ∀ t fuel start st, t < fuel → (∀ u, u ≤ t → cond (start + step * u) = true) →
      (∀ st, Q (body (start + step * t) st)) →
      Q (loop_pure cond step body fuel start st) := by
  intro t
  induction t with
  | zero =>
    intro fuel start st hf hc hq
    obtain ⟨n, rfl⟩ : ∃ n, fuel = n + 1 := ⟨fuel - 1, by omega⟩
    have hc0 : cond start = true := by simpa using hc 0 (Nat.le_refl 0)
    rw [loop_pure, if_pos hc0]
    exact loop_pure_keep Q cond step body hb n _ _ (by simpa using hq st)
  | succ t ih =>
    intro fuel start st hf hc hq
    obtain ⟨n, rfl⟩ : ∃ n, fuel = n + 1 := ⟨fuel - 1, by omega⟩
    have hc0 : cond start = true := by simpa using hc 0 (Nat.zero_le _)
    rw [loop_pure, if_pos hc0]
    apply ih n (start + step) _ (by omega)
    · intro u hu
      have := hc (u + 1) (by omega)
      rwa [show start + step * (u + 1) = start + step + step * u by ring] at this
    · intro st
      have := hq st
      rwa [show start + step * (t + 1) = start + step + step * t by ring] at this

theorem store2_keep {A B : Nat → Nat → Int} {c r : Nat} (x y : Nat) (h : B c r = A r c) :
    store2 B x y (A y x) c r = A r c := by
  unfold store2
  split
  · next hxy => rw [hxy.1, hxy.2]
  · exact h

theorem store2_at {A : Nat → Nat → Int} (B : Nat → Nat → Int) {c r x y : Nat} (hx : x = c)
    (hy : y = r) : store2 B x y (A y x) c r = A r c := by
  subst hx hy
  simp [store2]

theorem store2_off (B : Nat → Nat → Int) {c r x y : Nat} (v : Int) (h : ¬ (c = x ∧ r = y)) :
    store2 B x y v c r = B c r := by
  unfold store2
  rw [if_neg h]

theorem transpose_3232_pure_correct (A B : Nat → Nat → Int) {r c : Nat} (hr : r < 32)
    (hc : c < 32) : transpose_3232_pure 32 32 A B c r = A r c := by
  unfold transpose_3232_pure
  refine loop_pure_hit (fun X : Nat → Nat → Int => X c r = A r c) _ _ _ ?_ (r / 8) _ _ _
    (by omega) (by intro u hu; exact decide_eq_true (by omega)) ?_
  · intro _ _ _
    repeat first
      | assumption
      | apply store2_keep
      | (refine loop_pure_keep (fun X : Nat → Nat → Int => X c r = A r c) _ _ _ ?_ _ _ _ ?_
         intro _ _ _)
      | split
  · intro B
    refine loop_pure_hit (fun X : Nat → Nat → Int => X c r = A r c) _ _ _ ?_ (c / 8) _ _ _
      (by omega) (by intro u hu; exact decide_eq_true (by omega)) ?_
    · intro _ _ _
      repeat first
        | assumption
        | apply store2_keep
        | (refine loop_pure_keep (fun X : Nat → Nat → Int => X c r = A r c) _ _ _ ?_ _ _ _ ?_
           intro _ _ _)
        | split
    · intro B
      refine loop_pure_hit (fun X : Nat → Nat → Int => X c r = A r c) _ _ _ ?_ (r % 8) _ _ _
        (by omega) (by intro u hu; exact decide_eq_true (by omega)) ?_
      · intro _ _ _
        repeat first
          | assumption
          | apply store2_keep
          | (refine loop_pure_keep (fun X : Nat → Nat → Int => X c r = A r c) _ _ _ ?_ _ _ _ ?_
             intro _ _ _)
          | split
      · intro B
        by_cases hd : r = c
        · show (if 0 + 8 * (r / 8) = 0 + 8 * (c / 8) then store2 _ _ _ _ else _) c r = A r c
          rw [if_pos (by omega)]
          exact store2_at _ (by omega) (by omega)
        · have h1 := loop_pure_hit (fun X : Nat → Nat → Int => X c r = A r c)
            (fun j_ => decide (j_ < 8)) 1
            (fun j_ B => if 0 + 8 * (r / 8) + (0 + 1 * (r % 8)) = 0 + 8 * (c / 8) + j_ then B
              else store2 B (0 + 8 * (c / 8) + j_) (0 + 8 * (r / 8) + (0 + 1 * (r % 8)))
                (A (0 + 8 * (r / 8) + (0 + 1 * (r % 8))) (0 + 8 * (c / 8) + j_)))
            (by
              intro _ _ _
              dsimp only
              split
              · assumption
              · apply store2_keep; assumption)
            (c % 8) (8 + 1) 0 B (by omega) (by intro u hu; exact decide_eq_true (by omega))
            (by
              intro B
              show (if _ then _ else store2 _ _ _ _) c r = A r c
              rw [if_neg (by omega)]
              exact store2_at _ (by omega) (by omega))
          show (if _ then store2 _ _ _ _ else _) c r = A r c
          split
          · exact store2_keep _ _ h1
          · exact h1

theorem fix_keep {A Y : Nat → Nat → Int} {c r : Nat} {p : Prop} [Decidable p] {x y : Nat}
    (h : Y c r = A r c) : (if p then store2 Y x y (A y x) else Y) c r = A r c := by
  split
  · exact store2_keep _ _ h
  · exact h

theorem transpose_6167_pure_correct (M N : Nat) (A B : Nat → Nat → Int) {r c : Nat} (hr : r < N)
    (hc : c < M) : transpose_6167_pure M N A B c r = A r c := by
  unfold transpose_6167_pure
  refine loop_pure_hit (fun X : Nat → Nat → Int => X c r = A r c) _ _ _ ?_ (r / 16) _ _ _
    (by omega) (by intro u hu; exact decide_eq_true (by omega)) ?_
  · intro _ _ _
    repeat first
      | assumption
      | apply store2_keep
      | (refine loop_pure_keep (fun X : Nat → Nat → Int => X c r = A r c) _ _ _ ?_ _ _ _ ?_
         intro _ _ _)
      | split
  · intro B
    refine loop_pure_hit (fun X : Nat → Nat → Int => X c r = A r c) _ _ _ ?_ (c / 16) _ _ _
      (by omega) (by intro u hu; exact decide_eq_true (by omega)) ?_
    · intro _ _ _
      repeat first
        | assumption
        | apply store2_keep
        | (refine loop_pure_keep (fun X : Nat → Nat → Int => X c r = A r c) _ _ _ ?_ _ _ _ ?_
           intro _ _ _)
        | split
    · intro B
      refine loop_pure_hit (fun X : Nat → Nat → Int => X c r = A r c) _ _ _ ?_ (r % 16) _ _ _
        (by omega) (by intro u hu; exact decide_eq_true (⟨by omega, by omega⟩)) ?_
      · intro _ _ _
        repeat first
          | assumption
          | apply store2_keep
          | (refine loop_pure_keep (fun X : Nat → Nat → Int => X c r = A r c) _ _ _ ?_ _ _ _ ?_
             intro _ _ _)
          | split
      · intro X
        by_cases hd : r = 0 ∧ c = 0
        · show (if _ then store2 _ _ _ _ else _) c r = A r c
          rw [if_pos (by omega)]
          exact store2_at _ (by omega) (by omega)
        · apply fix_keep
          refine loop_pure_hit (fun X : Nat → Nat → Int => X c r = A r c) _ _ _ ?_ (c % 16) _ _ _
            (by omega) (by intro u hu; exact decide_eq_true (⟨by omega, by omega⟩)) ?_
          · intro _ _ _
            repeat first
              | assumption
              | apply store2_keep
              | split
          · intro Y
            show (if _ then _ else store2 _ _ _ _) c r = A r c
            rw [if_neg (by omega)]
            exact store2_at _ (by omega) (by omega)

theorem transpose_6464_pure_correct (M : Nat) (A B : Nat → Nat → Int) {r c : Nat} (hr : r < 64)
    (hc : c < 64) : transpose_6464_pure M 64 A B c r = A r c := by
  unfold transpose_6464_pure
  refine loop_pure_hit (fun X : Nat → Nat → Int => X c r = A r c) _ _ _ ?_ (r / 8) _ _ _
    (by omega) (by intro u hu; exact decide_eq_true (by omega)) ?_
  · intro _ _ _
    repeat first
      | assumption
      | apply store2_keep
      | (refine loop_pure_keep (fun X : Nat → Nat → Int => X c r = A r c) _ _ _ ?_ _ _ _ ?_
         intro _ _ _)
      | split
  · intro B
    refine loop_pure_hit (fun X : Nat → Nat → Int => X c r = A r c) _ _ _ ?_ (c / 8) _ _ _
      (by omega) (by intro u hu; exact decide_eq_true (by omega)) ?_
    · intro _ _ _
      repeat first
        | assumption
        | apply store2_keep
        | (refine loop_pure_keep (fun X : Nat → Nat → Int => X c r = A r c) _ _ _ ?_ _ _ _ ?_
           intro _ _ _)
        | split
    · intro B
      by_cases h4 : r % 8 < 4 <;> by_cases h4c : c % 8 < 4
      · -- first quadrant
        refine loop_pure_keep (fun X : Nat → Nat → Int => X c r = A r c) _ _ _ ?_ _ _ _ ?_
        · intro _ _ _
          repeat first
            | assumption
            | apply store2_keep
            | (refine loop_pure_keep (fun X : Nat → Nat → Int => X c r = A r c) _ _ _ ?_ _ _ _ ?_
               intro _ _ _)
            | split
        refine loop_pure_keep (fun X : Nat → Nat → Int => X c r = A r c) _ _ _ ?_ _ _ _ ?_
        · intro _ _ _
          repeat first
            | assumption
            | apply store2_keep
            | (refine loop_pure_keep (fun X : Nat → Nat → Int => X c r = A r c) _ _ _ ?_ _ _ _ ?_
               intro _ _ _)
            | split
        refine loop_pure_keep (fun X : Nat → Nat → Int => X c r = A r c) _ _ _ ?_ _ _ _ ?_
        · intro _ _ _
          repeat first
            | assumption
            | apply store2_keep
            | (refine loop_pure_keep (fun X : Nat → Nat → Int => X c r = A r c) _ _ _ ?_ _ _ _ ?_
               intro _ _ _)
            | split
        refine loop_pure_hit (fun X : Nat → Nat → Int => X c r = A r c) _ _ _ ?_ (r % 8) _ _ _
          (by omega) (by intro u hu; exact decide_eq_true (by omega)) ?_
        · intro _ _ _
          repeat first
            | assumption
            | apply store2_keep
            | (refine loop_pure_keep (fun X : Nat → Nat → Int => X c r = A r c) _ _ _ ?_ _ _ _ ?_
               intro _ _ _)
            | split
        · intro X
          by_cases hd : r = c
          · show (if _ then store2 _ _ _ _ else _) c r = A r c
            rw [if_pos (by omega)]
            exact store2_at _ (by omega) (by omega)
          · apply fix_keep
            refine loop_pure_hit (fun X : Nat → Nat → Int => X c r = A r c) _ _ _ ?_ (c % 8) _ _ _
              (by omega) (by intro u hu; exact decide_eq_true (by omega)) ?_
            · intro _ _ _
              repeat first
                | assumption
                | apply store2_keep
                | split
            · intro Y
              show (if _ then _ else store2 _ _ _ _) c r = A r c
              rw [if_neg (by omega)]
              exact store2_at _ (by omega) (by omega)
      · -- fourth quadrant
        refine loop_pure_hit (fun X : Nat → Nat → Int => X c r = A r c) _ _ _ ?_ (r % 8) _ _ _
          (by omega) (by intro u hu; exact decide_eq_true (by omega)) ?_
        · intro _ _ _
          repeat first
            | assumption
            | apply store2_keep
            | (refine loop_pure_keep (fun X : Nat → Nat → Int => X c r = A r c) _ _ _ ?_ _ _ _ ?_
               intro _ _ _)
            | split
        · intro X
          by_cases hd : r / 8 = c / 8 ∧ c % 8 = r % 8 + 4
          · show (if _ then store2 _ _ _ _ else _) c r = A r c
            rw [if_pos (by omega)]
            exact store2_at _ (by omega) (by omega)
          · apply fix_keep
            refine loop_pure_hit (fun X : Nat → Nat → Int => X c r = A r c) _ _ _ ?_ (c % 8 - 4) _ _ _
              (by omega) (by intro u hu; exact decide_eq_true (by omega)) ?_
            · intro _ _ _
              repeat first
                | assumption
                | apply store2_keep
                | split
            · intro Y
              show (if _ then _ else store2 _ _ _ _) c r = A r c
              rw [if_neg (by omega)]
              exact store2_at _ (by omega) (by omega)
      · -- second quadrant
        refine loop_pure_keep (fun X : Nat → Nat → Int => X c r = A r c) _ _ _ ?_ _ _ _ ?_
        · intro _ _ _
          repeat first
            | assumption
            | apply store2_keep
            | (refine loop_pure_keep (fun X : Nat → Nat → Int => X c r = A r c) _ _ _ ?_ _ _ _ ?_
               intro _ _ _)
            | split
        refine loop_pure_keep (fun X : Nat → Nat → Int => X c r = A r c) _ _ _ ?_ _ _ _ ?_
        · intro _ _ _
          repeat first
            | assumption
            | apply store2_keep
            | (refine loop_pure_keep (fun X : Nat → Nat → Int => X c r = A r c) _ _ _ ?_ _ _ _ ?_
               intro _ _ _)
            | split
        refine loop_pure_hit (fun X : Nat → Nat → Int => X c r = A r c) _ _ _ ?_ (r % 8 - 4) _ _ _
          (by omega) (by intro u hu; exact decide_eq_true (by omega)) ?_
        · intro _ _ _
          repeat first
            | assumption
            | apply store2_keep
            | (refine loop_pure_keep (fun X : Nat → Nat → Int => X c r = A r c) _ _ _ ?_ _ _ _ ?_
               intro _ _ _)
            | split
        · intro X
          by_cases hd : r / 8 = c / 8 ∧ r % 8 = c % 8 + 4
          · show (if _ then store2 _ _ _ _ else _) c r = A r c
            rw [if_pos (by omega)]
            exact store2_at _ (by omega) (by omega)
          · apply fix_keep
            refine loop_pure_hit (fun X : Nat → Nat → Int => X c r = A r c) _ _ _ ?_ (c % 8) _ _ _
              (by omega) (by intro u hu; exact decide_eq_true (by omega)) ?_
            · intro _ _ _
              repeat first
                | assumption
                | apply store2_keep
                | split
            · intro Y
              show (if _ then _ else store2 _ _ _ _) c r = A r c
              rw [if_neg (by omega)]
              exact store2_at _ (by omega) (by omega)
      · -- third quadrant
        refine loop_pure_keep (fun X : Nat → Nat → Int => X c r = A r c) _ _ _ ?_ _ _ _ ?_
        · intro _ _ _
          repeat first
            | assumption
            | apply store2_keep
            | (refine loop_pure_keep (fun X : Nat → Nat → Int => X c r = A r c) _ _ _ ?_ _ _ _ ?_
               intro _ _ _)
            | split
        refine loop_pure_hit (fun X : Nat → Nat → Int => X c r = A r c) _ _ _ ?_ (r % 8 - 4) _ _ _
          (by omega) (by intro u hu; exact decide_eq_true (by omega)) ?_
        · intro _ _ _
          repeat first
            | assumption
            | apply store2_keep
            | (refine loop_pure_keep (fun X : Nat → Nat → Int => X c r = A r c) _ _ _ ?_ _ _ _ ?_
               intro _ _ _)
            | split
        · intro X
          by_cases hd : r = c
          · show (if _ then store2 _ _ _ _ else _) c r = A r c
            rw [if_pos (by omega)]
            exact store2_at _ (by omega) (by omega)
          · apply fix_keep
            refine loop_pure_hit (fun X : Nat → Nat → Int => X c r = A r c) _ _ _ ?_ (c % 8 - 4) _ _ _
              (by omega) (by intro u hu; exact decide_eq_true (by omega)) ?_
            · intro _ _ _
              repeat first
                | assumption
                | apply store2_keep
                | split
            · intro Y
              show (if _ then _ else store2 _ _ _ _) c r = A r c
              rw [if_neg (by omega)]
              exact store2_at _ (by omega) (by omega)

theorem fix_off {Y B : Nat → Nat → Int} {x y a b : Nat} {p : Prop} [Decidable p] {v : Int}
    (h : Y x y = B x y) (hne : ¬ (x = a ∧ y = b)) :
    (if p then store2 Y a b v else Y) x y = B x y := by
  split
  · rw [store2_off _ _ hne]
    exact h
  · exact h

theorem transpose_3232_pure_frame (A B : Nat → Nat → Int) {x y : Nat} (h : ¬ (x < 32 ∧ y < 32)) :
    transpose_3232_pure 32 32 A B x y = B x y := by
  unfold transpose_3232_pure
  refine loop_pure_ind (fun X : Nat → Nat → Int => X x y = B x y) (fun k => k % 8 = 0) _ _ _
    (fun k hk _ => by dsimp only at hk ⊢; omega) ?_ _ _ _ (by decide) rfl
  intro i X hi ci hX
  have ci := of_decide_eq_true ci
  refine loop_pure_ind (fun X : Nat → Nat → Int => X x y = B x y) (fun k => k % 8 = 0) _ _ _
    (fun k hk _ => by dsimp only at hk ⊢; omega) ?_ _ _ _ (by decide) hX
  intro j X hj cj hX
  have cj := of_decide_eq_true cj
  refine loop_pure_ind (fun X : Nat → Nat → Int => X x y = B x y) (fun _ => True) _ _ _ (fun _ _ _ => trivial) ?_
    _ _ _ trivial hX
  intro i_ X _ ci_ hX
  have ci_ := of_decide_eq_true ci_
  refine fix_off ?_ (by omega)
  refine loop_pure_ind (fun X : Nat → Nat → Int => X x y = B x y) (fun _ => True) _ _ _ (fun _ _ _ => trivial) ?_
    _ _ _ trivial hX
  intro j_ X _ cj_ hX
  have cj_ := of_decide_eq_true cj_
  split
  · exact hX
  · rw [store2_off _ _ (by omega)]
    exact hX

theorem transpose_6167_pure_frame (M N : Nat) (A B : Nat → Nat → Int) {x y : Nat}
    (h : ¬ (x < M ∧ y < N)) : transpose_6167_pure M N A B x y = B x y := by
  unfold transpose_6167_pure
  refine loop_pure_ind (fun X : Nat → Nat → Int => X x y = B x y) (fun _ => True) _ _ _ (fun _ _ _ => trivial) ?_
    _ _ _ trivial rfl
  intro i X hi ci hX
  have ci := of_decide_eq_true ci
  refine loop_pure_ind (fun X : Nat → Nat → Int => X x y = B x y) (fun _ => True) _ _ _ (fun _ _ _ => trivial) ?_
    _ _ _ trivial hX
  intro j X hj cj hX
  have cj := of_decide_eq_true cj
  refine loop_pure_ind (fun X : Nat → Nat → Int => X x y = B x y) (fun _ => True) _ _ _ (fun _ _ _ => trivial) ?_
    _ _ _ trivial hX
  intro i_ X _ ci_ hX
  have ci_ := of_decide_eq_true ci_
  refine fix_off ?_ (by omega)
  refine loop_pure_ind (fun X : Nat → Nat → Int => X x y = B x y) (fun _ => True) _ _ _ (fun _ _ _ => trivial) ?_
    _ _ _ trivial hX
  intro j_ X _ cj_ hX
  have cj_ := of_decide_eq_true cj_
  split
  · exact hX
  · rw [store2_off _ _ (by omega)]
    exact hX

theorem transpose_6464_pure_frame (M : Nat) (A B : Nat → Nat → Int) {x y : Nat}
    (h : ¬ (x < 64 ∧ y < 64)) : transpose_6464_pure M 64 A B x y = B x y := by
  unfold transpose_6464_pure
  refine loop_pure_ind (fun X : Nat → Nat → Int => X x y = B x y) (fun k => k % 8 = 0) _ _ _
    (fun k hk _ => by dsimp only at hk ⊢; omega) ?_ _ _ _ (by decide) rfl
  intro i X hi ci hX
  have ci := of_decide_eq_true ci
  refine loop_pure_ind (fun X : Nat → Nat → Int => X x y = B x y) (fun k => k % 8 = 0) _ _ _
    (fun k hk _ => by dsimp only at hk ⊢; omega) ?_ _ _ _ (by decide) hX
  intro j X hj cj hX
  have cj := of_decide_eq_true cj
  refine loop_pure_ind (fun X : Nat → Nat → Int => X x y = B x y) (fun _ => True) _ _ _ (fun _ _ _ => trivial) ?_
    _ _ _ trivial ?_
  · intro i_ X _ ci_ hX
    have ci_ := of_decide_eq_true ci_
    refine fix_off ?_ (by omega)
    refine loop_pure_ind (fun X : Nat → Nat → Int => X x y = B x y) (fun _ => True) _ _ _ (fun _ _ _ => trivial) ?_
      _ _ _ trivial hX
    intro j_ X _ cj_ hX
    have cj_ := of_decide_eq_true cj_
    split
    · exact hX
    · rw [store2_off _ _ (by omega)]
      exact hX
  refine loop_pure_ind (fun X : Nat → Nat → Int => X x y = B x y) (fun _ => True) _ _ _ (fun _ _ _ => trivial) ?_
    _ _ _ trivial ?_
  · intro i_ X _ ci_ hX
    have ci_ := of_decide_eq_true ci_
    refine fix_off ?_ (by omega)
    refine loop_pure_ind (fun X : Nat → Nat → Int => X x y = B x y) (fun _ => True) _ _ _ (fun _ _ _ => trivial) ?_
      _ _ _ trivial hX
    intro j_ X _ cj_ hX
    have cj_ := of_decide_eq_true cj_
    split
    · exact hX
    · rw [store2_off _ _ (by omega)]
      exact hX
  refine loop_pure_ind (fun X : Nat → Nat → Int => X x y = B x y) (fun _ => True) _ _ _ (fun _ _ _ => trivial) ?_
    _ _ _ trivial ?_
  · intro i_ X _ ci_ hX
    have ci_ := of_decide_eq_true ci_
    refine fix_off ?_ (by omega)
    refine loop_pure_ind (fun X : Nat → Nat → Int => X x y = B x y) (fun _ => True) _ _ _ (fun _ _ _ => trivial) ?_
      _ _ _ trivial hX
    intro j_ X _ cj_ hX
    have cj_ := of_decide_eq_true cj_
    split
    · exact hX
    · rw [store2_off _ _ (by omega)]
      exact hX
  refine loop_pure_ind (fun X : Nat → Nat → Int => X x y = B x y) (fun _ => True) _ _ _ (fun _ _ _ => trivial) ?_
    _ _ _ trivial hX
  intro i_ X _ ci_ hX
  have ci_ := of_decide_eq_true ci_
  refine fix_off ?_ (by omega)
  refine loop_pure_ind (fun X : Nat → Nat → Int => X x y = B x y) (fun _ => True) _ _ _ (fun _ _ _ => trivial) ?_
    _ _ _ trivial hX
  intro j_ X _ cj_ hX
  have cj_ := of_decide_eq_true cj_
  split
  · exact hX
  · rw [store2_off _ _ (by omega)]
    exact hX

theorem is_transpose_pure_of {M N : Nat} {A B : Nat → Nat → Int}
    (h : ∀ i j, i < N → j < M → B j i = A i j) : is_transpose_pure M N A B = 1 := by
  unfold is_transpose_pure
  split
  · next v heq =>
    have hn : some v = none := by
      rw [← heq]
      refine loop_pure_ind (fun ret : Option Int => ret = none) (fun _ => True) _ _ _
        (fun _ _ _ => trivial) ?_ _ _ _ trivial rfl
      intro i ret _ hi hret
      refine loop_pure_ind (fun ret : Option Int => ret = none) (fun _ => True) _ _ _
        (fun _ _ _ => trivial) ?_ _ _ _ trivial hret
      intro j ret _ hj hret
      subst hret
      have := h i j (of_decide_eq_true hi) (of_decide_eq_true hj)
      simp [this]
    cases hn
  · rfl

/-! ### The loops of `trans.c` with `int` counters -/

/-- While no counter overflows and the fuel suffices, the loop with the overflow test
computes what the loop without it computes. -/
theorem for_loop_pure_eq {σ : Type} (cond : Nat → Bool) (step : Nat)
    (body : Nat → σ → Option σ) (body' : Nat → σ → σ) (bnd : Nat) (hstep : 1 ≤ step)
    (hc : ∀ k, cond k = true → k < bnd) (hb : bnd + step ≤ 2147483648)
    (hbody : ∀ k st, cond k = true → body k st = some (body' k st)) :
    ∀ fuel k st, bnd - k < fuel →
      for_loop cond step body fuel k st = some (loop_pure cond step body' fuel k st) := by
  intro fuel
  induction fuel with
  | zero => intro k st h; omega
  | succ n ih =>
    intro k st h
    rw [for_loop, loop_pure]
    by_cases hk : cond k = true
    · have := hc k hk
      rw [if_pos hk, if_pos hk, hbody k st hk]
      simp only
      rw [if_pos (by unfold INT_MAX; omega)]
      exact ih _ _ (by omega)
    · rw [if_neg hk, if_neg hk]

theorem bind_some {α β : Type} {x : Option α} {y : α} {f : α → Option β} {z : Option β}
    (hx : x = some y) (hf : f y = z) : (x >>= f) = z := by
  subst hx; exact hf

/-- A loop that is still running when its counter would pass `INT_MAX` has no result. -/
theorem for_loop_overflow {σ : Type} (cond : Nat → Bool) (step : Nat)
    (body : Nat → σ → Option σ) :
    ∀ t fuel start st, t < fuel → (∀ u, u ≤ t → cond (start + step * u) = true) →
      INT_MAX < start + step * (t + 1) → for_loop cond step body fuel start st = none := by
  intro t
  induction t with
  | zero =>
    intro fuel start st hf hc hov
    obtain ⟨n, rfl⟩ : ∃ n, fuel = n + 1 := ⟨fuel - 1, by omega⟩
    have hc0 : cond start = true := by simpa using hc 0 (Nat.le_refl 0)
    rw [for_loop, if_pos hc0]
    cases body start st with
    | none => rfl
    | some st' =>
      simp only
      rw [if_neg (by omega)]
  | succ t ih =>
    intro fuel start st hf hc hov
    obtain ⟨n, rfl⟩ : ∃ n, fuel = n + 1 := ⟨fuel - 1, by omega⟩
    have hc0 : cond start = true := by simpa using hc 0 (Nat.zero_le _)
    rw [for_loop, if_pos hc0]
    cases body start st with
    | none => rfl
    | some st' =>
      simp only
      split
      · apply ih n (start + step) _ (by omega)
        · intro u hu
          have := hc (u + 1) (by omega)
          rwa [show start + step * (u + 1) = start + step + step * u by ring] at this
        · rwa [show start + step * (t + 1 + 1) = start + step + step * (t + 1) by ring]
            at hov
      · rfl

theorem for_loop_body_none {σ : Type} (cond : Nat → Bool) (step : Nat)
    (body : Nat → σ → Option σ) (fuel k : Nat) (st : σ) (hc : cond k = true)
    (hb : body k st = none) : for_loop cond step body (fuel + 1) k st = none := by
  rw [for_loop, if_pos hc, hb]

/-! ## Tag words and the boundary-tag walk -/

theorem or_bit {sz a : Nat} (h8 : sz % 8 = 0) (ha : a ≤ 1) : sz ||| a = sz + a := by
  rcases Nat.le_one_iff_eq_zero_or_eq_one.1 ha with rfl | rfl
  · simp
  · exact or_one_even sz (by omega)

theorem GET_valid {s : State} {a v : Nat} (h : GET s a = .ok v) : valid s a ∧ v = s.mem a := by
  unfold GET at h
  split at h
  · next hv => cases h; exact ⟨hv, rfl⟩
  · cases h

theorem GET_SIZE_inv {s : State} {a v : Nat} (h : GET_SIZE s a = .ok v) :
    valid s a ∧ v = s.mem a &&& 0xFFFFFFF8 := by
  obtain ⟨w, hw, h⟩ := bind_ok_inv h
  obtain ⟨hv, rfl⟩ := GET_valid hw
  rw [pure_ok] at h
  cases h
  exact ⟨hv, rfl⟩

theorem GET_IS_ALLOCATED_inv {s : State} {a v : Nat} (h : GET_IS_ALLOCATED s a = .ok v) :
    valid s a ∧ v = s.mem a &&& 1 := by
  obtain ⟨w, hw, h⟩ := bind_ok_inv h
  obtain ⟨hv, rfl⟩ := GET_valid hw
  rw [pure_ok] at h
  cases h
  exact ⟨hv, rfl⟩

theorem mask_lt (x : Nat) : x &&& 0xFFFFFFF8 < 4294967296 :=
  Nat.lt_of_le_of_lt Nat.and_le_right (by decide)

/-- C38 (tag encoding round trip): for a word address `w` of the heap, a size `sz` that
is a multiple of 8 below `2^32` and a bit `a` in `{0, 1}`, `PUT(w, sz | a)` stores a word
from which `GET_SIZE(w)` reads `sz` and `GET_IS_ALLOCATED(w)` reads `a` (no other word
changes); and for a block pointer `p` whose footer word, at `FOOTER_PTR(p)`, equals its
header word, `PREV_BLOCK_PTR(NEXT_BLOCK_PTR(p))` is `p` and `FOOTER_PTR(p) + 4` is
`HEADER_PTR(NEXT_BLOCK_PTR(p))`. -/
theorem tag_encoding (s : State) :
    (∀ w sz a, valid s w → sz % 8 = 0 → sz < 4294967296 → a ≤ 1 →
      ∃ s', PUT s w (sz ||| a) = .ok s' ∧ GET_SIZE s' w = .ok sz ∧
        GET_IS_ALLOCATED s' w = .ok a ∧ ∀ x, x ≠ w → s'.mem x = s.mem x) ∧
    (∀ p hd fp, p < 4294967296 → GET s (HEADER_PTR p) = .ok hd →
      FOOTER_PTR s p = .ok fp → GET s fp = .ok hd →
      ∃ nb, NEXT_BLOCK_PTR s p = .ok nb ∧ PREV_BLOCK_PTR s nb = .ok p ∧
        add32 fp WORDSIZE = HEADER_PTR nb) := by
  constructor
  · intro w sz a hw h8 hlt ha
    rw [or_bit h8 ha]
    have hv : valid (s.withMem (upd s.mem w (sz + a))) w := (valid_withMem _ _ _).2 hw
    refine ⟨_, PUT_ok hw (by omega), ?_, ?_, ?_⟩
    · exact GET_SIZE_ok hv (upd_same _ _ _) h8 ha hlt
    · exact GET_IS_ALLOCATED_ok hv (upd_same _ _ _) h8 ha
    · intro x hx
      exact upd_ne hx
  · intro p hd fp hp hh hf hg
    have hs : GET_SIZE s (HEADER_PTR p) = .ok (hd &&& 0xFFFFFFF8) := by
      unfold GET_SIZE; rw [hh]; rfl
    have hz := mask_lt hd
    have hfp : fp = sub32 (add32 p (hd &&& 0xFFFFFFF8)) DWORDSIZE := by
      unfold FOOTER_PTR at hf
      rw [hs] at hf
      exact (Except.ok.inj hf).symm
    have hnb : NEXT_BLOCK_PTR s p = .ok (add32 p (hd &&& 0xFFFFFFF8)) := by
      unfold NEXT_BLOCK_PTR
      rw [show sub32 p WORDSIZE = HEADER_PTR p from rfl, hs]
      rfl
    refine ⟨_, hnb, ?_, ?_⟩
    · unfold PREV_BLOCK_PTR GET_SIZE
      rw [← hfp, hg]
      simp only [ok_bind, pure_ok]
      congr 1
      unfold sub32 add32
      omega
    · rw [hfp]
      unfold HEADER_PTR sub32 add32 DWORDSIZE WORDSIZE
      omega

/-- The round trip on the concrete state `demo2`: a tag `32 | 1` stored at `0x10014`, and
the walk around the allocated block `0x10018` (header and footer word 33). -/
theorem tag_encoding_witness :
    (∃ s', PUT demo2 65556 (32 ||| 1) = .ok s' ∧ GET_SIZE s' 65556 = .ok 32 ∧
      GET_IS_ALLOCATED s' 65556 = .ok 1 ∧ ∀ x, x ≠ 65556 → s'.mem x = demo2.mem x) ∧
    (∃ nb, NEXT_BLOCK_PTR demo2 65560 = .ok nb ∧ PREV_BLOCK_PTR demo2 nb = .ok 65560 ∧
      add32 65584 WORDSIZE = HEADER_PTR nb) :=
  ⟨(tag_encoding demo2).1 65556 32 1 (by decide) (by decide) (by decide) (by decide),
    (tag_encoding demo2).2 65560 33 65584 (by decide) rfl rfl rfl⟩

/-! ## The tiling and the free list of a reachable state; the overlap check -/

theorem Chain_last {a e : Nat} {L : List Blk} (h : Chain a L e) :
    ∀ b, L.getLast? = some b → b.ptr + b.sz = e := by
  intro b hb
  rcases List.eq_nil_or_concat L with hL | ⟨pre, c, hL⟩
  · subst hL; simp at hb
  · rw [List.concat_eq_append] at hL
    subst hL
    rw [List.getLast?_concat] at hb
    cases hb
    exact Chain_snoc h

theorem FL_links {mem : Nat → Nat} {l : List Nat} {prev h : Nat} (hfl : FL mem prev l h) :
    h = l.headD 0 ∧ (∀ a, l.head? = some a → mem (a + 4) = prev) ∧
    l.Chain' (fun a b => mem a = b ∧ mem (b + 4) = a) ∧
    (∀ a, l.getLast? = some a → mem a = 0) := by
  induction l generalizing prev h with
  | nil => exact ⟨hfl, by simp, List.chain'_nil, by simp⟩
  | cons c l ih =>
    obtain ⟨h1, _, h3, h4⟩ := hfl
    obtain ⟨i1, i2, i3, i4⟩ := ih h4
    refine ⟨h1, ?_, ?_, ?_⟩
    · intro a ha
      simp only [List.head?_cons, Option.some.injEq] at ha
      subst ha
      exact h3
    · cases l with
      | nil => exact List.chain'_singleton _
      | cons b l =>
        rw [List.chain'_cons]
        exact ⟨⟨i1, i2 b rfl⟩, i3⟩
    · intro a ha
      cases l with
      | nil =>
        simp only [List.getLast?_singleton, Option.some.injEq] at ha
        subst ha
        exact i1
      | cons b l =>
        rw [List.getLast?_cons_cons] at ha
        exact i4 a ha

/-- C35 (heap tiling): in every reachable state the scan that starts at the first block
after the prologue (`NEXT_BLOCK_PTR(heap_root)`, 24 bytes above `mem_heap_lo()`) and
adds each header's size terminates; every block it visits has a size that is a multiple
of 8 and at least 16 and lies between the prologue and `mem_brk`; each block starts
where the one before ends, with the footer of the earlier one strictly below the header
of the later one; the last block ends at `mem_brk`, where the header word, the last word
of the heap, is the epilogue `0 | ALLOCATED`; and the prologue header and footer are
`8 | ALLOCATED`. -/
theorem heap_tiling {s : State} {live : List (Nat × Nat)} (h : Reach s live) :
    ∃ blocks N, (∀ fuel, N ≤ fuel → heap_scan fuel s = .ok blocks) ∧
      NEXT_BLOCK_PTR s s.heap_root = .ok (mem_heap_lo s + 24) ∧
      (∀ e ∈ blocks, GET s (HEADER_PTR e.1) = .ok e.2 ∧ (e.2 &&& 0xFFFFFFF8) % 8 = 0 ∧
        16 ≤ e.2 &&& 0xFFFFFFF8 ∧ mem_heap_lo s + 24 ≤ e.1 ∧
        e.1 + (e.2 &&& 0xFFFFFFF8) ≤ s.mem_brk) ∧
      (∀ e, blocks.head? = some e → e.1 = mem_heap_lo s + 24) ∧
      blocks.Chain' (fun x y => y.1 = x.1 + (x.2 &&& 0xFFFFFFF8) ∧
        ∃ fp, FOOTER_PTR s x.1 = .ok fp ∧ fp < HEADER_PTR y.1) ∧
      (∀ e, blocks.getLast? = some e → e.1 + (e.2 &&& 0xFFFFFFF8) = s.mem_brk) ∧
      (blocks = [] → mem_heap_lo s + 24 = s.mem_brk) ∧
      GET s (HEADER_PTR s.mem_brk) = .ok (0 ||| ALLOCATED) ∧
      HEADER_PTR s.mem_brk + 3 = mem_heap_hi s ∧
      GET s (HEADER_PTR s.heap_root) = .ok (8 ||| ALLOCATED) ∧
      FOOTER_PTR s s.heap_root = .ok s.heap_root ∧
      GET s s.heap_root = .ok (8 ||| ALLOCATED) := by
  obtain ⟨L, fl, w, _⟩ := h.inv
  have hi := w.1
  have hbf := hi.brk_facts
  have hpro := hdr_reads (s := s) (p := s.mem_heap + 16) (z := 8) (t := 1) (by omega)
    (by omega) (by omega) hbf.2.2.1 (by
      rw [show s.mem_heap + 16 - 4 = s.mem_heap + 12 by omega]; exact hi.pro_h) rfl
    (by omega) (by omega) (by omega)
  have hvr : valid s (s.mem_heap + 16) := by unfold valid; omega
  have hvh : valid s (s.mem_heap + 12) := by unfold valid; omega
  refine ⟨L.map (fun b => (b.ptr, b.tag)), L.length + 1, ?_, ?_, ?_, ?_, ?_, ?_, ?_, ?_, ?_,
    ?_, ?_, ?_⟩
  · intro fuel hfuel
    exact heap_scan_spec hi (by omega)
  · rw [hi.hroot]; exact hpro.2.2.2
  · intro e he
    obtain ⟨b, hb, rfl⟩ := List.mem_map.1 he
    have fb := hi.facts hb
    have hw := hi.hdr_word hb
    simp only
    rw [hw.2.1]
    exact ⟨hw.1, fb.2.2.2.2.1, fb.2.2.2.1, fb.1, fb.2.1⟩
  · intro e he
    cases L with
    | nil => simp at he
    | cons b l =>
      simp only [List.map_cons, List.head?_cons, Option.some.injEq] at he
      subst he
      exact Chain_head hi.chain
  · rw [List.chain'_map]
    refine Chain'_of_mem (Chain_adjacent hi.chain) ?_
    intro b hb c hc hbc
    have fb := hi.facts hb
    have fc := hi.facts hc
    simp only
    rw [(hi.hdr_word hb).2.1, HEADER_PTR_eq (by omega) (by omega)]
    exact ⟨hbc.symm, _, (hi.reads hb).2.2.1, by omega⟩
  · intro e he
    rw [List.getLast?_map] at he
    cases hl : L.getLast? with
    | none => rw [hl] at he; simp at he
    | some b =>
      rw [hl] at he
      simp only [Option.map_some', Option.some.injEq] at he
      subst he
      have hb : b ∈ L := List.mem_of_getLast?_eq_some hl
      simp only
      rw [(hi.hdr_word hb).2.1]
      exact Chain_last hi.chain b hl
  · intro he
    have hL : L = [] := List.map_eq_nil_iff.1 he
    subst hL
    exact hi.chain
  · exact hi.epi_word
  · rw [HEADER_PTR_eq (by omega) (by omega)]
    unfold mem_heap_hi sub32
    omega
  · rw [hi.hroot, HEADER_PTR_eq (by omega) (by omega),
      show s.mem_heap + 16 - 4 = s.mem_heap + 12 by omega, GET_ok hvh, hi.pro_h]
    rfl
  · rw [hi.hroot, hpro.2.2.1]
    congr 1
  · rw [hi.hroot, GET_ok hvr, hi.pro_f]
    rfl

/-- The tiling of the concrete reachable state `demo5`. -/
theorem heap_tiling_witness :
    Reach demo5 [(65704, 8), (65560, 24)] ∧
    ∃ blocks N, (∀ fuel, N ≤ fuel → heap_scan fuel demo5 = .ok blocks) ∧
      NEXT_BLOCK_PTR demo5 demo5.heap_root = .ok (mem_heap_lo demo5 + 24) ∧
      (∀ e ∈ blocks, GET demo5 (HEADER_PTR e.1) = .ok e.2 ∧
        (e.2 &&& 0xFFFFFFF8) % 8 = 0 ∧
        16 ≤ e.2 &&& 0xFFFFFFF8 ∧ mem_heap_lo demo5 + 24 ≤ e.1 ∧
        e.1 + (e.2 &&& 0xFFFFFFF8) ≤ demo5.mem_brk) ∧
      (∀ e, blocks.head? = some e → e.1 = mem_heap_lo demo5 + 24) ∧
      blocks.Chain' (fun x y => y.1 = x.1 + (x.2 &&& 0xFFFFFFF8) ∧
        ∃ fp, FOOTER_PTR demo5 x.1 = .ok fp ∧ fp < HEADER_PTR y.1) ∧
      (∀ e, blocks.getLast? = some e → e.1 + (e.2 &&& 0xFFFFFFF8) = demo5.mem_brk) ∧
      (blocks = [] → mem_heap_lo demo5 + 24 = demo5.mem_brk) ∧
      GET demo5 (HEADER_PTR demo5.mem_brk) = .ok (0 ||| ALLOCATED) ∧
      HEADER_PTR demo5.mem_brk + 3 = mem_heap_hi demo5 ∧
      GET demo5 (HEADER_PTR demo5.heap_root) = .ok (8 ||| ALLOCATED) ∧
      FOOTER_PTR demo5 demo5.heap_root = .ok demo5.heap_root ∧
      GET demo5 demo5.heap_root = .ok (8 ||| ALLOCATED) :=
  ⟨reach_demo, heap_tiling reach_demo⟩

/-- C36 (free-list well-formedness): in every reachable state the walk from the
free-list head along the NEXT links terminates at NULL; it visits no block twice and no
NULL pointer; the head word is the first node (NULL for the empty list); the PREV link of
the first node is NULL; for every two consecutive nodes `a`, `b` of the walk
`NEXT(a) = b` and `PREV(b) = a`; and the NEXT link of the last node is NULL. -/
theorem free_list_well_formed {s : State} {live : List (Nat × Nat)} (h : Reach s live) :
    ∃ fl N, (∀ fuel, N ≤ fuel → free_list_walk fuel s = .ok fl) ∧
      fl.Nodup ∧ (∀ a ∈ fl, a ≠ NULL) ∧
      GET s s.free_root = .ok (fl.headD NULL) ∧
      (∀ a, fl.head? = some a → GET s (PREV_PTR a) = .ok NULL) ∧
      fl.Chain' (fun a b => GET s (NEXT_PTR a) = .ok b ∧ GET s (PREV_PTR b) = .ok a) ∧
      (∀ a, fl.getLast? = some a → GET s (NEXT_PTR a) = .ok NULL) := by
  obtain ⟨L, fl, w, _⟩ := h.inv
  have hi := w.1
  obtain ⟨l1, l2, l3, l4⟩ := FL_links hi.fl_ok
  have hv : ∀ a ∈ fl, valid s a ∧ valid s (a + 4) ∧ PREV_PTR a = a + 4 := by
    intro a ha
    have fa := hi.fl_facts ha
    refine ⟨?_, ?_, PREV_PTR_eq (by omega)⟩ <;> (unfold valid; omega)
  refine ⟨fl, fl.length + 1, ?_, hi.nodup, FL_ne_zero hi.fl_ok, ?_, ?_, ?_, ?_⟩
  · intro fuel hfuel
    exact free_list_walk_spec hi (by omega)
  · rw [hi.froot, GET_ok hi.valid_root, l1]
    rfl
  · intro a ha
    have hm := List.mem_of_mem_head? ha
    obtain ⟨_, v2, e⟩ := hv a hm
    rw [e, GET_ok v2, l2 a ha]
    rfl
  · refine Chain'_of_mem l3 ?_
    intro a ha b hb hab
    obtain ⟨v1, _, _⟩ := hv a ha
    obtain ⟨_, v2, e⟩ := hv b hb
    rw [e, GET_ok v2, hab.2]
    exact ⟨by unfold NEXT_PTR; rw [GET_ok v1, hab.1], rfl⟩
  · intro a ha
    have hm := List.mem_of_getLast?_eq_some ha
    obtain ⟨v1, _, _⟩ := hv a hm
    unfold NEXT_PTR
    rw [GET_ok v1, l4 a ha]
    rfl

/-- The free list of the concrete reachable state `demo5` (two free blocks). -/
theorem free_list_well_formed_witness :
    Reach demo5 [(65704, 8), (65560, 24)] ∧
    ∃ fl N, (∀ fuel, N ≤ fuel → free_list_walk fuel demo5 = .ok fl) ∧
      fl.Nodup ∧ (∀ a ∈ fl, a ≠ NULL) ∧
      GET demo5 demo5.free_root = .ok (fl.headD NULL) ∧
      (∀ a, fl.head? = some a → GET demo5 (PREV_PTR a) = .ok NULL) ∧
      fl.Chain' (fun a b => GET demo5 (NEXT_PTR a) = .ok b ∧
        GET demo5 (PREV_PTR b) = .ok a) ∧
      (∀ a, fl.getLast? = some a → GET demo5 (NEXT_PTR a) = .ok NULL) :=
  ⟨reach_demo, free_list_well_formed reach_demo⟩

theorem footer_below_next {s : State} {p fp nb : Nat} (h4 : 4 ≤ s.mem_heap)
    (hf : FOOTER_PTR s p = .ok fp) (hn : NEXT_BLOCK_PTR s p = .ok nb)
    (hv : valid s (HEADER_PTR nb)) : ¬ fp > HEADER_PTR nb := by
  obtain ⟨z, hz, hf1⟩ := bind_ok_inv hf
  obtain ⟨z', hz', hn1⟩ := bind_ok_inv hn
  have e : z' = z := (Except.ok.inj (hz.symm.trans hz')).symm
  subst e
  have e1 : fp = sub32 (add32 p z') DWORDSIZE := (Except.ok.inj hf1).symm
  have e2 : nb = add32 p z' := (Except.ok.inj hn1).symm
  have ht : nb < 4294967296 := by rw [e2]; unfold add32; omega
  rw [← e2] at e1
  have hv1 : s.mem_heap ≤ HEADER_PTR nb := hv.1
  rw [e1]
  unfold HEADER_PTR sub32 DWORDSIZE WORDSIZE at *
  omega

theorem is_no_overlap_loop_const {s : State} (h4 : 4 ≤ s.mem_heap) :
    ∀ fuel p r, is_no_overlap_loop fuel s p = .ok r → r = 1 <<< 4 := by
  intro fuel
  induction fuel with
  | zero => intro p r h; rw [is_no_overlap_loop] at h; cases h
  | succ n ih =>
    intro p r h
    rw [is_no_overlap_loop] at h
    have tail : ∀ v : Bool, v = false →
        (if v = true then (pure 0 : Except Fault Nat)
          else do
            let nb ← NEXT_BLOCK_PTR s p
            is_no_overlap_loop n s nb) = .ok r → r = 1 <<< 4 := by
      intro v hv g
      rw [hv, if_neg (by decide)] at g
      obtain ⟨nb, _, g1⟩ := bind_ok_inv g
      exact ih nb r g1
    split at h
    · exact (Except.ok.inj h).symm
    · obtain ⟨sz, _, g1⟩ := bind_ok_inv h
      split at g1
      · exact (Except.ok.inj g1).symm
      · obtain ⟨a, _, g2⟩ := bind_ok_inv g1
        dsimp only at g2
        split at g2
        · exact tail false rfl g2
        · obtain ⟨nb, hnb, g3⟩ := bind_ok_inv g2
          split at g3
          · obtain ⟨na, hna, g4⟩ := bind_ok_inv g3
            split at g4
            · exact tail false rfl g4
            · obtain ⟨fp, hfp, g5⟩ := bind_ok_inv g4
              obtain ⟨nb2, hnb2, g6⟩ := bind_ok_inv g5
              have e : nb2 = nb := (Except.ok.inj (hnb.symm.trans hnb2)).symm
              rw [e] at g6
              exact tail _ (decide_eq_false
                (footer_below_next h4 hfp hnb (GET_IS_ALLOCATED_inv hna).1)) g6
          · exact tail false rfl g3

theorem GET_IS_ALLOCATED_some {s : State} {a : Nat} (h : valid s a) :
    ∃ v, GET_IS_ALLOCATED s a = .ok v :=
  ⟨s.mem a &&& 1, by unfold GET_IS_ALLOCATED; rw [GET_ok h]; rfl⟩

/-- One iteration of `is_no_overlap` on a block whose header can be read and whose
successor, if the size is not 0, has a header that can be read. -/
theorem no_overlap_step {s : State} (h4 : 4 ≤ s.mem_heap) {n p z : Nat}
    (eS : GET_SIZE s (HEADER_PTR p) = .ok z)
    (hnext : z ≠ 0 → ∃ nb r, NEXT_BLOCK_PTR s p = .ok nb ∧ valid s (HEADER_PTR nb) ∧
      is_no_overlap_loop n s nb = .ok r) :
    ∃ r, is_no_overlap_loop (n + 1) s p = .ok r := by
  obtain ⟨a, eA⟩ := GET_IS_ALLOCATED_some (GET_SIZE_inv eS).1
  obtain ⟨fp, eF⟩ : ∃ fp, FOOTER_PTR s p = .ok fp :=
    ⟨_, by unfold FOOTER_PTR; rw [eS]; rfl⟩
  rw [is_no_overlap_loop]
  by_cases hp : p = NULL
  · rw [if_pos hp]; exact ⟨_, rfl⟩
  rw [if_neg hp, eS, ok_bind]
  by_cases hz : z = 0
  · rw [if_pos hz]; exact ⟨_, rfl⟩
  rw [if_neg hz]
  obtain ⟨nb, r, e2, hv, hr⟩ := hnext hz
  obtain ⟨na, eN⟩ := GET_IS_ALLOCATED_some hv
  have hno := footer_below_next h4 eF e2 hv
  rw [eA, ok_bind]
  dsimp only
  rw [e2]
  simp only [ok_bind, pure_ok, eN, eF, hr, decide_eq_false hno]
  refine ⟨r, ?_⟩
  simp only [Bool.false_eq_true, if_false, ite_self]

theorem heap_scan_loop_inv {s : State} {f p : Nat} {l : List (Nat × Nat)}
    (h : heap_scan_loop f s p = .ok l) :
    ∃ z, GET_SIZE s (HEADER_PTR p) = .ok z ∧
      (z ≠ 0 → ∃ n nb rest, f = n + 1 ∧ NEXT_BLOCK_PTR s p = .ok nb ∧
        heap_scan_loop n s nb = .ok rest) := by
  cases f with
  | zero => rw [heap_scan_loop] at h; cases h
  | succ n =>
    rw [heap_scan_loop] at h
    obtain ⟨hd, e1, g1⟩ := bind_ok_inv h
    have eS : GET_SIZE s (HEADER_PTR p) = .ok (hd &&& 0xFFFFFFF8) := by
      unfold GET_SIZE; rw [e1]; rfl
    refine ⟨hd &&& 0xFFFFFFF8, eS, ?_⟩
    intro hz
    rw [if_neg hz] at g1
    obtain ⟨nb, e2, g2⟩ := bind_ok_inv g1
    obtain ⟨rest, e3, _⟩ := bind_ok_inv g2
    exact ⟨n, nb, rest, rfl, e2, e3⟩

theorem is_no_overlap_loop_returns {s : State} (h4 : 4 ≤ s.mem_heap) :
    ∀ f p l, heap_scan_loop f s p = .ok l → ∃ r, is_no_overlap_loop f s p = .ok r := by
  intro f
  induction f with
  | zero => intro p l h; rw [heap_scan_loop] at h; cases h
  | succ n ih =>
    intro p l h
    obtain ⟨z, eS, hnext⟩ := heap_scan_loop_inv h
    refine no_overlap_step h4 eS ?_
    intro hz
    obtain ⟨n', nb, rest, hn, e2, e3⟩ := hnext hz
    have hn' : n' = n := by omega
    subst hn'
    obtain ⟨r, hr⟩ := ih nb rest e3
    obtain ⟨_, eS2, _⟩ := heap_scan_loop_inv e3
    exact ⟨nb, r, e2, (GET_SIZE_inv eS2).1, hr⟩

/-- C37 (the overlap check cannot fail): on a heap that starts at a non-NULL,
word-aligned address, `is_no_overlap` returns `1 << 4` whenever it returns; and it
returns (with one unit of fuel more than the scan needs) on every state on which the
scan from the prologue by header sizes reaches a zero-size header: the footer address
`p + size - 8` it compares is never above the next header address `p + size - 4`, both
being derived from the same header word. -/
theorem is_no_overlap_const {s : State} (h0 : 0 < s.mem_heap) (h4 : s.mem_heap % 4 = 0) :
    (∀ fuel r, is_no_overlap fuel s = .ok r → r = 1 <<< 4) ∧
    (∀ fuel blocks, heap_scan fuel s = .ok blocks →
      is_no_overlap (fuel + 1) s = .ok (1 <<< 4)) := by
  have h4' : 4 ≤ s.mem_heap := by omega
  refine ⟨fun fuel r h => is_no_overlap_loop_const h4' fuel _ r h, ?_⟩
  intro fuel blocks h
  obtain ⟨bp, e0, g⟩ := bind_ok_inv h
  obtain ⟨z0, eS0, e0'⟩ := bind_ok_inv e0
  have hres : ∃ r, is_no_overlap_loop (fuel + 1) s s.heap_root = .ok r := by
    refine no_overlap_step h4' eS0 ?_
    intro _
    obtain ⟨r, hr⟩ := is_no_overlap_loop_returns h4' fuel bp blocks g
    obtain ⟨_, eS2, _⟩ := heap_scan_loop_inv g
    exact ⟨bp, r, e0, (GET_SIZE_inv eS2).1, hr⟩
  obtain ⟨r, hr⟩ := hres
  have := is_no_overlap_loop_const h4' _ _ r hr
  rw [this] at hr
  exact hr

/-- The overlap check on the concrete state `demo3` (two allocated blocks and a free
one): the scan returns with fuel 8, the check returns `1 << 4`. -/
theorem is_no_overlap_const_witness :
    heap_scan 8 demo3 = .ok [(65560, 33), (65592, 113), (65704, 3952)] ∧
    is_no_overlap (8 + 1) demo3 = .ok (1 <<< 4) :=
  ⟨rfl, (@is_no_overlap_const demo3 (by decide) (by decide)).2 8
    [(65560, 33), (65592, 113), (65704, 3952)] rfl⟩

/-! ## Insertion into the free list; the first-fit search -/

/-- Words outside the link words and the list head keep their value: boundary tags of all
blocks are outside. -/
theorem LinkFrame.tags {s : State} {L : List Blk} {fl : List Nat} {m' : Nat → Nat}
    (h : Inv s L fl) (hf : LinkFrame s L m') {c : Blk} (hc : c ∈ L) :
    m' (c.ptr - 4) = s.mem (c.ptr - 4) ∧
    m' (c.ptr + c.sz - 8) = s.mem (c.ptr + c.sz - 8) := by
  have fc := h.facts hc
  constructor
  · rcases hf (c.ptr - 4) with h3 | h3 | ⟨d, hd, _, h3⟩
    · exact h3
    · omega
    · have fd := h.facts hd
      rcases h.disj hc hd with h4 | h4 | h4
      · subst h4; omega
      · omega
      · omega
  · rcases hf (c.ptr + c.sz - 8) with h3 | h3 | ⟨d, hd, _, h3⟩
    · exact h3
    · omega
    · have fd := h.facts hd
      rcases h.disj hc hd with h4 | h4 | h4
      · subst h4; omega
      · omega
      · omega

/-- The memory after `insert_free_block` of a detached block, whatever its neighbours
are. -/
theorem insert_frame {s : State} {P Q : List Blk} {b : Blk} {fl : List Nat}
    (h : Inv s (P ++ b :: Q) fl) (hb : b.st = St.D) :
    ∃ m', insert_free_block s b.ptr = .ok (s.withMem m') ∧
      b.ptr ∉ fl ∧ FL m' 0 (b.ptr :: fl) (m' (s.mem_heap + 8)) ∧
      m' (s.mem_heap + 8) = b.ptr ∧ m' b.ptr = s.mem (s.mem_heap + 8) ∧
      m' (b.ptr + 4) = 0 ∧
      (s.mem (s.mem_heap + 8) ≠ 0 → m' (s.mem (s.mem_heap + 8) + 4) = b.ptr) ∧
      (∀ x, x ≠ s.mem_heap + 8 → x ≠ b.ptr → x ≠ b.ptr + 4 →
        (s.mem (s.mem_heap + 8) ≠ 0 → x ≠ s.mem (s.mem_heap + 8) + 4) → m' x = s.mem x) ∧
      LinkFrame s (P ++ b :: Q) m' := by
  have hbL : b ∈ P ++ b :: Q := by simp
  have fb := h.facts hbL
  have hbf := h.brk_facts
  have hvl := h.valid_links hbL
  have hhead := FL_head h.fl_ok
  have hvh : s.mem (s.mem_heap + 8) ≠ 0 → valid s (s.mem (s.mem_heap + 8) + 4) := by
    intro h0
    rcases hhead with ⟨h1, _⟩ | ⟨_, r, h1⟩
    · exact absurd h1 h0
    · have : s.mem (s.mem_heap + 8) ∈ fl := by rw [h1]; simp
      have := h.fl_facts this
      unfold valid; omega
  obtain ⟨m', he, hm⟩ := insert_exec h.froot h.valid_root hvl.1 hvl.2 hvh hbf.2.2.1
  have hnotin : b.ptr ∉ fl := by
    intro hin
    obtain ⟨c, hc, hcp, hcF⟩ := h.fl_blk hin
    have := h.ptr_inj hc hbL hcp
    subst this
    rw [hb] at hcF; exact absurd hcF (by decide)
  have hsep : ∀ c ∈ fl, c + 16 ≤ b.ptr ∨ b.ptr + 16 ≤ c := by
    intro c hc
    obtain ⟨d, hd, hdp, hdF⟩ := h.fl_blk hc
    have fd := h.facts hd
    rcases h.disj hd hbL with h1 | h1 | h1
    · subst h1; rw [hb] at hdF; exact absurd hdF (by decide)
    · omega
    · omega
  have hm0 : s.mem (s.mem_heap + 8) = 0 → m' = upd (upd (upd s.mem b.ptr 0) (b.ptr + 4) 0)
      (s.mem_heap + 8) b.ptr := by
    intro h0; rw [hm]; simp only [h0, ne_eq, not_true_eq_false, if_false]
  have hm1 : s.mem (s.mem_heap + 8) ≠ 0 → m' = upd (upd (upd (upd s.mem
      (s.mem (s.mem_heap + 8) + 4) b.ptr) b.ptr (s.mem (s.mem_heap + 8))) (b.ptr + 4) 0)
      (s.mem_heap + 8) b.ptr := by
    intro h0; rw [hm]; simp only [h0, ne_eq, not_false_eq_true, if_true]
  have e0 : m' (s.mem_heap + 8) = b.ptr := by rw [hm]; simp [upd]
  have hother : ∀ x, x ≠ s.mem_heap + 8 → x ≠ b.ptr → x ≠ b.ptr + 4 →
      (s.mem (s.mem_heap + 8) ≠ 0 → x ≠ s.mem (s.mem_heap + 8) + 4) → m' x = s.mem x := by
    intro x h1 h2 h3 h4
    by_cases h0 : s.mem (s.mem_heap + 8) = 0
    · rw [hm0 h0, upd_ne h1, upd_ne h3, upd_ne h2]
    · rw [hm1 h0, upd_ne h1, upd_ne h3, upd_ne h2, upd_ne (h4 h0)]
  have hframe : LinkFrame s (P ++ b :: Q) m' := by
    intro x
    by_cases h1 : x = s.mem_heap + 8
    · exact Or.inr (Or.inl h1)
    by_cases h2 : x = b.ptr
    · exact Or.inr (Or.inr ⟨b, hbL, by rw [hb]; decide, Or.inl h2⟩)
    by_cases h3 : x = b.ptr + 4
    · exact Or.inr (Or.inr ⟨b, hbL, by rw [hb]; decide, Or.inr h3⟩)
    by_cases h4 : s.mem (s.mem_heap + 8) ≠ 0 ∧ x = s.mem (s.mem_heap + 8) + 4
    · rcases hhead with ⟨h0, _⟩ | ⟨h0, r, hr⟩
      · exact absurd h0 h4.1
      · have hin : s.mem (s.mem_heap + 8) ∈ fl := by rw [hr]; simp
        obtain ⟨d, hd, hdp, hdF⟩ := h.fl_blk hin
        exact Or.inr (Or.inr ⟨d, hd, by rw [hdF]; decide, Or.inr (by rw [hdp]; exact h4.2)⟩)
    · exact Or.inl (hother x h1 h2 h3 (fun h0 hx => h4 ⟨h0, hx⟩))
  have hfl : FL m' 0 (b.ptr :: fl) (m' (s.mem_heap + 8)) := by
    rw [e0]
    rcases hhead with ⟨h0, hnil⟩ | ⟨h0, r, hr⟩
    · refine FL_insert h.fl_ok h.nodup (by omega) ?_ ?_ ?_ ?_
      · rw [hm0 h0, upd_ne (by omega), upd_ne (by omega), upd_same, h0]
      · rw [hm0 h0, upd_ne (by omega), upd_same]
      · intro hh; exact absurd h0 hh
      · intro c hc; rw [hnil] at hc; simp at hc
    · have hin : s.mem (s.mem_heap + 8) ∈ fl := by rw [hr]; simp
      have f1 := h.fl_facts hin
      have f2 := hsep _ hin
      refine FL_insert h.fl_ok h.nodup (by omega) ?_ ?_ ?_ ?_
      · rw [hm1 h0, upd_ne (by omega), upd_ne (by omega), upd_same]
      · rw [hm1 h0, upd_ne (by omega), upd_same]
      · intro _
        rw [hm1 h0, upd_ne (by omega), upd_ne (by omega), upd_ne (by omega), upd_same]
      · intro c hc
        have f3 := h.fl_facts hc
        have f4 := hsep c hc
        have f5 := h.fl_sep hc hin
        constructor
        · rw [hm1 h0, upd_ne (by omega), upd_ne (by omega), upd_ne (by omega),
            upd_ne (by omega)]
        · intro hne
          rw [hm1 h0, upd_ne (by omega), upd_ne (by omega), upd_ne (by omega),
            upd_ne (by omega)]
  have e1 : m' b.ptr = s.mem (s.mem_heap + 8) := by
    by_cases h0 : s.mem (s.mem_heap + 8) = 0
    · rw [hm0 h0, upd_ne (by omega), upd_ne (by omega), upd_same, h0]
    · rw [hm1 h0, upd_ne (by omega), upd_ne (by omega), upd_same]
  have e2 : m' (b.ptr + 4) = 0 := by
    by_cases h0 : s.mem (s.mem_heap + 8) = 0
    · rw [hm0 h0, upd_ne (by omega), upd_same]
    · rw [hm1 h0, upd_ne (by omega), upd_same]
  have e3 : s.mem (s.mem_heap + 8) ≠ 0 → m' (s.mem (s.mem_heap + 8) + 4) = b.ptr := by
    intro h0
    rcases hhead with ⟨h1, _⟩ | ⟨_, r, hr⟩
    · exact absurd h1 h0
    · have hin : s.mem (s.mem_heap + 8) ∈ fl := by rw [hr]; simp
      have f1 := h.fl_facts hin
      have f2 := hsep _ hin
      rw [hm1 h0, upd_ne (by omega), upd_ne (by omega), upd_ne (by omega), upd_same]
  exact ⟨m', he, hnotin, hfl, e0, e1, e2, e3, hother, hframe⟩

/-- C31 (free-list insertion): for a block `p` that is not in the free list `fl` of a heap
that satisfies the invariant, `insert_free_block(p)` returns and the free list becomes
`p :: fl` (a well-formed doubly linked list without repetition, which the walk from the
head returns): the head word holds `p`, `PREV(p)` is NULL, `NEXT(p)` is the former head,
the PREV link of the former head, if there is one, is `p`; every other word of memory is
unchanged, in particular the header and the footer of every block, the prologue and the
epilogue; the high-water mark does not move. -/
theorem insert_result {s : State} {P Q : List Blk} {b : Blk} {fl : List Nat}
    (h : Inv s (P ++ b :: Q) fl) (hb : b.st = St.D) :
    ∃ s', insert_free_block s b.ptr = .ok s' ∧ b.ptr ∉ fl ∧
      (∀ f, fl.length + 1 < f →
        free_list_walk f s = .ok fl ∧ free_list_walk f s' = .ok (b.ptr :: fl)) ∧
      FL s'.mem 0 (b.ptr :: fl) (s'.mem s'.free_root) ∧ (b.ptr :: fl).Nodup ∧
      s'.mem s'.free_root = b.ptr ∧ s'.mem (PREV_PTR b.ptr) = NULL ∧
      s'.mem (NEXT_PTR b.ptr) = s.mem s.free_root ∧
      (s.mem s.free_root ≠ NULL → s'.mem (PREV_PTR (s.mem s.free_root)) = b.ptr) ∧
      (∀ x, x ≠ s.free_root → x ≠ NEXT_PTR b.ptr → x ≠ PREV_PTR b.ptr →
        (s.mem s.free_root ≠ NULL → x ≠ PREV_PTR (s.mem s.free_root)) →
        s'.mem x = s.mem x) ∧
      (∀ c ∈ P ++ b :: Q, s'.mem (c.ptr - 4) = s.mem (c.ptr - 4) ∧
        s'.mem (c.ptr + c.sz - 8) = s.mem (c.ptr + c.sz - 8)) ∧
      s'.mem (s.mem_heap + 12) = s.mem (s.mem_heap + 12) ∧
      s'.mem (s.mem_heap + 16) = s.mem (s.mem_heap + 16) ∧
      s'.mem (s.mem_brk - 4) = s.mem (s.mem_brk - 4) ∧ s'.mem_brk = s.mem_brk ∧
      s'.free_root = s.free_root := by
  have hbL : b ∈ P ++ b :: Q := by simp
  have fb := h.facts hbL
  have hbf := h.brk_facts
  obtain ⟨m', he, hnotin, hfl, e0, e1, e2, e3, hother, hframe⟩ := insert_frame h hb
  have hpb : PREV_PTR b.ptr = b.ptr + 4 := PREV_PTR_eq (by omega)
  have hhead : s.mem (s.mem_heap + 8) ≠ 0 → s.mem (s.mem_heap + 8) ∈ fl := by
    intro h0
    rcases FL_head h.fl_ok with ⟨h1, _⟩ | ⟨_, r, hr⟩
    · exact absurd h1 h0
    · rw [hr]; simp
  have hph : s.mem (s.mem_heap + 8) ≠ 0 →
      PREV_PTR (s.mem (s.mem_heap + 8)) = s.mem (s.mem_heap + 8) + 4 := by
    intro h0
    have := h.fl_facts (hhead h0)
    exact PREV_PTR_eq (by omega)
  have hfar : s.mem (s.mem_heap + 8) ≠ 0 →
      s.mem_heap + 24 ≤ s.mem (s.mem_heap + 8) ∧
      s.mem (s.mem_heap + 8) + 16 ≤ s.mem_brk := by
    intro h0
    have := h.fl_facts (hhead h0)
    omega
  have hvalid : ∀ p ∈ b.ptr :: fl, valid (s.withMem m') p := by
    intro p hp
    rw [valid_withMem]
    rcases List.mem_cons.1 hp with rfl | hp
    · exact (h.valid_links hbL).1
    · have := h.fl_facts hp
      unfold valid; omega
  refine ⟨s.withMem m', he, hnotin, ?_, ?_, List.nodup_cons.2 ⟨hnotin, h.nodup⟩, ?_, ?_,
    ?_, ?_, ?_, ?_, ?_, ?_, ?_, rfl, rfl⟩
  · intro f hf
    refine ⟨free_list_walk_spec h (by omega), ?_⟩
    unfold free_list_walk
    rw [withMem_froot, h.froot, GET_ok ((valid_withMem _ _ _).2 h.valid_root)]
    simp only [ok_bind, withMem_mem]
    rw [e0]
    rw [e0] at hfl
    exact free_list_walk_loop_spec hfl hvalid f (by simp only [List.length_cons]; omega)
  · rw [withMem_froot, h.froot]; exact hfl
  · rw [withMem_froot, h.froot]; exact e0
  · rw [hpb]; exact e2
  · rw [h.froot]; exact e1
  · rw [h.froot]
    intro h0
    rw [hph h0]
    exact e3 h0
  · rw [h.froot, hpb]
    intro x h1 h2 h3 h4
    refine hother x h1 h2 h3 ?_
    intro h0
    have := h4 h0
    rwa [hph h0] at this
  · intro c hc
    exact hframe.tags h hc
  · exact hother _ (by omega) (by omega) (by omega) (fun h0 => by have := hfar h0; omega)
  · exact hother _ (by omega) (by omega) (by omega) (fun h0 => by have := hfar h0; omega)
  · exact hother _ (by omega) (by omega) (by omega) (fun h0 => by have := hfar h0; omega)

/-- The insertion of the detached block `0x10018` of `det1` into its empty free list. -/
theorem insert_result_witness :
    ∃ s', insert_free_block det1 65560 = .ok s' ∧ 65560 ∉ ([] : List Nat) ∧
      (∀ f, ([] : List Nat).length + 1 < f →
        free_list_walk f det1 = .ok [] ∧ free_list_walk f s' = .ok (65560 :: [])) ∧
      FL s'.mem 0 (65560 :: []) (s'.mem s'.free_root) ∧ (65560 :: ([] : List Nat)).Nodup ∧
      s'.mem s'.free_root = 65560 ∧ s'.mem (PREV_PTR 65560) = NULL ∧
      s'.mem (NEXT_PTR 65560) = det1.mem det1.free_root ∧
      (det1.mem det1.free_root ≠ NULL →
        s'.mem (PREV_PTR (det1.mem det1.free_root)) = 65560) ∧
      (∀ x, x ≠ det1.free_root → x ≠ NEXT_PTR 65560 → x ≠ PREV_PTR 65560 →
        (det1.mem det1.free_root ≠ NULL → x ≠ PREV_PTR (det1.mem det1.free_root)) →
        s'.mem x = det1.mem x) ∧
      (∀ c ∈ [] ++ (⟨65560, 4096, St.D⟩ : Blk) :: [],
        s'.mem (c.ptr - 4) = det1.mem (c.ptr - 4) ∧
        s'.mem (c.ptr + c.sz - 8) = det1.mem (c.ptr + c.sz - 8)) ∧
      s'.mem (det1.mem_heap + 12) = det1.mem (det1.mem_heap + 12) ∧
      s'.mem (det1.mem_heap + 16) = det1.mem (det1.mem_heap + 16) ∧
      s'.mem (det1.mem_brk - 4) = det1.mem (det1.mem_brk - 4) ∧
      s'.mem_brk = det1.mem_brk ∧ s'.free_root = det1.free_root :=
  @insert_result det1 [] [] ⟨65560, 4096, St.D⟩ [] inv_det1 rfl

theorem firstFit_split (m : Nat → Nat) (n : Nat) :
    ∀ l : List Nat, (firstFit m n l = 0 ∧ ∀ x ∈ l, n > m (x - 4)) ∨
      (∃ pre post, l = pre ++ firstFit m n l :: post ∧ (∀ x ∈ pre, n > m (x - 4)) ∧
        ¬ n > m (firstFit m n l - 4)) := by
  intro l
  induction l with
  | nil => exact Or.inl ⟨rfl, by simp⟩
  | cons p l ih =>
    by_cases hp : n > m (p - 4)
    · have e : firstFit m n (p :: l) = firstFit m n l := by simp only [firstFit, if_pos hp]
      rw [e]
      rcases ih with ⟨h0, hall⟩ | ⟨pre, post, hl, hpre, hfit⟩
      · left
        refine ⟨h0, ?_⟩
        intro x hx
        rcases List.mem_cons.1 hx with rfl | hx
        · exact hp
        · exact hall x hx
      · right
        refine ⟨p :: pre, post, by rw [List.cons_append, ← hl], ?_, hfit⟩
        intro x hx
        rcases List.mem_cons.1 hx with rfl | hx
        · exact hp
        · exact hpre x hx
    · have e : firstFit m n (p :: l) = p := by simp only [firstFit, if_neg hp]
      rw [e]
      exact Or.inr ⟨[], l, rfl, by simp, hp⟩

/-- C32 (first fit): on a heap that satisfies the invariant, with free list `fl` (the
list the walk from the head returns), `first_fit(n)` returns for every fuel above the
length of `fl`, and its result is NULL when every node of `fl` has a header size below
`n`, and otherwise the first node of `fl`, in list order, whose header size is at least
`n`. The function returns a pointer and no state: it has no store. -/
theorem first_fit_result {s : State} {L : List Blk} {fl : List Nat} (h : Inv s L fl)
    (n : Nat) :
    ∃ r, (∀ fuel, fl.length < fuel →
        free_list_walk fuel s = .ok fl ∧ first_fit fuel s n = .ok r) ∧
      ((r = NULL ∧ ∀ x ∈ fl, ∃ z, GET_SIZE s (HEADER_PTR x) = .ok z ∧ z < n) ∨
       (∃ pre post z, fl = pre ++ r :: post ∧
         (∀ x ∈ pre, ∃ y, GET_SIZE s (HEADER_PTR x) = .ok y ∧ y < n) ∧
         GET_SIZE s (HEADER_PTR r) = .ok z ∧ n ≤ z)) := by
  have hsz : ∀ x ∈ fl, GET_SIZE s (HEADER_PTR x) = .ok (s.mem (x - 4)) := by
    intro x hx
    obtain ⟨_, b, hb, hbp, _, hbs⟩ := h.fl_hdr hx
    rw [hbs, ← hbp]
    exact (h.reads hb).1
  refine ⟨firstFit s.mem n fl, ?_, ?_⟩
  · intro fuel hfuel
    exact ⟨free_list_walk_spec h hfuel, (first_fit_spec h n).1 fuel hfuel⟩
  · rcases firstFit_split s.mem n fl with ⟨h0, hall⟩ | ⟨pre, post, hl, hpre, hfit⟩
    · left
      exact ⟨h0, fun x hx => ⟨_, hsz x hx, hall x hx⟩⟩
    · right
      have hr : firstFit s.mem n fl ∈ pre ++ firstFit s.mem n fl :: post :=
        List.mem_append_right _ (List.mem_cons_self _ _)
      rw [← hl] at hr
      refine ⟨pre, post, _, hl, ?_, hsz _ hr, by omega⟩
      intro x hx
      have hxfl : x ∈ pre ++ firstFit s.mem n fl :: post := List.mem_append_left _ hx
      rw [← hl] at hxfl
      exact ⟨_, hsz x hxfl, hpre x hx⟩

/-- First fit on the freshly initialised heap `demo1`, whose free list is the one block
`0x10018` of 4096 bytes. -/
theorem first_fit_result_witness :
    ∃ r, (∀ fuel, [65560].length < fuel →
        free_list_walk fuel demo1 = .ok [65560] ∧ first_fit fuel demo1 4096 = .ok r) ∧
      ((r = NULL ∧ ∀ x ∈ [65560], ∃ z, GET_SIZE demo1 (HEADER_PTR x) = .ok z ∧ z < 4096) ∨
       (∃ pre post z, [65560] = pre ++ r :: post ∧
         (∀ x ∈ pre, ∃ y, GET_SIZE demo1 (HEADER_PTR x) = .ok y ∧ y < 4096) ∧
         GET_SIZE demo1 (HEADER_PTR r) = .ok z ∧ 4096 ≤ z)) :=
  @first_fit_result demo1 [⟨65560, 4096, St.F⟩] [65560]
    (@mm_init_ok demo0 demo1 rfl (by decide) (by decide) rfl).1.1 4096

/-! ## Heap extension; the copying path of `mm_realloc` -/

theorem extension_size {n : Nat} (hn : 4 * (n + n % 2) < 4294967296) :
    (if n % 2 = 0 then mul32 n WORDSIZE else mul32 (add32 n 1) WORDSIZE) =
      4 * (n + n % 2) := by
  unfold mul32 add32 WORDSIZE
  split <;> omega

/-- C33, as stated, fails on the code for word counts below 3: on the heap whose only
block `0x10018` (4096 bytes) is allocated, `extend_heap(1)` grows the heap by 8 bytes
and returns the new block `0x11018`, but `insert_free_block` then stores the two link
words of that 8-byte block over its footer and over the new epilogue header: the last
word of the heap is 0, not `0 | ALLOCATED`, and the footer of the new block (0) differs
from its header (8). The same happens for `extend_heap(2)`. -/
theorem extend_heap_small_breaks_epilogue :
    (do
      let r ← mm_malloc 8 demo1 4088
      let blocks ← heap_scan 8 r.2
      let fl ← free_list_walk 8 r.2
      let e ← extend_heap r.2 1
      let e2 ← extend_heap r.2 2
      pure (r.1, blocks, fl, r.2.mem_brk, r.2.mem (r.2.mem_brk - 4),
        e.1, e.2.mem_brk, e.2.mem (e.1 - 4), e.2.mem (e.1 + 8 - 8),
        e.2.mem (e.2.mem_brk - 4),
        e2.1, e2.2.mem_brk, e2.2.mem (e2.2.mem_brk - 4))) =
    .ok (65560, [(65560, 4097)], [], 69656, 1,
      69656, 69664, 8, 0, 0,
      69656, 69664, 0) :=
  rfl

/-- C33, amended to word counts `n ≥ 3` without 32-bit overflow (`n + n mod 2 < 2^30`),
on a well-formed heap, with `size = 4 * (n + n mod 2)`: if `mem_sbrk(size)` fails
(`size ≥ 2^31` or the arena is exhausted) `extend_heap(n)` returns NULL and the state is
unchanged. If it succeeds, `extend_heap(n)` is `coalesce` of the block laid out at the
old `mem_brk`: the old epilogue word is its header `size | FREE`, its footer is the word
before the new epilogue, and the last word of the grown heap is `0 | ALLOCATED`; the
call returns the free block `R` of size `T` that ends at the new `mem_brk` (the new
space, merged with the last block of the old heap when that was free), as head of the
free list of a heap that is again well-formed, whose high-water mark is `mem_brk + size`
and whose last word is the epilogue; allocated blocks keep their place and payload. -/
theorem extend_heap_result {s : State} {L : List Blk} {fl : List Nat} (w : WF s L fl)
    {n : Nat} (h3 : 3 ≤ n) (hn : n + n % 2 < 1073741824) :
    (2147483648 ≤ 4 * (n + n % 2) ∨ s.mem_max_addr < s.mem_brk + 4 * (n + n % 2) →
      (mem_sbrk s (4 * (n + n % 2))).1 = 4294967295 ∧ extend_heap s n = .ok (NULL, s)) ∧
    (4 * (n + n % 2) < 2147483648 → s.mem_brk + 4 * (n + n % 2) ≤ s.mem_max_addr →
      (mem_sbrk s (4 * (n + n % 2))).1 = s.mem_brk ∧
      ∃ m7 s' L' fl',
        extend_heap s n = coalesce ((s.grow (4 * (n + n % 2))).withMem m7) s.mem_brk ∧
        m7 (s.mem_brk - 4) = (4 * (n + n % 2) ||| FREE) ∧
        m7 (s.mem_brk + 4 * (n + n % 2) - 8) = (4 * (n + n % 2) ||| FREE) ∧
        m7 (s.mem_brk + 4 * (n + n % 2) - 4) = (0 ||| ALLOCATED) ∧
        extend_heap s n =
          .ok (if s.mem (s.mem_brk - 8) &&& 1 = ALLOCATED then s.mem_brk
            else s.mem_brk - (s.mem (s.mem_brk - 8) &&& 0xFFFFFFF8), s') ∧
        s'.mem_brk = s.mem_brk + 4 * (n + n % 2) ∧
        s'.mem (s'.mem_brk - 4) = (0 ||| ALLOCATED) ∧
        WF s' L' ((if s.mem (s.mem_brk - 8) &&& 1 = ALLOCATED then s.mem_brk
            else s.mem_brk - (s.mem (s.mem_brk - 8) &&& 0xFFFFFFF8)) :: fl') ∧
        (⟨if s.mem (s.mem_brk - 8) &&& 1 = ALLOCATED then s.mem_brk
            else s.mem_brk - (s.mem (s.mem_brk - 8) &&& 0xFFFFFFF8),
          4 * (n + n % 2) + (if s.mem (s.mem_brk - 8) &&& 1 = ALLOCATED then 0
            else s.mem (s.mem_brk - 8) &&& 0xFFFFFFF8), St.F⟩ : Blk) ∈ L' ∧
        (if s.mem (s.mem_brk - 8) &&& 1 = ALLOCATED then s.mem_brk
            else s.mem_brk - (s.mem (s.mem_brk - 8) &&& 0xFFFFFFF8)) +
          (4 * (n + n % 2) + (if s.mem (s.mem_brk - 8) &&& 1 = ALLOCATED then 0
            else s.mem (s.mem_brk - 8) &&& 0xFFFFFFF8)) = s'.mem_brk ∧
        fl'.Sublist fl ∧ Keeps s.mem s'.mem L L') := by
  have hw := extension_size (n := n) (by omega)
  have hbf := w.1.brk_facts
  constructor
  · intro hfail
    exact ⟨by rw [mem_sbrk_fail hfail], extend_heap_fail hw hfail⟩
  · intro hlt hmax
    refine ⟨by rw [mem_sbrk_ok hlt hmax], ?_⟩
    obtain ⟨f1, f2, f3, f4, f5⟩ := w.1.last_footer
    have e1 : s.mem (s.mem_brk - 8) &&& 1 = prevBit L := by rw [f1]; exact tag_bit f3 f4
    have e2 : s.mem (s.mem_brk - 8) &&& 0xFFFFFFF8 = prevSz L := by
      rw [f1]; exact tag_size f3 f4 f5
    have hR : (if s.mem (s.mem_brk - 8) &&& 1 = ALLOCATED then s.mem_brk
        else s.mem_brk - (s.mem (s.mem_brk - 8) &&& 0xFFFFFFF8)) =
        (if prevBit L = 1 then s.mem_brk else prevPtr s L) := by
      rw [e1, e2]
      show (if prevBit L = 1 then s.mem_brk else s.mem_brk - prevSz L) = _
      by_cases hp : prevBit L = 1
      · rw [if_pos hp, if_pos hp]
      · rw [if_neg hp, if_neg hp]; omega
    have hT : (if s.mem (s.mem_brk - 8) &&& 1 = ALLOCATED then 0
        else s.mem (s.mem_brk - 8) &&& 0xFFFFFFF8) =
        (if prevBit L = 1 then 0 else prevSz L) := by
      rw [e1, e2]; rfl
    rw [hR, hT]
    obtain ⟨m7, e7, i7, k7⟩ := extend_heap_eq w.1 hw (by omega) (by omega) hlt hmax
    obtain ⟨m8, L8, fl8, e8, w8, k8, hmem, hsub⟩ :=
      coalesce_full (b := ⟨s.mem_brk, 4 * (n + n % 2), St.D⟩) i7 rfl (by
        intro c hc; simp only [List.append_nil] at hc; exact w.2 c hc)
    simp only [withMem_withMem, List.append_nil] at e8 w8 k8
    have hnew := i7.blk ⟨s.mem_brk, 4 * (n + n % 2), St.D⟩ (by simp)
    have ht : (⟨s.mem_brk, 4 * (n + n % 2), St.D⟩ : Blk).tag = (4 * (n + n % 2) ||| FREE) := by
      rw [or_FREE]; rfl
    rw [ht] at hnew
    have hepi : m7 (s.mem_brk + 4 * (n + n % 2) - 4) = (0 ||| ALLOCATED) := i7.epi
    have hepi8 : m8 (s.mem_brk + 4 * (n + n % 2) - 4) = (0 ||| ALLOCATED) := w8.1.epi
    refine ⟨m7, (s.grow (4 * (n + n % 2))).withMem m8, L8, fl8, e7, hnew.2.2.1, hnew.2.2.2,
      hepi, ?_, rfl, hepi8, w8, ?_, ?_, hsub, ?_⟩
    · rw [e7]; exact e8
    · simpa using hmem
    · show (if prevBit L = 1 then s.mem_brk else prevPtr s L) +
        (4 * (n + n % 2) + (if prevBit L = 1 then 0 else prevSz L)) =
        s.mem_brk + 4 * (n + n % 2)
      by_cases hp : prevBit L = 1
      · rw [if_pos hp, if_pos hp]; omega
      · rw [if_neg hp, if_neg hp]; omega
    · show Keeps s.mem m8 L L8
      exact k7.trans (k8.mono (by
        intro c hc hA
        simp only [List.mem_append, List.mem_singleton] at hc ⊢
        rcases hc with hc | hc
        · exact hc
        · rw [hc] at hA; simp at hA))

/-- The extension on two concrete heaps: on the small arena after `mm_init` the growth
primitive fails and `extend_heap(1024)` returns NULL; on `demo1` it succeeds, and the
4096 new bytes are merged with the free block `0x10018` in front of them. -/
theorem extend_heap_result_witness :
    ((mem_sbrk small1 (4 * (1024 + 1024 % 2))).1 = 4294967295 ∧
      extend_heap small1 1024 = .ok (NULL, small1)) ∧
    ((mem_sbrk demo1 (4 * (1024 + 1024 % 2))).1 = demo1.mem_brk ∧
      ∃ m7 s' L' fl',
        extend_heap demo1 1024 =
          coalesce ((demo1.grow (4 * (1024 + 1024 % 2))).withMem m7) demo1.mem_brk ∧
        m7 (demo1.mem_brk - 4) = (4 * (1024 + 1024 % 2) ||| FREE) ∧
        m7 (demo1.mem_brk + 4 * (1024 + 1024 % 2) - 8) = (4 * (1024 + 1024 % 2) ||| FREE) ∧
        m7 (demo1.mem_brk + 4 * (1024 + 1024 % 2) - 4) = (0 ||| ALLOCATED) ∧
        extend_heap demo1 1024 =
          .ok (if demo1.mem (demo1.mem_brk - 8) &&& 1 = ALLOCATED then demo1.mem_brk
            else demo1.mem_brk - (demo1.mem (demo1.mem_brk - 8) &&& 0xFFFFFFF8), s') ∧
        s'.mem_brk = demo1.mem_brk + 4 * (1024 + 1024 % 2) ∧
        s'.mem (s'.mem_brk - 4) = (0 ||| ALLOCATED) ∧
        WF s' L' ((if demo1.mem (demo1.mem_brk - 8) &&& 1 = ALLOCATED then demo1.mem_brk
            else demo1.mem_brk - (demo1.mem (demo1.mem_brk - 8) &&& 0xFFFFFFF8)) :: fl') ∧
        (⟨if demo1.mem (demo1.mem_brk - 8) &&& 1 = ALLOCATED then demo1.mem_brk
            else demo1.mem_brk - (demo1.mem (demo1.mem_brk - 8) &&& 0xFFFFFFF8),
          4 * (1024 + 1024 % 2) +
            (if demo1.mem (demo1.mem_brk - 8) &&& 1 = ALLOCATED then 0
              else demo1.mem (demo1.mem_brk - 8) &&& 0xFFFFFFF8), St.F⟩ : Blk) ∈ L' ∧
        (if demo1.mem (demo1.mem_brk - 8) &&& 1 = ALLOCATED then demo1.mem_brk
            else demo1.mem_brk - (demo1.mem (demo1.mem_brk - 8) &&& 0xFFFFFFF8)) +
          (4 * (1024 + 1024 % 2) +
            (if demo1.mem (demo1.mem_brk - 8) &&& 1 = ALLOCATED then 0
              else demo1.mem (demo1.mem_brk - 8) &&& 0xFFFFFFF8)) = s'.mem_brk ∧
        fl'.Sublist [65560] ∧ Keeps demo1.mem s'.mem [⟨65560, 4096, St.F⟩] L') :=
  ⟨(@extend_heap_result small1 [⟨65560, 4096, St.F⟩] [65560]
      (@mm_init_ok small0 small1 rfl (by decide) (by decide) rfl).1 1024 (by decide)
      (by decide)).1 (Or.inr (by decide)),
    (@extend_heap_result demo1 [⟨65560, 4096, St.F⟩] [65560]
      (@mm_init_ok demo0 demo1 rfl (by decide) (by decide) rfl).1 1024 (by decide)
      (by decide)).2 (by decide) (by decide)⟩

/-- C34 (the code fails the claim): on the heap with blocks `a` (free), `b`, `c`, `d`
(allocated, 16 payload bytes each, block size 24) and the word `0xDDDDDDDD` stored in the
payload of `d`, `mm_realloc(c, 64)` takes the path that copies to a fresh block. The
fresh block `0x10078` has the header word 81, a block of 80 bytes, where `mm_malloc(64)`
allocates a block of 72 bytes (header word 73): `mm_malloc` is called with the size
that already includes header and footer. And `memcpy` copies 72 bytes, the new block
size, not the 16 payload bytes of `c`: the words at offsets 16, 20 and 24 of the new
payload are the footer of `c`, the header of `d` and the first payload word of `d`, all
read from outside the payload `[c, c + 16)` of `c`. -/
theorem mm_realloc_copies_past_payload :
    (do
      let r ← four_blocks 8
      let s ← PUT r.2 65632 0xDDDDDDDD
      let blocks ← heap_scan 8 s
      let q ← mm_realloc 8 s r.1 64
      let hd ← GET q.2 (HEADER_PTR q.1)
      let m ← mm_malloc 8 s 64
      let hm ← GET m.2 (HEADER_PTR m.1)
      pure (r.1, blocks, [s.mem (r.1 + 16), s.mem (r.1 + 20), s.mem (r.1 + 24)],
        q.1, hd, [q.2.mem (q.1 + 16), q.2.mem (q.1 + 20), q.2.mem (q.1 + 24)],
        m.1, hm)) =
    .ok (65608, [(65560, 24), (65584, 25), (65608, 25), (65632, 25), (65656, 4000)],
      [25, 25, 0xDDDDDDDD],
      65656, 81, [25, 25, 0xDDDDDDDD],
      65656, 73) :=
  rfl

/-! ## Matrix transpose: the functions of `trans.c` -/

theorem transpose_3232_eq (A B : Nat → Nat → Int) :
    transpose_3232 32 32 A B = some (transpose_3232_pure 32 32 A B) := by
  unfold transpose_3232 transpose_3232_pure
  refine for_loop_pure_eq _ _ _ _ 32 (by decide) (fun k hk => of_decide_eq_true hk)
    (by decide) ?_ _ _ _ (by omega)
  intro i B _
  refine for_loop_pure_eq _ _ _ _ 32 (by decide) (fun k hk => of_decide_eq_true hk)
    (by decide) ?_ _ _ _ (by omega)
  intro j B _
  refine for_loop_pure_eq _ _ _ _ 8 (by decide) (fun k hk => of_decide_eq_true hk)
    (by decide) ?_ _ _ _ (by omega)
  intro i_ B _
  exact bind_some (for_loop_pure_eq _ _ _ _ 8 (by decide) (fun k hk => of_decide_eq_true hk)
    (by decide) (fun _ _ _ => rfl) _ _ _ (by omega)) rfl

theorem transpose_6464_eq (M : Nat) (A B : Nat → Nat → Int) :
    transpose_6464 M 64 A B = some (transpose_6464_pure M 64 A B) := by
  unfold transpose_6464 transpose_6464_pure
  refine for_loop_pure_eq _ _ _ _ 64 (by decide) (fun k hk => of_decide_eq_true hk)
    (by decide) ?_ _ _ _ (by omega)
  intro i B _
  refine for_loop_pure_eq _ _ _ _ 64 (by decide) (fun k hk => of_decide_eq_true hk)
    (by decide) ?_ _ _ _ (by omega)
  intro j B _
  have quad : ∀ (c1 c2 : Nat → Bool) (f1 : Nat → Nat → (Nat → Nat → Int) → Nat → Nat → Int)
      (f2 : Nat → (Nat → Nat → Int) → Nat → Nat → Int) (s1 s2 : Nat) (X : Nat → Nat → Int),
      (∀ k, c1 k = true → k < 8) → (∀ k, c2 k = true → k < 8) →
      for_loop c1 1 (fun i_ B => do
          let B ← for_loop c2 1 (fun j_ B => some (f1 i_ j_ B)) (8 + 1) s2 B
          pure (f2 i_ B)) (8 + 1) s1 X =
        some (loop_pure c1 1 (fun i_ B =>
          f2 i_ (loop_pure c2 1 (fun j_ B => f1 i_ j_ B) (8 + 1) s2 B)) (8 + 1) s1 X) := by
    intro c1 c2 f1 f2 s1 s2 X h1 h2
    refine for_loop_pure_eq _ _ _ _ 8 (by decide) h1 (by decide) ?_ _ _ _ (by omega)
    intro i_ B _
    exact bind_some (for_loop_pure_eq _ _ _ _ 8 (by decide) h2 (by decide)
      (fun _ _ _ => rfl) _ _ _ (by omega)) rfl
  refine bind_some (quad _ _ _ _ _ _ _ (fun k hk => by have := of_decide_eq_true hk; omega)
    (fun k hk => by have := of_decide_eq_true hk; omega)) ?_
  refine bind_some (quad _ _ _ _ _ _ _ (fun k hk => of_decide_eq_true hk)
    (fun k hk => by have := of_decide_eq_true hk; omega)) ?_
  refine bind_some (quad _ _ _ _ _ _ _ (fun k hk => of_decide_eq_true hk)
    (fun k hk => of_decide_eq_true hk)) ?_
  exact quad _ _ _ _ _ _ _ (fun k hk => by have := of_decide_eq_true hk; omega)
    (fun k hk => of_decide_eq_true hk)

theorem transpose_6167_eq (M N : Nat) (A B : Nat → Nat → Int) (hM : M ≤ 2147483632)
    (hN : N ≤ 2147483632) :
    transpose_6167 M N A B = some (transpose_6167_pure M N A B) := by
  unfold transpose_6167 transpose_6167_pure
  refine for_loop_pure_eq _ _ _ _ N (by decide) (fun k hk => of_decide_eq_true hk)
    (by omega) ?_ _ _ _ (by omega)
  intro i B _
  refine for_loop_pure_eq _ _ _ _ M (by decide) (fun k hk => of_decide_eq_true hk)
    (by omega) ?_ _ _ _ (by omega)
  intro j B _
  refine for_loop_pure_eq _ _ _ _ 16 (by decide) (fun k hk => (of_decide_eq_true hk).1)
    (by decide) ?_ _ _ _ (by omega)
  intro i_ B _
  exact bind_some (for_loop_pure_eq _ _ _ _ 16 (by decide)
    (fun k hk => (of_decide_eq_true hk).1)
    (by decide) (fun _ _ _ => rfl) _ _ _ (by omega)) rfl

theorem is_transpose_eq (M N : Nat) (A B : Nat → Nat → Int) (hM : M ≤ 2147483647)
    (hN : N ≤ 2147483647) :
    is_transpose M N A B = some (is_transpose_pure M N A B) := by
  unfold is_transpose is_transpose_pure
  rw [for_loop_pure_eq _ _ _ (fun i ret =>
      loop_pure (fun j => decide (j < M)) 1 (fun j ret =>
        match ret with
        | some v => some v
        | none => if A i j ≠ B j i then some 0 else none) (M + 1) 0 ret) N (by decide)
    (fun k hk => of_decide_eq_true hk) (by omega) ?_ _ _ _ (by omega)]
  · rfl
  · intro i ret _
    exact for_loop_pure_eq _ _ _ _ M (by decide) (fun k hk => of_decide_eq_true hk)
      (by omega) (fun _ _ _ => rfl) _ _ _ (by omega)

/-- With more than `2^31 - 16` rows the counter `i` of `transpose_6167` passes `INT_MAX`
at `i += 16` while the loop is still running. -/
theorem transpose_6167_rows_overflow (M N : Nat) (A B : Nat → Nat → Int)
    (hN : 2147483632 < N) : transpose_6167 M N A B = none := by
  unfold transpose_6167
  refine for_loop_overflow _ _ _ ((N - 1) / 16) _ _ _ (by omega)
    (fun u hu => decide_eq_true (by omega)) (by unfold INT_MAX; omega)

/-- With more than `2^31 - 16` columns (and at least one row) the counter `j` of
`transpose_6167` passes `INT_MAX` at `j += 16` while the loop is still running. -/
theorem transpose_6167_cols_overflow (M N : Nat) (A B : Nat → Nat → Int)
    (hM : 2147483632 < M) (hN : 1 ≤ N) : transpose_6167 M N A B = none := by
  unfold transpose_6167
  refine for_loop_body_none _ _ _ _ _ _ (decide_eq_true (by omega)) ?_
  refine for_loop_overflow _ _ _ ((M - 1) / 16) _ _ _ (by omega)
    (fun u hu => decide_eq_true (by omega)) (by unfold INT_MAX; omega)

theorem transpose_submit_general (M N : Nat) (A B : Nat → Nat → Int)
    (h : 64 < M ∨ 64 < N) : transpose_submit M N A B = transpose_6167 M N A B := by
  unfold transpose_submit
  rw [if_neg (by omega), if_neg (by omega)]

/-- C27, as stated for every `M, N >= 1`, fails on `trans.c`: the counters are `int`, and
for a matrix of `2^31 - 15` rows and one column, or of one row and `2^31 - 15` columns,
`transpose_submit` runs `transpose_6167`, whose counter reaches `2^31 - 16` with the loop
condition still true, so that the next `i += 16` (or `j += 16`) passes `INT_MAX` and the
call has no defined result. -/
theorem transpose_submit_int_overflow :
    transpose_submit 1 2147483633 sampleA sampleB = none ∧
    transpose_submit 2147483633 1 sampleA sampleB = none :=
  ⟨(transpose_submit_general 1 2147483633 sampleA sampleB (Or.inr (by decide))).trans
      (transpose_6167_rows_overflow 1 2147483633 sampleA sampleB (by decide)),
   (transpose_submit_general 2147483633 1 sampleA sampleB (Or.inl (by decide))).trans
      (transpose_6167_cols_overflow 2147483633 1 sampleA sampleB (by decide) (by decide))⟩

/-- The call `transpose_submit(M, N, A, B)` returns, and its result is the result of the
loops without the overflow test, for `M, N <= 2^31 - 16`. -/
theorem transpose_submit_returns (M N : Nat) (A B : Nat → Nat → Int)
    (hM : M ≤ 2147483632) (hN : N ≤ 2147483632) :
    ∃ B', transpose_submit M N A B = some B' ∧
      (∀ i j, i < N → j < M → B' j i = A i j) ∧
      (∀ x y, ¬ (x < M ∧ y < N) → B' x y = B x y) := by
  unfold transpose_submit
  split
  · next h =>
    obtain ⟨rfl, rfl⟩ := h
    exact ⟨_, transpose_3232_eq A B,
      fun i j hi hj => transpose_3232_pure_correct A B hi hj,
      fun x y hxy => transpose_3232_pure_frame A B hxy⟩
  · split
    · next h =>
      obtain ⟨h1, rfl⟩ := h
      subst h1
      exact ⟨_, transpose_6464_eq _ A B,
        fun i j hi hj => transpose_6464_pure_correct _ A B hi hj,
        fun x y hxy => transpose_6464_pure_frame _ A B hxy⟩
    · exact ⟨_, transpose_6167_eq M N A B hM hN,
        fun i j hi hj => transpose_6167_pure_correct M N A B hi hj,
        fun x y hxy => transpose_6167_pure_frame M N A B hxy⟩

/-- C27 (matrix transpose), for `1 <= M, N <= 2^31 - 16`: for every `N x M` matrix `A` and
every content of `B` before the call, `transpose_submit(M, N, A, B)` returns, no `int`
counter overflows, and `B` after the call holds `A[i][j]` in `B[j][i]` for all `i < N`
and `j < M`, so `is_transpose(M, N, A, B)` returns 1; every store of the call goes to an
entry of `B` inside its bounds `M x N` (entries outside are as before the call), so the
call, which assigns to `B` only, stores nothing outside the array `B` and leaves `A`
unchanged. This covers the 32 x 32 and the 64 x 64 blocked variants with their diagonal
elements and the 16-blocked variant for every other shape. -/
theorem transpose_submit_correct (M N : Nat) (A B : Nat → Nat → Int)
    (hM1 : 1 ≤ M) (hN1 : 1 ≤ N) (hM : M ≤ 2147483632) (hN : N ≤ 2147483632) :
    ∃ B', transpose_submit M N A B = some B' ∧
      (∀ i j, i < N → j < M → B' j i = A i j) ∧
      is_transpose M N A B' = some 1 ∧
      (∀ x y, ¬ (x < M ∧ y < N) → B' x y = B x y) := by
  obtain ⟨B', he, hc, hf⟩ := transpose_submit_returns M N A B hM hN
  refine ⟨B', he, hc, ?_, hf⟩
  rw [is_transpose_eq M N A B' (by omega) (by omega),
    is_transpose_pure_of (fun i j hi hj => hc i j hi hj)]

/-- The transpose on the sample matrix for the three shapes of the driver: 32 x 32,
64 x 64 and `M = 61` with `N = 67`. -/
theorem transpose_submit_correct_witness :
    (∃ B', transpose_submit 32 32 sampleA sampleB = some B' ∧
      (∀ i j, i < 32 → j < 32 → B' j i = sampleA i j) ∧
      is_transpose 32 32 sampleA B' = some 1 ∧
      (∀ x y, ¬ (x < 32 ∧ y < 32) → B' x y = sampleB x y)) ∧
    (∃ B', transpose_submit 64 64 sampleA sampleB = some B' ∧
      (∀ i j, i < 64 → j < 64 → B' j i = sampleA i j) ∧
      is_transpose 64 64 sampleA B' = some 1 ∧
      (∀ x y, ¬ (x < 64 ∧ y < 64) → B' x y = sampleB x y)) ∧
    (∃ B', transpose_submit 61 67 sampleA sampleB = some B' ∧
      (∀ i j, i < 67 → j < 61 → B' j i = sampleA i j) ∧
      is_transpose 61 67 sampleA B' = some 1 ∧
      (∀ x y, ¬ (x < 61 ∧ y < 67) → B' x y = sampleB x y)) :=
  ⟨transpose_submit_correct 32 32 sampleA sampleB (by decide) (by decide) (by decide)
      (by decide),
   transpose_submit_correct 64 64 sampleA sampleB (by decide) (by decide) (by decide)
      (by decide),
   transpose_submit_correct 61 67 sampleA sampleB (by decide) (by decide) (by decide)
      (by decide)⟩

end MM
